import Mathlib

/-! # Pathtracer: BVH, hash grid and progressive photon mapping

A shallow embedding of the computational core of the renderer
(`bvh.cpp`, `bvh.h`, `bbox.h`, `intersect.h`, `hash.h`, `hash_grid.h`,
`common.h`, `scene.h`, `algorithms/render_ppm.cpp`) together with theorems about it.

Conventions of the embedding.

* `float` is modelled by the rationals: every arithmetic operation is exact.
  Rounding, infinities and NaN are outside the model; `FLT_MAX` keeps its value.
  Division by zero follows the convention of `ℚ` (`x / 0 = 0`).
* Where rounding decides the outcome, the functions of `intersect.h` and `hash_grid.h`
  are embedded a second time, in the namespace `Rounded`, with a rounding function
  applied to the result of every operation on `float`; `f32` is the rounding of
  IEEE 754 binary32.  With the identity as rounding they are the exact functions.
* `int` is modelled by unbounded integers (`Nat` where the source keeps the value
  non-negative, `Int` where a negative value is stored); `uint32_t` is a natural
  number reduced modulo `2 ^ 32`.
* C arrays are lists.  Every read and write is bounds-checked and an access outside
  the array yields `Fault.out_of_bounds`; a failing `assert` yields `Fault.assertion`.
* Loops are recursive functions on the number of remaining iterations; the two
  unbounded recursions (`BvhBuilder::build`, the loop of `Bvh::traverse`) take a fuel
  argument and yield `Fault.out_of_fuel` when it is exhausted.
* OpenMP regions are executed sequentially, in index order.
-/

namespace Pathtracer

/-! ## Faults and checked array access -/

/-- Ways in which an execution of the embedded code can go wrong. -/
inductive Fault where
  | out_of_bounds
  | assertion
  | stack_overflow
  | out_of_fuel
  deriving DecidableEq

/-- Equality of results is decidable, so that executions can be compared by evaluation. -/
instance {α : Type} [DecidableEq α] : DecidableEq (Except Fault α) := fun a b =>
  match a, b with
  | .ok x, .ok y => if h : x = y then isTrue (by rw [h]) else isFalse (fun e => h (by cases e; rfl))
  | .error x, .error y =>
    if h : x = y then isTrue (by rw [h]) else isFalse (fun e => h (by cases e; rfl))
  | .ok _, .error _ => isFalse (fun e => by cases e)
  | .error _, .ok _ => isFalse (fun e => by cases e)

/-- Bounds-checked read `a[i]`. -/
def rd {α : Type} (a : List α) (i : Nat) : Except Fault α :=
  match a[i]? with
  | some v => .ok v
  | none => .error .out_of_bounds

/-- Bounds-checked write `a[i] = v`. -/
def wr {α : Type} (a : List α) (i : Nat) (v : α) : Except Fault (List α) :=
  if i < a.length then .ok (a.set i v) else .error .out_of_bounds

/-! ## `float3.h` -/

/-- The value of `FLT_MAX` (`<cfloat>`), `(2 - 2^-23) * 2^127`. -/
def FLT_MAX : ℚ := 340282346638528859811704183484516925440

/-- Modelled from the spec: `float3.h` is not among the sources; a `float3` is a
triple of floats with component-wise arithmetic, `min` and `max`. -/
structure float3 where
  x : ℚ
  y : ℚ
  z : ℚ
  deriving DecidableEq

namespace float3

/-- The constructor `float3(f)` that replicates one value. -/
def splat (f : ℚ) : float3 := ⟨f, f, f⟩

/-- Component-wise `a + b`. -/
def add (a b : float3) : float3 := ⟨a.x + b.x, a.y + b.y, a.z + b.z⟩

/-- Component-wise `a - b`. -/
def sub (a b : float3) : float3 := ⟨a.x - b.x, a.y - b.y, a.z - b.z⟩

/-- Component-wise `a * b`. -/
def mul (a b : float3) : float3 := ⟨a.x * b.x, a.y * b.y, a.z * b.z⟩

/-- Component-wise `a / b`. -/
def div (a b : float3) : float3 := ⟨a.x / b.x, a.y / b.y, a.z / b.z⟩

/-- Scaling `a * f` (also `f * a`). -/
def scale (a : float3) (f : ℚ) : float3 := ⟨a.x * f, a.y * f, a.z * f⟩

/-- Component-wise minimum `min(a, b)`. -/
def min (a b : float3) : float3 := ⟨Min.min a.x b.x, Min.min a.y b.y, Min.min a.z b.z⟩

/-- Component-wise maximum `max(a, b)`. -/
def max (a b : float3) : float3 := ⟨Max.max a.x b.x, Max.max a.y b.y, Max.max a.z b.z⟩

/-- Scalar product `dot(a, b)`. -/
def dot (a b : float3) : ℚ := a.x * b.x + a.y * b.y + a.z * b.z

/-- Vector product `cross(a, b)`. -/
def cross (a b : float3) : float3 :=
  ⟨a.y * b.z - a.z * b.y, a.z * b.x - a.x * b.z, a.x * b.y - a.y * b.x⟩

/-- Squared length `lensqr(a)`. -/
def lensqr (a : float3) : ℚ := dot a a

end float3

/-! ## `bbox.h` -/

/-- Bounding box represented by its two extreme points. -/
structure BBox where
  min : float3
  max : float3
  deriving DecidableEq

/-- `BBox::empty()`. -/
def BBox.empty : BBox := ⟨float3.splat FLT_MAX, float3.splat (-FLT_MAX)⟩

/-- A default-constructed (uninitialised) `BBox`; the embedding fixes its content. -/
def BBox.uninit : BBox := ⟨float3.splat 0, float3.splat 0⟩

/-- `extend(bb, f)` for a point. -/
def extend_point (bb : BBox) (f : float3) : BBox := ⟨float3.min bb.min f, float3.max bb.max f⟩

/-- `extend(bb1, bb2)` for two boxes. -/
def extend (bb1 bb2 : BBox) : BBox := ⟨float3.min bb1.min bb2.min, float3.max bb1.max bb2.max⟩

/-- `half_area(min, max)`. -/
def half_area_pts (mn mx : float3) : ℚ :=
  let len := float3.sub mx mn
  let kx := Max.max len.x 0
  let ky := Max.max len.y 0
  let kz := Max.max len.z 0
  kx * (ky + kz) + ky * kz

/-- `half_area(bb)`. -/
def half_area (bb : BBox) : ℚ := half_area_pts bb.min bb.max

/-- `is_inside(bb, f)`. -/
def is_inside (bb : BBox) (f : float3) : Bool :=
  decide (f.x ≥ bb.min.x) && decide (f.y ≥ bb.min.y) && decide (f.z ≥ bb.min.z) &&
  decide (f.x ≤ bb.max.x) && decide (f.y ≤ bb.max.y) && decide (f.z ≤ bb.max.z)

/-- `is_included(bb1, bb2)`: `bb1` lies inside `bb2`. -/
def is_included (bb1 bb2 : BBox) : Bool :=
  decide (bb1.min.x ≥ bb2.min.x) && decide (bb1.max.x ≤ bb2.max.x) &&
  decide (bb1.min.y ≥ bb2.min.y) && decide (bb1.max.y ≤ bb2.max.y) &&
  decide (bb1.min.z ≥ bb2.min.z) && decide (bb1.max.z ≤ bb2.max.z)

/-! ## `common.h` -/

/-- `closest_log2(i)`: the loop `while (i > p) p <<= 1, q++` started at `p = 1, q = 0`.
The loop runs at most `i` times, which bounds the recursion. -/
def closest_log2_loop (i : Nat) : Nat → Nat → Nat → Nat
  | 0, _, q => q
  | n + 1, p, q => if i > p then closest_log2_loop i n (p * 2) (q + 1) else q

/-- `closest_log2(i)`. -/
def closest_log2 (i : Nat) : Nat := closest_log2_loop i i 1 0

/-- `prodsign(x, y)`: `x` with its sign bit flipped when the sign bit of `y` is set. -/
def prodsign (x y : ℚ) : ℚ := if y < 0 then -x else x

/-! ## `intersect.h` -/

/-- Ray defined as `org + t * dir`, with `t` in `[tmin, tmax]`. -/
structure Ray where
  org : float3
  tmin : ℚ
  dir : float3
  tmax : ℚ
  deriving DecidableEq

/-- Ray-triangle hit information. -/
structure Hit where
  tri : Int
  t : ℚ
  u : ℚ
  v : ℚ
  deriving DecidableEq

/-- Precomputed triangle structure. -/
structure PrecomputedTri where
  v0 : float3
  nx : ℚ
  e1 : float3
  ny : ℚ
  e2 : float3
  nz : ℚ
  deriving DecidableEq

/-- The constructor `PrecomputedTri(v0, v1, v2)`. -/
def PrecomputedTri.mk3 (v0 v1 v2 : float3) : PrecomputedTri :=
  let e1 := float3.sub v0 v1
  let e2 := float3.sub v2 v0
  let n := float3.cross e1 e2
  ⟨v0, n.x, e1, n.y, e2, n.z⟩

/-- `intersect_ray_tri(ray, tri, t, u, v)`: the in/out parameters `t, u, v` are passed
as a triple; the result is `some (t, u, v)` with the new values when the function
returns `true`, and `none` when it returns `false` (leaving them unchanged). -/
def intersect_ray_tri (ray : Ray) (tri : PrecomputedTri) (t : ℚ) : Option (ℚ × ℚ × ℚ) :=
  let eps : ℚ := 1 / 1000000000
  let n : float3 := ⟨tri.nx, tri.ny, tri.nz⟩
  let c := float3.sub tri.v0 ray.org
  let r := float3.cross ray.dir c
  let det := float3.dot n ray.dir
  let abs_det := |det|
  let u_ := prodsign (float3.dot r tri.e2) det
  let v_ := prodsign (float3.dot r tri.e1) det
  let w_ := abs_det - u_ - v_
  if u_ ≥ -eps ∧ v_ ≥ -eps ∧ w_ ≥ -eps then
    let t_ := prodsign (float3.dot n c) det
    if t_ ≥ abs_det * ray.tmin ∧ abs_det * t > t_ then
      let inv_det := 1 / abs_det
      some (t_ * inv_det, u_ * inv_det, v_ * inv_det)
    else none
  else none

/-! ## `bvh.h` -/

/-- A node of the hierarchy (`Bvh::Node`).  The two unions of the source are one field
each: `first_prim` is also `child`, and `num_prims` is also `axis`. -/
structure Node where
  min : float3
  first_prim : Nat
  max : float3
  num_prims : Int
  deriving DecidableEq

/-- The union member `child`. -/
abbrev Node.child (n : Node) : Nat := n.first_prim

/-- The union member `axis`. -/
abbrev Node.axis (n : Node) : Int := n.num_prims

/-- An element of `new Node[...]` that was never written; the embedding fixes its content. -/
def Node.uninit : Node := ⟨float3.splat 0, 0, float3.splat 0, 0⟩

/-- The float at offset `k` of a node seen as `const float*` (`reinterpret_cast` in
`Bvh::traverse`): offsets 0..2 are `min`, 4..6 are `max`; offsets 3 and 7 hold the
integer fields and are never read as floats. -/
def Node.float_at (n : Node) (k : Nat) : ℚ :=
  match k with
  | 0 => n.min.x
  | 1 => n.min.y
  | 2 => n.min.z
  | 4 => n.max.x
  | 5 => n.max.y
  | 6 => n.max.z
  | _ => 0

/-- Bounding Volume Hierarchy (`class Bvh`). -/
structure Bvh where
  nodes : List Node
  prim_ids : List Nat
  tris : List PrecomputedTri
  num_nodes : Nat
  deriving DecidableEq

/-! ## `bvh.cpp`: the builder -/

/-- `flag_primitives`, one of its two loops: `flags[prims[i]] = val` for `n` indices from `i`. -/
def flag_loop (prims : List Nat) (val : Nat) : Nat → Nat → List Nat → Except Fault (List Nat)
  | 0, _, flags => .ok flags
  | n + 1, i, flags => do
    let p ← rd prims i
    let flags ← wr flags p val
    flag_loop prims val n (i + 1) flags

/-- `flag_primitives(prims, begin, end, flags, split)`. -/
def flag_primitives (prims : List Nat) (begin end_ : Nat) (flags : List Nat) (split : Nat) :
    Except Fault (List Nat) := do
  let flags ← flag_loop prims 0 (split - begin) begin flags
  flag_loop prims 1 (end_ - split) split flags

/-- The loop of `sorted_partition`.  `tmp` is the builder's scratch buffer
(`tmp_storage`), so that `tmp_prims[k]` of the source is `tmp[k - begin]` here. -/
def partition_loop (prims flags : List Nat) (begin : Nat) :
    Nat → Nat → Nat → Nat → List Nat → Except Fault (List Nat)
  | 0, _, _, _, tmp => .ok tmp
  | n + 1, i, left, right, tmp => do
    let p ← rd prims i
    let f ← rd flags p
    if f ≠ 0 then
      let tmp ← wr tmp (right - begin) p
      partition_loop prims flags begin n (i + 1) left (right + 1) tmp
    else
      let tmp ← wr tmp (left - begin) p
      partition_loop prims flags begin n (i + 1) (left + 1) right tmp

/-- `std::copy(tmp + begin, tmp + end, prims + begin)`, element by element. -/
def copy_loop (tmp : List Nat) (begin : Nat) : Nat → Nat → List Nat → Except Fault (List Nat)
  | 0, _, prims => .ok prims
  | n + 1, i, prims => do
    let v ← rd tmp (i - begin)
    let prims ← wr prims i v
    copy_loop tmp begin n (i + 1) prims

/-- `sorted_partition(prims, tmp, begin, end, split, flags)`; `tmp` is the scratch
buffer on entry (its content is whatever an earlier use left there). -/
def sorted_partition (prims tmp : List Nat) (begin end_ split : Nat) (flags : List Nat) :
    Except Fault (List Nat) := do
  let tmp ← partition_loop prims flags begin (end_ - begin) begin begin split tmp
  copy_loop tmp begin (end_ - begin) begin prims

/-- First loop of `find_split`: sweep from the left and compute costs.  The list
returned holds `tmp_cost[begin], tmp_cost[begin + 1], ...` in this order. -/
def sweep_left (prims : List Nat) (bboxes : List BBox) (begin : Nat) :
    Nat → Nat → BBox → List ℚ → Except Fault (List ℚ)
  | 0, _, _, tmp_cost => .ok tmp_cost
  | n + 1, i, cur_bb, tmp_cost => do
    let p ← rd prims i
    let bb ← rd bboxes p
    let cur_bb := extend cur_bb bb
    sweep_left prims bboxes begin n (i + 1) cur_bb
      (tmp_cost ++ [((i - begin + 1 : Nat) : ℚ) * half_area cur_bb])

/-- The locals `min_cost`, `min_split`, `min_bb` of `find_split`. -/
structure SplitAcc where
  min_cost : ℚ
  min_split : Int
  min_bb : BBox

/-- Second loop of `find_split`: sweep from the right and find the minimum cost;
`i` runs from `end - 1` down to `begin + 1`. -/
def sweep_right (prims : List Nat) (bboxes : List BBox) (begin end_ : Nat) (tmp_cost : List ℚ) :
    Nat → Nat → BBox → SplitAcc → Except Fault SplitAcc
  | 0, _, _, acc => .ok acc
  | n + 1, i, cur_bb, acc => do
    let p ← rd prims i
    let bb ← rd bboxes p
    let cur_bb := extend cur_bb bb
    let tc ← rd tmp_cost (i - 1 - begin)
    let c := tc + ((end_ - i : Nat) : ℚ) * half_area cur_bb
    let acc := if c < acc.min_cost then ⟨c, i, cur_bb⟩ else acc
    sweep_right prims bboxes begin end_ tmp_cost n (i - 1) cur_bb acc

/-- `find_split(prims, tmp_cost, begin, end, bboxes, right_bb, cost)`; the result is
`(min_split, right_bb, cost)`. -/
def find_split (prims : List Nat) (begin end_ : Nat) (bboxes : List BBox) :
    Except Fault (Int × BBox × ℚ) := do
  let tmp_cost ← sweep_left prims bboxes begin (end_ - 1 - begin) begin BBox.empty []
  let acc ← sweep_right prims bboxes begin end_ tmp_cost (end_ - 1 - begin) (end_ - 1)
    BBox.empty ⟨FLT_MAX, -1, BBox.uninit⟩
  .ok (acc.min_split, acc.min_bb, acc.min_cost)

/-- The arrays a `BvhBuilder` works on: the node array with the shared counter, the
three axis-sorted index arrays and the flag array. -/
structure BuildState where
  nodes : List Node
  node_count : Nat
  prims : Fin 3 → List Nat
  tmp_flags : List Nat

/-- `BvhBuilder::parallel_threshold()`. -/
def parallel_threshold : Int := 1000

/-- The locals `min_right`, `min_cost`, `min_split`, `min_axis` of `BvhBuilder::build`. -/
structure AxisAcc where
  min_right : BBox
  min_cost : ℚ
  min_split : Int
  min_axis : Fin 3

/-- One iteration of the loop over the three axes in `BvhBuilder::build`. -/
def try_axis (bboxes : List BBox) (st : BuildState) (begin end_ : Nat) (acc : AxisAcc)
    (i : Fin 3) : Except Fault AxisAcc := do
  let (split, right_bb, cost) ← find_split (st.prims i) begin end_ bboxes
  if cost < acc.min_cost then .ok ⟨right_bb, cost, split, i⟩ else .ok acc

/-- Recomputation of the bounding box of the left child in `BvhBuilder::build`. -/
def left_box_loop (prims : List Nat) (bboxes : List BBox) :
    Nat → Nat → BBox → Except Fault BBox
  | 0, _, bb => .ok bb
  | n + 1, i, bb => do
    let p ← rd prims i
    let b ← rd bboxes p
    left_box_loop prims bboxes n (i + 1) (extend bb b)

/-- `BvhBuilder::build(node_id)`.  `tmp` is the builder's `tmp_storage`, of which only
the length matters on entry.  The task pragma of the source is commented out, so a
spawned builder runs to completion before the spawning one continues. -/
def BvhBuilder.build (bboxes : List BBox) :
    Nat → List Nat → BuildState → Nat → Except Fault BuildState
  | 0, _, _, _ => .error .out_of_fuel
  | fuel + 1, tmp, st, node_id => do
    let traversal_cost : ℚ := 1
    let node ← rd st.nodes node_id
    let begin := node.first_prim
    let end_i : Int := node.first_prim + node.num_prims
    if end_i - begin ≤ 1 then .ok st
    else
      let end_ := end_i.toNat
      let acc : AxisAcc := ⟨BBox.uninit, FLT_MAX, -1, 0⟩
      let acc ← try_axis bboxes st begin end_ acc 0
      let acc ← try_axis bboxes st begin end_ acc 1
      let acc ← try_axis bboxes st begin end_ acc 2
      if ¬ (acc.min_split > begin ∧ acc.min_split < end_) then .error .assertion
      else if acc.min_cost < (((end_ - begin : Nat) : ℚ) - traversal_cost)
          * half_area_pts node.min node.max then
        let min_split := acc.min_split.toNat
        let min_axis := acc.min_axis
        let axis1 : Fin 3 := min_axis + 1
        let axis2 : Fin 3 := min_axis + 2
        let flags ← flag_primitives (st.prims min_axis) begin end_ st.tmp_flags min_split
        let p1 ← sorted_partition (st.prims axis1) tmp begin end_ min_split flags
        let prims := Function.update st.prims axis1 p1
        let p2 ← sorted_partition (prims axis2) tmp begin end_ min_split flags
        let prims := Function.update prims axis2 p2
        let min_left ← left_box_loop (prims min_axis) bboxes (min_split - begin) begin BBox.empty
        let num_nodes := st.node_count
        let node_count := st.node_count + 2
        let nodes ← wr st.nodes node_id
          { node with first_prim := num_nodes, num_prims := -(min_axis.val : Int) }
        let left : Node := ⟨min_left.min, begin, min_left.max, (min_split : Int) - begin⟩
        let nodes ← wr nodes num_nodes left
        let right : Node := ⟨acc.min_right.min, min_split, acc.min_right.max,
          (end_ : Int) - min_split⟩
        let nodes ← wr nodes (num_nodes + 1) right
        let smallest_node := if right.num_prims < left.num_prims then num_nodes + 1 else num_nodes
        let biggest_node := if right.num_prims ≥ left.num_prims then num_nodes + 1 else num_nodes
        let st : BuildState := ⟨nodes, node_count, prims, flags⟩
        let smallest ← rd nodes smallest_node
        let spawn_task := smallest.num_prims > parallel_threshold
        if spawn_task then
          let st ← BvhBuilder.build bboxes fuel
            (List.replicate smallest.num_prims.toNat 0) st smallest_node
          BvhBuilder.build bboxes fuel tmp st biggest_node
        else
          let st ← BvhBuilder.build bboxes fuel tmp st biggest_node
          BvhBuilder.build bboxes fuel tmp st smallest_node
      else .ok st

/-- The reduction loop of `Bvh::build` that computes the global bounding box. -/
def global_bbox_loop (bboxes : List BBox) : Nat → Nat → BBox → Except Fault BBox
  | 0, _, loc => .ok loc
  | n + 1, i, loc => do
    let bb ← rd bboxes i
    global_bbox_loop bboxes n (i + 1) ⟨float3.min bb.min loc.min, float3.max bb.max loc.max⟩

/-- The call `std::sort(prims, prims + num_tris, cmp)` on the identity array, with `cmp`
comparing one coordinate of the centers.  The order of equal keys is left open by
`std::sort`; the embedding uses insertion sort. -/
def sort_prims (centers : List float3) (key : float3 → ℚ) (num_tris : Nat) : List Nat :=
  List.insertionSort
    (fun p0 p1 => key (centers.getD p0 (float3.splat 0)) < key (centers.getD p1 (float3.splat 0)))
    (List.range num_tris)

/-- The overload `Bvh::build(const BBox* bboxes, const float3* centers, int num_tris)`.
`nodes` is the node array allocated by the caller.  The result is the trimmed node
array, `prim_ids` and `num_nodes`. -/
def Bvh.build_boxes (nodes : List Node) (bboxes : List BBox) (centers : List float3)
    (num_tris : Nat) : Except Fault (List Node × List Nat × Nat) := do
  let loc ← global_bbox_loop bboxes num_tris 0 BBox.empty
  let root : Node :=
    ⟨float3.min loc.min (float3.splat FLT_MAX), 0,
     float3.max loc.max (float3.splat (-FLT_MAX)), num_tris⟩
  let nodes ← wr nodes 0 root
  let prims : Fin 3 → List Nat := fun a =>
    match a with
    | 0 => sort_prims centers float3.x num_tris
    | 1 => sort_prims centers float3.y num_tris
    | 2 => sort_prims centers float3.z num_tris
  let st : BuildState := ⟨nodes, 1, prims, List.replicate num_tris 0⟩
  let st ← BvhBuilder.build bboxes (num_tris + 1) (List.replicate num_tris 0) st 0
  .ok (st.nodes.take st.node_count, st.prims 0, st.node_count)

/-- The three vertices of triangle `i`, read through the index buffer
(four entries per triangle). -/
def tri_verts (verts : List float3) (indices : List Nat) (i : Nat) :
    Except Fault (float3 × float3 × float3) := do
  let i0 ← rd indices (i * 4 + 0)
  let i1 ← rd indices (i * 4 + 1)
  let i2 ← rd indices (i * 4 + 2)
  let v0 ← rd verts i0
  let v1 ← rd verts i1
  let v2 ← rd verts i2
  .ok (v0, v1, v2)

/-- First loop of `Bvh::build(verts, indices, num_tris)`: centers and boxes. -/
def centers_boxes_loop (verts : List float3) (indices : List Nat) :
    Nat → Nat → List float3 → List BBox → Except Fault (List float3 × List BBox)
  | 0, _, centers, bboxes => .ok (centers, bboxes)
  | n + 1, i, centers, bboxes => do
    let (v0, v1, v2) ← tri_verts verts indices i
    let c := float3.scale (float3.add (float3.add v0 v1) v2) (1 / 3)
    let bb : BBox := ⟨float3.min v0 (float3.min v1 v2), float3.max v0 (float3.max v1 v2)⟩
    centers_boxes_loop verts indices n (i + 1) (centers ++ [c]) (bboxes ++ [bb])

/-- Last loop of `Bvh::build(verts, indices, num_tris)`: the triangle cache. -/
def tris_loop (verts : List float3) (indices : List Nat) (prim_ids : List Nat) :
    Nat → Nat → List PrecomputedTri → Except Fault (List PrecomputedTri)
  | 0, _, tris => .ok tris
  | n + 1, i, tris => do
    let tri_id ← rd prim_ids i
    let (v0, v1, v2) ← tri_verts verts indices tri_id
    tris_loop verts indices prim_ids n (i + 1) (tris ++ [PrecomputedTri.mk3 v0 v1 v2])

/-- `Bvh::build(const float3* verts, const int* indices, int num_tris)`. -/
def Bvh.build (verts : List float3) (indices : List Nat) (num_tris : Nat) : Except Fault Bvh := do
  let (centers, bboxes) ← centers_boxes_loop verts indices num_tris 0 [] []
  let nodes := List.replicate (num_tris * 2 + 1) Node.uninit
  let (nodes, prim_ids, num_nodes) ← Bvh.build_boxes nodes bboxes centers num_tris
  let tris ← tris_loop verts indices prim_ids num_tris 0 []
  .ok ⟨nodes, prim_ids, tris, num_nodes⟩

/-! ## `bvh.cpp`: traversal -/

/-- Bounds-checked read with an `int` index. -/
def rdi {α : Type} (a : List α) (i : Int) : Except Fault α :=
  if 0 ≤ i then rd a i.toNat else .error .out_of_bounds

/-- Bounds-checked write with an `int` index; a write beyond the traversal stack is
reported as `Fault.stack_overflow`. -/
def push (stack : List Int) (i : Int) (v : Int) : Except Fault (List Int) :=
  if 0 ≤ i ∧ i.toNat < stack.length then .ok (stack.set i.toNat v) else .error .stack_overflow

/-- The lambda `intersect_leaf` of `Bvh::traverse`: `j` runs over the `n` primitives of
the leaf.  Its `return` leaves the lambda only. -/
def intersect_leaf (ray : Ray) (tris : List PrecomputedTri) (any : Bool) :
    Nat → Nat → Hit → Except Fault Hit
  | 0, _, hit => .ok hit
  | n + 1, j, hit => do
    let tri ← rd tris j
    match intersect_ray_tri ray tri hit.t with
    | some (t, u, v) =>
      let hit : Hit := ⟨j, t, u, v⟩
      if any then .ok hit else intersect_leaf ray tris any n (j + 1) hit
    | none => intersect_leaf ray tris any n (j + 1) hit

/-- The variables of `Bvh::traverse` that live across loop iterations. -/
structure TravState where
  stack : List Int
  top : Int
  stack_ptr : Int
  hit : Hit

/-- Treatment of one child in the loop body: intersect it when it is a leaf, push it
otherwise (`enter` is the outcome of the slab test `t0 <= t1`). -/
def visit_child (ray : Ray) (tris : List PrecomputedTri) (any : Bool) (enter : Bool)
    (child : Node) (s : TravState) : Except Fault TravState :=
  if enter then
    if child.num_prims > 0 then do
      let hit ← intersect_leaf ray tris any child.num_prims.toNat child.first_prim s.hit
      .ok { s with hit := hit }
    else do
      let stack ← push s.stack (s.stack_ptr + 1) child.child
      .ok { s with stack := stack, stack_ptr := s.stack_ptr + 1 }
  else .ok s

/-- `std::swap(stack[stack_ptr], stack[stack_ptr - 1])`. -/
def swap_top (stack : List Int) (stack_ptr : Int) : Except Fault (List Int) := do
  let a ← rdi stack stack_ptr
  let b ← rdi stack (stack_ptr - 1)
  let stack ← push stack stack_ptr b
  push stack (stack_ptr - 1) a

/-- One iteration of the loop `while (top >= 0)` of `Bvh::traverse`.  For a ray with a
zero component in `dir` the source divides by zero and its slab test works on
infinities and NaN, whereas `1 / 0 = 0` here: for such rays the embedding may decide
`t0 <= t1` differently from the code. -/
def traverse_step (bvh : Bvh) (ray : Ray) (any : Bool) (s : TravState) : Except Fault TravState := do
  let ox : Nat := if ray.dir.x > 0 then 0 else 4
  let oy : Nat := if ray.dir.y > 0 then 1 else 5
  let oz : Nat := if ray.dir.z > 0 then 2 else 6
  let idir := float3.div (float3.splat 1) ray.dir
  let oidir := float3.mul ray.org idir
  let left ← rdi bvh.nodes (s.top + 0)
  let right ← rdi bvh.nodes (s.top + 1)
  let t00x := left.float_at ox * idir.x - oidir.x
  let t10x := right.float_at ox * idir.x - oidir.x
  let t00y := left.float_at oy * idir.y - oidir.y
  let t10y := right.float_at oy * idir.y - oidir.y
  let t00z := left.float_at oz * idir.z - oidir.z
  let t10z := right.float_at oz * idir.z - oidir.z
  let t01x := left.float_at (4 - ox) * idir.x - oidir.x
  let t11x := right.float_at (4 - ox) * idir.x - oidir.x
  let t01y := left.float_at (6 - oy) * idir.y - oidir.y
  let t11y := right.float_at (6 - oy) * idir.y - oidir.y
  let t01z := left.float_at (8 - oz) * idir.z - oidir.z
  let t11z := right.float_at (8 - oz) * idir.z - oidir.z
  let t0_0 := Max.max (Max.max ray.tmin t00x) (Max.max t00y t00z)
  let t0_1 := Max.max (Max.max ray.tmin t10x) (Max.max t10y t10z)
  let t1_0 := Min.min (Min.min s.hit.t t01x) (Min.min t01y t01z)
  let t1_1 := Min.min (Min.min s.hit.t t11x) (Min.min t11y t11z)
  let old_ptr := s.stack_ptr
  let s ← visit_child ray bvh.tris any (decide (t0_0 ≤ t1_0)) left s
  let s ← visit_child ray bvh.tris any (decide (t0_1 ≤ t1_1)) right s
  let stack ←
    (if old_ptr + 2 ≤ s.stack_ptr ∧ t0_0 < t0_1 then swap_top s.stack s.stack_ptr
     else .ok s.stack)
  let top ← rdi stack s.stack_ptr
  .ok ⟨stack, top, s.stack_ptr - 1, s.hit⟩

/-- The loop `while (top >= 0)` of `Bvh::traverse`. -/
def traverse_loop (bvh : Bvh) (ray : Ray) (any : Bool) : Nat → TravState → Except Fault TravState
  | 0, s => if s.top ≥ 0 then .error .out_of_fuel else .ok s
  | fuel + 1, s =>
    if s.top ≥ 0 then do
      let s ← traverse_step bvh ray any s
      traverse_loop bvh ray any fuel s
    else .ok s

/-- `Bvh::traverse(ray, hit, any)`; the loop runs for at most `fuel` iterations. -/
def Bvh.traverse (bvh : Bvh) (fuel : Nat) (ray : Ray) (any : Bool) : Except Fault Hit := do
  let stack_size := 64
  let hit : Hit := ⟨-1, ray.tmax, 0, 0⟩
  let stack := (List.replicate stack_size (0 : Int)).set 0 (-1)
  let s ← traverse_loop bvh ray any fuel ⟨stack, 1, 0, hit⟩
  if s.hit.tri ≥ 0 then do
    let id ← rdi bvh.prim_ids s.hit.tri
    .ok { s.hit with tri := id }
  else .ok s.hit

/-! ## `scene.h` -/

/-- `Scene::intersect(ray)`; each loop iteration of the traversal expands one inner
node, so `num_nodes` iterations are allowed. -/
def Scene.intersect (bvh : Bvh) (ray : Ray) : Except Fault Hit :=
  bvh.traverse bvh.num_nodes ray false

/-- `Scene::occluded(ray)`. -/
def Scene.occluded (bvh : Bvh) (ray : Ray) : Except Fault Bool := do
  let hit ← bvh.traverse bvh.num_nodes ray true
  .ok (decide (hit.tri ≥ 0))

/-! ## `hash.h` -/

/-- `bernstein_init()`. -/
def bernstein_init : Nat := 5381

/-- `bernstein_hash(h, d)` on `uint32_t`. -/
def bernstein_hash (h d : Nat) : Nat :=
  let h := ((h * 33) % 2 ^ 32) ^^^ (d &&& 0xFF)
  let h := ((h * 33) % 2 ^ 32) ^^^ ((d >>> 8) &&& 0xFF)
  let h := ((h * 33) % 2 ^ 32) ^^^ ((d >>> 16) &&& 0xFF)
  let h := ((h * 33) % 2 ^ 32) ^^^ ((d >>> 24) &&& 0xFF)
  h

/-! ## `hash_grid.h` -/

/-- Conversion of a `float` to `int`: truncation towards zero.  (A value outside the
range of `int` is undefined in the source; the embedding keeps the exact integer.) -/
def float_to_int (q : ℚ) : Int := if 0 ≤ q then ⌊q⌋ else ⌈q⌉

/-- Conversion of an `int` to `uint32_t`: reduction modulo `2 ^ 32`. -/
def int_to_uint32 (i : Int) : Nat := (i % 2 ^ 32).toNat

/-- Conversion of a `float` to `uint32_t` (arguments of `hash_cell` in `hash_photon`):
truncation, reduced modulo `2 ^ 32`. -/
def float_to_uint32 (q : ℚ) : Nat := int_to_uint32 (float_to_int q)

/-- The members of `class HashGrid`. -/
structure HashGrid where
  photons : List Nat
  cell_counts : List Int
  bbox : BBox
  inv_size : ℚ
  radius_sqr : ℚ
  max_in_cell : Int
  deriving DecidableEq

/-- `HashGrid::hash_cell(x, y, z)`. -/
def HashGrid.hash_cell (g : HashGrid) (x y z : Nat) : Nat :=
  let h := bernstein_hash bernstein_init x
  let h := bernstein_hash h y
  let h := bernstein_hash h z
  h &&& (g.cell_counts.length - 1)

/-- `HashGrid::hash_photon(pos)`. -/
def HashGrid.hash_photon (g : HashGrid) (pos : float3) : Nat :=
  let p := float3.scale (float3.sub pos g.bbox.min) g.inv_size
  g.hash_cell (float_to_uint32 p.x) (float_to_uint32 p.y) (float_to_uint32 p.z)

/-- `HashGrid::cell_range(x, y, z)`. -/
def HashGrid.cell_range (g : HashGrid) (x y z : Nat) : Except Fault (Int × Int) := do
  let h := g.hash_cell x y z
  let first ← rd g.cell_counts h
  if h = g.cell_counts.length - 1 then .ok (first, (g.photons.length : Int))
  else do
    let second ← rd g.cell_counts (h + 1)
    .ok (first, second)

/-- The loop of `HashGrid::build` that computes the bounding box of the photons. -/
def photon_bbox_loop (positions : Nat → float3) : Nat → Nat → BBox → BBox
  | 0, _, bb => bb
  | n + 1, i, bb => photon_bbox_loop positions n (i + 1) (extend_point bb (positions i))

/-- The loop of `HashGrid::build` that counts the number of photons per cell. -/
def count_loop (g : HashGrid) (positions : Nat → float3) : Nat → Nat → List Int → Except Fault (List Int)
  | 0, _, counts => .ok counts
  | n + 1, i, counts => do
    let h := g.hash_photon (positions i)
    let c ← rd counts h
    let counts ← wr counts h (c + 1)
    count_loop g positions n (i + 1) counts

/-- `std::partial_sum` in place: running sums, `acc` being the sum so far. -/
def partial_sum (acc : Int) : List Int → List Int
  | [] => []
  | c :: cs => (acc + c) :: partial_sum (acc + c) cs

/-- `*std::max_element(begin, end)` of a non-empty vector. -/
def max_element (cs : List Int) : Int := cs.foldl Max.max (cs.headD 0)

/-- The loop of `HashGrid::build` that puts the photons in their respective cells.
The grid `g` carries the current `cell_counts` and `photons`. -/
def scatter_loop (positions : Nat → float3) : Nat → Nat → HashGrid → Except Fault HashGrid
  | 0, _, g => .ok g
  | n + 1, i, g => do
    let h := g.hash_photon (positions i)
    let c ← rd g.cell_counts h
    let old_count := c - 1
    let counts ← wr g.cell_counts h old_count
    if old_count < 0 then .error .out_of_bounds
    else do
      let photons ← wr g.photons old_count.toNat i
      scatter_loop positions n (i + 1) { g with cell_counts := counts, photons := photons }

/-- The step of `HashGrid::build` that slightly enlarges the bounding box of the photons:
`extents = max - min; max += extents * 0.001f; min -= extents * 0.001f`. -/
def enlarge (bbox : BBox) : BBox :=
  let extents := float3.sub bbox.max bbox.min
  let bbox : BBox := { bbox with max := float3.add bbox.max (float3.scale extents (1 / 1000)) }
  { bbox with min := float3.sub bbox.min (float3.scale extents (1 / 1000)) }

/-- `HashGrid::build(positions, num_photons, radius)`. -/
def HashGrid.build (positions : Nat → float3) (num_photons : Nat) (radius : ℚ) :
    Except Fault HashGrid := do
  let radius_sqr := radius * radius
  let inv_size := (1 / 2 : ℚ) / radius
  let bbox := enlarge (extend BBox.empty (photon_bbox_loop positions num_photons 0 BBox.empty))
  let photons := List.replicate num_photons 0
  let cell_counts := List.replicate (1 <<< (closest_log2 num_photons + 1)) (0 : Int)
  let g : HashGrid := ⟨photons, cell_counts, bbox, inv_size, radius_sqr, 0⟩
  let cell_counts ← count_loop g positions num_photons 0 cell_counts
  let max_in_cell := max_element cell_counts
  let cell_counts := partial_sum 0 cell_counts
  let back ← rd cell_counts (cell_counts.length - 1)
  if back ≠ (photons.length : Int) then .error .assertion
  else
    scatter_loop positions num_photons 0
      { g with cell_counts := cell_counts, max_in_cell := max_in_cell }

/-- The inner loop of `HashGrid::query` over one bucket: `j` runs over `n` slots; the
calls `insert(photon_id, d)` are appended to `out`. -/
def bucket_loop (g : HashGrid) (pos : float3) (positions : Nat → float3) :
    Nat → Int → List (Nat × ℚ) → Except Fault (List (Nat × ℚ))
  | 0, _, out => .ok out
  | n + 1, j, out => do
    let photon_id ← rdi g.photons j
    let photon_pos := positions photon_id
    let d := float3.lensqr (float3.sub pos photon_pos)
    if d < g.radius_sqr then bucket_loop g pos positions n (j + 1) (out ++ [(photon_id, d)])
    else bucket_loop g pos positions n (j + 1) out

/-- The loop `for (int i = 0; i < 8; i++)` of `HashGrid::query`. -/
def cells_loop (g : HashGrid) (pos : float3) (positions : Nat → float3)
    (px1 py1 pz1 px2 py2 pz2 : Int) :
    Nat → Nat → List (Nat × ℚ) → Except Fault (List (Nat × ℚ))
  | 0, _, out => .ok out
  | n + 1, i, out => do
    let range ← g.cell_range
      (int_to_uint32 (if i &&& 1 ≠ 0 then px2 else px1))
      (int_to_uint32 (if i &&& 2 ≠ 0 then py2 else py1))
      (int_to_uint32 (if i &&& 4 ≠ 0 then pz2 else pz1))
    let out ← bucket_loop g pos positions (range.2 - range.1).toNat range.1 out
    cells_loop g pos positions px1 py1 pz1 px2 py2 pz2 n (i + 1) out

/-- `HashGrid::query(pos, positions, insert)`: the result lists the calls of `insert`,
in the order in which they are made. -/
def HashGrid.query (g : HashGrid) (pos : float3) (positions : Nat → float3) :
    Except Fault (List (Nat × ℚ)) :=
  if ¬ is_inside g.bbox pos then .ok []
  else
    let p := float3.scale (float3.sub pos g.bbox.min) g.inv_size
    let px1 := float_to_int p.x
    let py1 := float_to_int p.y
    let pz1 := float_to_int p.z
    let px2 := px1 + (if p.x - px1 > 1 / 2 then 1 else -1)
    let py2 := py1 + (if p.y - py1 > 1 / 2 then 1 else -1)
    let pz2 := pz1 + (if p.z - pz1 > 1 / 2 then 1 else -1)
    cells_loop g pos positions px1 py1 pz1 px2 py2 pz2 8 0 []

/-! ## Auxiliary notions used in the statements -/

/-- The `n` entries of `l` from index `i` on. -/
def slice {α : Type} (l : List α) (i n : Nat) : List α := (l.drop i).take n

/-- The box stored in a node. -/
def Node.bbox (n : Node) : BBox := ⟨n.min, n.max⟩

/-- `Covers bboxes bb ps`: every primitive of `ps` has a box in `bboxes`, and that box
lies inside `bb` (in the sense of `is_included`). -/
def Covers (bboxes : List BBox) (bb : BBox) (ps : List Nat) : Prop :=
  ∀ p ∈ ps, ∃ b, bboxes[p]? = some b ∧ is_included b bb = true

/-- `Subtree bboxes prim_ids nodes id b e lo hi`: in the node array `nodes`, slot `id` is
the root of a subtree over the primitive range `[b, e)` of `prim_ids`; its proper
descendants occupy exactly the slots `[lo, hi)`.  A leaf has `num_prims > 0` and
stores its range; an inner node has `num_prims ≤ 0` (the negated axis) and its two
children are the adjacent slots `child` and `child + 1`, which are the first two
slots of `[lo, hi)`.  The slots of the two child subtrees follow in either order.
Every node's box contains the boxes of the primitives of its range. -/
inductive Subtree (bboxes : List BBox) (prim_ids : List Nat) (nodes : List Node) :
    Nat → Nat → Nat → Nat → Nat → Prop
  | leaf (id b e lo : Nat) (nd : Node) :
      nodes[id]? = some nd → nd.first_prim = b → nd.num_prims = (e : Int) - b → b < e →
      e ≤ prim_ids.length →
      Covers bboxes nd.bbox (slice prim_ids b (e - b)) →
      Subtree bboxes prim_ids nodes id b e lo lo
  | inner_lr (id b s e lo m hi : Nat) (nd : Node) :
      nodes[id]? = some nd → nd.num_prims ≤ 0 → -2 ≤ nd.num_prims → nd.child = lo →
      b < s → s < e →
      Covers bboxes nd.bbox (slice prim_ids b (e - b)) →
      Subtree bboxes prim_ids nodes lo b s (lo + 2) m →
      Subtree bboxes prim_ids nodes (lo + 1) s e m hi →
      Subtree bboxes prim_ids nodes id b e lo hi
  | inner_rl (id b s e lo m hi : Nat) (nd : Node) :
      nodes[id]? = some nd → nd.num_prims ≤ 0 → -2 ≤ nd.num_prims → nd.child = lo →
      b < s → s < e →
      Covers bboxes nd.bbox (slice prim_ids b (e - b)) →
      Subtree bboxes prim_ids nodes (lo + 1) s e (lo + 2) m →
      Subtree bboxes prim_ids nodes lo b s m hi →
      Subtree bboxes prim_ids nodes id b e lo hi

/-- What the sweeps of `find_split` establish about a candidate split: either none was
found, or it lies strictly inside the range and the box recorded with it covers the
primitives from the split to the end of the range. -/
def GoodSplit (bboxes : List BBox) (prims : List Nat) (begin end_ : Nat) (split : Int)
    (bb : BBox) : Prop :=
  split = -1 ∨ ∃ s : Nat, split = s ∧ begin < s ∧ s < end_ ∧
    Covers bboxes bb (slice prims s (end_ - s))

/-- What `BvhBuilder::build(node_id)` relies on when it is called on the leaf `node_id`
with range `[b, e)`: the node stores that range and a box covering its primitives,
the three index arrays hold the same distinct primitives in `[b, e)`, and the node
is one of the slots handed out so far. -/
structure BuildPre (bboxes : List BBox) (st : BuildState) (id b e : Nat) : Prop where
  node : ∃ nd, st.nodes[id]? = some nd ∧ nd.first_prim = b ∧ nd.num_prims = (e : Int) - b ∧
    Covers bboxes nd.bbox (slice (st.prims 0) b (e - b))
  lt : b < e
  len : ∀ a, e ≤ (st.prims a).length
  perm : ∀ a, (slice (st.prims a) b (e - b)).Perm (slice (st.prims 0) b (e - b))
  nodup : (slice (st.prims 0) b (e - b)).Nodup
  id_lt : id < st.node_count

/-- What `BvhBuilder::build(node_id)` guarantees on return: each index array was
permuted inside `[b, e)` only, node slots handed out earlier are untouched except
`node_id`, and `node_id` is the root of a subtree over `[b, e)` built in the slots
handed out during the call; the flag array keeps its length. -/
structure BuildPost (bboxes : List BBox) (st st' : BuildState) (id b e : Nat) : Prop where
  perm : ∀ a, (st'.prims a).Perm (st.prims a)
  frame : ∀ a k, (k < b ∨ e ≤ k) → (st'.prims a)[k]? = (st.prims a)[k]?
  count : st.node_count ≤ st'.node_count
  nodes_len : st'.nodes.length = st.nodes.length
  nodes_frame : ∀ k, k < st.node_count → k ≠ id → st'.nodes[k]? = st.nodes[k]?
  tree : Subtree bboxes (st'.prims 0) st'.nodes id b e st.node_count st'.node_count
  flags_len : st'.tmp_flags.length = st.tmp_flags.length

/-- The state `st1` reached in `BvhBuilder::build(node_id)` right before the two
recursive calls, when the node with range `[b, e)` is split at `s`. -/
structure SplitStage (bboxes : List BBox) (st st1 : BuildState) (id b s e : Nat) : Prop where
  hb : b < s
  hs : s < e
  count : st1.node_count = st.node_count + 2
  nodes_len : st1.nodes.length = st.nodes.length
  slots : st.node_count + 1 < st.nodes.length
  parent : ∃ nd, st1.nodes[id]? = some nd ∧ nd.num_prims ≤ 0 ∧ -2 ≤ nd.num_prims ∧
    nd.child = st.node_count ∧ Covers bboxes nd.bbox (slice (st.prims 0) b (e - b))
  nodes_frame : ∀ k, k < st.node_count → k ≠ id → st1.nodes[k]? = st.nodes[k]?
  perm : ∀ a, (st1.prims a).Perm (st.prims a)
  frame : ∀ a k, (k < b ∨ e ≤ k) → (st1.prims a)[k]? = (st.prims a)[k]?
  left : BuildPre bboxes st1 st.node_count b s
  right : BuildPre bboxes st1 (st.node_count + 1) s e
  flags_len : st1.tmp_flags.length = st.tmp_flags.length

/-- `LeafAt nodes k j`: slot `k` of the node array is a leaf (`num_prims > 0`) whose
range `[first_prim, first_prim + num_prims)` contains the position `j`. -/
def LeafAt (nodes : List Node) (k j : Nat) : Prop :=
  ∃ nd, nodes[k]? = some nd ∧ 0 < nd.num_prims ∧ nd.first_prim ≤ j ∧
    (j : Int) < nd.first_prim + nd.num_prims

/-- The positions of `prim_ids` stored in the leaves below slot `k`, found by following
the child links (`fuel` bounds the depth of the descent). -/
def subtree_slots (nodes : List Node) : Nat → Nat → List Nat
  | 0, _ => []
  | fuel + 1, k =>
    match nodes[k]? with
    | none => []
    | some nd =>
      if nd.num_prims > 0 then List.range' nd.first_prim nd.num_prims.toNat
      else subtree_slots nodes fuel nd.child ++ subtree_slots nodes fuel (nd.child + 1)

/-- The bounding box of a triangle, as computed by `Bvh::build`. -/
def tri_bbox (v0 v1 v2 : float3) : BBox :=
  ⟨float3.min v0 (float3.min v1 v2), float3.max v0 (float3.max v1 v2)⟩

/-- `TriBoxes verts indices n bboxes`: `bboxes` lists the bounding boxes of the `n`
triangles described by the vertex and index buffers. -/
def TriBoxes (verts : List float3) (indices : List Nat) (n : Nat) (bboxes : List BBox) : Prop :=
  bboxes.length = n ∧ ∀ i, i < n → ∃ v0 v1 v2,
    tri_verts verts indices i = .ok (v0, v1, v2) ∧ bboxes[i]? = some (tri_bbox v0 v1 v2)

/-- `TriCache verts indices prim_ids n tris`: slot `j` of the triangle cache holds the
precomputed form of the original triangle `prim_ids[j]`. -/
def TriCache (verts : List float3) (indices : List Nat) (prim_ids : List Nat) (n : Nat)
    (tris : List PrecomputedTri) : Prop :=
  tris.length = n ∧ ∀ j, j < n → ∃ id v0 v1 v2, prim_ids[j]? = some id ∧
    tri_verts verts indices id = .ok (v0, v1, v2) ∧ tris[j]? = some (PrecomputedTri.mk3 v0 v1 v2)

/-! ## Example scenes -/

/-- Vertices of a scene with one triangle in the plane `z = 0`. -/
def single_tri_verts : List float3 := [⟨0, 0, 0⟩, ⟨1, 0, 0⟩, ⟨0, 1, 0⟩]

/-- Index buffer of the one-triangle scene (three vertex indices and a material index). -/
def single_tri_indices : List Nat := [0, 1, 2, 0]

/-- The structure that `Bvh::build` produces for the one-triangle scene. -/
def single_tri_bvh : Bvh :=
  ⟨[⟨⟨0, 0, 0⟩, 0, ⟨1, 1, 0⟩, 1⟩], [0],
    [PrecomputedTri.mk3 ⟨0, 0, 0⟩ ⟨1, 0, 0⟩ ⟨0, 1, 0⟩], 1⟩

/-- Vertices of a scene with two triangles in the plane `z = 0`, ten units apart. -/
def two_tri_verts : List float3 :=
  [⟨0, 0, 0⟩, ⟨1, 0, 0⟩, ⟨0, 1, 0⟩, ⟨10, 0, 0⟩, ⟨11, 0, 0⟩, ⟨10, 1, 0⟩]

/-- Index buffer of the two-triangle scene. -/
def two_tri_indices : List Nat := [0, 1, 2, 0, 3, 4, 5, 0]

/-- The structure that `Bvh::build` produces for the two-triangle scene: an inner root
and two leaves. -/
def two_tri_bvh : Bvh :=
  ⟨[⟨⟨0, 0, 0⟩, 1, ⟨11, 1, 0⟩, 0⟩, ⟨⟨0, 0, 0⟩, 0, ⟨1, 1, 0⟩, 1⟩, ⟨⟨10, 0, 0⟩, 1, ⟨11, 1, 0⟩, 1⟩],
    [0, 1],
    [PrecomputedTri.mk3 ⟨0, 0, 0⟩ ⟨1, 0, 0⟩ ⟨0, 1, 0⟩,
     PrecomputedTri.mk3 ⟨10, 0, 0⟩ ⟨11, 0, 0⟩ ⟨10, 1, 0⟩], 3⟩

/-- A ray that starts above the first triangle and crosses it at `t = 1`. -/
def ray_from_above : Ray := ⟨⟨1 / 4, 1 / 4, 1⟩, 0, ⟨1 / 100, 1 / 100, -1⟩, 10⟩

/-- A ray that starts below the first triangle and crosses it at `t = 1`. -/
def ray_from_below : Ray := ⟨⟨1 / 4, 1 / 4, -1⟩, 0, ⟨1 / 100, 1 / 100, 1⟩, 10⟩

/-! ## The exhaustive reference for ray queries -/

/-- The exhaustive `O(N)` test that the specification compares the traversal with:
every original triangle `i = 0, 1, ...` is tested with `intersect_ray_tri`, which
accepts a hit only when it is closer than the closest one so far. -/
def reference_loop (verts : List float3) (indices : List Nat) (ray : Ray) :
    Nat → Nat → Hit → Except Fault Hit
  | 0, _, hit => .ok hit
  | n + 1, i, hit => do
    let (v0, v1, v2) ← tri_verts verts indices i
    match intersect_ray_tri ray (PrecomputedTri.mk3 v0 v1 v2) hit.t with
    | some (t, u, v) => reference_loop verts indices ray n (i + 1) ⟨i, t, u, v⟩
    | none => reference_loop verts indices ray n (i + 1) hit

/-- The closest hit according to the exhaustive test (`tri = -1` and `t = tmax` when no
triangle is intersected). -/
def reference_intersect (verts : List float3) (indices : List Nat) (n : Nat) (ray : Ray) :
    Except Fault Hit :=
  reference_loop verts indices ray n 0 ⟨-1, ray.tmax, 0, 0⟩

/-- The any-hit answer according to the exhaustive test. -/
def reference_occluded (verts : List float3) (indices : List Nat) (n : Nat) (ray : Ray) :
    Except Fault Bool := do
  let hit ← reference_intersect verts indices n ray
  .ok (decide (hit.tri ≥ 0))

/-- `HitOk ray tris hit`: the hit record is either still "no hit" (`tri = -1`), or it
names a slot `j` of the triangle cache together with values `t, u, v` that
`intersect_ray_tri` returned for that cached triangle. -/
def HitOk (ray : Ray) (tris : List PrecomputedTri) (hit : Hit) : Prop :=
  hit.tri = -1 ∨ ∃ (j : Nat) (tri : PrecomputedTri) (t0 : ℚ), hit.tri = j ∧
    tris[j]? = some tri ∧ intersect_ray_tri ray tri t0 = some (hit.t, hit.u, hit.v)

/-! ## Notions for the hash grid -/

/-- `tail_count H h m i`: the number of indices `k` in `[i, i + m)` with `H k = h`. -/
def tail_count (H : Nat → Nat) (h : Nat) : Nat → Nat → Nat
  | 0, _ => 0
  | m + 1, i => (if H i = h then 1 else 0) + tail_count H h m (i + 1)

/-- `bucket_start H m i h`: the number of indices `k` in `[i, i + m)` with `H k < h`;
for `i = 0` and `m` the number of photons this is where the bucket of cell `h` starts
in the photon array. -/
def bucket_start (H : Nat → Nat) (m i : Nat) : Nat → Nat
  | 0 => 0
  | h + 1 => bucket_start H m i h + tail_count H h m i

/-- The state of the scatter loop of `HashGrid::build` after the photons `0..i-1` were
placed: each cursor `cell_counts[h]` is the start of bucket `h` plus the number of
photons of that cell still to come, and every photon placed so far sits in its
bucket, at or above the cursor. -/
structure ScatterInv (H : Nat → Nat) (n size i : Nat) (cc : List Int) (photons : List Nat) :
    Prop where
  cc_len : cc.length = size
  ph_len : photons.length = n
  cursor : ∀ h, h < size →
    cc[h]? = some ((bucket_start H n 0 h + tail_count H h (n - i) i : Nat) : Int)
  placed : ∀ k, k < i → ∃ j, bucket_start H n 0 (H k) + tail_count H (H k) (n - i) i ≤ j ∧
    j < bucket_start H n 0 (H k + 1) ∧ photons[j]? = some k
  ids : ∀ (j id : Nat), photons[j]? = some id → id < n

/-- What `HashGrid::build(positions, n, radius)` establishes: the parameters of the grid,
and the bucket structure of the photon array (the scatter invariant at its end, for
the hash function of the finished grid). -/
structure GridBuilt (positions : Nat → float3) (n : Nat) (radius : ℚ) (g : HashGrid) : Prop where
  size : g.cell_counts.length = 1 <<< (closest_log2 n + 1)
  buckets : ScatterInv (fun k => g.hash_photon (positions k)) n g.cell_counts.length n
    g.cell_counts g.photons
  radius_sqr : g.radius_sqr = radius * radius
  inv_size : g.inv_size = (1 / 2 : ℚ) / radius
  bbox : g.bbox = enlarge (extend BBox.empty (photon_bbox_loop positions n 0 BBox.empty))

/-- The squared distance `lensqr(pos - positions(id))` that `HashGrid::query` computes for
a photon. -/
def photon_dist (pos : float3) (positions : Nat → float3) (id : Nat) : ℚ :=
  float3.lensqr (float3.sub pos (positions id))

/-- The cell coordinates that iteration `i` of the loop over the eight candidate cells
of `HashGrid::query` passes to `cell_range`. -/
def query_cell (px1 py1 pz1 px2 py2 pz2 : Int) (i : Nat) : Nat × Nat × Nat :=
  (int_to_uint32 (if i &&& 1 ≠ 0 then px2 else px1),
   int_to_uint32 (if i &&& 2 ≠ 0 then py2 else py1),
   int_to_uint32 (if i &&& 4 ≠ 0 then pz2 else pz1))

/-- `InBucket g positions n h id`: the photon `id` is stored in the bucket of cell `h`,
that is at a position of the photon array between the start of bucket `h` and the
start of bucket `h + 1`. -/
def InBucket (g : HashGrid) (positions : Nat → float3) (n h id : Nat) : Prop :=
  ∃ k, bucket_start (fun k => g.hash_photon (positions k)) n 0 h ≤ k ∧
    k < bucket_start (fun k => g.hash_photon (positions k)) n 0 (h + 1) ∧
    g.photons[k]? = some id

/-- The integer cell coordinates `(px1, py1, pz1, px2, py2, pz2)` that `HashGrid::query`
derives from the query position. -/
def query_coords (g : HashGrid) (pos : float3) : Int × Int × Int × Int × Int × Int :=
  let p := float3.scale (float3.sub pos g.bbox.min) g.inv_size
  let px1 := float_to_int p.x
  let py1 := float_to_int p.y
  let pz1 := float_to_int p.z
  (px1, py1, pz1,
   px1 + (if p.x - px1 > 1 / 2 then 1 else -1),
   py1 + (if p.y - py1 > 1 / 2 then 1 else -1),
   pz1 + (if p.z - pz1 > 1 / 2 then 1 else -1))

/-- The bucket index that iteration `i` of the loop over the candidate cells scans. -/
def query_hash (g : HashGrid) (pos : float3) (i : Nat) : Nat :=
  let c := query_coords g pos
  let q := query_cell c.1 c.2.1 c.2.2.1 c.2.2.2.1 c.2.2.2.2.1 c.2.2.2.2.2 i
  g.hash_cell q.1 q.2.1 q.2.2

/-- A point set in which every photon sits at the origin. -/
def origin_points : Nat → float3 := fun _ => ⟨0, 0, 0⟩

/-- A point set on a line: photon `i` sits at `(i, 0, 0)`. -/
def line_points : Nat → float3 := fun i => ⟨(i : ℚ), 0, 0⟩

/-- The brute-force radius search that the specification compares `HashGrid::query`
with: all points `id < n` whose squared distance to `pos` is below `radius ^ 2`, each
with that squared distance. -/
def brute_force_query (positions : Nat → float3) (n : Nat) (radius : ℚ) (pos : float3) :
    List (Nat × ℚ) :=
  (List.range n).filterMap (fun id =>
    if photon_dist pos positions id < radius * radius then
      some (id, photon_dist pos positions id)
    else none)

/-- The grid that `HashGrid::build` produces for three photons on a line, radius `1`. -/
def line_grid : HashGrid :=
  ⟨[2, 1, 0], [0, 0, 0, 0, 0, 1, 3, 3],
    ⟨⟨-1 / 500, 0, 0⟩, ⟨1001 / 500, 0, 0⟩⟩, 1 / 2, 1, 2⟩

/-! ## `algorithms/render_ppm.cpp`: the radius schedule

`length` (from `float3.h`, not among the sources) and `std::pow` compute roots, which
are not rational; both are parameters of the embedding, as is the camera, which the
source reaches through the virtual method `Camera::gen_ray`. -/

/-- The lambda `eval_distance(i, j)` of `estimate_pixel_size`; `dc` holds the
accumulators `d` and `c`. -/
def eval_distance (length : float3 → ℚ) (rays : List Ray) (hits : List Hit) (i j : Nat)
    (dc : ℚ × Int) : Except Fault (ℚ × Int) := do
  let hi ← rd hits i
  let hj ← rd hits j
  let ri ← rd rays i
  let rj ← rd rays j
  if hi.tri ≥ 0 ∧ hi.tri = hj.tri then
    .ok (dc.1 + length (float3.sub (float3.add ri.org (float3.scale ri.dir hi.t))
      (float3.add rj.org (float3.scale rj.dir hj.t))), dc.2 + 1)
  else .ok dc

/-- The four rays of one block of `estimate_pixel_size`: `rays[i]` goes through the pixel
`(x + (i % 2 ? 4 : 0), y + (i / 2 ? 4 : 0))`. -/
def block_rays (gen_ray : ℚ → ℚ → Ray) (kx ky : ℚ) (x y : Nat) : List Ray :=
  (List.range 4).map (fun i =>
    gen_ray (((x + (if i % 2 ≠ 0 then 4 else 0) : Nat) : ℚ) * kx - 1)
      (1 - ((y + (if i / 2 ≠ 0 then 4 else 0) : Nat) : ℚ) * ky))

/-- The body of the loop over `x` in `estimate_pixel_size`. -/
def pixel_block (gen_ray : ℚ → ℚ → Ray) (length : float3 → ℚ) (bvh : Bvh) (kx ky : ℚ)
    (x y : Nat) (dc : ℚ × Int) : Except Fault (ℚ × Int) := do
  let rays := block_rays gen_ray kx ky x y
  let hits ← rays.mapM (Scene.intersect bvh)
  let dc ← eval_distance length rays hits 0 1 dc
  let dc ← eval_distance length rays hits 2 3 dc
  let dc ← eval_distance length rays hits 0 2 dc
  eval_distance length rays hits 1 3 dc

/-- The loop `for (int x = 0; x < w; x += 8)` of `estimate_pixel_size`, with `n`
iterations left. -/
def pixel_row (gen_ray : ℚ → ℚ → Ray) (length : float3 → ℚ) (bvh : Bvh) (kx ky : ℚ) (y : Nat) :
    Nat → Nat → ℚ × Int → Except Fault (ℚ × Int)
  | 0, _, dc => .ok dc
  | n + 1, x, dc => do
    let dc ← pixel_block gen_ray length bvh kx ky x y dc
    pixel_row gen_ray length bvh kx ky y n (x + 8) dc

/-- The loop `for (int y = 0; y < h; y += 8)` of `estimate_pixel_size`, with `n`
iterations left; `total` holds `total_dist` and `total_count`. -/
def pixel_rows (gen_ray : ℚ → ℚ → Ray) (length : float3 → ℚ) (bvh : Bvh) (kx ky : ℚ) (w : Nat) :
    Nat → Nat → ℚ × Int → Except Fault (ℚ × Int)
  | 0, _, total => .ok total
  | n + 1, y, total => do
    let dc ← pixel_row gen_ray length bvh kx ky y ((w + 7) / 8) 0 (0, 0)
    pixel_rows gen_ray length bvh kx ky w n (y + 8) (total.1 + dc.1, total.2 + dc.2)

/-- `estimate_pixel_size(scene, w, h)`. -/
def estimate_pixel_size (gen_ray : ℚ → ℚ → Ray) (length : float3 → ℚ) (bvh : Bvh) (w h : Nat) :
    Except Fault ℚ := do
  let kx : ℚ := 2 / (((w : Int) - 1 : Int) : ℚ)
  let ky : ℚ := 2 / (((h : Int) - 1 : Int) : ℚ)
  let total ← pixel_rows gen_ray length bvh kx ky w ((h + 7) / 8) 0 (0, 0)
  .ok (if total.2 > 0 then total.1 / ((4 * total.2 : Int) : ℚ) else 1)

/-- The radius that `render_ppm` passes to the photon map:
`base_radius / std::pow(float(iter), 0.5f * (1.0f - alpha))` with `alpha = 0.75f`. -/
def ppm_radius (pow : ℚ → ℚ → ℚ) (base_radius : ℚ) (iter : Int) : ℚ :=
  let alpha : ℚ := 3 / 4
  base_radius / pow (iter : ℚ) (1 / 2 * (1 - alpha))

/-- The part of `render_ppm` that handles the radius.  `base_radius` is the value of the
function-local static variable on entry; the result is its value on exit together with
the radius of this iteration. -/
def render_ppm_radius (pow : ℚ → ℚ → ℚ) (gen_ray : ℚ → ℚ → Ray) (length : float3 → ℚ)
    (bvh : Bvh) (w h : Nat) (base_radius : ℚ) (iter : Int) : Except Fault (ℚ × ℚ) := do
  let base_radius ←
    (if iter = 1 then (estimate_pixel_size gen_ray length bvh w h).map (fun e => 2 * e)
     else .ok base_radius)
  .ok (base_radius, ppm_radius pow base_radius iter)

/-- A camera whose eye lies on the first triangle of the two-triangle scene.  Every ray
it generates starts on the triangle and hits it at `t = 0`, whatever its direction. -/
def eye_on_triangle_ray (u v : ℚ) : Ray := ⟨⟨1 / 4, 1 / 4, 0⟩, 0, ⟨u, v, -1⟩, FLT_MAX⟩

/-- A stand-in for `length` in evaluations: the sum of the absolute values of the
components.  It agrees with the Euclidean length on vectors parallel to a
coordinate axis, the only arguments it is applied to in the evaluations below. -/
def taxicab_length (v : float3) : ℚ := |v.x| + |v.y| + |v.z|

/-- A stand-in for `std::pow` in evaluations: the first argument to the power zero or
one, whichever is nearer to the exponent. -/
def coarse_pow (x y : ℚ) : ℚ := if y < 1 / 2 then 1 else x

/-- A camera that looks down on the two-triangle scene from above its first triangle. -/
def camera_above_ray (u v : ℚ) : Ray := ⟨⟨1 / 4, 1 / 4, 1⟩, 0, ⟨u / 100, v / 100, -1⟩, FLT_MAX⟩

/-! ## Fuel -/

/-- `NoFuel x`: the execution `x` did not stop for lack of fuel. -/
def NoFuel {α : Type} (x : Except Fault α) : Prop := x ≠ .error .out_of_fuel

/-- `Safe x`: the execution `x` returns, or it stops at the assertion of the source; no
array access is out of range and the fuel of the embedding is not exhausted. -/
def Safe {α : Type} (x : Except Fault α) : Prop := ∀ f, x = .error f → f = .assertion

/-- The resources `BvhBuilder::build(node_id)` relies on for the node with range
`[b, e)`: every primitive id has a flag, the scratch buffer holds the range, and the
node array has room for all nodes that the range can still produce. -/
structure BuildRes (st : BuildState) (tmp : List Nat) (b e : Nat) : Prop where
  flags : ∀ a p, p ∈ st.prims a → p < st.tmp_flags.length
  tmp : e - b ≤ tmp.length
  slots : st.node_count + 2 * (e - b) ≤ st.nodes.length + 2

/-- `ChildOf nodes k j`: slot `k` of the node array is an inner node (`num_prims ≤ 0`) and
`j` is one of the two slots `child`, `child + 1` that it points to. -/
def ChildOf (nodes : List Node) (k j : Nat) : Prop :=
  ∃ nd, nodes[k]? = some nd ∧ nd.num_prims ≤ 0 ∧ (j = nd.child ∨ j = nd.child + 1)

/-! ## `color.h`, `float2.h` -/

/-- Modelled from the spec: `color.h` is not among the sources; an `rgb` is a triple of
floats with component-wise arithmetic. -/
structure rgb where
  r : ℚ
  g : ℚ
  b : ℚ
  deriving DecidableEq

namespace rgb

/-- The constructor `rgb(f)` that replicates one value. -/
def splat (f : ℚ) : rgb := ⟨f, f, f⟩

/-- Component-wise `a + b`. -/
def add (a b : rgb) : rgb := ⟨a.r + b.r, a.g + b.g, a.b + b.b⟩

/-- Component-wise `a * b`. -/
def mul (a b : rgb) : rgb := ⟨a.r * b.r, a.g * b.g, a.b * b.b⟩

/-- Scaling `a * f` (also `f * a`). -/
def scale (a : rgb) (f : ℚ) : rgb := ⟨a.r * f, a.g * f, a.b * f⟩

/-- Division `a / f` by a float. -/
def div (a : rgb) (f : ℚ) : rgb := ⟨a.r / f, a.g / f, a.b / f⟩

/-- Scalar product `dot(a, b)` of two colours. -/
def dot (a b : rgb) : ℚ := a.r * b.r + a.g * b.g + a.b * b.b

end rgb

/-- Modelled from the spec: `float2.h` is not among the sources; a `float2` is a pair of
floats. -/
structure float2 where
  x : ℚ
  y : ℚ
  deriving DecidableEq

/-- `lerp(a, b, c, u, v)` on `float3`: `a * (1 - u - v) + b * u + c * v`. -/
def lerp3 (a b c : float3) (u v : ℚ) : float3 :=
  float3.add (float3.add (float3.scale a (1 - u - v)) (float3.scale b u)) (float3.scale c v)

/-- `lerp(a, b, c, u, v)` on `float2`. -/
def lerp2 (a b c : float2) (u v : ℚ) : float2 :=
  ⟨a.x * (1 - u - v) + b.x * u + c.x * v, a.y * (1 - u - v) + b.y * u + c.y * v⟩

/-- The constant `pi = 3.14159265359f` of `common.h`. -/
def pi : ℚ := 314159265359 / 100000000000

/-! ## `samplers.h`, `random.h` -/

/-- A `Sampler`.  The numbers it returns are the values of a fixed sequence; `pos` counts
the calls made so far. -/
structure Sampler where
  draws : Nat → ℚ
  pos : Nat

/-- One call `sampler()`: the number returned and the sampler afterwards. -/
def Sampler.next (s : Sampler) : ℚ × Sampler := (s.draws s.pos, ⟨s.draws, s.pos + 1⟩)

/-- Local coordinates for shading. -/
structure LocalCoords where
  n : float3
  t : float3
  bt : float3
  deriving DecidableEq

/-- `gen_local_coords(n)`; `normalize` is a parameter (see `Scene.surface_params`). -/
def gen_local_coords (normalize : float3 → float3) (n : float3) : LocalCoords :=
  let t : float3 :=
    if n.x ≠ 0 ∨ n.y ≠ 0 then normalize (float3.cross n ⟨0, 0, 1⟩) else ⟨1, 0, 0⟩
  let bt := float3.cross n t
  ⟨n, t, bt⟩

/-- `russian_roulette(c, max)`: the survival probability of a path with contribution
`c`.  The constant `luminance` of `color.h` is a parameter. -/
def russian_roulette (luminance : rgb) (c : rgb) (max : ℚ) : ℚ :=
  Min.min max (rgb.dot c luminance * 2)

/-! ## `materials.h`, `lights.h` -/

/-- Sample returned by a BSDF; `in_` is the field `in` of the source. -/
structure BsdfSample where
  in_ : float3
  pdf : ℚ
  color : rgb
  deriving DecidableEq

/-- Surface parameters for a given point. -/
structure SurfaceParams where
  entering : Bool
  point : float3
  uv : float2
  face_normal : float3
  coords : LocalCoords
  deriving DecidableEq

/-- The classification `Bsdf::Type` of BSDF shapes. -/
inductive BsdfType where
  | Diffuse
  | Glossy
  | Specular
  deriving DecidableEq

/-- `Bsdf::make_sample<inverted>(dir, pdf, color, surf)`. -/
def Bsdf.make_sample (inverted : Bool) (dir : float3) (pdf : ℚ) (color : rgb)
    (surf : SurfaceParams) : BsdfSample :=
  if pdf > 0 ∧ Bool.xor inverted (decide (float3.dot dir surf.face_normal > 0)) = true then
    ⟨dir, pdf, color⟩
  else ⟨dir, 1, rgb.splat 0⟩

/-- The base class `Bsdf`: the type tag and the three virtual methods. -/
structure Bsdf where
  ty : BsdfType
  eval : float3 → SurfaceParams → float3 → rgb
  sample : Sampler → SurfaceParams → float3 → Bool → BsdfSample × Sampler
  pdf : float3 → SurfaceParams → float3 → ℚ

/-- Result from sampling a light source. -/
structure EmissionSample where
  pos : float3
  dir : float3
  intensity : rgb
  pdf_area : ℚ
  pdf_dir : ℚ
  cos : ℚ

/-- Result from sampling direct lighting from a light source. -/
structure DirectLightingSample where
  pos : float3
  intensity : rgb
  pdf_area : ℚ
  pdf_dir : ℚ
  cos : ℚ

/-- Emission value at a given point on the light surface. -/
structure EmissionValue where
  intensity : rgb
  pdf_area : ℚ
  pdf_dir : ℚ

/-- The base class `Light`: its virtual methods. -/
structure Light where
  sample_direct : float3 → Sampler → DirectLightingSample × Sampler
  sample_emission : Sampler → EmissionSample × Sampler
  emission : float3 → ℚ → ℚ → EmissionValue
  has_area : Bool

/-- A material is a combination of a BSDF and an optional light emitter (null pointers
are `none`). -/
structure Material where
  bsdf : Option Bsdf
  emitter : Option Light

/-! ## `scene.h`: shading data -/

/-- The part of `Scene` that the integrator uses. -/
structure Scene where
  lights : List Light
  materials : List Material
  bvh : Bvh
  texcoords : List float2
  normals : List float3
  indices : List Nat
  face_normals : List float3

/-- `Scene::material(hit)`. -/
def Scene.material (scene : Scene) (hit : Hit) : Except Fault Material := do
  if hit.tri < 0 then .error .assertion
  else
    let m ← rd scene.indices (hit.tri.toNat * 4 + 3)
    rd scene.materials m

/-- `Scene::surface_params(ray, hit)`.  `normalize` (from `float3.h`) computes a square
root and is a parameter of the embedding. -/
def Scene.surface_params (scene : Scene) (normalize : float3 → float3) (ray : Ray) (hit : Hit) :
    Except Fault SurfaceParams := do
  if hit.tri < 0 then .error .assertion
  else
    let i0 ← rd scene.indices (hit.tri.toNat * 4 + 0)
    let i1 ← rd scene.indices (hit.tri.toNat * 4 + 1)
    let i2 ← rd scene.indices (hit.tri.toNat * 4 + 2)
    let fn ← rd scene.face_normals hit.tri.toNat
    let n0 ← rd scene.normals i0
    let n1 ← rd scene.normals i1
    let n2 ← rd scene.normals i2
    let n := normalize (lerp3 n0 n1 n2 hit.u hit.v)
    let t0 ← rd scene.texcoords i0
    let t1 ← rd scene.texcoords i1
    let t2 ← rd scene.texcoords i2
    let uv := lerp2 t0 t1 t2 hit.u hit.v
    let entering := decide (float3.dot ray.dir fn ≤ 0)
    .ok ⟨entering, float3.add ray.org (float3.scale ray.dir hit.t), uv,
      if entering then fn else float3.scale fn (-1),
      gen_local_coords normalize
        (if float3.dot ray.dir n ≤ 0 then n else float3.scale n (-1))⟩

/-! ## `algorithms/render_ppm.cpp`: photon tracing -/

/-- A photon: path contribution, incoming direction, position. -/
structure Photon where
  contrib : rgb
  in_dir : float3
  pos : float3
  deriving DecidableEq

/-- The index `std::floor(sampler() * (((float)scene.lights.size()) - 0.01))` of the light
chosen for the draw `u` among `n` lights (in `trace_photons` and
`NextEventEstimator2`). -/
def light_index (n : Nat) (u : ℚ) : Int := ⌊u * ((n : ℚ) - 1 / 100)⌋

/-- The selection probability `pLight = 1.0f / scene.lights.size()`. -/
def light_pdf (n : Nat) : ℚ := 1 / (n : ℚ)

/-- The end of the loop body of `trace_photons` (`//Terminate?`): with the draw `u`, the
path is ended (`none`) or goes on with the compensated energy. -/
def roulette (luminance : rgb) (sample : BsdfSample) (energy : rgb) (u : ℚ) : Option rgb :=
  let q := 1 - russian_roulette luminance (rgb.div sample.color sample.pdf) (3 / 4)
  if u < q then none else some (rgb.scale energy (1 / (1 - q)))

/-- The loop `while (true)` of `trace_photons`; `fuel` bounds the number of bounces. -/
def trace_photons_loop (luminance : rgb) (normalize : float3 → float3) (scene : Scene) :
    Nat → List Photon → rgb → Ray → Sampler → Except Fault (List Photon × Sampler)
  | 0, _, _, _, _ => .error .out_of_fuel
  | fuel + 1, photons, energy, ray, sampler => do
    let hit ← Scene.intersect scene.bvh ray
    if hit.tri < 0 then .ok (photons, sampler)
    else
      let mat ← scene.material hit
      let surf ← scene.surface_params normalize ray hit
      let out := float3.scale ray.dir (-1)
      match mat.bsdf, mat.emitter with
      | some bsdf, none =>
        let photons :=
          if bsdf.ty ≠ BsdfType.Specular then photons ++ [⟨energy, out, surf.point⟩] else photons
        let bounce := bsdf.sample sampler surf out true
        let energy := rgb.mul energy (rgb.div bounce.1.color bounce.1.pdf)
        let ray : Ray := ⟨surf.point, ray.tmin, bounce.1.in_, ray.tmax⟩
        let draw := bounce.2.next
        match roulette luminance bounce.1 energy draw.1 with
        | none => .ok (photons, draw.2)
        | some energy =>
          trace_photons_loop luminance normalize scene fuel photons energy ray draw.2
      | _, _ => .ok (photons, sampler)

/-- `trace_photons(photons, scene, sampler)`. -/
def trace_photons (luminance : rgb) (normalize : float3 → float3) (scene : Scene) (fuel : Nat)
    (photons : List Photon) (sampler : Sampler) : Except Fault (List Photon × Sampler) := do
  let draw := sampler.next
  let lighti := light_index scene.lights.length draw.1
  let pLight := light_pdf scene.lights.length
  let light ← rdi scene.lights lighti
  let emitted := light.sample_emission draw.2
  let lightSample := emitted.1
  let energy := lightSample.intensity
  let pLightSample := pLight * lightSample.pdf_area * lightSample.pdf_dir
  let energy := rgb.scale (rgb.div energy pLightSample) lightSample.cos
  let ray : Ray := ⟨lightSample.pos, 1 / 1000, lightSample.dir, FLT_MAX⟩
  trace_photons_loop luminance normalize scene fuel photons energy ray emitted.2

/-! ## `algorithms/render_ppm.cpp`: eye paths -/

/-- `PhotonMap`: the photons, the grid built on them, and the query radius. -/
structure PhotonMap where
  photons : List Photon
  grid : HashGrid
  radius : ℚ

/-- The position function `[&](int i){ return photons[i].pos; }`. -/
def photon_pos (photons : List Photon) (i : Nat) : float3 :=
  (photons.getD i ⟨rgb.splat 0, float3.splat 0, float3.splat 0⟩).pos

/-- The constructor `PhotonMap(photons, radius)`. -/
def PhotonMap.build (photons : List Photon) (radius : ℚ) : Except Fault PhotonMap := do
  let grid ← HashGrid.build (photon_pos photons) photons.length radius
  .ok ⟨photons, grid, radius⟩

/-- `PhotonMap::query(pos, callback)`: the list of the calls `callback(photons[id], d)`. -/
def PhotonMap.query (pm : PhotonMap) (pos : float3) : Except Fault (List (Photon × ℚ)) := do
  let found ← pm.grid.query pos (photon_pos pm.photons)
  found.mapM (fun f => do
    let p ← rd pm.photons f.1
    .ok (p, f.2))

/-- The values that `NextEventEstimator2` leaves in its reference parameters
`irradiance`, `pNE`, `pBRDF`, and the sampler afterwards. -/
structure NextEvent where
  irradiance : rgb
  pNE : ℚ
  pBRDF : ℚ
  sampler : Sampler

/-- `NextEventEstimator2(irradiance, pNE, mat, out, surf, scene, sampler, throughput,
pBRDF)`, called where the material has a BSDF.  `length` (from `float3.h`) is a
parameter. -/
def NextEventEstimator2 (length : float3 → ℚ) (irradiance : rgb) (bsdf : Bsdf) (out : float3)
    (surf : SurfaceParams) (scene : Scene) (sampler : Sampler) (throughput : rgb) :
    Except Fault NextEvent := do
  let draw := sampler.next
  let lighti := light_index scene.lights.length draw.1
  let pLight := light_pdf scene.lights.length
  let light ← rdi scene.lights lighti
  let direct := light.sample_direct surf.point draw.2
  let lightSample := direct.1
  let d := length (float3.sub lightSample.pos surf.point)
  let sampledDir := float3.scale (float3.sub lightSample.pos surf.point) (1 / d)
  let pNE := lightSample.pdf_area * (d * d / lightSample.cos) * pLight
  let occHit ← Scene.occluded scene.bvh ⟨surf.point, 1 / 10000, sampledDir, d - 1 / 10000⟩
  let irradiance :=
    if ¬ occHit then
      let cosTheta := Max.max (float3.dot surf.coords.n sampledDir) 0
      let brdf := bsdf.eval sampledDir surf out
      rgb.mul (rgb.div (rgb.mul (rgb.scale brdf cosTheta) lightSample.intensity) pNE) throughput
    else irradiance
  .ok ⟨irradiance, pNE, bsdf.pdf sampledDir surf out, direct.2⟩

/-- The local variables of `eye_trace` that live across loop iterations. -/
structure EyeState where
  color : rgb
  throughput : rgb
  pBRDF : ℚ
  ray : Ray
  lastMat : BsdfType
  sampler : Sampler

/-- The callback of the photon query in `eye_trace` (Epanechnikov filter): the colour
after the call for the photon `p` at squared distance `d2`. -/
def gather (pm : PhotonMap) (bsdf : Bsdf) (surf : SurfaceParams) (out : float3)
    (throughput : rgb) (color : rgb) (found : Photon × ℚ) : rgb :=
  let r2 := pm.radius * pm.radius
  let pir2 := r2 * pi
  let k := rgb.div (rgb.scale found.1.contrib (2 / pir2 * (1 - found.2 / r2)))
    (pm.photons.length : ℚ)
  rgb.add color (rgb.mul (rgb.mul throughput (bsdf.eval found.1.in_dir surf out)) k)

/-- The loop `while (true)` of `eye_trace`; `fuel` bounds the number of bounces. -/
def eye_trace_loop (length : float3 → ℚ) (normalize : float3 → float3) (scene : Scene)
    (photon_map : PhotonMap) : Nat → EyeState → Except Fault rgb
  | 0, _ => .error .out_of_fuel
  | fuel + 1, s => do
    let hit ← Scene.intersect scene.bvh s.ray
    if hit.tri < 0 then .ok s.color
    else
      let surf ← scene.surface_params normalize s.ray hit
      let mat ← scene.material hit
      let out := float3.scale s.ray.dir (-1)
      match mat.emitter with
      | some light =>
        if surf.entering then
          if s.lastMat ≠ BsdfType.Glossy then
            .ok (rgb.add s.color
              (rgb.mul s.throughput (light.emission out surf.uv.x surf.uv.y).intensity))
          else .ok s.color
        else .ok s.color
      | none =>
        match mat.bsdf with
        | none => .ok s.color
        | some bsdf =>
          if bsdf.ty = BsdfType.Specular then
            let bounce := bsdf.sample s.sampler surf out false
            eye_trace_loop length normalize scene photon_map fuel
              ⟨s.color, s.throughput, s.pBRDF, ⟨surf.point, s.ray.tmin, bounce.1.in_, s.ray.tmax⟩,
                BsdfType.Specular, bounce.2⟩
          else if bsdf.ty = BsdfType.Glossy then do
            let ne ← NextEventEstimator2 length (rgb.splat 0) bsdf out surf scene s.sampler
              s.throughput
            let color := rgb.add s.color ne.irradiance
            let bounce := bsdf.sample ne.sampler surf out false
            let throughput := rgb.mul s.throughput (rgb.div bounce.1.color bounce.1.pdf)
            eye_trace_loop length normalize scene photon_map fuel
              ⟨color, throughput, ne.pBRDF, ⟨surf.point, s.ray.tmin, bounce.1.in_, s.ray.tmax⟩,
                BsdfType.Glossy, bounce.2⟩
          else do
            let found ← photon_map.query surf.point
            .ok (found.foldl (gather photon_map bsdf surf out s.throughput) s.color)

/-- `eye_trace(ray, scene, photon_map, sampler, light_path_count)`.  The last parameter
of the source is not used in its body and is left out. -/
def eye_trace (length : float3 → ℚ) (normalize : float3 → float3) (fuel : Nat) (ray : Ray)
    (scene : Scene) (photon_map : PhotonMap) (sampler : Sampler) : Except Fault rgb :=
  eye_trace_loop length normalize scene photon_map fuel
    ⟨rgb.splat 0, rgb.splat 1, 1, ⟨ray.org, 1 / 10000, ray.dir, ray.tmax⟩, BsdfType.Specular, sampler⟩

/-! ## Example data for the integrator -/

/-- A surface point in the plane `z = 0`, seen from above. -/
def flat_surface : SurfaceParams :=
  ⟨true, ⟨0, 0, 0⟩, ⟨0, 0⟩, ⟨0, 0, 1⟩, ⟨⟨0, 0, 1⟩, ⟨1, 0, 0⟩, ⟨0, 1, 0⟩⟩⟩

/-- A sampler that always returns `0`. -/
def zero_sampler : Sampler := ⟨fun _ => 0, 0⟩

/-- A light that emits the intensity `(1, 1, 1)` in every direction. -/
def glow_light : Light :=
  ⟨fun _ s => (⟨⟨0, 0, 0⟩, rgb.splat 1, 1, 1, 1⟩, s),
   fun s => (⟨⟨0, 0, 0⟩, ⟨0, 0, 1⟩, rgb.splat 1, 1, 1, 1⟩, s),
   fun _ _ _ => ⟨rgb.splat 1, 1, 1⟩, true⟩

/-- The two-triangle scene with both triangles made of a material that has the emitter
`glow_light` and no BSDF; all normals are `(0, 0, 1)`. -/
def emitter_scene : Scene :=
  ⟨[glow_light], [⟨none, some glow_light⟩], two_tri_bvh,
   List.replicate 6 ⟨0, 0⟩, List.replicate 6 ⟨0, 0, 1⟩, two_tri_indices,
   [⟨0, 0, 1⟩, ⟨0, 0, 1⟩]⟩

/-- A stand-in for `normalize` in evaluations where the vectors are unit vectors. -/
def unit_normalize (v : float3) : float3 := v

/-- A photon map without photons (as built by `PhotonMap.build [] 1`). -/
def empty_photon_map : PhotonMap :=
  ⟨[], ⟨[], [0, 0], enlarge (extend BBox.empty BBox.empty), 1 / 2, 1, 0⟩, 1⟩

/-- Vertices of a scene with two triangles above each other: the first in the plane
`z = 0`, the second, shifted by `1 / 2` along `x`, in the plane `z = 1`. -/
def stacked_tri_verts : List float3 :=
  [⟨0, 0, 0⟩, ⟨1, 0, 0⟩, ⟨0, 1, 0⟩, ⟨1 / 2, 0, 1⟩, ⟨3 / 2, 0, 1⟩, ⟨1 / 2, 1, 1⟩]

/-- The structure that `Bvh::build` produces for the stacked scene: an inner root, the
lower triangle in the left leaf and the upper triangle in the right leaf. -/
def stacked_tri_bvh : Bvh :=
  ⟨[⟨⟨0, 0, 0⟩, 1, ⟨3 / 2, 1, 1⟩, 0⟩, ⟨⟨0, 0, 0⟩, 0, ⟨1, 1, 0⟩, 1⟩,
     ⟨⟨1 / 2, 0, 1⟩, 1, ⟨3 / 2, 1, 1⟩, 1⟩],
    [0, 1],
    [PrecomputedTri.mk3 ⟨0, 0, 0⟩ ⟨1, 0, 0⟩ ⟨0, 1, 0⟩,
     PrecomputedTri.mk3 ⟨1 / 2, 0, 1⟩ ⟨3 / 2, 0, 1⟩ ⟨1 / 2, 1, 1⟩], 3⟩

/-- A ray that starts above both triangles of the stacked scene and crosses the upper
one at `t = 1` and the lower one at `t = 2`. -/
def ray_through_both : Ray := ⟨⟨3 / 5, 1 / 5, 2⟩, 0, ⟨1 / 100, 1 / 100, -1⟩, 10⟩

/-- `NoAssert x`: the run `x` did not stop at an assertion of the source. -/
def NoAssert {α : Type} (x : Except Fault α) : Prop := x ≠ .error .assertion

/-- The boxes of the primitives `prims[i], ..., prims[i + n - 1]`, in this order. -/
def prim_boxes (prims : List Nat) (bboxes : List BBox) (i n : Nat) : List BBox :=
  (slice prims i n).map fun p => bboxes.getD p BBox.empty

/-- The bounding box of the primitives `prims[i, i + n)`: the boxes are merged with
`extend`, starting from `BBox::empty()`. -/
def range_bbox (prims : List Nat) (bboxes : List BBox) (i n : Nat) : BBox :=
  (prim_boxes prims bboxes i n).foldl extend BBox.empty

/-- The cost of splitting the range `[begin, end)` at `s`:
`(s - begin) * half_area(bbox of prims[begin, s)) + (end - s) * half_area(bbox of prims[s, end))`. -/
def split_cost (prims : List Nat) (bboxes : List BBox) (begin end_ s : Nat) : ℚ :=
  ((s - begin : Nat) : ℚ) * half_area (range_bbox prims bboxes begin (s - begin)) +
    ((end_ - s : Nat) : ℚ) * half_area (range_bbox prims bboxes s (end_ - s))

/-- What the right sweep of `find_split` has established when the indices above `i`
are done: the running box, and the best split among those indices (none when every
cost seen was at least `FLT_MAX`). -/
structure SweepInv (prims : List Nat) (bboxes : List BBox) (begin end_ i : Nat) (cur : BBox)
    (acc : SplitAcc) : Prop where
  box : cur = range_bbox prims bboxes (i + 1) (end_ - (i + 1))
  le_max : acc.min_cost ≤ FLT_MAX
  least : ∀ j, i < j → j < end_ → acc.min_cost ≤ split_cost prims bboxes begin end_ j
  best : (acc.min_split = -1 ∧ acc.min_cost = FLT_MAX ∧ acc.min_bb = BBox.uninit) ∨
    ∃ s : Nat, i < s ∧ s < end_ ∧ acc.min_split = s ∧
      acc.min_cost = split_cost prims bboxes begin end_ s ∧
      acc.min_bb = range_bbox prims bboxes s (end_ - s) ∧ acc.min_cost < FLT_MAX

/-- A box whose half area exceeds `FLT_MAX`. -/
def huge_box : BBox :=
  ⟨⟨0, 0, 0⟩, ⟨18446744073709551616, 18446744073709551616, 18446744073709551616⟩⟩

/-- The loop over the three axes in `BvhBuilder::build`: the best split found by
`find_split` on the axes `0`, `1`, `2`, an earlier axis winning ties. -/
def BvhBuilder.best_split (bboxes : List BBox) (st : BuildState) (begin end_ : Nat) :
    Except Fault AxisAcc := do
  let acc : AxisAcc := ⟨BBox.uninit, FLT_MAX, -1, 0⟩
  let acc ← try_axis bboxes st begin end_ acc 0
  let acc ← try_axis bboxes st begin end_ acc 1
  try_axis bboxes st begin end_ acc 2

/-- The cost `(end - begin - traversal_cost) * half_area(node.min, node.max)` with which
`BvhBuilder::build` compares the best split of the node in slot `node_id`. -/
def BvhBuilder.leaf_cost (st : BuildState) (node_id begin end_ : Nat) : ℚ :=
  (((end_ - begin : Nat) : ℚ) - 1) *
    half_area_pts (st.nodes.getD node_id Node.uninit).min (st.nodes.getD node_id Node.uninit).max

/-- The statements of `BvhBuilder::build(node_id)` between the decision to split and
the recursive calls: the primitives are partitioned at `min_split` of the axis
`min_axis`, the node becomes an inner node and its two children are written.  The
result is `(st1, X, tmpX, Y)`: the state after the split, and the arguments of the two
calls that follow, namely `build(X)` with the scratch buffer `tmpX` and then `build(Y)`
with the buffer of the caller. -/
def BvhBuilder.split_at (bboxes : List BBox) (tmp : List Nat) (st : BuildState)
    (node_id : Nat) (node : Node) (begin end_ : Nat) (min_right : BBox) (min_axis : Fin 3)
    (min_split : Nat) : Except Fault (BuildState × Nat × List Nat × Nat) := do
  let axis1 : Fin 3 := min_axis + 1
  let axis2 : Fin 3 := min_axis + 2
  let flags ← flag_primitives (st.prims min_axis) begin end_ st.tmp_flags min_split
  let p1 ← sorted_partition (st.prims axis1) tmp begin end_ min_split flags
  let prims := Function.update st.prims axis1 p1
  let p2 ← sorted_partition (prims axis2) tmp begin end_ min_split flags
  let prims := Function.update prims axis2 p2
  let min_left ← left_box_loop (prims min_axis) bboxes (min_split - begin) begin BBox.empty
  let num_nodes := st.node_count
  let node_count := st.node_count + 2
  let nodes ← wr st.nodes node_id
    { node with first_prim := num_nodes, num_prims := -(min_axis.val : Int) }
  let left : Node := ⟨min_left.min, begin, min_left.max, (min_split : Int) - begin⟩
  let nodes ← wr nodes num_nodes left
  let right : Node := ⟨min_right.min, min_split, min_right.max, (end_ : Int) - min_split⟩
  let nodes ← wr nodes (num_nodes + 1) right
  let smallest_node := if right.num_prims < left.num_prims then num_nodes + 1 else num_nodes
  let biggest_node := if right.num_prims ≥ left.num_prims then num_nodes + 1 else num_nodes
  let st : BuildState := ⟨nodes, node_count, prims, flags⟩
  let smallest ← rd nodes smallest_node
  let spawn_task := smallest.num_prims > parallel_threshold
  if spawn_task then
    .ok (st, smallest_node, List.replicate smallest.num_prims.toNat 0, biggest_node)
  else
    .ok (st, biggest_node, tmp, smallest_node)

/-- The part of `BvhBuilder::build(node_id)` that precedes the recursive calls.  The
result is `none` when the node is left as a leaf, and the result of `split_at`
otherwise. -/
def BvhBuilder.split_node (bboxes : List BBox) (tmp : List Nat) (st : BuildState)
    (node_id : Nat) : Except Fault (Option (BuildState × Nat × List Nat × Nat)) := do
  let traversal_cost : ℚ := 1
  let node ← rd st.nodes node_id
  let begin := node.first_prim
  let end_i : Int := node.first_prim + node.num_prims
  if end_i - begin ≤ 1 then .ok none
  else
    let end_ := end_i.toNat
    let acc : AxisAcc := ⟨BBox.uninit, FLT_MAX, -1, 0⟩
    let acc ← try_axis bboxes st begin end_ acc 0
    let acc ← try_axis bboxes st begin end_ acc 1
    let acc ← try_axis bboxes st begin end_ acc 2
    if ¬ (acc.min_split > begin ∧ acc.min_split < end_) then .error .assertion
    else if acc.min_cost < (((end_ - begin : Nat) : ℚ) - traversal_cost)
        * half_area_pts node.min node.max then do
      let r ← BvhBuilder.split_at bboxes tmp st node_id node begin end_ acc.min_right
        acc.min_axis acc.min_split.toNat
      .ok (some r)
    else .ok none

/-- The continuation of `BvhBuilder::build(node_id)` after `split_node`: nothing for
a leaf, the two recursive calls otherwise. -/
def BvhBuilder.recurse (build : List Nat → BuildState → Nat → Except Fault BuildState)
    (tmp : List Nat) (st : BuildState) :
    Option (BuildState × Nat × List Nat × Nat) → Except Fault BuildState
  | none => .ok st
  | some (st1, X, tmpX, Y) => do
    let stA ← build tmpX st1 X
    build tmp stA Y

/-- Equality of builder states is decidable: the three index arrays are compared one
by one. -/
instance : DecidableEq BuildState := fun a b =>
  decidable_of_iff (a.nodes = b.nodes ∧ a.node_count = b.node_count ∧
      (a.prims 0 = b.prims 0 ∧ a.prims 1 = b.prims 1 ∧ a.prims 2 = b.prims 2) ∧
      a.tmp_flags = b.tmp_flags) (by
    obtain ⟨n1, c1, p1, f1⟩ := a
    obtain ⟨n2, c2, p2, f2⟩ := b
    simp only [BuildState.mk.injEq]
    constructor
    · rintro ⟨h1, h2, ⟨h3, h4, h5⟩, h6⟩
      refine ⟨h1, h2, ?_, h6⟩
      funext a
      match a with
      | 0 => exact h3
      | 1 => exact h4
      | 2 => exact h5
    · rintro ⟨h1, h2, h3, h4⟩
      exact ⟨h1, h2, ⟨by rw [h3], by rw [h3], by rw [h3]⟩, h4⟩)

/-- The three index arrays that `Bvh::build` sorts by the coordinates of the centers. -/
def Bvh.sorted_prims (centers : List float3) (num_tris : Nat) : Fin 3 → List Nat := fun a =>
  match a with
  | 0 => sort_prims centers float3.x num_tris
  | 1 => sort_prims centers float3.y num_tris
  | 2 => sort_prims centers float3.z num_tris

/-- The state of the builder at the root call `builder.build(0)` in `Bvh::build`:
`loc` is the global bounding box and `nodes` the array allocated by the caller. -/
def Bvh.root_state (nodes : List Node) (loc : BBox) (centers : List float3) (num_tris : Nat) :
    BuildState :=
  ⟨nodes.set 0 ⟨float3.min loc.min (float3.splat FLT_MAX), 0,
      float3.max loc.max (float3.splat (-FLT_MAX)), num_tris⟩,
    1, Bvh.sorted_prims centers num_tris, List.replicate num_tris 0⟩

/-- `Calls bboxes F T S I fuel tmp st id`: the call of `BvhBuilder::build` with the
scratch buffer `T`, the state `S` and the node `I` (and fuel `F`) leads to the call
with the buffer `tmp`, the state `st` and the node `id`: it is that call itself or
one of the (nested) recursive calls, the second call of a pair being made in the state
that the first call returns. -/
inductive BvhBuilder.Calls (bboxes : List BBox) (F : Nat) (T : List Nat) (S : BuildState)
    (I : Nat) : Nat → List Nat → BuildState → Nat → Prop
  | root : BvhBuilder.Calls bboxes F T S I F T S I
  | first (fuel : Nat) (tmp : List Nat) (st : BuildState) (id : Nat) (st1 : BuildState)
      (X : Nat) (tmpX : List Nat) (Y : Nat) :
      BvhBuilder.Calls bboxes F T S I (fuel + 1) tmp st id →
      BvhBuilder.split_node bboxes tmp st id = .ok (some (st1, X, tmpX, Y)) →
      BvhBuilder.Calls bboxes F T S I fuel tmpX st1 X
  | second (fuel : Nat) (tmp : List Nat) (st : BuildState) (id : Nat) (st1 : BuildState)
      (X : Nat) (tmpX : List Nat) (Y : Nat) (stA : BuildState) :
      BvhBuilder.Calls bboxes F T S I (fuel + 1) tmp st id →
      BvhBuilder.split_node bboxes tmp st id = .ok (some (st1, X, tmpX, Y)) →
      BvhBuilder.build bboxes fuel tmpX st1 X = .ok stA →
      BvhBuilder.Calls bboxes F T S I fuel tmp stA Y

/-- The boxes of the two triangles of the two-triangle scene. -/
def two_tri_boxes : List BBox := [⟨⟨0, 0, 0⟩, ⟨1, 1, 0⟩⟩, ⟨⟨10, 0, 0⟩, ⟨11, 1, 0⟩⟩]

/-- The centers of the two triangles of the two-triangle scene. -/
def two_tri_centers : List float3 := [⟨1 / 3, 1 / 3, 0⟩, ⟨31 / 3, 1 / 3, 0⟩]

/-- The state of the builder at the root call for the two-triangle scene. -/
def two_tri_root : BuildState :=
  Bvh.root_state (List.replicate 5 Node.uninit) ⟨⟨0, 0, 0⟩, ⟨11, 1, 0⟩⟩ two_tri_centers 2

/-- The state of the builder after the root of the two-triangle scene was split. -/
def two_tri_split : BuildState :=
  ⟨[⟨⟨0, 0, 0⟩, 1, ⟨11, 1, 0⟩, 0⟩, ⟨⟨0, 0, 0⟩, 0, ⟨1, 1, 0⟩, 1⟩, ⟨⟨10, 0, 0⟩, 1, ⟨11, 1, 0⟩, 1⟩,
     Node.uninit, Node.uninit], 3, fun _ => [0, 1], [0, 1]⟩

/-! ## Notions for the termination of the traversal -/

/-- The number of inner nodes of the tree: the nodes whose count field is not positive. -/
def Bvh.inner_count (bvh : Bvh) : Nat := bvh.nodes.countP (fun nd => decide (nd.num_prims ≤ 0))

/-- `Expandable bboxes prim_ids nodes c hi`: `c` is the child link of an inner node; its
two children, the slots `c` and `c + 1`, are roots of subtrees, and the descendants of
the inner node occupy the slots `[c, hi)`. -/
def Expandable (bboxes : List BBox) (prim_ids : List Nat) (nodes : List Node) (c hi : Nat) :
    Prop :=
  ∃ b s e m,
    (Subtree bboxes prim_ids nodes c b s (c + 2) m ∧
      Subtree bboxes prim_ids nodes (c + 1) s e m hi) ∨
    (Subtree bboxes prim_ids nodes (c + 1) s e (c + 2) m ∧
      Subtree bboxes prim_ids nodes c b s m hi)

/-- `Pending bboxes prim_ids nodes stack p W`: the traversal stack holds the sentinel
`-1` at position `0` and child links of inner nodes at the positions `1..p`; the
subtrees that these links stand for have `W` descendant slots altogether. -/
inductive Pending (bboxes : List BBox) (prim_ids : List Nat) (nodes : List Node)
    (stack : List Int) : Nat → Nat → Prop
  | bottom : stack[0]? = some (-1) → Pending bboxes prim_ids nodes stack 0 0
  | item (p W c hi : Nat) : Pending bboxes prim_ids nodes stack p W →
      stack[p + 1]? = some (c : Int) → Expandable bboxes prim_ids nodes c hi →
      Pending bboxes prim_ids nodes stack (p + 1) (W + (hi - c))

/-- `TravInv bboxes prim_ids nodes s W`: the loop of `Bvh::traverse` is finished in the
state `s` (`top < 0`), or `top` and the stack entries are child links of inner nodes
whose subtrees have at most `W` descendant slots altogether. -/
def TravInv (bboxes : List BBox) (prim_ids : List Nat) (nodes : List Node) (s : TravState)
    (W : Nat) : Prop :=
  s.top < 0 ∨ ∃ (p W1 c hi : Nat), s.stack_ptr = (p : Int) ∧ s.top = (c : Int) ∧
    Pending bboxes prim_ids nodes s.stack p W1 ∧ Expandable bboxes prim_ids nodes c hi ∧
    W1 + (hi - c) ≤ W

/-! ## Rounding to `float`

The functions of `intersect.h` and `hash_grid.h` are embedded a second time, in the
namespace `Rounded`, with a rounding function `fl` applied to the result of every
arithmetic operation on `float`.  With `fl = id` they are the exact functions above;
with `fl = f32` every operation is rounded as IEEE 754 binary32 arithmetic rounds it. -/

/-- The power `2 ^ e` for an integer exponent. -/
def pow2 (e : Int) : ℚ :=
  if 0 ≤ e then ((2 ^ e.toNat : Nat) : ℚ) else 1 / ((2 ^ (-e).toNat : Nat) : ℚ)

/-- The integer nearest to `m`, the even one of the two when `m` lies halfway. -/
def round_even (m : ℚ) : Int :=
  let f := ⌊m⌋
  let r := m - f
  if r < 1 / 2 then f else if r > 1 / 2 then f + 1 else if f % 2 = 0 then f else f + 1

/-- The number of binary digits of `n`; `fuel` bounds the number of halvings. -/
def bit_length : Nat → Nat → Nat
  | 0, _ => 0
  | fuel + 1, n => if n = 0 then 0 else bit_length fuel (n / 2) + 1

/-- The exponent of a positive number: the `e` with `2 ^ e ≤ a < 2 ^ (e + 1)`. -/
def ilog2 (a : ℚ) : Int :=
  let e0 : Int := (bit_length a.num.natAbs a.num.natAbs : Int) - (bit_length a.den a.den : Int)
  if pow2 e0 ≤ a then e0 else e0 - 1

/-- The `float` (IEEE 754 binary32) nearest to `x`: 24 significant bits, round to
nearest, ties to even, gradual underflow below `2 ^ -126`.  A result beyond `FLT_MAX`,
which the machine replaces by an infinity, is outside the embedding. -/
def f32 (x : ℚ) : ℚ :=
  if x = 0 then 0
  else
    let a := |x|
    let q := Max.max (ilog2 a) (-126) - 23
    let r := (round_even (a / pow2 q) : ℚ) * pow2 q
    if x < 0 then -r else r

/-- Component-wise `a + b`, each sum rounded. -/
def Rounded.float3.add (fl : ℚ → ℚ) (a b : float3) : float3 :=
  ⟨fl (a.x + b.x), fl (a.y + b.y), fl (a.z + b.z)⟩

/-- Component-wise `a - b`, each difference rounded. -/
def Rounded.float3.sub (fl : ℚ → ℚ) (a b : float3) : float3 :=
  ⟨fl (a.x - b.x), fl (a.y - b.y), fl (a.z - b.z)⟩

/-- Scaling `a * f`, each product rounded. -/
def Rounded.float3.scale (fl : ℚ → ℚ) (a : float3) (f : ℚ) : float3 :=
  ⟨fl (a.x * f), fl (a.y * f), fl (a.z * f)⟩

/-- Scalar product `dot(a, b)`: every product and every sum is rounded, the sums being
taken from left to right (`float3.h` is not among the sources; in the evaluations
below at most one of the three products is not zero, so the order does not matter). -/
def Rounded.float3.dot (fl : ℚ → ℚ) (a b : float3) : ℚ :=
  fl (fl (fl (a.x * b.x) + fl (a.y * b.y)) + fl (a.z * b.z))

/-- Vector product `cross(a, b)`: every product and every difference is rounded. -/
def Rounded.float3.cross (fl : ℚ → ℚ) (a b : float3) : float3 :=
  ⟨fl (fl (a.y * b.z) - fl (a.z * b.y)), fl (fl (a.z * b.x) - fl (a.x * b.z)),
    fl (fl (a.x * b.y) - fl (a.y * b.x))⟩

/-- Squared length `lensqr(a)`, rounded like `dot(a, a)`. -/
def Rounded.float3.lensqr (fl : ℚ → ℚ) (a : float3) : ℚ := Rounded.float3.dot fl a a

/-- The constructor `PrecomputedTri(v0, v1, v2)` with rounded arithmetic. -/
def Rounded.PrecomputedTri.mk3 (fl : ℚ → ℚ) (v0 v1 v2 : float3) : PrecomputedTri :=
  let e1 := Rounded.float3.sub fl v0 v1
  let e2 := Rounded.float3.sub fl v2 v0
  let n := Rounded.float3.cross fl e1 e2
  ⟨v0, n.x, e1, n.y, e2, n.z⟩

/-- `intersect_ray_tri(ray, tri, t, u, v)` with rounded arithmetic: the same statements
as in `intersect_ray_tri` above, every operation followed by the rounding `fl`.  The
literals `1e-9f` and `1.0f` are the floats nearest to the decimal numbers; `std::fabs`
and `prodsign` change a sign bit only. -/
def Rounded.intersect_ray_tri (fl : ℚ → ℚ) (ray : Ray) (tri : PrecomputedTri) (t : ℚ) :
    Option (ℚ × ℚ × ℚ) :=
  let eps : ℚ := fl (1 / 1000000000)
  let n : float3 := ⟨tri.nx, tri.ny, tri.nz⟩
  let c := Rounded.float3.sub fl tri.v0 ray.org
  let r := Rounded.float3.cross fl ray.dir c
  let det := Rounded.float3.dot fl n ray.dir
  let abs_det := |det|
  let u_ := prodsign (Rounded.float3.dot fl r tri.e2) det
  let v_ := prodsign (Rounded.float3.dot fl r tri.e1) det
  let w_ := fl (fl (abs_det - u_) - v_)
  if u_ ≥ -eps ∧ v_ ≥ -eps ∧ w_ ≥ -eps then
    let t_ := prodsign (Rounded.float3.dot fl n c) det
    if t_ ≥ fl (abs_det * ray.tmin) ∧ fl (abs_det * t) > t_ then
      let inv_det := fl (fl 1 / abs_det)
      some (fl (t_ * inv_det), fl (u_ * inv_det), fl (v_ * inv_det))
    else none
  else none

/-- `HashGrid::hash_photon(pos)` with rounded arithmetic. -/
def Rounded.HashGrid.hash_photon (fl : ℚ → ℚ) (g : HashGrid) (pos : float3) : Nat :=
  let p := Rounded.float3.scale fl (Rounded.float3.sub fl pos g.bbox.min) g.inv_size
  g.hash_cell (float_to_uint32 p.x) (float_to_uint32 p.y) (float_to_uint32 p.z)

/-- The loop of `HashGrid::build` that counts the number of photons per cell, with
rounded arithmetic. -/
def Rounded.count_loop (fl : ℚ → ℚ) (g : HashGrid) (positions : Nat → float3) :
    Nat → Nat → List Int → Except Fault (List Int)
  | 0, _, counts => .ok counts
  | n + 1, i, counts => do
    let h := Rounded.HashGrid.hash_photon fl g (positions i)
    let c ← rd counts h
    let counts ← wr counts h (c + 1)
    Rounded.count_loop fl g positions n (i + 1) counts

/-- The loop of `HashGrid::build` that puts the photons in their respective cells, with
rounded arithmetic. -/
def Rounded.scatter_loop (fl : ℚ → ℚ) (positions : Nat → float3) :
    Nat → Nat → HashGrid → Except Fault HashGrid
  | 0, _, g => .ok g
  | n + 1, i, g => do
    let h := Rounded.HashGrid.hash_photon fl g (positions i)
    let c ← rd g.cell_counts h
    let old_count := c - 1
    let counts ← wr g.cell_counts h old_count
    if old_count < 0 then .error .out_of_bounds
    else do
      let photons ← wr g.photons old_count.toNat i
      Rounded.scatter_loop fl positions n (i + 1)
        { g with cell_counts := counts, photons := photons }

/-- The step of `HashGrid::build` that slightly enlarges the bounding box of the photons,
with rounded arithmetic; `0.001f` is the float nearest to `1 / 1000`. -/
def Rounded.enlarge (fl : ℚ → ℚ) (bbox : BBox) : BBox :=
  let extents := Rounded.float3.sub fl bbox.max bbox.min
  let bbox : BBox :=
    { bbox with max := Rounded.float3.add fl bbox.max (Rounded.float3.scale fl extents (fl (1 / 1000))) }
  { bbox with min := Rounded.float3.sub fl bbox.min (Rounded.float3.scale fl extents (fl (1 / 1000))) }

/-- `HashGrid::build(positions, num_photons, radius)` with rounded arithmetic. -/
def Rounded.HashGrid.build (fl : ℚ → ℚ) (positions : Nat → float3) (num_photons : Nat)
    (radius : ℚ) : Except Fault HashGrid := do
  let radius_sqr := fl (radius * radius)
  let inv_size := fl (fl (1 / 2) / radius)
  let bbox :=
    Rounded.enlarge fl (extend BBox.empty (photon_bbox_loop positions num_photons 0 BBox.empty))
  let photons := List.replicate num_photons 0
  let cell_counts := List.replicate (1 <<< (closest_log2 num_photons + 1)) (0 : Int)
  let g : HashGrid := ⟨photons, cell_counts, bbox, inv_size, radius_sqr, 0⟩
  let cell_counts ← Rounded.count_loop fl g positions num_photons 0 cell_counts
  let max_in_cell := max_element cell_counts
  let cell_counts := partial_sum 0 cell_counts
  let back ← rd cell_counts (cell_counts.length - 1)
  if back ≠ (photons.length : Int) then .error .assertion
  else
    Rounded.scatter_loop fl positions num_photons 0
      { g with cell_counts := cell_counts, max_in_cell := max_in_cell }

/-- The inner loop of `HashGrid::query` over one bucket, with rounded arithmetic. -/
def Rounded.bucket_loop (fl : ℚ → ℚ) (g : HashGrid) (pos : float3)
    (positions : Nat → float3) :
    Nat → Int → List (Nat × ℚ) → Except Fault (List (Nat × ℚ))
  | 0, _, out => .ok out
  | n + 1, j, out => do
    let photon_id ← rdi g.photons j
    let photon_pos := positions photon_id
    let d := Rounded.float3.lensqr fl (Rounded.float3.sub fl pos photon_pos)
    if d < g.radius_sqr then
      Rounded.bucket_loop fl g pos positions n (j + 1) (out ++ [(photon_id, d)])
    else Rounded.bucket_loop fl g pos positions n (j + 1) out

/-- The loop `for (int i = 0; i < 8; i++)` of `HashGrid::query`, with rounded
arithmetic. -/
def Rounded.cells_loop (fl : ℚ → ℚ) (g : HashGrid) (pos : float3) (positions : Nat → float3)
    (px1 py1 pz1 px2 py2 pz2 : Int) :
    Nat → Nat → List (Nat × ℚ) → Except Fault (List (Nat × ℚ))
  | 0, _, out => .ok out
  | n + 1, i, out => do
    let range ← g.cell_range
      (int_to_uint32 (if i &&& 1 ≠ 0 then px2 else px1))
      (int_to_uint32 (if i &&& 2 ≠ 0 then py2 else py1))
      (int_to_uint32 (if i &&& 4 ≠ 0 then pz2 else pz1))
    let out ← Rounded.bucket_loop fl g pos positions (range.2 - range.1).toNat range.1 out
    Rounded.cells_loop fl g pos positions px1 py1 pz1 px2 py2 pz2 n (i + 1) out

/-- `HashGrid::query(pos, positions, insert)` with rounded arithmetic.  In `p.x - px1`
the integer `px1` is converted to `float` first; `0.5f` is exact. -/
def Rounded.HashGrid.query (fl : ℚ → ℚ) (g : HashGrid) (pos : float3)
    (positions : Nat → float3) : Except Fault (List (Nat × ℚ)) :=
  if ¬ is_inside g.bbox pos then .ok []
  else
    let p := Rounded.float3.scale fl (Rounded.float3.sub fl pos g.bbox.min) g.inv_size
    let px1 := float_to_int p.x
    let py1 := float_to_int p.y
    let pz1 := float_to_int p.z
    let px2 := px1 + (if fl (p.x - fl (px1 : ℚ)) > fl (1 / 2) then 1 else -1)
    let py2 := py1 + (if fl (p.y - fl (py1 : ℚ)) > fl (1 / 2) then 1 else -1)
    let pz2 := pz1 + (if fl (p.z - fl (pz1 : ℚ)) > fl (1 / 2) then 1 else -1)
    Rounded.cells_loop fl g pos positions px1 py1 pz1 px2 py2 pz2 8 0 []

/-- The brute-force radius search with rounded arithmetic: all points `id < n` whose
squared distance to `pos`, computed as `HashGrid::query` computes it, is below the
rounded square of the radius. -/
def Rounded.brute_force_query (fl : ℚ → ℚ) (positions : Nat → float3) (n : Nat) (radius : ℚ)
    (pos : float3) : List (Nat × ℚ) :=
  (List.range n).filterMap (fun id =>
    let d := Rounded.float3.lensqr fl (Rounded.float3.sub fl pos (positions id))
    if d < fl (radius * radius) then some (id, d) else none)

/-- Three photons on the first axis, two of them closer than `1` to each other; all
coordinates are floats (`16777215 / 16777216 = 1 - 2 ^ -24`). -/
def close_points : Nat → float3 := fun i =>
  match i with
  | 0 => ⟨0, 0, 0⟩
  | 1 => ⟨1000, 0, 0⟩
  | _ => ⟨16777215 / 16777216, 0, 0⟩

/-- A query position at distance below `1 / 2` from the third of the `close_points`; its
coordinates are floats (`8388609 / 16777216 = 1 / 2 + 2 ^ -24`). -/
def close_query : float3 := ⟨8388609 / 16777216, 0, 0⟩

/-- A triangle in the plane `z = 0` whose precomputed normal is `(0, 0, 41)`. -/
def wide_tri : PrecomputedTri := PrecomputedTri.mk3 ⟨0, 0, 0⟩ ⟨-41, 0, 0⟩ ⟨0, 1, 0⟩

/-- A ray that meets `wide_tri` at `t = 1`, the lower end of its interval `[1, 10]`. -/
def ray_at_tmin : Ray := ⟨⟨-1, 1 / 4, 1⟩, 1, ⟨0, 0, -1⟩, 10⟩

/-- A triangle in the plane `z = 0` whose precomputed normal is `(0, 0, 7)`. -/
def flat_tri : PrecomputedTri := PrecomputedTri.mk3 ⟨0, 0, 0⟩ ⟨-7, 0, 0⟩ ⟨0, 1, 0⟩

/-- A ray that meets `flat_tri` at `t = 3`. -/
def ray_at_three : Ray := ⟨⟨-1, 1 / 4, 3⟩, 0, ⟨0, 0, -1⟩, 10⟩

/-- The grid that `HashGrid::build` produces in `float` arithmetic for the
`close_points` and the radius `1 / 2`. -/
def close_grid : HashGrid :=
  ⟨[0, 2, 1], [0, 0, 0, 0, 0, 1, 1, 1], ⟨⟨-1, 0, 0⟩, ⟨1001, 0, 0⟩⟩, 1, 1 / 4, 2⟩

/-- Vertex buffer of two triangles, each with the bounding box `huge_box`. -/
def huge_verts : List float3 :=
  [⟨0, 0, 0⟩, ⟨18446744073709551616, 18446744073709551616, 18446744073709551616⟩,
    ⟨18446744073709551616, 0, 0⟩, ⟨0, 18446744073709551616, 0⟩]

/-- Index buffer of the two triangles over `huge_verts`. -/
def huge_indices : List Nat := [0, 1, 2, 0, 0, 1, 3, 0]

/-! # Theorems -/

/-! ## Results of checked operations -/

theorem bind_ok {α β : Type} {x : Except Fault α} {f : α → Except Fault β} {r : β}
    (h : (x >>= f) = .ok r) : ∃ a, x = .ok a ∧ f a = .ok r := by
  cases x with
  | error e => cases h
  | ok a => exact ⟨a, rfl, h⟩

theorem ok_bind {α β : Type} (a : α) (f : α → Except Fault β) :
    ((Except.ok a : Except Fault α) >>= f) = f a := rfl

theorem rd_ok {α : Type} {a : List α} {i : Nat} {v : α} (h : rd a i = .ok v) : a[i]? = some v := by
  unfold rd at h
  split at h
  · rename_i w hw; cases h; exact hw
  · cases h

theorem wr_ok {α : Type} {a a' : List α} {i : Nat} {v : α} (h : wr a i v = .ok a') :
    i < a.length ∧ a' = a.set i v := by
  unfold wr at h
  split at h
  · rename_i hi; cases h; exact ⟨hi, rfl⟩
  · cases h


theorem slice_zero {α : Type} (l : List α) (i : Nat) : slice l i 0 = [] := by
  simp [slice]

theorem slice_succ {α : Type} {l : List α} {i : Nat} {p : α} (n : Nat) (h : l[i]? = some p) :
    slice l i (n + 1) = p :: slice l (i + 1) n := by
  obtain ⟨hi, hp⟩ := List.getElem?_eq_some_iff.mp h
  unfold slice
  rw [List.drop_eq_getElem_cons hi, List.take_succ_cons, hp]

theorem getElem?_slice {α : Type} (l : List α) (i n j : Nat) :
    (slice l i n)[j]? = if j < n then l[i + j]? else none := by
  unfold slice
  rw [List.getElem?_take]
  split
  · rw [List.getElem?_drop]
  · rfl

theorem mem_slice {α : Type} {l : List α} {i n : Nat} {p : α} :
    p ∈ slice l i n ↔ ∃ k, i ≤ k ∧ k < i + n ∧ l[k]? = some p := by
  rw [List.mem_iff_getElem?]
  constructor
  · rintro ⟨j, hj⟩
    rw [getElem?_slice] at hj
    split at hj
    · exact ⟨i + j, by omega, by omega, hj⟩
    · cases hj
  · rintro ⟨k, h1, h2, h3⟩
    refine ⟨k - i, ?_⟩
    rw [getElem?_slice, if_pos (by omega)]
    rw [← h3]; congr 1; omega

theorem length_slice {α : Type} {l : List α} {i n : Nat} (h : i + n ≤ l.length) :
    (slice l i n).length = n := by
  unfold slice
  rw [List.length_take, List.length_drop]; omega

theorem slice_add {α : Type} (l : List α) (i n m : Nat) :
    slice l i (n + m) = slice l i n ++ slice l (i + n) m := by
  unfold slice
  rw [List.take_add, List.drop_drop]

theorem slice_decomp {α : Type} (l : List α) (i n : Nat) :
    l = l.take i ++ (slice l i n ++ l.drop (i + n)) := by
  unfold slice
  rw [← List.drop_drop, List.take_append_drop, List.take_append_drop]

/-- Two lists that agree on the indices of a slice have the same slice. -/
theorem slice_congr {α : Type} {l l' : List α} {i n : Nat}
    (h : ∀ k, i ≤ k → k < i + n → l'[k]? = l[k]?) : slice l' i n = slice l i n := by
  apply List.ext_getElem?
  intro j
  rw [getElem?_slice, getElem?_slice]
  split
  · exact h _ (by omega) (by omega)
  · rfl

theorem take_congr {α : Type} {l l' : List α} {i : Nat}
    (h : ∀ k, k < i → l'[k]? = l[k]?) : l'.take i = l.take i := by
  apply List.ext_getElem?
  intro j
  rw [List.getElem?_take, List.getElem?_take]
  split
  · exact h _ (by omega)
  · rfl

theorem drop_congr {α : Type} {l l' : List α} {i : Nat}
    (h : ∀ k, i ≤ k → l'[k]? = l[k]?) : l'.drop i = l.drop i := by
  apply List.ext_getElem?
  intro j
  rw [List.getElem?_drop, List.getElem?_drop]
  exact h _ (by omega)

/-- A permutation of a list that keeps everything outside a slice in place permutes the slice. -/
theorem slice_perm_of_frame {α : Type} {l l' : List α} {i n : Nat} (hp : l'.Perm l)
    (h : ∀ k, (k < i ∨ i + n ≤ k) → l'[k]? = l[k]?) : (slice l' i n).Perm (slice l i n) := by
  have e1 := slice_decomp l i n
  have e2 := slice_decomp l' i n
  have t : l'.take i = l.take i := take_congr (fun k hk => h k (Or.inl hk))
  have d : l'.drop (i + n) = l.drop (i + n) := drop_congr (fun k hk => h k (Or.inr hk))
  rw [e1, e2, t, d] at hp
  exact (List.perm_append_right_iff _).mp ((List.perm_append_left_iff _).mp hp)



theorem flag_loop_spec {prims : List Nat} {val : Nat} :
    ∀ (n i : Nat) (flags flags' : List Nat), flag_loop prims val n i flags = .ok flags' →
      flags'.length = flags.length ∧
      (∀ q, q ∈ slice prims i n → flags'[q]? = some val) ∧
      (∀ q, q ∉ slice prims i n → flags'[q]? = flags[q]?) := by
  intro n
  induction n with
  | zero =>
    intro i flags flags' h
    simp only [flag_loop] at h
    cases h
    simp [slice_zero]
  | succ n ih =>
    intro i flags flags' h
    rw [flag_loop] at h
    obtain ⟨p, hp, h⟩ := bind_ok h
    obtain ⟨flags1, hw, h⟩ := bind_ok h
    obtain ⟨hlt, rfl⟩ := wr_ok hw
    obtain ⟨hl, h1, h2⟩ := ih _ _ _ h
    rw [slice_succ n (rd_ok hp)]
    refine ⟨by rw [hl, List.length_set], ?_, ?_⟩
    · intro q hq
      by_cases hq' : q ∈ slice prims (i + 1) n
      · exact h1 q hq'
      · have : q = p := by
          rcases List.mem_cons.mp hq with h | h
          · exact h
          · exact absurd h hq'
        subst this
        rw [h2 q hq', List.getElem?_set_self hlt]
    · intro q hq
      have hne : q ≠ p := fun e => hq (e ▸ List.mem_cons_self _ _)
      have hq' : q ∉ slice prims (i + 1) n := fun e => hq (List.mem_cons_of_mem _ e)
      rw [h2 q hq', List.getElem?_set_ne (Ne.symm hne)]

/-! ## `sorted_partition` -/

theorem partition_loop_spec {prims flags : List Nat} {begin : Nat} :
    ∀ (n i left right : Nat) (tmp tmp' : List Nat),
      partition_loop prims flags begin n i left right tmp = .ok tmp' →
      begin ≤ left →
      left + ((slice prims i n).filter (fun p => decide (flags[p]? = some 0))).length ≤ right →
      tmp'.length = tmp.length ∧
      (∀ j, j < ((slice prims i n).filter (fun p => decide (flags[p]? = some 0))).length →
        tmp'[left - begin + j]? =
          ((slice prims i n).filter (fun p => decide (flags[p]? = some 0)))[j]?) ∧
      (∀ j, j < ((slice prims i n).filter (fun p => !decide (flags[p]? = some 0))).length →
        tmp'[right - begin + j]? =
          ((slice prims i n).filter (fun p => !decide (flags[p]? = some 0)))[j]?) ∧
      (∀ j, (j < left - begin ∨ left - begin +
            ((slice prims i n).filter (fun p => decide (flags[p]? = some 0))).length ≤ j) →
          (j < right - begin ∨ right - begin +
            ((slice prims i n).filter (fun p => !decide (flags[p]? = some 0))).length ≤ j) →
          tmp'[j]? = tmp[j]?) := by
  intro n
  induction n with
  | zero =>
    intro i left right tmp tmp' h _ _
    simp only [partition_loop] at h
    cases h
    simp [slice_zero]
  | succ n ih =>
    intro i left right tmp tmp' h hb hlr
    rw [partition_loop] at h
    obtain ⟨p, hp, h⟩ := bind_ok h
    obtain ⟨f, hf, h⟩ := bind_ok h
    have hp' := rd_ok hp
    have hf' := rd_ok hf
    rw [slice_succ n hp'] at hlr ⊢
    split at h
    · -- flagged: goes to the right part
      rename_i hfne
      have hdec : decide (flags[p]? = some 0) = false := by
        rw [hf']; simp; exact hfne
      obtain ⟨tmp1, hw, h⟩ := bind_ok h
      obtain ⟨hlt, rfl⟩ := wr_ok hw
      simp only [List.filter_cons, hdec, Bool.not_false, if_true, Bool.false_eq_true, if_false]
        at hlr ⊢
      obtain ⟨hl, h1, h2, h3⟩ := ih _ _ _ _ _ h hb (by omega)
      refine ⟨by rw [hl, List.length_set], h1, ?_, ?_⟩
      · intro j hj
        cases j with
        | zero =>
          rw [Nat.add_zero, h3 _ (by omega) (by omega), List.getElem?_set_self hlt,
            List.getElem?_cons_zero]
        | succ j =>
          rw [List.length_cons] at hj
          rw [List.getElem?_cons_succ, ← h2 j (by omega)]
          congr 1; omega
      · intro j hj1 hj2
        rw [List.length_cons] at hj2
        rw [h3 j hj1 (by omega), List.getElem?_set_ne (by omega)]
    · -- unflagged: goes to the left part
      rename_i hfe
      have hfe : f = 0 := by simpa using hfe
      have hdec : decide (flags[p]? = some 0) = true := by
        rw [hf', hfe]; simp
      obtain ⟨tmp1, hw, h⟩ := bind_ok h
      obtain ⟨hlt, rfl⟩ := wr_ok hw
      simp only [List.filter_cons, hdec, Bool.not_true, if_true, Bool.false_eq_true, if_false]
        at hlr ⊢
      rw [List.length_cons] at hlr
      obtain ⟨hl, h1, h2, h3⟩ := ih _ _ _ _ _ h (by omega) (by omega)
      refine ⟨by rw [hl, List.length_set], ?_, h2, ?_⟩
      · intro j hj
        cases j with
        | zero =>
          rw [Nat.add_zero, h3 _ (by omega) (by omega), List.getElem?_set_self hlt,
            List.getElem?_cons_zero]
        | succ j =>
          rw [List.length_cons] at hj
          rw [List.getElem?_cons_succ, ← h1 j (by omega)]
          congr 1; omega
      · intro j hj1 hj2
        rw [List.length_cons] at hj1
        rw [h3 j (by omega) hj2, List.getElem?_set_ne (by omega)]

theorem copy_loop_spec {tmp : List Nat} {begin : Nat} :
    ∀ (n i : Nat) (prims prims' : List Nat), copy_loop tmp begin n i prims = .ok prims' →
      prims'.length = prims.length ∧
      (∀ k, i ≤ k → k < i + n → prims'[k]? = tmp[k - begin]? ∧ k - begin < tmp.length) ∧
      (∀ k, (k < i ∨ i + n ≤ k) → prims'[k]? = prims[k]?) := by
  intro n
  induction n with
  | zero =>
    intro i prims prims' h
    simp only [copy_loop] at h
    cases h
    refine ⟨rfl, ?_, fun _ _ => rfl⟩
    intro k h1 h2; omega
  | succ n ih =>
    intro i prims prims' h
    rw [copy_loop] at h
    obtain ⟨v, hv, h⟩ := bind_ok h
    obtain ⟨prims1, hw, h⟩ := bind_ok h
    obtain ⟨hlt, rfl⟩ := wr_ok hw
    obtain ⟨hl, h1, h2⟩ := ih _ _ _ h
    have hv' := rd_ok hv
    refine ⟨by rw [hl, List.length_set], ?_, ?_⟩
    · intro k hk1 hk2
      by_cases hki : k = i
      · subst hki
        rw [h2 k (by omega), List.getElem?_set_self hlt, hv']
        exact ⟨rfl, (List.getElem?_eq_some_iff.mp hv').1⟩
      · exact h1 k (by omega) (by omega)
    · intro k hk
      rw [h2 k (by omega), List.getElem?_set_ne (by omega)]

theorem partition_loop_reads {prims flags : List Nat} {begin : Nat} :
    ∀ (n i left right : Nat) (tmp tmp' : List Nat),
      partition_loop prims flags begin n i left right tmp = .ok tmp' →
      (slice prims i n).length = n := by
  intro n
  induction n with
  | zero => intros; simp [slice_zero]
  | succ n ih =>
    intro i left right tmp tmp' h
    rw [partition_loop] at h
    obtain ⟨p, hp, h⟩ := bind_ok h
    obtain ⟨f, hf, h⟩ := bind_ok h
    rw [slice_succ n (rd_ok hp), List.length_cons]
    split at h
    · obtain ⟨tmp1, hw, h⟩ := bind_ok h
      rw [ih _ _ _ _ _ h]
    · obtain ⟨tmp1, hw, h⟩ := bind_ok h
      rw [ih _ _ _ _ _ h]

theorem sorted_partition_spec {prims tmp flags prims' : List Nat} {begin end_ split : Nat}
    (h : sorted_partition prims tmp begin end_ split flags = .ok prims')
    (hbs : begin ≤ split) (_ : split ≤ end_)
    (hcount : ((slice prims begin (end_ - begin)).filter
      (fun p => decide (flags[p]? = some 0))).length = split - begin) :
    prims'.length = prims.length ∧
    (∀ k, (k < begin ∨ end_ ≤ k) → prims'[k]? = prims[k]?) ∧
    (slice prims begin (end_ - begin)).length = end_ - begin ∧
    slice prims' begin (end_ - begin) =
      (slice prims begin (end_ - begin)).filter (fun p => decide (flags[p]? = some 0)) ++
        (slice prims begin (end_ - begin)).filter (fun p => !decide (flags[p]? = some 0)) := by
  unfold sorted_partition at h
  obtain ⟨tmp1, ht, h⟩ := bind_ok h
  obtain ⟨_, hL, hR, _⟩ := partition_loop_spec _ _ _ _ _ _ ht (Nat.le_refl _) (by omega)
  obtain ⟨hl, hc, hfr⟩ := copy_loop_spec _ _ _ _ h
  have hperm := (List.filter_append_perm (fun p => decide (flags[p]? = some 0))
    (slice prims begin (end_ - begin))).length_eq
  rw [List.length_append] at hperm
  have hslen := partition_loop_reads _ _ _ _ _ _ ht
  generalize hLdef : (slice prims begin (end_ - begin)).filter
    (fun p => decide (flags[p]? = some 0)) = L at *
  generalize hRdef : (slice prims begin (end_ - begin)).filter
    (fun p => !decide (flags[p]? = some 0)) = R at *
  have hs : slice prims' begin (end_ - begin) = L ++ R := by
    apply List.ext_getElem?
    intro j
    rw [getElem?_slice, List.getElem?_append]
    by_cases hj : j < end_ - begin
    · rw [if_pos hj]
      obtain ⟨e1, e2⟩ := hc (begin + j) (by omega) (by omega)
      rw [e1]
      by_cases hjl : j < L.length
      · rw [if_pos hjl, ← hL j hjl]; congr 1; omega
      · rw [if_neg hjl]
        by_cases hjr : j - L.length < R.length
        · rw [← hR _ hjr]; congr 1; omega
        · omega
    · rw [if_neg hj, if_neg (by omega)]
      symm
      apply List.getElem?_eq_none
      omega
  exact ⟨hl, fun k hk => hfr k (by omega), hslen, hs⟩

/-! ## `flag_primitives` -/

theorem flag_loop_reads {prims : List Nat} {val : Nat} :
    ∀ (n i : Nat) (flags flags' : List Nat), flag_loop prims val n i flags = .ok flags' →
      (slice prims i n).length = n := by
  intro n
  induction n with
  | zero => intros; simp [slice_zero]
  | succ n ih =>
    intro i flags flags' h
    rw [flag_loop] at h
    obtain ⟨p, hp, h⟩ := bind_ok h
    obtain ⟨flags1, hw, h⟩ := bind_ok h
    rw [slice_succ n (rd_ok hp), List.length_cons, ih _ _ _ h]

theorem flag_primitives_spec {prims flags flags' : List Nat} {begin end_ split : Nat}
    (h : flag_primitives prims begin end_ flags split = .ok flags')
    (hbs : begin ≤ split) (hse : split ≤ end_)
    (hnd : (slice prims begin (end_ - begin)).Nodup) :
    flags'.length = flags.length ∧
    (slice prims begin (split - begin)).length = split - begin ∧
    (slice prims split (end_ - split)).length = end_ - split ∧
    (∀ q, q ∈ slice prims begin (split - begin) → flags'[q]? = some 0) ∧
    (∀ q, q ∈ slice prims split (end_ - split) → flags'[q]? = some 1) := by
  unfold flag_primitives at h
  obtain ⟨flags1, h0, h1⟩ := bind_ok h
  obtain ⟨l0, z0, _⟩ := flag_loop_spec _ _ _ _ h0
  obtain ⟨l1, z1, f1⟩ := flag_loop_spec _ _ _ _ h1
  have e : slice prims begin (end_ - begin) =
      slice prims begin (split - begin) ++ slice prims split (end_ - split) := by
    rw [show end_ - begin = (split - begin) + (end_ - split) by omega, slice_add,
      show begin + (split - begin) = split by omega]
  rw [e] at hnd
  refine ⟨by rw [l1, l0], flag_loop_reads _ _ _ _ h0, flag_loop_reads _ _ _ _ h1, ?_, z1⟩
  intro q hq
  have hq' : q ∉ slice prims split (end_ - split) :=
    fun hmem => (List.nodup_append.mp hnd).2.2 hq hmem
  rw [f1 q hq', z0 q hq]

/-- Filtering a permutation of `L ++ R` by a test that holds on `L` and fails on `R`. -/
theorem filter_perm_split {S L R : List Nat} {P : Nat → Bool} (hp : S.Perm (L ++ R))
    (hL : ∀ q ∈ L, P q = true) (hR : ∀ q ∈ R, P q = false) :
    (S.filter P).Perm L ∧ (S.filter (fun q => !P q)).Perm R := by
  have e1 : L.filter P = L := List.filter_eq_self.mpr hL
  have e2 : R.filter P = [] := List.filter_eq_nil_iff.mpr (fun q hq => by rw [hR q hq]; simp)
  have e3 : L.filter (fun q => !P q) = [] :=
    List.filter_eq_nil_iff.mpr (fun q hq => by rw [hL q hq]; simp)
  have e4 : R.filter (fun q => !P q) = R :=
    List.filter_eq_self.mpr (fun q hq => by rw [hR q hq]; rfl)
  constructor
  · have := hp.filter P
    rwa [List.filter_append, e1, e2, List.append_nil] at this
  · have := hp.filter (fun q => !P q)
    rwa [List.filter_append, e3, e4, List.nil_append] at this

/-! ## Boxes -/

theorem is_included_iff {b c : BBox} : is_included b c = true ↔
    (c.min.x ≤ b.min.x ∧ b.max.x ≤ c.max.x) ∧ (c.min.y ≤ b.min.y ∧ b.max.y ≤ c.max.y) ∧
      (c.min.z ≤ b.min.z ∧ b.max.z ≤ c.max.z) := by
  unfold is_included
  simp only [Bool.and_eq_true, decide_eq_true_eq, ge_iff_le]
  tauto

theorem is_included_refl (b : BBox) : is_included b b = true := by
  rw [is_included_iff]; simp

theorem is_included_trans {a b c : BBox} (h1 : is_included a b = true)
    (h2 : is_included b c = true) : is_included a c = true := by
  rw [is_included_iff] at *
  obtain ⟨⟨a1, a2⟩, ⟨a3, a4⟩, a5, a6⟩ := h1
  obtain ⟨⟨b1, b2⟩, ⟨b3, b4⟩, b5, b6⟩ := h2
  exact ⟨⟨le_trans b1 a1, le_trans a2 b2⟩, ⟨le_trans b3 a3, le_trans a4 b4⟩,
    le_trans b5 a5, le_trans a6 b6⟩

theorem is_included_extend_left (a b : BBox) : is_included a (extend a b) = true := by
  rw [is_included_iff]
  simp [extend, float3.min, float3.max]

theorem is_included_extend_right (a b : BBox) : is_included b (extend a b) = true := by
  rw [is_included_iff]
  simp [extend, float3.min, float3.max]

theorem Covers.mono {bboxes : List BBox} {bb bb' : BBox} {ps : List Nat}
    (h : Covers bboxes bb ps) (hi : is_included bb bb' = true) : Covers bboxes bb' ps := by
  intro p hp
  obtain ⟨b, h1, h2⟩ := h p hp
  exact ⟨b, h1, is_included_trans h2 hi⟩

theorem Covers.perm {bboxes : List BBox} {bb : BBox} {ps qs : List Nat}
    (h : Covers bboxes bb ps) (hp : qs.Perm ps) : Covers bboxes bb qs :=
  fun p hq => h p (hp.mem_iff.mp hq)

theorem Covers.nil (bboxes : List BBox) (bb : BBox) : Covers bboxes bb [] := by
  intro p hp; cases hp

theorem Covers.cons {bboxes : List BBox} {bb b : BBox} {p : Nat} {ps : List Nat}
    (hb : bboxes[p]? = some b) (hi : is_included b bb = true) (h : Covers bboxes bb ps) :
    Covers bboxes bb (p :: ps) := by
  intro q hq
  rcases List.mem_cons.mp hq with rfl | hq
  · exact ⟨b, hb, hi⟩
  · exact h q hq

theorem Covers.append {bboxes : List BBox} {bb : BBox} {ps qs : List Nat}
    (h1 : Covers bboxes bb ps) (h2 : Covers bboxes bb qs) : Covers bboxes bb (ps ++ qs) := by
  intro q hq
  rcases List.mem_append.mp hq with hq | hq
  · exact h1 q hq
  · exact h2 q hq

/-! ## `find_split` -/

theorem sweep_right_spec {prims : List Nat} {bboxes : List BBox} {begin end_ : Nat}
    {tmp_cost : List ℚ} :
    ∀ (n i : Nat) (cur : BBox) (acc acc' : SplitAcc),
      sweep_right prims bboxes begin end_ tmp_cost n i cur acc = .ok acc' →
      begin + n ≤ i → i < end_ →
      Covers bboxes cur (slice prims (i + 1) (end_ - (i + 1))) →
      GoodSplit bboxes prims begin end_ acc.min_split acc.min_bb →
      GoodSplit bboxes prims begin end_ acc'.min_split acc'.min_bb := by
  intro n
  induction n with
  | zero =>
    intro i cur acc acc' h _ _ _ hg
    simp only [sweep_right] at h
    cases h
    exact hg
  | succ n ih =>
    intro i cur acc acc' h hn hi hc hg
    rw [sweep_right] at h
    obtain ⟨p, hp, h⟩ := bind_ok h
    obtain ⟨bb, hbb, h⟩ := bind_ok h
    obtain ⟨tc, htc, h⟩ := bind_ok h
    have hcov : Covers bboxes (extend cur bb) (slice prims i (end_ - i)) := by
      rw [show end_ - i = (end_ - (i + 1)) + 1 by omega, slice_succ _ (rd_ok hp)]
      exact Covers.cons (rd_ok hbb) (is_included_extend_right _ _)
        (hc.mono (is_included_extend_left _ _))
    refine ih (i - 1) _ _ _ h (by omega) (by omega) ?_ ?_
    · rw [show i - 1 + 1 = i by omega]; exact hcov
    · dsimp only
      split
      · exact Or.inr ⟨i, rfl, by omega, hi, hcov⟩
      · exact hg

theorem find_split_spec {prims : List Nat} {bboxes : List BBox} {begin end_ : Nat}
    {split : Int} {right_bb : BBox} {cost : ℚ}
    (h : find_split prims begin end_ bboxes = .ok (split, right_bb, cost)) :
    GoodSplit bboxes prims begin end_ split right_bb := by
  unfold find_split at h
  obtain ⟨tmp_cost, _, h⟩ := bind_ok h
  obtain ⟨acc, hacc, h⟩ := bind_ok h
  cases h
  by_cases hlt : begin + 1 < end_
  · refine sweep_right_spec _ _ _ _ _ hacc (by omega) (by omega) ?_ (Or.inl rfl)
    rw [show end_ - (end_ - 1 + 1) = 0 by omega, slice_zero]
    exact Covers.nil _ _
  · rw [show end_ - 1 - begin = 0 by omega] at hacc
    simp only [sweep_right] at hacc
    cases hacc
    exact Or.inl rfl

/-! ## The loop over the axes and the box of the left child -/

theorem try_axis_spec {bboxes : List BBox} {st : BuildState} {begin end_ : Nat}
    {acc acc' : AxisAcc} {i : Fin 3} (h : try_axis bboxes st begin end_ acc i = .ok acc')
    (hg : GoodSplit bboxes (st.prims acc.min_axis) begin end_ acc.min_split acc.min_right) :
    GoodSplit bboxes (st.prims acc'.min_axis) begin end_ acc'.min_split acc'.min_right := by
  unfold try_axis at h
  obtain ⟨⟨split, right_bb, cost⟩, hf, h⟩ := bind_ok h
  dsimp only at h
  split at h
  · cases h
    exact find_split_spec hf
  · cases h
    exact hg

theorem left_box_loop_spec {prims : List Nat} {bboxes : List BBox} :
    ∀ (n i : Nat) (bb bb' : BBox), left_box_loop prims bboxes n i bb = .ok bb' →
      is_included bb bb' = true ∧ Covers bboxes bb' (slice prims i n) := by
  intro n
  induction n with
  | zero =>
    intro i bb bb' h
    simp only [left_box_loop] at h
    cases h
    exact ⟨is_included_refl _, by rw [slice_zero]; exact Covers.nil _ _⟩
  | succ n ih =>
    intro i bb bb' h
    rw [left_box_loop] at h
    obtain ⟨p, hp, h⟩ := bind_ok h
    obtain ⟨b, hb, h⟩ := bind_ok h
    obtain ⟨h1, h2⟩ := ih _ _ _ h
    refine ⟨is_included_trans (is_included_extend_left _ _) h1, ?_⟩
    rw [slice_succ n (rd_ok hp)]
    exact Covers.cons (rd_ok hb) (is_included_trans (is_included_extend_right _ _) h1) h2

/-! ## Subtrees in the node array -/

theorem Subtree.lo_le_hi {bboxes : List BBox} {prim_ids : List Nat} {nodes : List Node}
    {id b e lo hi : Nat} (h : Subtree bboxes prim_ids nodes id b e lo hi) : lo ≤ hi := by
  induction h with
  | leaf => exact Nat.le_refl _
  | inner_lr _ _ _ _ _ _ _ _ _ _ _ _ _ _ _ _ _ ih1 ih2 => omega
  | inner_rl _ _ _ _ _ _ _ _ _ _ _ _ _ _ _ _ _ ih1 ih2 => omega

theorem Subtree.range_lt {bboxes : List BBox} {prim_ids : List Nat} {nodes : List Node}
    {id b e lo hi : Nat} (h : Subtree bboxes prim_ids nodes id b e lo hi) : b < e := by
  cases h with
  | leaf _ _ _ _ _ _ _ _ h => exact h
  | inner_lr _ _ _ _ _ _ _ _ _ _ _ _ h1 h2 => omega
  | inner_rl _ _ _ _ _ _ _ _ _ _ _ _ h1 h2 => omega

theorem Subtree.range_le_length {bboxes : List BBox} {prim_ids : List Nat} {nodes : List Node}
    {id b e lo hi : Nat} (h : Subtree bboxes prim_ids nodes id b e lo hi) :
    e ≤ prim_ids.length := by
  induction h with
  | leaf _ _ _ _ _ _ _ _ _ h => exact h
  | inner_lr _ _ _ _ _ _ _ _ _ _ _ _ _ _ _ _ _ ih1 ih2 => exact ih2
  | inner_rl _ _ _ _ _ _ _ _ _ _ _ _ _ _ _ _ _ ih1 ih2 => exact ih1

/-- A subtree only depends on its own slots and on its own range of `prim_ids`. -/
theorem Subtree.transfer {bboxes : List BBox} {prim_ids prim_ids' : List Nat}
    {nodes nodes' : List Node} {id b e lo hi : Nat}
    (h : Subtree bboxes prim_ids nodes id b e lo hi)
    (hn : ∀ k, (k = id ∨ (lo ≤ k ∧ k < hi)) → nodes'[k]? = nodes[k]?)
    (hp : ∀ k, b ≤ k → k < e → prim_ids'[k]? = prim_ids[k]?)
    (hl : prim_ids'.length = prim_ids.length) :
    Subtree bboxes prim_ids' nodes' id b e lo hi := by
  induction h with
  | leaf id b e lo nd h1 h2 h3 h4 h5 h6 =>
    refine Subtree.leaf id b e lo nd ?_ h2 h3 h4 (by omega) ?_
    · rw [hn id (Or.inl rfl)]; exact h1
    · rw [slice_congr (fun k hk1 hk2 => hp k hk1 (by omega))]; exact h6
  | inner_lr id b s e lo m hi nd h1 h2 h3 h4 h5 h6 h7 t1 t2 ih1 ih2 =>
    have b1 := t1.lo_le_hi
    have b2 := t2.lo_le_hi
    refine Subtree.inner_lr id b s e lo m hi nd ?_ h2 h3 h4 h5 h6 ?_ ?_ ?_
    · rw [hn id (Or.inl rfl)]; exact h1
    · rw [slice_congr (fun k hk1 hk2 => hp k hk1 (by omega))]; exact h7
    · exact ih1 (fun k hk => hn k (by omega)) (fun k hk1 hk2 => hp k hk1 (by omega))
    · exact ih2 (fun k hk => hn k (by omega)) (fun k hk1 hk2 => hp k (by omega) hk2)
  | inner_rl id b s e lo m hi nd h1 h2 h3 h4 h5 h6 h7 t1 t2 ih1 ih2 =>
    have b1 := t1.lo_le_hi
    have b2 := t2.lo_le_hi
    refine Subtree.inner_rl id b s e lo m hi nd ?_ h2 h3 h4 h5 h6 ?_ ?_ ?_
    · rw [hn id (Or.inl rfl)]; exact h1
    · rw [slice_congr (fun k hk1 hk2 => hp k hk1 (by omega))]; exact h7
    · exact ih1 (fun k hk => hn k (by omega)) (fun k hk1 hk2 => hp k (by omega) hk2)
    · exact ih2 (fun k hk => hn k (by omega)) (fun k hk1 hk2 => hp k hk1 (by omega))

/-- A list that agrees with another one outside a slice, and has a permuted slice, is a
permutation of it. -/
theorem perm_of_frame_slice {α : Type} {l l' : List α} {i n : Nat}
    (h : ∀ k, (k < i ∨ i + n ≤ k) → l'[k]? = l[k]?)
    (hs : (slice l' i n).Perm (slice l i n)) : l'.Perm l := by
  rw [slice_decomp l i n, slice_decomp l' i n, take_congr (fun k hk => h k (Or.inl hk)),
    drop_congr (fun k hk => h k (Or.inr hk))]
  exact (hs.append_right _).append_left _

/-! ## One level of `BvhBuilder::build` -/

theorem fin3_cases (m a : Fin 3) : a = m ∨ a = m + 1 ∨ a = m + 2 := by
  revert m a; decide

theorem fin3_succ_ne (m : Fin 3) : m + 1 ≠ m ∧ m + 2 ≠ m ∧ m + 2 ≠ m + 1 := by
  revert m; decide

theorem le_length_of_length_slice {α : Type} {l : List α} {i n : Nat}
    (h : (slice l i n).length = n) (hn : 0 < n) : i + n ≤ l.length := by
  unfold slice at h
  rw [List.length_take, List.length_drop] at h
  omega

/-- Effect of `sorted_partition` on the array of one axis, when the flags were set from
the array of the winning axis `m`. -/
theorem partition_axis {pm pa pa' tmp flags : List Nat} {b s e : Nat}
    (hb : b < s) (hs : s < e)
    (hperm : (slice pa b (e - b)).Perm (slice pm b (e - b)))
    (hL : ∀ q, q ∈ slice pm b (s - b) → flags[q]? = some 0)
    (hR : ∀ q, q ∈ slice pm s (e - s) → flags[q]? = some 1)
    (hlenL : (slice pm b (s - b)).length = s - b)
    (hpart : sorted_partition pa tmp b e s flags = .ok pa') :
    pa'.Perm pa ∧ pa'.length = pa.length ∧
    (∀ k, (k < b ∨ e ≤ k) → pa'[k]? = pa[k]?) ∧
    (slice pa' b (s - b)).Perm (slice pm b (s - b)) ∧
    (slice pa' s (e - s)).Perm (slice pm s (e - s)) := by
  have em : slice pm b (e - b) = slice pm b (s - b) ++ slice pm s (e - s) := by
    rw [show e - b = (s - b) + (e - s) by omega, slice_add, show b + (s - b) = s by omega]
  rw [em] at hperm
  obtain ⟨hF, hG⟩ := filter_perm_split (P := fun p => decide (flags[p]? = some 0)) hperm
    (fun q hq => by simp [hL q hq]) (fun q hq => by simp [hR q hq])
  obtain ⟨hlen, hfr, hsl, hsp⟩ := sorted_partition_spec hpart (by omega) (by omega)
    (by rw [hF.length_eq, hlenL])
  have hle := le_length_of_length_slice hsl (by omega)
  have e' : slice pa' b (e - b) = slice pa' b (s - b) ++ slice pa' s (e - s) := by
    rw [show e - b = (s - b) + (e - s) by omega, slice_add, show b + (s - b) = s by omega]
  rw [e'] at hsp
  obtain ⟨e1, e2⟩ := List.append_inj hsp (by
    rw [length_slice (by omega), hF.length_eq, hlenL])
  refine ⟨?_, hlen, hfr, by rw [e1]; exact hF, by rw [e2]; exact hG⟩
  apply perm_of_frame_slice (i := b) (n := e - b)
  · intro k hk; exact hfr k (by omega)
  · rw [e', e1, e2]
    exact List.filter_append_perm _ _

/-! ### Faults other than lack of fuel -/

theorem NoFuel.ok {α : Type} (a : α) : NoFuel (.ok a : Except Fault α) := by
  intro h; cases h

theorem NoFuel.bind {α β : Type} {x : Except Fault α} {f : α → Except Fault β}
    (hx : NoFuel x) (hf : ∀ a, x = .ok a → NoFuel (f a)) : NoFuel (x >>= f) := by
  cases x with
  | error e =>
    intro h
    have h' : (Except.error e : Except Fault β) = .error .out_of_fuel := h
    cases h'
    exact hx rfl
  | ok a => exact hf a rfl

theorem rd_noFuel {α : Type} (a : List α) (i : Nat) : NoFuel (rd a i) := by
  unfold rd
  split
  · exact NoFuel.ok _
  · intro h; cases h

theorem wr_noFuel {α : Type} (a : List α) (i : Nat) (v : α) : NoFuel (wr a i v) := by
  unfold wr
  split
  · exact NoFuel.ok _
  · intro h; cases h

theorem flag_loop_noFuel (prims : List Nat) (val : Nat) :
    ∀ (n i : Nat) (flags : List Nat), NoFuel (flag_loop prims val n i flags) := by
  intro n
  induction n with
  | zero => intro i flags; exact NoFuel.ok _
  | succ n ih =>
    intro i flags
    rw [flag_loop]
    exact NoFuel.bind (rd_noFuel _ _) fun _ _ => NoFuel.bind (wr_noFuel _ _ _) fun _ _ => ih _ _

theorem flag_primitives_noFuel (prims : List Nat) (begin end_ : Nat) (flags : List Nat)
    (split : Nat) : NoFuel (flag_primitives prims begin end_ flags split) :=
  NoFuel.bind (flag_loop_noFuel _ _ _ _ _) fun _ _ => flag_loop_noFuel _ _ _ _ _

theorem partition_loop_noFuel (prims flags : List Nat) (begin : Nat) :
    ∀ (n i left right : Nat) (tmp : List Nat),
      NoFuel (partition_loop prims flags begin n i left right tmp) := by
  intro n
  induction n with
  | zero => intro i left right tmp; exact NoFuel.ok _
  | succ n ih =>
    intro i left right tmp
    rw [partition_loop]
    refine NoFuel.bind (rd_noFuel _ _) fun p _ => NoFuel.bind (rd_noFuel _ _) fun f _ => ?_
    split
    · exact NoFuel.bind (wr_noFuel _ _ _) fun _ _ => ih _ _ _ _
    · exact NoFuel.bind (wr_noFuel _ _ _) fun _ _ => ih _ _ _ _

theorem copy_loop_noFuel (tmp : List Nat) (begin : Nat) :
    ∀ (n i : Nat) (prims : List Nat), NoFuel (copy_loop tmp begin n i prims) := by
  intro n
  induction n with
  | zero => intro i prims; exact NoFuel.ok _
  | succ n ih =>
    intro i prims
    rw [copy_loop]
    exact NoFuel.bind (rd_noFuel _ _) fun _ _ => NoFuel.bind (wr_noFuel _ _ _) fun _ _ => ih _ _

theorem sorted_partition_noFuel (prims tmp : List Nat) (begin end_ split : Nat)
    (flags : List Nat) : NoFuel (sorted_partition prims tmp begin end_ split flags) :=
  NoFuel.bind (partition_loop_noFuel _ _ _ _ _ _ _ _) fun _ _ => copy_loop_noFuel _ _ _ _ _

theorem sweep_left_noFuel (prims : List Nat) (bboxes : List BBox) (begin : Nat) :
    ∀ (n i : Nat) (cur_bb : BBox) (tmp_cost : List ℚ),
      NoFuel (sweep_left prims bboxes begin n i cur_bb tmp_cost) := by
  intro n
  induction n with
  | zero => intro i cur_bb tmp_cost; exact NoFuel.ok _
  | succ n ih =>
    intro i cur_bb tmp_cost
    rw [sweep_left]
    exact NoFuel.bind (rd_noFuel _ _) fun _ _ => NoFuel.bind (rd_noFuel _ _) fun _ _ => ih _ _ _

theorem sweep_right_noFuel (prims : List Nat) (bboxes : List BBox) (begin end_ : Nat)
    (tmp_cost : List ℚ) :
    ∀ (n i : Nat) (cur_bb : BBox) (acc : SplitAcc),
      NoFuel (sweep_right prims bboxes begin end_ tmp_cost n i cur_bb acc) := by
  intro n
  induction n with
  | zero => intro i cur_bb acc; exact NoFuel.ok _
  | succ n ih =>
    intro i cur_bb acc
    rw [sweep_right]
    exact NoFuel.bind (rd_noFuel _ _) fun _ _ => NoFuel.bind (rd_noFuel _ _) fun _ _ =>
      NoFuel.bind (rd_noFuel _ _) fun _ _ => ih _ _ _

theorem find_split_noFuel (prims : List Nat) (begin end_ : Nat) (bboxes : List BBox) :
    NoFuel (find_split prims begin end_ bboxes) :=
  NoFuel.bind (sweep_left_noFuel _ _ _ _ _ _ _) fun _ _ =>
    NoFuel.bind (sweep_right_noFuel _ _ _ _ _ _ _ _ _) fun _ _ => NoFuel.ok _

theorem try_axis_noFuel (bboxes : List BBox) (st : BuildState) (begin end_ : Nat)
    (acc : AxisAcc) (i : Fin 3) : NoFuel (try_axis bboxes st begin end_ acc i) := by
  unfold try_axis
  refine NoFuel.bind (find_split_noFuel _ _ _ _) fun r _ => ?_
  obtain ⟨split, right_bb, cost⟩ := r
  dsimp only
  split
  · exact NoFuel.ok _
  · exact NoFuel.ok _

theorem left_box_loop_noFuel (prims : List Nat) (bboxes : List BBox) :
    ∀ (n i : Nat) (bb : BBox), NoFuel (left_box_loop prims bboxes n i bb) := by
  intro n
  induction n with
  | zero => intro i bb; exact NoFuel.ok _
  | succ n ih =>
    intro i bb
    rw [left_box_loop]
    exact NoFuel.bind (rd_noFuel _ _) fun _ _ => NoFuel.bind (rd_noFuel _ _) fun _ _ => ih _ _

theorem global_bbox_loop_noFuel (bboxes : List BBox) :
    ∀ (n i : Nat) (loc : BBox), NoFuel (global_bbox_loop bboxes n i loc) := by
  intro n
  induction n with
  | zero => intro i loc; exact NoFuel.ok _
  | succ n ih =>
    intro i loc
    rw [global_bbox_loop]
    exact NoFuel.bind (rd_noFuel _ _) fun _ _ => ih _ _

theorem tri_verts_noFuel (verts : List float3) (indices : List Nat) (i : Nat) :
    NoFuel (tri_verts verts indices i) :=
  NoFuel.bind (rd_noFuel _ _) fun _ _ => NoFuel.bind (rd_noFuel _ _) fun _ _ =>
    NoFuel.bind (rd_noFuel _ _) fun _ _ => NoFuel.bind (rd_noFuel _ _) fun _ _ =>
    NoFuel.bind (rd_noFuel _ _) fun _ _ => NoFuel.bind (rd_noFuel _ _) fun _ _ => NoFuel.ok _

theorem centers_boxes_loop_noFuel (verts : List float3) (indices : List Nat) :
    ∀ (n i : Nat) (centers : List float3) (bboxes : List BBox),
      NoFuel (centers_boxes_loop verts indices n i centers bboxes) := by
  intro n
  induction n with
  | zero => intro i centers bboxes; exact NoFuel.ok _
  | succ n ih =>
    intro i centers bboxes
    rw [centers_boxes_loop]
    refine NoFuel.bind (tri_verts_noFuel _ _ _) fun r _ => ?_
    obtain ⟨v0, v1, v2⟩ := r
    exact ih _ _ _

theorem tris_loop_noFuel (verts : List float3) (indices : List Nat) (prim_ids : List Nat) :
    ∀ (n i : Nat) (tris : List PrecomputedTri),
      NoFuel (tris_loop verts indices prim_ids n i tris) := by
  intro n
  induction n with
  | zero => intro i tris; exact NoFuel.ok _
  | succ n ih =>
    intro i tris
    rw [tris_loop]
    refine NoFuel.bind (rd_noFuel _ _) fun _ _ => NoFuel.bind (tri_verts_noFuel _ _ _) fun r _ => ?_
    obtain ⟨v0, v1, v2⟩ := r
    exact ih _ _

theorem NoFuel.ne {α : Type} {x : Except Fault α} (h : NoFuel x) {f : Fault}
    (hx : x = .error f) : f ≠ .out_of_fuel := by
  rintro rfl
  exact h hx

theorem bind_cases {α β : Type} {x : Except Fault α} {f : α → Except Fault β}
    {r : Except Fault β} (h : (x >>= f) = r) :
    (∃ e, x = .error e ∧ r = .error e) ∨ ∃ a, x = .ok a ∧ f a = r := by
  cases x with
  | error e => exact Or.inl ⟨e, rfl, h.symm⟩
  | ok a => exact Or.inr ⟨a, rfl, h⟩

/-! ### Runs that stay inside their arrays -/

theorem Safe.of_ok {α : Type} (a : α) : Safe (.ok a : Except Fault α) := by
  intro f h; cases h

theorem Safe.and_then {α β : Type} {x : Except Fault α} {f : α → Except Fault β}
    (hx : Safe x) (hf : ∀ a, x = .ok a → Safe (f a)) : Safe (x >>= f) := by
  cases x with
  | error e =>
    intro g h
    have h' : (Except.error e : Except Fault β) = .error g := h
    cases h'
    exact hx _ rfl
  | ok a => exact hf a rfl

theorem Safe.noFuel {α : Type} {x : Except Fault α} (h : Safe x) : NoFuel x := by
  intro hx
  have := h _ hx
  cases this

theorem rd_safe {α : Type} {a : List α} {i : Nat} {v : α} (h : a[i]? = some v) :
    Safe (rd a i) := by
  unfold rd
  rw [h]
  exact Safe.of_ok _

theorem wr_safe {α : Type} {a : List α} {i : Nat} (v : α) (h : i < a.length) :
    Safe (wr a i v) := by
  unfold wr
  rw [if_pos h]
  exact Safe.of_ok _

theorem flag_loop_safe {prims : List Nat} {val : Nat} :
    ∀ (n i : Nat) (flags : List Nat),
      (∀ k, i ≤ k → k < i + n → ∃ p, prims[k]? = some p ∧ p < flags.length) →
      Safe (flag_loop prims val n i flags) := by
  intro n
  induction n with
  | zero => intro i flags _; exact Safe.of_ok _
  | succ n ih =>
    intro i flags hr
    rw [flag_loop]
    obtain ⟨p, hp, hlt⟩ := hr i (Nat.le_refl _) (by omega)
    refine Safe.and_then (rd_safe hp) fun p' hp' => ?_
    have e := rd_ok hp'
    rw [hp] at e
    cases e
    refine Safe.and_then (wr_safe _ hlt) fun flags' hw => ?_
    obtain ⟨_, rfl⟩ := wr_ok hw
    apply ih
    intro k hk1 hk2
    obtain ⟨q, hq, hql⟩ := hr k (by omega) (by omega)
    exact ⟨q, hq, by simpa using hql⟩

theorem flag_primitives_safe {prims flags : List Nat} {begin end_ split : Nat}
    (hbs : begin ≤ split) (hse : split ≤ end_)
    (hr : ∀ k, begin ≤ k → k < end_ → ∃ p, prims[k]? = some p ∧ p < flags.length) :
    Safe (flag_primitives prims begin end_ flags split) := by
  unfold flag_primitives
  refine Safe.and_then (flag_loop_safe _ _ _ fun k hk1 hk2 => hr k hk1 (by omega)) fun flags1 h1 => ?_
  obtain ⟨hl, _, _⟩ := flag_loop_spec _ _ _ _ h1
  apply flag_loop_safe
  intro k hk1 hk2
  obtain ⟨q, hq, hql⟩ := hr k (by omega) (by omega)
  exact ⟨q, hq, by rw [hl]; exact hql⟩

theorem partition_loop_safe {prims flags : List Nat} {begin : Nat} :
    ∀ (n i left right : Nat) (tmp : List Nat),
      (∀ k, i ≤ k → k < i + n → ∃ p f, prims[k]? = some p ∧ flags[p]? = some f) →
      begin ≤ left → begin ≤ right →
      left + ((slice prims i n).filter (fun p => decide (flags[p]? = some 0))).length ≤
        begin + tmp.length →
      right + ((slice prims i n).filter (fun p => !decide (flags[p]? = some 0))).length ≤
        begin + tmp.length →
      Safe (partition_loop prims flags begin n i left right tmp) := by
  intro n
  induction n with
  | zero => intro i left right tmp _ _ _ _ _; exact Safe.of_ok _
  | succ n ih =>
    intro i left right tmp hr hl hrt hz ho
    rw [partition_loop]
    obtain ⟨p, f, hp, hf⟩ := hr i (Nat.le_refl _) (by omega)
    rw [slice_succ n hp] at hz ho
    refine Safe.and_then (rd_safe hp) fun p' hp' => ?_
    have e := rd_ok hp'
    rw [hp] at e
    cases e
    refine Safe.and_then (rd_safe hf) fun f' hf' => ?_
    have e := rd_ok hf'
    rw [hf] at e
    cases e
    have hr' : ∀ k, i + 1 ≤ k → k < i + 1 + n →
        ∃ p f, prims[k]? = some p ∧ flags[p]? = some f :=
      fun k hk1 hk2 => hr k (by omega) (by omega)
    by_cases hf0 : f = 0
    · subst hf0
      have hD : decide (flags[p]? = some 0) = true := by simp [hf]
      rw [List.filter_cons, if_pos hD] at hz
      rw [List.filter_cons, if_neg (by simp [hD])] at ho
      simp only [List.length_cons] at hz
      rw [if_neg (by simp)]
      refine Safe.and_then (wr_safe _ (by omega)) fun tmp' hw => ?_
      obtain ⟨_, rfl⟩ := wr_ok hw
      exact ih _ _ _ _ hr' (by omega) hrt (by simp; omega) (by simpa using ho)
    · have hD : decide (flags[p]? = some 0) = false := by simp [hf, hf0]
      rw [List.filter_cons, if_neg (by simp [hD])] at hz
      rw [List.filter_cons, if_pos (by simp [hD])] at ho
      simp only [List.length_cons] at ho
      rw [if_pos hf0]
      refine Safe.and_then (wr_safe _ (by omega)) fun tmp' hw => ?_
      obtain ⟨_, rfl⟩ := wr_ok hw
      exact ih _ _ _ _ hr' hl (by omega) (by simpa using hz) (by simp; omega)

theorem copy_loop_safe {tmp : List Nat} {begin : Nat} :
    ∀ (n i : Nat) (prims : List Nat),
      (∀ k, i ≤ k → k < i + n → k - begin < tmp.length ∧ k < prims.length) →
      Safe (copy_loop tmp begin n i prims) := by
  intro n
  induction n with
  | zero => intro i prims _; exact Safe.of_ok _
  | succ n ih =>
    intro i prims hr
    rw [copy_loop]
    obtain ⟨h1, h2⟩ := hr i (Nat.le_refl _) (by omega)
    refine Safe.and_then (rd_safe (List.getElem?_eq_getElem h1)) fun v _ => ?_
    refine Safe.and_then (wr_safe _ h2) fun prims' hw => ?_
    obtain ⟨_, rfl⟩ := wr_ok hw
    apply ih
    intro k hk1 hk2
    have := hr k (by omega) (by omega)
    exact ⟨this.1, by simpa using this.2⟩

theorem length_filter_add {α : Type} (l : List α) (P : α → Bool) :
    (l.filter P).length + (l.filter (fun p => !P p)).length = l.length := by
  induction l with
  | nil => rfl
  | cons a l ih =>
    by_cases h : P a = true
    · rw [List.filter_cons_of_pos h, List.filter_cons_of_neg (by simp [h])]
      simp only [List.length_cons]
      omega
    · rw [List.filter_cons_of_neg h, List.filter_cons_of_pos (by simpa using h)]
      simp only [List.length_cons]
      omega

theorem sorted_partition_safe {prims tmp flags : List Nat} {begin end_ split : Nat}
    (hbs : begin ≤ split) (hse : split ≤ end_) (hlen : end_ ≤ prims.length)
    (htmp : end_ - begin ≤ tmp.length)
    (hr : ∀ k, begin ≤ k → k < end_ → ∃ p f, prims[k]? = some p ∧ flags[p]? = some f)
    (hcount : ((slice prims begin (end_ - begin)).filter
      (fun p => decide (flags[p]? = some 0))).length = split - begin) :
    Safe (sorted_partition prims tmp begin end_ split flags) := by
  unfold sorted_partition
  have hsl : (slice prims begin (end_ - begin)).length = end_ - begin :=
    length_slice (by omega)
  have hadd := length_filter_add (slice prims begin (end_ - begin))
    (fun p => decide (flags[p]? = some 0))
  rw [hcount, hsl] at hadd
  refine Safe.and_then (partition_loop_safe _ _ _ _ _ (fun k hk1 hk2 => hr k hk1 (by omega))
    (Nat.le_refl _) hbs (by rw [hcount]; omega) (by omega)) fun tmp' h1 => ?_
  obtain ⟨hl, _⟩ := partition_loop_spec _ _ _ _ _ _ h1 (Nat.le_refl _) (by rw [hcount]; omega)
  apply copy_loop_safe
  intro k hk1 hk2
  rw [hl]
  omega

theorem sweep_left_length {prims : List Nat} {bboxes : List BBox} {begin : Nat} :
    ∀ (n i : Nat) (cur : BBox) (tc tc' : List ℚ),
      sweep_left prims bboxes begin n i cur tc = .ok tc' → tc'.length = tc.length + n := by
  intro n
  induction n with
  | zero =>
    intro i cur tc tc' h
    rw [sweep_left] at h
    cases h
    rfl
  | succ n ih =>
    intro i cur tc tc' h
    rw [sweep_left] at h
    obtain ⟨p, _, h⟩ := bind_ok h
    obtain ⟨bb, _, h⟩ := bind_ok h
    rw [ih _ _ _ _ h]
    simp
    omega

theorem sweep_left_safe {prims : List Nat} {bboxes : List BBox} {begin : Nat} :
    ∀ (n i : Nat) (cur : BBox) (tc : List ℚ),
      (∀ k, i ≤ k → k < i + n → ∃ p bb, prims[k]? = some p ∧ bboxes[p]? = some bb) →
      Safe (sweep_left prims bboxes begin n i cur tc) := by
  intro n
  induction n with
  | zero => intro i cur tc _; exact Safe.of_ok _
  | succ n ih =>
    intro i cur tc hr
    rw [sweep_left]
    obtain ⟨p, bb, hp, hbb⟩ := hr i (Nat.le_refl _) (by omega)
    refine Safe.and_then (rd_safe hp) fun p' hp' => ?_
    have e := rd_ok hp'
    rw [hp] at e
    cases e
    refine Safe.and_then (rd_safe hbb) fun bb' _ => ?_
    exact ih _ _ _ fun k hk1 hk2 => hr k (by omega) (by omega)

theorem sweep_right_safe {prims : List Nat} {bboxes : List BBox} {begin end_ : Nat}
    {tmp_cost : List ℚ} :
    ∀ (n i : Nat) (cur : BBox) (acc : SplitAcc),
      begin + n ≤ i → i ≤ begin + tmp_cost.length →
      (∀ k, k ≤ i → i < k + n → ∃ p bb, prims[k]? = some p ∧ bboxes[p]? = some bb) →
      Safe (sweep_right prims bboxes begin end_ tmp_cost n i cur acc) := by
  intro n
  induction n with
  | zero => intro i cur acc _ _ _; exact Safe.of_ok _
  | succ n ih =>
    intro i cur acc h1 h2 hr
    rw [sweep_right]
    obtain ⟨p, bb, hp, hbb⟩ := hr i (Nat.le_refl _) (by omega)
    refine Safe.and_then (rd_safe hp) fun p' hp' => ?_
    have e := rd_ok hp'
    rw [hp] at e
    cases e
    refine Safe.and_then (rd_safe hbb) fun bb' _ => ?_
    have hlt : i - 1 - begin < tmp_cost.length := by omega
    refine Safe.and_then (rd_safe (List.getElem?_eq_getElem hlt)) fun tc _ => ?_
    exact ih _ _ _ (by omega) (by omega) fun k hk1 hk2 => hr k (by omega) (by omega)

theorem find_split_safe {prims : List Nat} {bboxes : List BBox} {begin end_ : Nat}
    (hr : ∀ k, begin ≤ k → k < end_ → ∃ p bb, prims[k]? = some p ∧ bboxes[p]? = some bb) :
    Safe (find_split prims begin end_ bboxes) := by
  unfold find_split
  refine Safe.and_then (sweep_left_safe _ _ _ _ fun k hk1 hk2 => hr k hk1 (by omega))
    fun tc htc => ?_
  have hl := sweep_left_length _ _ _ _ _ htc
  simp only [List.length_nil, Nat.zero_add] at hl
  by_cases hbe : begin + 1 < end_
  · refine Safe.and_then (sweep_right_safe _ _ _ _ (by omega) (by omega)
      fun k hk1 hk2 => hr k (by omega) (by omega)) fun acc _ => Safe.of_ok _
  · have hz : end_ - 1 - begin = 0 := by omega
    rw [hz, sweep_right]
    exact Safe.of_ok _

theorem try_axis_safe {bboxes : List BBox} {st : BuildState} {begin end_ : Nat}
    (acc : AxisAcc) {i : Fin 3}
    (hr : ∀ k, begin ≤ k → k < end_ →
      ∃ p bb, (st.prims i)[k]? = some p ∧ bboxes[p]? = some bb) :
    Safe (try_axis bboxes st begin end_ acc i) := by
  unfold try_axis
  refine Safe.and_then (find_split_safe hr) fun r _ => ?_
  obtain ⟨split, right_bb, cost⟩ := r
  dsimp only
  split
  · exact Safe.of_ok _
  · exact Safe.of_ok _

theorem left_box_loop_safe {prims : List Nat} {bboxes : List BBox} :
    ∀ (n i : Nat) (bb : BBox),
      (∀ k, i ≤ k → k < i + n → ∃ p b, prims[k]? = some p ∧ bboxes[p]? = some b) →
      Safe (left_box_loop prims bboxes n i bb) := by
  intro n
  induction n with
  | zero => intro i bb _; exact Safe.of_ok _
  | succ n ih =>
    intro i bb hr
    rw [left_box_loop]
    obtain ⟨p, b, hp, hb⟩ := hr i (Nat.le_refl _) (by omega)
    refine Safe.and_then (rd_safe hp) fun p' hp' => ?_
    have e := rd_ok hp'
    rw [hp] at e
    cases e
    refine Safe.and_then (rd_safe hb) fun b' _ => ?_
    exact ih _ _ fun k hk1 hk2 => hr k (by omega) (by omega)

/-- `BvhBuilder::build(node_id)` is `split_node` followed by the two recursive calls. -/
theorem build_unfold (bboxes : List BBox) (fuel : Nat) (tmp : List Nat) (st : BuildState)
    (id : Nat) :
    BvhBuilder.build bboxes (fuel + 1) tmp st id =
      (BvhBuilder.split_node bboxes tmp st id >>=
        BvhBuilder.recurse (BvhBuilder.build bboxes fuel) tmp st) := by
  rw [BvhBuilder.build]
  unfold BvhBuilder.split_node
  cases rd st.nodes id with
  | error e => rfl
  | ok node =>
    simp only [ok_bind]
    split
    · rfl
    cases try_axis bboxes st node.first_prim (node.first_prim + node.num_prims).toNat
        ⟨BBox.uninit, FLT_MAX, -1, 0⟩ 0 with
    | error e => rfl
    | ok acc0 =>
      simp only [ok_bind]
      cases try_axis bboxes st node.first_prim (node.first_prim + node.num_prims).toNat acc0 1 with
      | error e => rfl
      | ok acc1 =>
        simp only [ok_bind]
        cases try_axis bboxes st node.first_prim (node.first_prim + node.num_prims).toNat
            acc1 2 with
        | error e => rfl
        | ok acc =>
          simp only [ok_bind]
          split
          · rfl
          split
          swap
          · rfl
          unfold BvhBuilder.split_at
          cases flag_primitives (st.prims acc.min_axis) node.first_prim
              (node.first_prim + node.num_prims).toNat st.tmp_flags acc.min_split.toNat with
          | error e => rfl
          | ok flags =>
            simp only [ok_bind]
            cases sorted_partition (st.prims (acc.min_axis + 1)) tmp node.first_prim
                (node.first_prim + node.num_prims).toNat acc.min_split.toNat flags with
            | error e => rfl
            | ok p1 =>
              simp only [ok_bind]
              generalize Function.update st.prims (acc.min_axis + 1) p1 = prims1
              cases sorted_partition (prims1 (acc.min_axis + 2)) tmp node.first_prim
                  (node.first_prim + node.num_prims).toNat acc.min_split.toNat flags with
              | error e => rfl
              | ok p2 =>
                simp only [ok_bind]
                generalize Function.update prims1 (acc.min_axis + 2) p2 = prims2
                cases left_box_loop (prims2 acc.min_axis) bboxes
                    (acc.min_split.toNat - node.first_prim) node.first_prim BBox.empty with
                | error e => rfl
                | ok min_left =>
                  simp only [ok_bind]
                  cases wr st.nodes id
                      { node with first_prim := st.node_count,
                                  num_prims := -((acc.min_axis : Nat) : Int) } with
                  | error e => rfl
                  | ok nodes1 =>
                    simp only [ok_bind]
                    cases wr nodes1 st.node_count
                        ⟨min_left.min, node.first_prim, min_left.max,
                          (acc.min_split.toNat : Int) - node.first_prim⟩ with
                    | error e => rfl
                    | ok nodes2 =>
                      simp only [ok_bind]
                      cases wr nodes2 (st.node_count + 1)
                          ⟨acc.min_right.min, acc.min_split.toNat, acc.min_right.max,
                            ((node.first_prim + node.num_prims).toNat : Int) -
                              acc.min_split.toNat⟩ with
                      | error e => rfl
                      | ok nodes3 =>
                        simp only [ok_bind]
                        generalize (if (((node.first_prim + node.num_prims).toNat : Int) -
                          acc.min_split.toNat) < (acc.min_split.toNat : Int) - node.first_prim
                          then st.node_count + 1 else st.node_count) = sm
                        cases rd nodes3 sm with
                        | error e => rfl
                        | ok smallest =>
                          simp only [ok_bind]
                          split <;> rfl

/-- The split stage of `BvhBuilder::build`, on a node that satisfies the precondition
and for a split `s` inside its range that comes with a box covering the right part:
`split_at` stops at a fault or reaches the state `SplitStage`.  The fault is never lack
of fuel, and when the resources `BuildRes` are there `split_at` does not fail. -/
theorem split_at_spec {bboxes : List BBox} {tmp : List Nat} {st : BuildState}
    {id b e s : Nat} {node : Node} {min_right : BBox} {m : Fin 3}
    {r : Except Fault (BuildState × Nat × List Nat × Nat)}
    (h : BvhBuilder.split_at bboxes tmp st id node b e min_right m s = r)
    (pre : BuildPre bboxes st id b e)
    (hnd : st.nodes[id]? = some node)
    (hcov : Covers bboxes node.bbox (slice (st.prims 0) b (e - b)))
    (hbs : b < s) (hse : s < e)
    (hcovR : Covers bboxes min_right (slice (st.prims m) s (e - s))) :
    (∃ f, r = .error f ∧ f ≠ .out_of_fuel ∧ (BuildRes st tmp b e → f = .assertion)) ∨
    ∃ (st1 : BuildState) (tmpX : List Nat) (X Y : Nat),
      r = .ok (st1, X, tmpX, Y) ∧
      SplitStage bboxes st st1 id b s e ∧
      ((X = st.node_count ∧ Y = st.node_count + 1 ∧
          (e - b ≤ tmp.length → s - b ≤ tmpX.length ∧ e - s ≤ tmp.length)) ∨
        (X = st.node_count + 1 ∧ Y = st.node_count ∧
          (e - b ≤ tmp.length → e - s ≤ tmpX.length ∧ s - b ≤ tmp.length))) := by
  have hreads : ∀ a k, b ≤ k → k < e →
      ∃ p bb, (st.prims a)[k]? = some p ∧ bboxes[p]? = some bb := by
    intro a k hk1 hk2
    have hlen := pre.len a
    have hk : k < (st.prims a).length := by omega
    have hmem : (st.prims a)[k] ∈ slice (st.prims a) b (e - b) :=
      mem_slice.mpr ⟨k, hk1, by omega, List.getElem?_eq_getElem hk⟩
    obtain ⟨bb, hbb, _⟩ := hcov _ ((pre.perm a).mem_iff.mp hmem)
    exact ⟨_, bb, List.getElem?_eq_getElem hk, hbb⟩
  have fail : ∀ {α : Type} {x : Except Fault α} {f : Fault}, x = .error f → NoFuel x →
      (BuildRes st tmp b e → Safe x) →
      ∃ f', (Except.error f : Except Fault (BuildState × Nat × List Nat × Nat)) = .error f' ∧
        f' ≠ .out_of_fuel ∧ (BuildRes st tmp b e → f' = .assertion) :=
    fun hx hnf hs => ⟨_, rfl, hnf.ne hx, fun res => hs res _ hx⟩
  unfold BvhBuilder.split_at at h
  simp only [] at h
  obtain ⟨hm1, hm2, hm12⟩ := fin3_succ_ne m
  rcases bind_cases h with ⟨f, hflags, rfl⟩ | ⟨flags, hflags, h⟩
  · refine Or.inl ((fail hflags (flag_primitives_noFuel _ _ _ _ _) fun res =>
      flag_primitives_safe (Nat.le_of_lt hbs) (Nat.le_of_lt hse) fun k hk1 hk2 => ?_))
    obtain ⟨p, bb, hp, _⟩ := hreads m k hk1 hk2
    exact ⟨p, hp, res.flags m p (List.mem_iff_getElem?.mpr ⟨k, hp⟩)⟩
  have hnodup_m : (slice (st.prims m) b (e - b)).Nodup := (pre.perm m).nodup_iff.mpr pre.nodup
  have em : slice (st.prims m) b (e - b) =
      slice (st.prims m) b (s - b) ++ slice (st.prims m) s (e - s) := by
    rw [show e - b = (s - b) + (e - s) by omega, slice_add, show b + (s - b) = s by omega]
  obtain ⟨hflen, hlenL, hlenR, hL, hR⟩ :=
    flag_primitives_spec hflags (Nat.le_of_lt hbs) (Nat.le_of_lt hse) hnodup_m
  have hflagged : ∀ a k, b ≤ k → k < e →
      ∃ p f, (st.prims a)[k]? = some p ∧ flags[p]? = some f := by
    intro a k hk1 hk2
    obtain ⟨p, _, hp, _⟩ := hreads a k hk1 hk2
    have hmem : p ∈ slice (st.prims a) b (e - b) := mem_slice.mpr ⟨k, hk1, by omega, hp⟩
    have hmem' := ((pre.perm a).trans (pre.perm m).symm).mem_iff.mp hmem
    rw [em, List.mem_append] at hmem'
    rcases hmem' with hq | hq
    · exact ⟨p, 0, hp, hL p hq⟩
    · exact ⟨p, 1, hp, hR p hq⟩
  have hcount : ∀ a, ((slice (st.prims a) b (e - b)).filter
      (fun p => decide (flags[p]? = some 0))).length = s - b := by
    intro a
    have hperm := (pre.perm a).trans (pre.perm m).symm
    rw [em] at hperm
    obtain ⟨hF, _⟩ := filter_perm_split (P := fun p => decide (flags[p]? = some 0)) hperm
      (fun q hq => by simp [hL q hq]) (fun q hq => by simp [hR q hq])
    rw [hF.length_eq, hlenL]
  rcases bind_cases h with ⟨f, hp1, rfl⟩ | ⟨p1, hp1, h⟩
  · exact Or.inl ((fail hp1 (sorted_partition_noFuel _ _ _ _ _ _) fun res =>
      sorted_partition_safe (Nat.le_of_lt hbs) (Nat.le_of_lt hse) (pre.len _) res.tmp
        (hflagged _) (hcount _)))
  rcases bind_cases h with ⟨f, hp2, rfl⟩ | ⟨p2, hp2, h⟩
  · rw [Function.update_noteq hm12] at hp2
    exact Or.inl ((fail hp2 (sorted_partition_noFuel _ _ _ _ _ _) fun res =>
      sorted_partition_safe (Nat.le_of_lt hbs) (Nat.le_of_lt hse) (pre.len _) res.tmp
        (hflagged _) (hcount _)))
  rcases bind_cases h with ⟨f, hleft, rfl⟩ | ⟨min_left, hleft, h⟩
  · rw [Function.update_noteq hm2.symm, Function.update_noteq hm1.symm] at hleft
    exact Or.inl ((fail hleft (left_box_loop_noFuel _ _ _ _ _) fun _ =>
      left_box_loop_safe _ _ _ fun k hk1 hk2 => hreads m k hk1 (by omega)))
  have hidlt : id < st.nodes.length := (List.getElem?_eq_some_iff.mp hnd).1
  rcases bind_cases h with ⟨f, hw1, rfl⟩ | ⟨nodes1, hw1, h⟩
  · exact Or.inl ((fail hw1 (wr_noFuel _ _ _) fun _ => wr_safe _ hidlt))
  obtain ⟨hi1, rfl⟩ := wr_ok hw1
  rcases bind_cases h with ⟨f, hw2, rfl⟩ | ⟨nodes2, hw2, h⟩
  · exact Or.inl ((fail hw2 (wr_noFuel _ _ _) fun res =>
      wr_safe _ (by have := res.slots; rw [List.length_set]; omega)))
  obtain ⟨hi2, rfl⟩ := wr_ok hw2
  rcases bind_cases h with ⟨f, hw3, rfl⟩ | ⟨nodes3, hw3, h⟩
  · exact Or.inl ((fail hw3 (wr_noFuel _ _ _) fun res =>
      wr_safe _ (by have := res.slots; rw [List.length_set, List.length_set]; omega)))
  obtain ⟨hi3, rfl⟩ := wr_ok hw3
  simp only [List.length_set] at hi2 hi3
  have hid := pre.id_lt
  rcases bind_cases h with ⟨f, hsm, rfl⟩ | ⟨smallest, hsm, h⟩
  · refine Or.inl ((fail hsm (rd_noFuel _ _) fun _ => ?_))
    split
    · exact rd_safe (List.getElem?_set_self (by simpa using hi3))
    · exact rd_safe (by
        rw [List.getElem?_set_ne (by omega)]
        exact List.getElem?_set_self (by simpa using hi2))
  rw [Function.update_noteq hm12] at hp2
  rw [Function.update_noteq hm2.symm, Function.update_noteq hm1.symm] at hleft
  have A1 := partition_axis hbs hse ((pre.perm (m + 1)).trans (pre.perm m).symm) hL hR hlenL hp1
  have A2 := partition_axis hbs hse ((pre.perm (m + 2)).trans (pre.perm m).symm) hL hR hlenL hp2
  generalize hprims2 : Function.update (Function.update st.prims (m + 1) p1) (m + 2) p2 = prims2
    at h
  have hax : ∀ a, (prims2 a).Perm (st.prims a) ∧ (prims2 a).length = (st.prims a).length ∧
      (∀ k, (k < b ∨ e ≤ k) → (prims2 a)[k]? = (st.prims a)[k]?) ∧
      (slice (prims2 a) b (s - b)).Perm (slice (st.prims m) b (s - b)) ∧
      (slice (prims2 a) s (e - s)).Perm (slice (st.prims m) s (e - s)) := by
    intro a
    rcases fin3_cases m a with rfl | rfl | rfl
    · have : prims2 a = st.prims a := by
        rw [← hprims2, Function.update_noteq hm2.symm, Function.update_noteq hm1.symm]
      rw [this]
      exact ⟨List.Perm.refl _, rfl, fun _ _ => rfl, List.Perm.refl _, List.Perm.refl _⟩
    · have : prims2 (m + 1) = p1 := by
        rw [← hprims2, Function.update_noteq hm12.symm, Function.update_same]
      rw [this]
      exact A1
    · have : prims2 (m + 2) = p2 := by
        rw [← hprims2, Function.update_same]
      rw [this]
      exact A2
  generalize hinner : (⟨node.min, st.node_count, node.max, -((m : Nat) : Int)⟩ : Node) = inner
    at h hw1 hw2 hw3 hsm hi2 hi3
  generalize hnodes3 : ((st.nodes.set id inner).set st.node_count
    ⟨min_left.min, b, min_left.max, (s : Int) - b⟩).set (st.node_count + 1)
    ⟨min_right.min, s, min_right.max, (e : Int) - s⟩ = nodes3 at h hw3 hsm
  generalize hleftn : (⟨min_left.min, b, min_left.max, (s : Int) - b⟩ : Node) = left
    at hnodes3 hw2 hw3
  generalize hrightn : (⟨min_right.min, s, min_right.max, (e : Int) - s⟩ : Node) = right
    at hnodes3 hw3
  have look_right : nodes3[st.node_count + 1]? = some right := by
    rw [← hnodes3, List.getElem?_set_self (by simpa using hi3)]
  have look_left : nodes3[st.node_count]? = some left := by
    rw [← hnodes3, List.getElem?_set_ne (by omega), List.getElem?_set_self (by simpa using hi2)]
  have look_id : nodes3[id]? = some inner := by
    rw [← hnodes3, List.getElem?_set_ne (by omega), List.getElem?_set_ne (by omega),
      List.getElem?_set_self hi1]
  have look_other : ∀ k, k < st.node_count → k ≠ id → nodes3[k]? = st.nodes[k]? := by
    intro k hk hne
    rw [← hnodes3, List.getElem?_set_ne (by omega), List.getElem?_set_ne (by omega),
      List.getElem?_set_ne (by omega)]
  have hlen3 : nodes3.length = st.nodes.length := by
    rw [← hnodes3]; simp
  obtain ⟨_, hcovL⟩ := left_box_loop_spec _ _ _ _ hleft
  have stage : SplitStage bboxes st ⟨nodes3, st.node_count + 2, prims2, flags⟩ id b s e := by
    refine ⟨hbs, hse, rfl, hlen3, hi3, ⟨inner, look_id, ?_, ?_, ?_, ?_⟩, look_other,
      fun a => (hax a).1, fun a => (hax a).2.2.1, ?_, ?_, hflen⟩
    · rw [← hinner]; simp
    · rw [← hinner]; simp; omega
    · rw [← hinner]
    · rw [← hinner]; exact hcov
    · refine ⟨⟨left, look_left, by rw [← hleftn], by rw [← hleftn], ?_⟩, hbs, ?_, ?_, ?_,
        by simp⟩
      · rw [← hleftn]
        exact hcovL.perm (hax 0).2.2.2.1
      · intro a
        have := pre.len a
        rw [(hax a).2.1]
        omega
      · intro a
        exact (hax a).2.2.2.1.trans (hax 0).2.2.2.1.symm
      · rw [em] at hnodup_m
        exact (hax 0).2.2.2.1.nodup_iff.mpr hnodup_m.of_append_left
    · refine ⟨⟨right, look_right, by rw [← hrightn], by rw [← hrightn], ?_⟩, hse, ?_, ?_, ?_,
        by simp⟩
      · rw [← hrightn]
        exact hcovR.perm (hax 0).2.2.2.2
      · intro a
        have := pre.len a
        rw [(hax a).2.1]
        omega
      · intro a
        exact (hax a).2.2.2.2.trans (hax 0).2.2.2.2.symm
      · rw [em] at hnodup_m
        exact (hax 0).2.2.2.2.nodup_iff.mpr hnodup_m.of_append_right
  have hsmall : ∀ k, nodes3[k]? = some smallest → (k = st.node_count → smallest = left) ∧
      (k = st.node_count + 1 → smallest = right) := by
    intro k hk
    constructor
    · rintro rfl
      rw [look_left] at hk
      exact (Option.some.inj hk).symm
    · rintro rfl
      rw [look_right] at hk
      exact (Option.some.inj hk).symm
  have hsm' := rd_ok hsm
  have hln : left.num_prims = (s : Int) - b := by rw [← hleftn]
  have hrn : right.num_prims = (e : Int) - s := by rw [← hrightn]
  split at h
  · by_cases hc : (e : Int) - s < (s : Int) - b
    · rw [if_pos hc, if_neg (by omega)] at h
      rw [if_pos hc] at hsm'
      have hsr := (hsmall _ hsm').2 rfl
      refine Or.inr ⟨_, _, _, _, h.symm, stage, Or.inr ⟨rfl, rfl, fun ht => ?_⟩⟩
      rw [List.length_replicate, hsr, hrn]
      omega
    · rw [if_neg hc, if_pos (by omega)] at h
      rw [if_neg hc] at hsm'
      have hsl := (hsmall _ hsm').1 rfl
      refine Or.inr ⟨_, _, _, _, h.symm, stage, Or.inl ⟨rfl, rfl, fun ht => ?_⟩⟩
      rw [List.length_replicate, hsl, hln]
      omega
  · by_cases hc : (e : Int) - s < (s : Int) - b
    · rw [if_neg (by omega), if_pos hc] at h
      exact Or.inr ⟨_, _, _, _, h.symm, stage,
        Or.inl ⟨rfl, rfl, fun ht => ⟨by omega, by omega⟩⟩⟩
    · rw [if_pos (by omega), if_neg hc] at h
      exact Or.inr ⟨_, _, _, _, h.symm, stage,
        Or.inr ⟨rfl, rfl, fun ht => ⟨by omega, by omega⟩⟩⟩

/-- The part of `BvhBuilder::build` before the recursive calls, on a node that satisfies
the precondition: it leaves the node a leaf (exactly when the node has at most one
primitive or the best split is not cheaper than `leaf_cost`), or stops at a fault, or
reaches the split stage, the best split being cheaper than `leaf_cost`.  The fault is
never lack of fuel, and when the resources `BuildRes` are there it can only be the
assertion of the source. -/
theorem split_node_spec {bboxes : List BBox} {tmp : List Nat} {st : BuildState}
    {id b e : Nat} {r : Except Fault (Option (BuildState × Nat × List Nat × Nat))}
    (h : BvhBuilder.split_node bboxes tmp st id = r)
    (pre : BuildPre bboxes st id b e) :
    (r = .ok none ∧ (e - b ≤ 1 ∨ ∃ acc, BvhBuilder.best_split bboxes st b e = .ok acc ∧
        ¬ acc.min_cost < BvhBuilder.leaf_cost st id b e)) ∨
    (∃ f, r = .error f ∧ f ≠ .out_of_fuel ∧ (BuildRes st tmp b e → f = .assertion)) ∨
    ∃ (s : Nat) (st1 : BuildState) (tmpX : List Nat) (X Y : Nat),
      r = .ok (some (st1, X, tmpX, Y)) ∧
      SplitStage bboxes st st1 id b s e ∧
      ((X = st.node_count ∧ Y = st.node_count + 1 ∧
          (e - b ≤ tmp.length → s - b ≤ tmpX.length ∧ e - s ≤ tmp.length)) ∨
        (X = st.node_count + 1 ∧ Y = st.node_count ∧
          (e - b ≤ tmp.length → e - s ≤ tmpX.length ∧ s - b ≤ tmp.length))) ∧
      2 ≤ e - b ∧ ∃ acc, BvhBuilder.best_split bboxes st b e = .ok acc ∧
        acc.min_cost < BvhBuilder.leaf_cost st id b e ∧ acc.min_split = s := by
  obtain ⟨nd, hnd, hfp, hnp, hcov⟩ := pre.node
  have hreads : ∀ a k, b ≤ k → k < e →
      ∃ p bb, (st.prims a)[k]? = some p ∧ bboxes[p]? = some bb := by
    intro a k hk1 hk2
    have hlen := pre.len a
    have hk : k < (st.prims a).length := by omega
    have hmem : (st.prims a)[k] ∈ slice (st.prims a) b (e - b) :=
      mem_slice.mpr ⟨k, hk1, by omega, List.getElem?_eq_getElem hk⟩
    obtain ⟨bb, hbb, _⟩ := hcov _ ((pre.perm a).mem_iff.mp hmem)
    exact ⟨_, bb, List.getElem?_eq_getElem hk, hbb⟩
  have fail : ∀ {α : Type} {x : Except Fault α} {f : Fault}, x = .error f → NoFuel x →
      (BuildRes st tmp b e → Safe x) →
      ∃ f', (Except.error f : Except Fault (Option (BuildState × Nat × List Nat × Nat))) =
        .error f' ∧ f' ≠ .out_of_fuel ∧ (BuildRes st tmp b e → f' = .assertion) :=
    fun hx hnf hs => ⟨_, rfl, hnf.ne hx, fun res => hs res _ hx⟩
  unfold BvhBuilder.split_node at h
  rcases bind_cases h with ⟨f, hnode, rfl⟩ | ⟨node, hnode, h⟩
  · exact Or.inr (Or.inl (fail hnode (rd_noFuel _ _) fun _ => rd_safe hnd))
  have : node = nd := by
    have := rd_ok hnode
    rw [hnd] at this
    exact (Option.some.inj this).symm
  subst this
  have hend : ((b : Int) + node.num_prims).toNat = e := by rw [hnp]; omega
  simp only [hfp, hend] at h
  have hlc : BvhBuilder.leaf_cost st id b e =
      (((e - b : Nat) : ℚ) - 1) * half_area_pts node.min node.max := by
    unfold BvhBuilder.leaf_cost
    rw [List.getD_eq_getElem?_getD, hnd]
    rfl
  split at h
  · rename_i hle
    exact Or.inl ⟨h.symm, Or.inl (by rw [hnp] at hle; omega)⟩
  rename_i hgt
  have hsize : 2 ≤ e - b := by rw [hnp] at hgt; omega
  rcases bind_cases h with ⟨f, h0, rfl⟩ | ⟨acc0, h0, h⟩
  · exact Or.inr (Or.inl (fail h0 (try_axis_noFuel _ _ _ _ _ _)
      fun _ => try_axis_safe _ (hreads 0)))
  rcases bind_cases h with ⟨f, h1, rfl⟩ | ⟨acc1, h1, h⟩
  · exact Or.inr (Or.inl (fail h1 (try_axis_noFuel _ _ _ _ _ _)
      fun _ => try_axis_safe _ (hreads 1)))
  rcases bind_cases h with ⟨f, h2, rfl⟩ | ⟨acc, h2, h⟩
  · exact Or.inr (Or.inl (fail h2 (try_axis_noFuel _ _ _ _ _ _)
      fun _ => try_axis_safe _ (hreads 2)))
  have g := try_axis_spec h2 (try_axis_spec h1 (try_axis_spec h0 (Or.inl rfl)))
  have hbest : BvhBuilder.best_split bboxes st b e = .ok acc := by
    show (try_axis bboxes st b e ⟨BBox.uninit, FLT_MAX, -1, 0⟩ 0 >>= fun acc =>
      try_axis bboxes st b e acc 1 >>= fun acc => try_axis bboxes st b e acc 2) = _
    rw [h0, ok_bind, h1, ok_bind, h2]
  split at h
  · exact Or.inr (Or.inl ⟨_, h.symm, by decide, fun _ => rfl⟩)
  rename_i hassert
  rw [not_not] at hassert
  split at h
  swap
  · rename_i hnc
    exact Or.inl ⟨h.symm, Or.inr ⟨acc, hbest, by rw [hlc]; exact hnc⟩⟩
  rename_i hcheap
  obtain ⟨s, hs_eq, hbs, hse, hcovR⟩ : ∃ s : Nat, acc.min_split = s ∧ b < s ∧ s < e ∧
      Covers bboxes acc.min_right (slice (st.prims acc.min_axis) s (e - s)) := by
    rcases g with g | g
    · have := hassert.1; omega
    · exact g
  have hs_nat : acc.min_split.toNat = s := by rw [hs_eq]; simp
  rw [hs_nat] at h
  rcases bind_cases h with ⟨f, hat, rfl⟩ | ⟨out, hat, h⟩
  · rcases split_at_spec hat pre hnd hcov hbs hse hcovR with ⟨f', hf, hf'⟩ |
      ⟨st1, tmpX, X, Y, hr, _⟩
    · cases hf
      exact Or.inr (Or.inl ⟨_, rfl, hf'⟩)
    · cases hr
  · rcases split_at_spec hat pre hnd hcov hbs hse hcovR with ⟨f', hf, _⟩ |
      ⟨st1, tmpX, X, Y, hr, stage, hXY⟩
    · cases hf
    · cases hr
      exact Or.inr (Or.inr ⟨s, st1, tmpX, X, Y, h.symm, stage, hXY, hsize, acc, hbest,
        by rw [hlc]; exact hcheap, hs_eq⟩)

/-- One call of `BvhBuilder::build` on a node that satisfies the precondition either
returns at once with the state unchanged, or stops at a fault, or reaches the split
stage and continues with the two recursive calls.  The fault is never lack of fuel,
and when the resources `BuildRes` are there it can only be the assertion of the source.
The scratch buffers of the recursive calls hold the ranges of their nodes. -/
theorem build_step {bboxes : List BBox} {fuel : Nat} {tmp : List Nat} {st : BuildState}
    {id b e : Nat} {r : Except Fault BuildState}
    (h : BvhBuilder.build bboxes (fuel + 1) tmp st id = r)
    (pre : BuildPre bboxes st id b e) :
    r = .ok st ∨
    (∃ f, r = .error f ∧ f ≠ .out_of_fuel ∧ (BuildRes st tmp b e → f = .assertion)) ∨
    ∃ (s : Nat) (st1 : BuildState) (tmpX tmpY : List Nat) (X Y : Nat),
      SplitStage bboxes st st1 id b s e ∧
      ((X = st.node_count ∧ Y = st.node_count + 1 ∧
          (e - b ≤ tmp.length → s - b ≤ tmpX.length ∧ e - s ≤ tmpY.length)) ∨
        (X = st.node_count + 1 ∧ Y = st.node_count ∧
          (e - b ≤ tmp.length → e - s ≤ tmpX.length ∧ s - b ≤ tmpY.length))) ∧
      r = (BvhBuilder.build bboxes fuel tmpX st1 X >>= fun stA =>
        BvhBuilder.build bboxes fuel tmpY stA Y) := by
  rw [build_unfold] at h
  rcases split_node_spec rfl pre with ⟨h1, _⟩ | ⟨f, h1, hf⟩ |
    ⟨s, st1, tmpX, X, Y, h1, stage, hXY, _⟩
  · rw [h1] at h
    exact Or.inl h.symm
  · rw [h1] at h
    exact Or.inr (Or.inl ⟨f, h.symm, hf⟩)
  · rw [h1] at h
    exact Or.inr (Or.inr ⟨s, st1, tmpX, tmp, X, Y, stage, hXY, h.symm⟩)

theorem build_level {bboxes : List BBox} {fuel : Nat} {tmp : List Nat} {st st' : BuildState}
    {id b e : Nat} (h : BvhBuilder.build bboxes (fuel + 1) tmp st id = .ok st')
    (pre : BuildPre bboxes st id b e) :
    st' = st ∨ ∃ (s : Nat) (st1 stA : BuildState) (tmpX tmpY : List Nat) (X Y : Nat),
      SplitStage bboxes st st1 id b s e ∧
      ((X = st.node_count ∧ Y = st.node_count + 1) ∨
        (X = st.node_count + 1 ∧ Y = st.node_count)) ∧
      BvhBuilder.build bboxes fuel tmpX st1 X = .ok stA ∧
      BvhBuilder.build bboxes fuel tmpY stA Y = .ok st' := by
  rcases build_step h pre with h1 | ⟨f, h1, _⟩ | ⟨s, st1, tmpX, tmpY, X, Y, stage, hXY, h1⟩
  · cases h1
    exact Or.inl rfl
  · cases h1
  · obtain ⟨stA, hA, hB⟩ := bind_ok h1.symm
    exact Or.inr ⟨s, st1, stA, tmpX, tmpY, X, Y, stage,
      hXY.imp (fun g => ⟨g.1, g.2.1⟩) (fun g => ⟨g.1, g.2.1⟩), hA, hB⟩

/-! ## The recursion of `BvhBuilder::build` -/

/-- The precondition of a node survives the build of a sibling with a disjoint range. -/
theorem BuildPre.after {bboxes : List BBox} {st1 stA : BuildState} {X bX eX Y bY eY : Nat}
    (postA : BuildPost bboxes st1 stA X bX eX) (preY : BuildPre bboxes st1 Y bY eY)
    (hne : Y ≠ X) (hdisj : eY ≤ bX ∨ eX ≤ bY) : BuildPre bboxes stA Y bY eY := by
  have hsl : ∀ a, slice (stA.prims a) bY (eY - bY) = slice (st1.prims a) bY (eY - bY) :=
    fun a => slice_congr (fun k hk1 hk2 => postA.frame a k (by omega))
  obtain ⟨nd, h1, h2, h3, h4⟩ := preY.node
  refine ⟨⟨nd, ?_, h2, h3, ?_⟩, preY.lt, ?_, ?_, ?_, ?_⟩
  · rw [postA.nodes_frame Y preY.id_lt hne]; exact h1
  · rw [hsl 0]; exact h4
  · intro a
    rw [(postA.perm a).length_eq]
    exact preY.len a
  · intro a
    rw [hsl a, hsl 0]
    exact preY.perm a
  · rw [hsl 0]; exact preY.nodup
  · exact Nat.lt_of_lt_of_le preY.id_lt postA.count

theorem build_post {bboxes : List BBox} :
    ∀ (fuel : Nat) (tmp : List Nat) (st st' : BuildState) (id b e : Nat),
      BvhBuilder.build bboxes fuel tmp st id = .ok st' → BuildPre bboxes st id b e →
      BuildPost bboxes st st' id b e := by
  intro fuel
  induction fuel with
  | zero =>
    intro tmp st st' id b e h
    simp [BvhBuilder.build] at h
  | succ fuel ih =>
    intro tmp st st' id b e h pre
    rcases build_level h pre with rfl | ⟨s, st1, stA, tmpX, tmpY, X, Y, stage, hXY, hA, hB⟩
    · obtain ⟨nd, h1, h2, h3, h4⟩ := pre.node
      exact ⟨fun _ => List.Perm.refl _, fun _ _ _ => rfl, Nat.le_refl _, rfl, fun _ _ _ => rfl,
        Subtree.leaf id b e _ nd h1 h2 h3 pre.lt (pre.len 0) h4, rfl⟩
    · have hid := pre.id_lt
      have hb := stage.hb
      have hs := stage.hs
      have hc1 := stage.count
      obtain ⟨nd, p1, p2, p3, p4, p5⟩ := stage.parent
      rcases hXY with ⟨rfl, rfl⟩ | ⟨rfl, rfl⟩
      · -- the left child is built first
        have postA := ih _ _ _ _ _ _ hA stage.left
        have preY := BuildPre.after postA stage.right (by omega) (Or.inr (Nat.le_refl _))
        have postB := ih _ _ _ _ _ _ hB preY
        have hcA := postA.count
        have hcB := postB.count
        have hperm : ∀ a, (st'.prims a).Perm (st.prims a) :=
          fun a => (postB.perm a).trans ((postA.perm a).trans (stage.perm a))
        have hframe : ∀ a k, (k < b ∨ e ≤ k) → (st'.prims a)[k]? = (st.prims a)[k]? := by
          intro a k hk
          rw [postB.frame a k (by omega), postA.frame a k (by omega), stage.frame a k hk]
        refine ⟨hperm, hframe, by omega, ?_, ?_, ?_,
          by rw [postB.flags_len, postA.flags_len, stage.flags_len]⟩
        · rw [postB.nodes_len, postA.nodes_len, stage.nodes_len]
        · intro k hk hne
          rw [postB.nodes_frame k (by omega) (by omega), postA.nodes_frame k (by omega) (by omega),
            stage.nodes_frame k hk hne]
        · refine Subtree.inner_lr id b s e _ stA.node_count _ nd ?_ p2 p3 p4 hb hs ?_ ?_ ?_
          · rw [postB.nodes_frame id (by omega) (by omega),
              postA.nodes_frame id (by omega) (by omega)]
            exact p1
          · exact p5.perm (slice_perm_of_frame (hperm 0) (fun k hk => hframe 0 k (by omega)))
          · have t := postA.tree
            rw [hc1] at t
            exact t.transfer (fun k hk => postB.nodes_frame k (by omega) (by omega))
              (fun k _ hk2 => postB.frame 0 k (Or.inl hk2)) (postB.perm 0).length_eq
          · exact postB.tree
      · -- the right child is built first
        have postA := ih _ _ _ _ _ _ hA stage.right
        have preY := BuildPre.after postA stage.left (by omega) (Or.inl (Nat.le_refl _))
        have postB := ih _ _ _ _ _ _ hB preY
        have hcA := postA.count
        have hcB := postB.count
        have hperm : ∀ a, (st'.prims a).Perm (st.prims a) :=
          fun a => (postB.perm a).trans ((postA.perm a).trans (stage.perm a))
        have hframe : ∀ a k, (k < b ∨ e ≤ k) → (st'.prims a)[k]? = (st.prims a)[k]? := by
          intro a k hk
          rw [postB.frame a k (by omega), postA.frame a k (by omega), stage.frame a k hk]
        refine ⟨hperm, hframe, by omega, ?_, ?_, ?_,
          by rw [postB.flags_len, postA.flags_len, stage.flags_len]⟩
        · rw [postB.nodes_len, postA.nodes_len, stage.nodes_len]
        · intro k hk hne
          rw [postB.nodes_frame k (by omega) (by omega), postA.nodes_frame k (by omega) (by omega),
            stage.nodes_frame k hk hne]
        · refine Subtree.inner_rl id b s e _ stA.node_count _ nd ?_ p2 p3 p4 hb hs ?_ ?_ ?_
          · rw [postB.nodes_frame id (by omega) (by omega),
              postA.nodes_frame id (by omega) (by omega)]
            exact p1
          · exact p5.perm (slice_perm_of_frame (hperm 0) (fun k hk => hframe 0 k (by omega)))
          · have t := postA.tree
            rw [hc1] at t
            exact t.transfer (fun k hk => postB.nodes_frame k (by omega) (by omega))
              (fun k hk1 _ => postB.frame 0 k (Or.inr hk1)) (postB.perm 0).length_eq
          · exact postB.tree

/-- The fuel argument of `BvhBuilder::build` is never the reason for a failure when it
is at least the number of primitives of the node. -/
theorem build_noFuel {bboxes : List BBox} :
    ∀ (fuel : Nat) (tmp : List Nat) (st : BuildState) (id b e : Nat),
      BuildPre bboxes st id b e → e - b ≤ fuel →
      NoFuel (BvhBuilder.build bboxes fuel tmp st id) := by
  intro fuel
  induction fuel with
  | zero =>
    intro tmp st id b e pre hle
    have := pre.lt
    omega
  | succ fuel ih =>
    intro tmp st id b e pre hle
    rcases build_step rfl pre with h1 | ⟨f, h1, hf⟩ |
      ⟨s, st1, tmpX, tmpY, X, Y, stage, hXY, h1⟩
    · rw [h1]; exact NoFuel.ok _
    · rw [h1]
      intro hc
      cases hc
      exact hf.1 rfl
    · rw [h1]
      have hb := stage.hb
      have hs := stage.hs
      have hc1 := stage.count
      have hid := pre.id_lt
      rcases hXY with ⟨rfl, rfl, _⟩ | ⟨rfl, rfl, _⟩
      · refine NoFuel.bind (ih _ _ _ _ _ stage.left (by omega)) fun stA hA => ?_
        have postA := build_post _ _ _ _ _ _ _ hA stage.left
        exact ih _ _ _ _ _
          (BuildPre.after postA stage.right (by omega) (Or.inr (Nat.le_refl _))) (by omega)
      · refine NoFuel.bind (ih _ _ _ _ _ stage.right (by omega)) fun stA hA => ?_
        have postA := build_post _ _ _ _ _ _ _ hA stage.right
        exact ih _ _ _ _ _
          (BuildPre.after postA stage.left (by omega) (Or.inl (Nat.le_refl _))) (by omega)

/-! ## Consequences of the subtree structure -/

/-- Every slot of a subtree is itself the root of a subtree, over a part of the range
and using a part of the slots. -/
theorem Subtree.sub {bboxes : List BBox} {prim_ids : List Nat} {nodes : List Node}
    {id b e lo hi : Nat} (h : Subtree bboxes prim_ids nodes id b e lo hi) :
    ∀ k, (k = id ∨ (lo ≤ k ∧ k < hi)) → ∃ b' e' lo' hi',
      Subtree bboxes prim_ids nodes k b' e' lo' hi' ∧ b ≤ b' ∧ e' ≤ e ∧ hi' - lo' ≤ hi - lo := by
  induction h with
  | leaf id b e lo nd h1 h2 h3 h4 h5 h6 =>
    intro k hk
    have : k = id := by omega
    subst this
    exact ⟨b, e, lo, lo, Subtree.leaf k b e lo nd h1 h2 h3 h4 h5 h6, Nat.le_refl _,
      Nat.le_refl _, Nat.le_refl _⟩
  | inner_lr id b s e lo m hi nd h1 h2 h3 h4 h5 h6 h7 t1 t2 ih1 ih2 =>
    intro k hk
    have b1 := t1.lo_le_hi
    have b2 := t2.lo_le_hi
    by_cases hkid : k = id
    · subst hkid
      exact ⟨b, e, lo, hi, Subtree.inner_lr k b s e lo m hi nd h1 h2 h3 h4 h5 h6 h7 t1 t2,
        Nat.le_refl _, Nat.le_refl _, Nat.le_refl _⟩
    · by_cases hk1 : k = lo ∨ (lo + 2 ≤ k ∧ k < m)
      · obtain ⟨b', e', lo', hi', t, c1, c2, c3⟩ := ih1 k hk1
        exact ⟨b', e', lo', hi', t, c1, by omega, by omega⟩
      · obtain ⟨b', e', lo', hi', t, c1, c2, c3⟩ := ih2 k (by omega)
        exact ⟨b', e', lo', hi', t, by omega, c2, by omega⟩
  | inner_rl id b s e lo m hi nd h1 h2 h3 h4 h5 h6 h7 t1 t2 ih1 ih2 =>
    intro k hk
    have b1 := t1.lo_le_hi
    have b2 := t2.lo_le_hi
    by_cases hkid : k = id
    · subst hkid
      exact ⟨b, e, lo, hi, Subtree.inner_rl k b s e lo m hi nd h1 h2 h3 h4 h5 h6 h7 t1 t2,
        Nat.le_refl _, Nat.le_refl _, Nat.le_refl _⟩
    · by_cases hk1 : k = lo + 1 ∨ (lo + 2 ≤ k ∧ k < m)
      · obtain ⟨b', e', lo', hi', t, c1, c2, c3⟩ := ih1 k hk1
        exact ⟨b', e', lo', hi', t, by omega, c2, by omega⟩
      · obtain ⟨b', e', lo', hi', t, c1, c2, c3⟩ := ih2 k (by omega)
        exact ⟨b', e', lo', hi', t, c1, by omega, by omega⟩

/-- The root of a subtree is a slot of the array. -/
theorem Subtree.root_some {bboxes : List BBox} {prim_ids : List Nat} {nodes : List Node}
    {id b e lo hi : Nat} (h : Subtree bboxes prim_ids nodes id b e lo hi) :
    ∃ nd, nodes[id]? = some nd ∧ Covers bboxes nd.bbox (slice prim_ids b (e - b)) := by
  cases h with
  | leaf _ _ _ _ nd h1 _ _ _ _ h6 => exact ⟨nd, h1, h6⟩
  | inner_lr _ _ _ _ _ _ _ nd h1 _ _ _ _ _ h7 => exact ⟨nd, h1, h7⟩
  | inner_rl _ _ _ _ _ _ _ nd h1 _ _ _ _ _ h7 => exact ⟨nd, h1, h7⟩

/-- All slots of a subtree lie inside the node array. -/
theorem Subtree.slot_lt_length {bboxes : List BBox} {prim_ids : List Nat} {nodes : List Node}
    {id b e lo hi : Nat} (h : Subtree bboxes prim_ids nodes id b e lo hi) (k : Nat)
    (hk : k = id ∨ (lo ≤ k ∧ k < hi)) : k < nodes.length := by
  obtain ⟨b', e', lo', hi', t, _⟩ := h.sub k hk
  obtain ⟨nd, h1, _⟩ := t.root_some
  exact (List.getElem?_eq_some_iff.mp h1).1

/-- The leaves of a subtree tile its range: a leaf of the subtree lies inside the range,
every position of the range lies in a leaf, and in one leaf only. -/
theorem Subtree.leaf_cover {bboxes : List BBox} {prim_ids : List Nat} {nodes : List Node}
    {id b e lo hi : Nat} (h : Subtree bboxes prim_ids nodes id b e lo hi) (hid : id < lo) :
    (∀ k j, (k = id ∨ (lo ≤ k ∧ k < hi)) → LeafAt nodes k j → b ≤ j ∧ j < e) ∧
    (∀ j, b ≤ j → j < e → ∃ k, (k = id ∨ (lo ≤ k ∧ k < hi)) ∧ LeafAt nodes k j) ∧
    (∀ k1 k2 j, (k1 = id ∨ (lo ≤ k1 ∧ k1 < hi)) → (k2 = id ∨ (lo ≤ k2 ∧ k2 < hi)) →
      LeafAt nodes k1 j → LeafAt nodes k2 j → k1 = k2) := by
  induction h with
  | leaf id b e lo nd h1 h2 h3 h4 h5 h6 =>
    refine ⟨?_, ?_, ?_⟩
    · intro k j hk ⟨nd', g1, g2, g3, g4⟩
      have : k = id := by omega
      subst this
      rw [h1] at g1
      cases g1
      omega
    · intro j hj1 hj2
      exact ⟨id, Or.inl rfl, nd, h1, by omega, by omega, by omega⟩
    · intro k1 k2 j hk1 hk2 _ _
      omega
  | inner_lr id b s e lo m hi nd h1 h2 h3 h4 h5 h6 h7 t1 t2 ih1 ih2 =>
    have b1 := t1.lo_le_hi
    have b2 := t2.lo_le_hi
    obtain ⟨l1, l2, l3⟩ := ih1 (by omega)
    obtain ⟨r1, r2, r3⟩ := ih2 (by omega)
    have notleaf : ∀ j, ¬ LeafAt nodes id j := by
      intro j ⟨nd', g1, g2, _⟩
      rw [h1] at g1
      cases g1
      omega
    have cls : ∀ k, (k = id ∨ (lo ≤ k ∧ k < hi)) → k = id ∨
        (k = lo ∨ (lo + 2 ≤ k ∧ k < m)) ∨ (k = lo + 1 ∨ (m ≤ k ∧ k < hi)) := by
      intro k hk; omega
    refine ⟨?_, ?_, ?_⟩
    · intro k j hk hl
      rcases cls k hk with rfl | hk | hk
      · exact absurd hl (notleaf j)
      · have := l1 k j hk hl; omega
      · have := r1 k j hk hl; omega
    · intro j hj1 hj2
      by_cases hjs : j < s
      · obtain ⟨k, hk, hl⟩ := l2 j hj1 hjs
        exact ⟨k, by omega, hl⟩
      · obtain ⟨k, hk, hl⟩ := r2 j (by omega) hj2
        exact ⟨k, by omega, hl⟩
    · intro k1 k2 j hk1 hk2 hl1 hl2
      rcases cls k1 hk1 with rfl | hk1 | hk1
      · exact absurd hl1 (notleaf j)
      · rcases cls k2 hk2 with rfl | hk2 | hk2
        · exact absurd hl2 (notleaf j)
        · exact l3 k1 k2 j hk1 hk2 hl1 hl2
        · have := l1 k1 j hk1 hl1
          have := r1 k2 j hk2 hl2
          omega
      · rcases cls k2 hk2 with rfl | hk2 | hk2
        · exact absurd hl2 (notleaf j)
        · have := r1 k1 j hk1 hl1
          have := l1 k2 j hk2 hl2
          omega
        · exact r3 k1 k2 j hk1 hk2 hl1 hl2
  | inner_rl id b s e lo m hi nd h1 h2 h3 h4 h5 h6 h7 t1 t2 ih1 ih2 =>
    have b1 := t1.lo_le_hi
    have b2 := t2.lo_le_hi
    obtain ⟨r1, r2, r3⟩ := ih1 (by omega)
    obtain ⟨l1, l2, l3⟩ := ih2 (by omega)
    have notleaf : ∀ j, ¬ LeafAt nodes id j := by
      intro j ⟨nd', g1, g2, _⟩
      rw [h1] at g1
      cases g1
      omega
    have cls : ∀ k, (k = id ∨ (lo ≤ k ∧ k < hi)) → k = id ∨
        (k = lo ∨ (m ≤ k ∧ k < hi)) ∨ (k = lo + 1 ∨ (lo + 2 ≤ k ∧ k < m)) := by
      intro k hk; omega
    refine ⟨?_, ?_, ?_⟩
    · intro k j hk hl
      rcases cls k hk with rfl | hk | hk
      · exact absurd hl (notleaf j)
      · have := l1 k j hk hl; omega
      · have := r1 k j hk hl; omega
    · intro j hj1 hj2
      by_cases hjs : j < s
      · obtain ⟨k, hk, hl⟩ := l2 j hj1 hjs
        exact ⟨k, by omega, hl⟩
      · obtain ⟨k, hk, hl⟩ := r2 j (by omega) hj2
        exact ⟨k, by omega, hl⟩
    · intro k1 k2 j hk1 hk2 hl1 hl2
      rcases cls k1 hk1 with rfl | hk1 | hk1
      · exact absurd hl1 (notleaf j)
      · rcases cls k2 hk2 with rfl | hk2 | hk2
        · exact absurd hl2 (notleaf j)
        · exact l3 k1 k2 j hk1 hk2 hl1 hl2
        · have := l1 k1 j hk1 hl1
          have := r1 k2 j hk2 hl2
          omega
      · rcases cls k2 hk2 with rfl | hk2 | hk2
        · exact absurd hl2 (notleaf j)
        · have := r1 k1 j hk1 hl1
          have := l1 k2 j hk2 hl2
          omega
        · exact r3 k1 k2 j hk1 hk2 hl1 hl2

/-- Following the child links from the root of a subtree collects exactly its range. -/
theorem Subtree.slots_eq {bboxes : List BBox} {prim_ids : List Nat} {nodes : List Node}
    {id b e lo hi : Nat} (h : Subtree bboxes prim_ids nodes id b e lo hi) :
    ∀ fuel, hi - lo < fuel → subtree_slots nodes fuel id = List.range' b (e - b) := by
  induction h with
  | leaf id b e lo nd h1 h2 h3 h4 h5 h6 =>
    intro fuel hf
    obtain ⟨f, rfl⟩ : ∃ f, fuel = f + 1 := ⟨fuel - 1, by omega⟩
    rw [subtree_slots, h1]
    simp only
    rw [if_pos (by omega), h2, h3]
    congr 1
    omega
  | inner_lr id b s e lo m hi nd h1 h2 h3 h4 h5 h6 h7 t1 t2 ih1 ih2 =>
    intro fuel hf
    have b1 := t1.lo_le_hi
    have b2 := t2.lo_le_hi
    obtain ⟨f, rfl⟩ : ∃ f, fuel = f + 1 := ⟨fuel - 1, by omega⟩
    rw [subtree_slots, h1]
    simp only
    rw [if_neg (by omega), h4, ih1 f (by omega), ih2 f (by omega)]
    rw [show e - b = (e - s) + (s - b) by omega, ← List.range'_append_1,
      show b + (s - b) = s by omega]
  | inner_rl id b s e lo m hi nd h1 h2 h3 h4 h5 h6 h7 t1 t2 ih1 ih2 =>
    intro fuel hf
    have b1 := t1.lo_le_hi
    have b2 := t2.lo_le_hi
    obtain ⟨f, rfl⟩ : ∃ f, fuel = f + 1 := ⟨fuel - 1, by omega⟩
    rw [subtree_slots, h1]
    simp only
    rw [if_neg (by omega), h4, ih2 f (by omega), ih1 f (by omega)]
    rw [show e - b = (e - s) + (s - b) by omega, ← List.range'_append_1,
      show b + (s - b) = s by omega]

/-! ## `Bvh::build` -/

theorem global_bbox_loop_spec {bboxes : List BBox} :
    ∀ (n i : Nat) (loc loc' : BBox), global_bbox_loop bboxes n i loc = .ok loc' →
      is_included loc loc' = true ∧
      ∀ k, i ≤ k → k < i + n → ∃ bb, bboxes[k]? = some bb ∧ is_included bb loc' = true := by
  intro n
  induction n with
  | zero =>
    intro i loc loc' h
    simp only [global_bbox_loop] at h
    cases h
    exact ⟨is_included_refl _, fun k h1 h2 => by omega⟩
  | succ n ih =>
    intro i loc loc' h
    rw [global_bbox_loop] at h
    obtain ⟨bb, hbb, h⟩ := bind_ok h
    obtain ⟨h1, h2⟩ := ih _ _ _ h
    have e1 : is_included loc ⟨float3.min bb.min loc.min, float3.max bb.max loc.max⟩ = true := by
      rw [is_included_iff]; simp [float3.min, float3.max]
    have e2 : is_included bb ⟨float3.min bb.min loc.min, float3.max bb.max loc.max⟩ = true := by
      rw [is_included_iff]; simp [float3.min, float3.max]
    refine ⟨is_included_trans e1 h1, ?_⟩
    intro k hk1 hk2
    by_cases hki : k = i
    · subst hki
      exact ⟨bb, rd_ok hbb, is_included_trans e2 h1⟩
    · exact h2 k (by omega) (by omega)

theorem sort_prims_perm (centers : List float3) (key : float3 → ℚ) (n : Nat) :
    (sort_prims centers key n).Perm (List.range n) :=
  List.perm_insertionSort _ _

theorem slice_full {α : Type} (l : List α) : slice l 0 l.length = l := by
  simp [slice]

/-- The precondition of `BvhBuilder::build` holds for the root that
`Bvh::build` sets up. -/
theorem root_pre {bboxes : List BBox} {nodes : List Node} {loc : BBox} {n : Nat}
    {prims : Fin 3 → List Nat} (flags : List Nat)
    (hloc : global_bbox_loop bboxes n 0 BBox.empty = .ok loc) (hlt : 0 < nodes.length)
    (hn : 0 < n) (hperm : ∀ a, (prims a).Perm (List.range n)) :
    BuildPre bboxes ⟨nodes.set 0 ⟨float3.min loc.min (float3.splat FLT_MAX), 0,
      float3.max loc.max (float3.splat (-FLT_MAX)), n⟩, 1, prims, flags⟩ 0 0 n := by
  obtain ⟨hl1, hl2⟩ := global_bbox_loop_spec _ _ _ _ hloc
  have hlen : ∀ a, (prims a).length = n := fun a => by
    rw [(hperm a).length_eq, List.length_range]
  have hsl : ∀ a, slice (prims a) 0 (n - 0) = prims a := fun a => by
    have := slice_full (prims a)
    rw [hlen a] at this
    exact this
  refine ⟨⟨_, List.getElem?_set_self hlt, rfl, by simp, ?_⟩, hn, ?_, ?_, ?_, by simp⟩
  · intro p hp
    rw [hsl 0] at hp
    have hp' := (hperm 0).mem_iff.mp hp
    rw [List.mem_range] at hp'
    obtain ⟨bb, g1, g2⟩ := hl2 p (Nat.zero_le _) (by omega)
    refine ⟨bb, g1, is_included_trans g2 ?_⟩
    rw [is_included_iff]
    simp [Node.bbox, float3.min, float3.max, float3.splat]
  · intro a; rw [hlen a]
  · intro a; rw [hsl a, hsl 0]; exact (hperm a).trans (hperm 0).symm
  · rw [hsl 0]; exact (hperm 0).nodup_iff.mpr (List.nodup_range n)

/-- The tree built by the overload of `Bvh::build` that works on boxes and centers. -/
theorem build_boxes_spec {nodes nodes' : List Node} {bboxes : List BBox}
    {centers : List float3} {n num_nodes : Nat} {prim_ids : List Nat}
    (h : Bvh.build_boxes nodes bboxes centers n = .ok (nodes', prim_ids, num_nodes))
    (hn : 0 < n) :
    prim_ids.Perm (List.range n) ∧ nodes'.length = num_nodes ∧ 0 < num_nodes ∧
    num_nodes ≤ nodes.length ∧
    Subtree bboxes prim_ids nodes' 0 0 n 1 num_nodes := by
  unfold Bvh.build_boxes at h
  obtain ⟨loc, hloc, h⟩ := bind_ok h
  obtain ⟨nodes1, hw, h⟩ := bind_ok h
  obtain ⟨hlt, rfl⟩ := wr_ok hw
  obtain ⟨st', hb, h⟩ := bind_ok h
  cases h
  have hperm : ∀ a : Fin 3, ((fun a : Fin 3 =>
      match a with
      | 0 => sort_prims centers float3.x n
      | 1 => sort_prims centers float3.y n
      | 2 => sort_prims centers float3.z n) a).Perm (List.range n) := by
    intro a
    match a with
    | 0 => exact sort_prims_perm _ _ _
    | 1 => exact sort_prims_perm _ _ _
    | 2 => exact sort_prims_perm _ _ _
  generalize hprims : (fun a : Fin 3 =>
      match a with
      | 0 => sort_prims centers float3.x n
      | 1 => sort_prims centers float3.y n
      | 2 => sort_prims centers float3.z n) = prims at hb hperm
  have pre := root_pre (List.replicate n 0) hloc hlt hn hperm
  have post := build_post _ _ _ _ _ _ _ hb pre
  have hc : 1 ≤ st'.node_count := post.count
  have hnl : st'.nodes.length = nodes.length := by
    have := post.nodes_len
    simpa using this
  have ht : Subtree bboxes (st'.prims 0) st'.nodes 0 0 n 1 st'.node_count := post.tree
  have hle : st'.node_count ≤ st'.nodes.length := by
    have := ht.slot_lt_length (st'.node_count - 1) (by omega)
    omega
  refine ⟨(post.perm 0).trans (hperm 0), ?_, hc, by omega, ?_⟩
  · rw [List.length_take]; omega
  · refine ht.transfer ?_ (fun _ _ _ => rfl) rfl
    intro k hk
    rw [List.getElem?_take, if_pos (by omega)]

theorem centers_boxes_loop_spec {verts : List float3} {indices : List Nat} :
    ∀ (n i : Nat) (centers cs : List float3) (bboxes bs : List BBox),
      centers_boxes_loop verts indices n i centers bboxes = .ok (cs, bs) →
      bboxes.length = i →
      bs.length = i + n ∧ (∀ k, k < i → bs[k]? = bboxes[k]?) ∧
      ∀ k, i ≤ k → k < i + n → ∃ v0 v1 v2,
        tri_verts verts indices k = .ok (v0, v1, v2) ∧ bs[k]? = some (tri_bbox v0 v1 v2) := by
  intro n
  induction n with
  | zero =>
    intro i centers cs bboxes bs h hl
    simp only [centers_boxes_loop] at h
    cases h
    exact ⟨hl, fun _ _ => rfl, fun k h1 h2 => by omega⟩
  | succ n ih =>
    intro i centers cs bboxes bs h hl
    rw [centers_boxes_loop] at h
    obtain ⟨⟨v0, v1, v2⟩, hv, h⟩ := bind_ok h
    obtain ⟨g1, g2, g3⟩ := ih _ _ _ _ _ h (by rw [List.length_append, hl]; rfl)
    refine ⟨by omega, ?_, ?_⟩
    · intro k hk
      rw [g2 k (by omega), List.getElem?_append_left (by omega)]
    · intro k hk1 hk2
      by_cases hki : k = i
      · subst hki
        refine ⟨v0, v1, v2, hv, ?_⟩
        rw [g2 k (by omega), List.getElem?_append_right (by omega), hl]
        simp [tri_bbox]
      · exact g3 k (by omega) (by omega)

theorem tris_loop_spec {verts : List float3} {indices prim_ids : List Nat} :
    ∀ (n i : Nat) (tris ts : List PrecomputedTri),
      tris_loop verts indices prim_ids n i tris = .ok ts → tris.length = i →
      ts.length = i + n ∧ (∀ k, k < i → ts[k]? = tris[k]?) ∧
      ∀ k, i ≤ k → k < i + n → ∃ id v0 v1 v2, prim_ids[k]? = some id ∧
        tri_verts verts indices id = .ok (v0, v1, v2) ∧
        ts[k]? = some (PrecomputedTri.mk3 v0 v1 v2) := by
  intro n
  induction n with
  | zero =>
    intro i tris ts h hl
    simp only [tris_loop] at h
    cases h
    exact ⟨hl, fun _ _ => rfl, fun k h1 h2 => by omega⟩
  | succ n ih =>
    intro i tris ts h hl
    rw [tris_loop] at h
    obtain ⟨id, hid, h⟩ := bind_ok h
    obtain ⟨⟨v0, v1, v2⟩, hv, h⟩ := bind_ok h
    obtain ⟨g1, g2, g3⟩ := ih _ _ _ h (by rw [List.length_append, hl]; rfl)
    refine ⟨by omega, ?_, ?_⟩
    · intro k hk
      rw [g2 k (by omega), List.getElem?_append_left (by omega)]
    · intro k hk1 hk2
      by_cases hki : k = i
      · subst hki
        refine ⟨id, v0, v1, v2, rd_ok hid, hv, ?_⟩
        rw [g2 k (by omega), List.getElem?_append_right (by omega), hl]
        simp
      · exact g3 k (by omega) (by omega)

/-- The structure produced by `Bvh::build`: the remap array is a permutation, the node
array is a tree over it whose boxes cover the triangles, and the triangle cache
follows the remap array. -/
theorem bvh_build_spec {verts : List float3} {indices : List Nat} {n : Nat} {bvh : Bvh}
    (h : Bvh.build verts indices n = .ok bvh) (hn : 0 < n) :
    ∃ bboxes, TriBoxes verts indices n bboxes ∧
      bvh.prim_ids.Perm (List.range n) ∧ bvh.nodes.length = bvh.num_nodes ∧
      0 < bvh.num_nodes ∧ bvh.num_nodes ≤ n * 2 + 1 ∧
      Subtree bboxes bvh.prim_ids bvh.nodes 0 0 n 1 bvh.num_nodes ∧
      TriCache verts indices bvh.prim_ids n bvh.tris := by
  unfold Bvh.build at h
  obtain ⟨⟨centers, bboxes⟩, hcb, h⟩ := bind_ok h
  obtain ⟨⟨nodes, prim_ids, num_nodes⟩, hbb, h⟩ := bind_ok h
  obtain ⟨tris, htr, h⟩ := bind_ok h
  cases h
  obtain ⟨c1, _, c3⟩ := centers_boxes_loop_spec _ _ _ _ _ _ hcb rfl
  obtain ⟨b1, b2, b3, b4, b5⟩ := build_boxes_spec hbb hn
  obtain ⟨t1, _, t3⟩ := tris_loop_spec _ _ _ _ htr rfl
  rw [List.length_replicate] at b4
  have t1' : tris.length = n := by omega
  exact ⟨bboxes, ⟨by omega, fun i hi => c3 i (Nat.zero_le _) (by omega)⟩, b1, b2, b3, b4, b5,
    t1', fun j hj => t3 j (Nat.zero_le _) (by omega)⟩

theorem build_boxes_noFuel (nodes : List Node) (bboxes : List BBox) (centers : List float3)
    (n : Nat) : NoFuel (Bvh.build_boxes nodes bboxes centers n) := by
  unfold Bvh.build_boxes
  refine NoFuel.bind (global_bbox_loop_noFuel _ _ _ _) fun loc hloc => ?_
  refine NoFuel.bind (wr_noFuel _ _ _) fun nodes1 hw => ?_
  obtain ⟨hlt, rfl⟩ := wr_ok hw
  refine NoFuel.bind ?_ fun _ _ => NoFuel.ok _
  rcases Nat.eq_zero_or_pos n with rfl | hn
  · rw [BvhBuilder.build]
    refine NoFuel.bind (rd_noFuel _ _) fun node hnode => ?_
    have hnode' := rd_ok hnode
    rw [List.getElem?_set_self hlt] at hnode'
    cases hnode'
    simp only [Nat.cast_zero, add_zero, sub_self, zero_le_one, if_true]
    exact NoFuel.ok _
  · apply build_noFuel _ _ _ 0 0 n _ (by omega)
    apply root_pre _ hloc hlt hn
    intro a
    match a with
    | 0 => exact sort_prims_perm _ _ _
    | 1 => exact sort_prims_perm _ _ _
    | 2 => exact sort_prims_perm _ _ _

/-- `Bvh::build` never stops for lack of fuel: the fuel the embedding gives to
`BvhBuilder::build` is enough for every input. -/
theorem bvh_build_noFuel (verts : List float3) (indices : List Nat) (n : Nat) :
    NoFuel (Bvh.build verts indices n) := by
  unfold Bvh.build
  refine NoFuel.bind (centers_boxes_loop_noFuel _ _ _ _ _ _) fun r _ => ?_
  obtain ⟨centers, bboxes⟩ := r
  refine NoFuel.bind (build_boxes_noFuel _ _ _ _) fun r _ => ?_
  obtain ⟨nodes, prim_ids, num_nodes⟩ := r
  exact NoFuel.bind (tris_loop_noFuel _ _ _ _ _ _) fun _ _ => NoFuel.ok _

/-! ## Claims about the built hierarchy -/

/-- C2. For `N ≥ 1` triangles, after `Bvh::build` the remap array `prim_ids` is a
permutation of `0..N-1`; the leaf ranges of the node array lie in `[0, N)`, are pairwise
disjoint and cover `[0, N)`; hence every triangle id appears in exactly one leaf. -/
theorem build_leaves_partition (verts : List float3) (indices : List Nat) (n : Nat) (bvh : Bvh)
    (h : Bvh.build verts indices n = .ok bvh) (hn : 0 < n) :
    bvh.prim_ids.Perm (List.range n) ∧
    (∀ k j, LeafAt bvh.nodes k j → j < n) ∧
    (∀ k1 k2 j, LeafAt bvh.nodes k1 j → LeafAt bvh.nodes k2 j → k1 = k2) ∧
    (∀ j, j < n → ∃ k, LeafAt bvh.nodes k j) ∧
    (∀ id, id < n → ∃! k, ∃ j, LeafAt bvh.nodes k j ∧ bvh.prim_ids[j]? = some id) := by
  obtain ⟨bboxes, _, hperm, hlen, hpos, _, htree, _⟩ := bvh_build_spec h hn
  obtain ⟨c1, c2, c3⟩ := htree.leaf_cover (by omega)
  have slot : ∀ k j, LeafAt bvh.nodes k j → (k = 0 ∨ (1 ≤ k ∧ k < bvh.num_nodes)) := by
    intro k j ⟨nd, g1, _⟩
    have := (List.getElem?_eq_some_iff.mp g1).1
    omega
  have inside : ∀ k j, LeafAt bvh.nodes k j → j < n :=
    fun k j hl => (c1 k j (slot k j hl) hl).2
  have uniq : ∀ k1 k2 j, LeafAt bvh.nodes k1 j → LeafAt bvh.nodes k2 j → k1 = k2 :=
    fun k1 k2 j h1 h2 => c3 k1 k2 j (slot _ _ h1) (slot _ _ h2) h1 h2
  have cover : ∀ j, j < n → ∃ k, LeafAt bvh.nodes k j := by
    intro j hj
    obtain ⟨k, _, hl⟩ := c2 j (Nat.zero_le _) hj
    exact ⟨k, hl⟩
  refine ⟨hperm, inside, uniq, cover, ?_⟩
  intro id hid
  have hmem : id ∈ bvh.prim_ids := hperm.mem_iff.mpr (List.mem_range.mpr hid)
  obtain ⟨j, hj⟩ := List.mem_iff_getElem?.mp hmem
  have hjn : j < n := by
    have := (List.getElem?_eq_some_iff.mp hj).1
    rw [hperm.length_eq, List.length_range] at this
    exact this
  obtain ⟨k, hk⟩ := cover j hjn
  refine ⟨k, ⟨j, hk, hj⟩, ?_⟩
  rintro k' ⟨j', hk', hj'⟩
  have hnd : bvh.prim_ids.Nodup := hperm.nodup_iff.mpr (List.nodup_range n)
  have hjj : j' = j := by
    obtain ⟨a1, a2⟩ := List.getElem?_eq_some_iff.mp hj
    obtain ⟨a3, a4⟩ := List.getElem?_eq_some_iff.mp hj'
    exact (List.Nodup.getElem_inj_iff hnd).mp (a4.trans a2.symm)
  subst hjj
  exact uniq k' k j' hk' hk

/-- Witness for C2 on the two-triangle scene. -/
theorem build_leaves_partition_witness :
    Bvh.build two_tri_verts two_tri_indices 2 = .ok two_tri_bvh ∧ 0 < 2 ∧
    (two_tri_bvh.prim_ids.Perm (List.range 2) ∧
    (∀ k j, LeafAt two_tri_bvh.nodes k j → j < 2) ∧
    (∀ k1 k2 j, LeafAt two_tri_bvh.nodes k1 j → LeafAt two_tri_bvh.nodes k2 j → k1 = k2) ∧
    (∀ j, j < 2 → ∃ k, LeafAt two_tri_bvh.nodes k j) ∧
    (∀ id, id < 2 → ∃! k, ∃ j, LeafAt two_tri_bvh.nodes k j ∧
      two_tri_bvh.prim_ids[j]? = some id)) :=
  ⟨by decide!, by decide,
    build_leaves_partition two_tri_verts two_tri_indices 2 two_tri_bvh (by decide!) (by decide)⟩

/-- C3. For every node of the tree produced by `Bvh::build`, the node's box contains
the bounding box of every triangle stored (through `prim_ids`) in a leaf of its subtree;
the subtree of the root holds all positions, and the root box bounds all `N` input
triangles. -/
theorem build_boxes_contain_subtree (verts : List float3) (indices : List Nat) (n : Nat)
    (bvh : Bvh) (h : Bvh.build verts indices n = .ok bvh) (hn : 0 < n) :
    (∀ k nd, bvh.nodes[k]? = some nd → ∀ j, j ∈ subtree_slots bvh.nodes bvh.num_nodes k →
      ∃ id v0 v1 v2, bvh.prim_ids[j]? = some id ∧
        tri_verts verts indices id = .ok (v0, v1, v2) ∧
        is_included (tri_bbox v0 v1 v2) nd.bbox = true) ∧
    subtree_slots bvh.nodes bvh.num_nodes 0 = List.range' 0 n ∧
    (∀ i, i < n → ∃ root v0 v1 v2, bvh.nodes[0]? = some root ∧
      tri_verts verts indices i = .ok (v0, v1, v2) ∧
      is_included (tri_bbox v0 v1 v2) root.bbox = true) := by
  obtain ⟨bboxes, ⟨hbl, hbx⟩, hperm, hlen, hpos, _, htree, _⟩ := bvh_build_spec h hn
  have hpl : bvh.prim_ids.length = n := by rw [hperm.length_eq, List.length_range]
  have key : ∀ (nd : Node) (b e : Nat), e ≤ n →
      Covers bboxes nd.bbox (slice bvh.prim_ids b (e - b)) → ∀ j, b ≤ j → j < e →
      ∃ id v0 v1 v2, bvh.prim_ids[j]? = some id ∧
        tri_verts verts indices id = .ok (v0, v1, v2) ∧
        is_included (tri_bbox v0 v1 v2) nd.bbox = true := by
    intro nd b e he hcov j hj1 hj2
    have hjl : j < bvh.prim_ids.length := by omega
    have hj : bvh.prim_ids[j]? = some bvh.prim_ids[j] := List.getElem?_eq_getElem hjl
    have hmem : bvh.prim_ids[j] ∈ slice bvh.prim_ids b (e - b) :=
      mem_slice.mpr ⟨j, hj1, by omega, hj⟩
    obtain ⟨bb, g1, g2⟩ := hcov _ hmem
    have hid : bvh.prim_ids[j] < n := by
      have := (List.getElem?_eq_some_iff.mp g1).1
      omega
    obtain ⟨v0, v1, v2, g3, g4⟩ := hbx _ hid
    rw [g1] at g4
    cases g4
    exact ⟨_, v0, v1, v2, hj, g3, g2⟩
  refine ⟨?_, ?_, ?_⟩
  · intro k nd hk j hj
    have hkl : k < bvh.num_nodes := by
      have := (List.getElem?_eq_some_iff.mp hk).1
      omega
    obtain ⟨b', e', lo', hi', t, c1, c2, c3⟩ := htree.sub k (by omega)
    rw [t.slots_eq _ (by omega)] at hj
    obtain ⟨nd', g1, g2⟩ := t.root_some
    rw [hk] at g1
    cases g1
    rw [List.mem_range'_1] at hj
    exact key nd b' e' c2 g2 j hj.1 (by omega)
  · have := htree.slots_eq bvh.num_nodes (by omega)
    rw [this, Nat.sub_zero]
  · intro i hi
    obtain ⟨root, g1, g2⟩ := htree.root_some
    have hmem : i ∈ bvh.prim_ids := hperm.mem_iff.mpr (List.mem_range.mpr hi)
    obtain ⟨j, hj⟩ := List.mem_iff_getElem?.mp hmem
    have hjl := (List.getElem?_eq_some_iff.mp hj).1
    obtain ⟨id, v0, v1, v2, a1, a2, a3⟩ := key root 0 n (Nat.le_refl _) g2 j (Nat.zero_le _)
      (by omega)
    rw [hj] at a1
    cases a1
    exact ⟨root, v0, v1, v2, g1, a2, a3⟩

/-- Witness for C3 on the two-triangle scene. -/
theorem build_boxes_contain_subtree_witness :
    Bvh.build two_tri_verts two_tri_indices 2 = .ok two_tri_bvh ∧ 0 < 2 ∧
    ((∀ k nd, two_tri_bvh.nodes[k]? = some nd →
      ∀ j, j ∈ subtree_slots two_tri_bvh.nodes two_tri_bvh.num_nodes k →
      ∃ id v0 v1 v2, two_tri_bvh.prim_ids[j]? = some id ∧
        tri_verts two_tri_verts two_tri_indices id = .ok (v0, v1, v2) ∧
        is_included (tri_bbox v0 v1 v2) nd.bbox = true) ∧
    subtree_slots two_tri_bvh.nodes two_tri_bvh.num_nodes 0 = List.range' 0 2 ∧
    (∀ i, i < 2 → ∃ root v0 v1 v2, two_tri_bvh.nodes[0]? = some root ∧
      tri_verts two_tri_verts two_tri_indices i = .ok (v0, v1, v2) ∧
      is_included (tri_bbox v0 v1 v2) root.bbox = true)) :=
  ⟨by decide!, by decide,
    build_boxes_contain_subtree two_tri_verts two_tri_indices 2 two_tri_bvh (by decide!)
      (by decide)⟩

/-! ## Traversal of a hierarchy whose root is a leaf -/

theorem rdi_error {α : Type} {a : List α} {i : Int} {e : Fault} (h : rdi a i = .error e) :
    e = .out_of_bounds := by
  unfold rdi rd at h
  split at h
  · split at h
    · cases h
    · cases h; rfl
  · cases h; rfl

/-- When the node array has at most two entries (the root is a leaf), the first loop
iteration of `Bvh::traverse` reads `nodes[2]`, which does not exist. -/
theorem traverse_short_array_out_of_bounds (bvh : Bvh) (fuel : Nat) (ray : Ray) (any : Bool)
    (h : bvh.nodes.length ≤ 2) : bvh.traverse (fuel + 1) ray any = .error .out_of_bounds := by
  have h2 : rdi bvh.nodes ((1 : Int) + 1) = .error .out_of_bounds := by
    unfold rdi rd
    rw [if_pos (by omega), List.getElem?_eq_none (by simpa using h)]
  unfold Bvh.traverse
  simp only [traverse_loop, traverse_step]
  rw [if_pos (by decide)]
  simp only [h2]
  cases h1 : rdi bvh.nodes ((1 : Int) + 0) with
  | error e => rw [rdi_error h1]; rfl
  | ok v => rfl

/-- The number of slots used by a subtree is bounded by the size of its range. -/
theorem Subtree.slot_count_le {bboxes : List BBox} {prim_ids : List Nat} {nodes : List Node}
    {id b e lo hi : Nat} (h : Subtree bboxes prim_ids nodes id b e lo hi) :
    hi + 2 ≤ lo + 2 * (e - b) := by
  induction h with
  | leaf => omega
  | inner_lr _ _ _ _ _ _ _ _ _ _ _ _ _ _ _ _ _ ih1 ih2 => omega
  | inner_rl _ _ _ _ _ _ _ _ _ _ _ _ _ _ _ _ _ ih1 ih2 => omega

/-- For a single triangle `Bvh::build` leaves the root as a leaf and trims the node
array to one entry. -/
theorem build_single_tri_nodes {verts : List float3} {indices : List Nat} {bvh : Bvh}
    (h : Bvh.build verts indices 1 = .ok bvh) : bvh.num_nodes = 1 ∧ bvh.nodes.length = 1 := by
  obtain ⟨bboxes, _, _, hlen, hpos, _, htree, _⟩ := bvh_build_spec h (by decide)
  have := htree.slot_count_le
  omega

/-- On every scene that consists of a single triangle, every ray query ends in an
access outside the node array. -/
theorem single_tri_queries_out_of_bounds {verts : List float3} {indices : List Nat} {bvh : Bvh}
    (h : Bvh.build verts indices 1 = .ok bvh) (ray : Ray) :
    Scene.intersect bvh ray = .error .out_of_bounds ∧
    Scene.occluded bvh ray = .error .out_of_bounds := by
  obtain ⟨h1, h2⟩ := build_single_tri_nodes h
  unfold Scene.intersect Scene.occluded
  rw [h1, traverse_short_array_out_of_bounds bvh 0 ray false (by omega),
    traverse_short_array_out_of_bounds bvh 0 ray true (by omega)]
  exact ⟨rfl, rfl⟩

/-- C1 (evaluation at the failing input). On the one-triangle scene the exhaustive test
finds the hit of triangle `0` at `t = 1`, whereas `Bvh::traverse` with `any = false`
faults: the root is a leaf, the loop starts at the children slots `1` and `2`, and the
trimmed node array has a single entry. -/
theorem intersect_single_tri_faults :
    Bvh.build single_tri_verts single_tri_indices 1 = .ok single_tri_bvh ∧
    reference_intersect single_tri_verts single_tri_indices 1 ray_from_above =
      .ok ⟨0, 1, 13 / 50, 13 / 50⟩ ∧
    Scene.intersect single_tri_bvh ray_from_above = .error .out_of_bounds := by
  decide!

/-- C7 (evaluation at the failing input). On the one-triangle scene the exhaustive test
reports an intersection in `[tmin, tmax)`, whereas `Scene::occluded` faults for the
same reason as the closest-hit query. -/
theorem occluded_single_tri_faults :
    Bvh.build single_tri_verts single_tri_indices 1 = .ok single_tri_bvh ∧
    reference_occluded single_tri_verts single_tri_indices 1 ray_from_above = .ok true ∧
    Scene.occluded single_tri_bvh ray_from_above = .error .out_of_bounds := by
  decide!

/-- C8 (evaluation at the failing input). For the single triangle and probe segments
that cross it from above and from below, `Scene::occluded` does not return `true`: the
traversal reads node slots beyond the one node that the build created. -/
theorem occluded_single_tri_both_sides_faults :
    Bvh.build single_tri_verts single_tri_indices 1 = .ok single_tri_bvh ∧
    single_tri_bvh.nodes.length = 1 ∧
    reference_occluded single_tri_verts single_tri_indices 1 ray_from_above = .ok true ∧
    reference_occluded single_tri_verts single_tri_indices 1 ray_from_below = .ok true ∧
    Scene.occluded single_tri_bvh ray_from_above = .error .out_of_bounds ∧
    Scene.occluded single_tri_bvh ray_from_below = .error .out_of_bounds := by
  decide!

/-! ## The hit record during traversal -/

theorem intersect_leaf_hit_ok {ray : Ray} {tris : List PrecomputedTri} {any : Bool} :
    ∀ (n j : Nat) (hit hit' : Hit), intersect_leaf ray tris any n j hit = .ok hit' →
      HitOk ray tris hit → HitOk ray tris hit' := by
  intro n
  induction n with
  | zero =>
    intro j hit hit' h hk
    simp only [intersect_leaf] at h
    cases h
    exact hk
  | succ n ih =>
    intro j hit hit' h hk
    rw [intersect_leaf] at h
    obtain ⟨tri, htri, h⟩ := bind_ok h
    cases hi : intersect_ray_tri ray tri hit.t with
    | none =>
      rw [hi] at h
      exact ih _ _ _ h hk
    | some r =>
      obtain ⟨t, u, v⟩ := r
      rw [hi] at h
      have hk' : HitOk ray tris ⟨j, t, u, v⟩ := Or.inr ⟨j, tri, hit.t, rfl, rd_ok htri, hi⟩
      dsimp only at h
      split at h
      · cases h
        exact hk'
      · exact ih _ _ _ h hk'

theorem visit_child_hit_ok {ray : Ray} {tris : List PrecomputedTri} {any enter : Bool}
    {child : Node} {s s' : TravState} (h : visit_child ray tris any enter child s = .ok s')
    (hk : HitOk ray tris s.hit) : HitOk ray tris s'.hit := by
  unfold visit_child at h
  split at h
  · split at h
    · obtain ⟨hit, hh, h⟩ := bind_ok h
      cases h
      exact intersect_leaf_hit_ok _ _ _ _ hh hk
    · obtain ⟨stack, _, h⟩ := bind_ok h
      cases h
      exact hk
  · cases h
    exact hk

theorem traverse_step_hit_ok {bvh : Bvh} {ray : Ray} {any : Bool} {s s' : TravState}
    (h : traverse_step bvh ray any s = .ok s') (hk : HitOk ray bvh.tris s.hit) :
    HitOk ray bvh.tris s'.hit := by
  unfold traverse_step at h
  obtain ⟨left, _, h⟩ := bind_ok h
  obtain ⟨right, _, h⟩ := bind_ok h
  obtain ⟨s1, h1, h⟩ := bind_ok h
  obtain ⟨s2, h2, h⟩ := bind_ok h
  obtain ⟨stack, _, h⟩ := bind_ok h
  obtain ⟨top, _, h⟩ := bind_ok h
  cases h
  show HitOk ray bvh.tris s2.hit
  exact visit_child_hit_ok h2 (visit_child_hit_ok h1 hk)

theorem traverse_loop_hit_ok {bvh : Bvh} {ray : Ray} {any : Bool} :
    ∀ (fuel : Nat) (s s' : TravState), traverse_loop bvh ray any fuel s = .ok s' →
      HitOk ray bvh.tris s.hit → HitOk ray bvh.tris s'.hit := by
  intro fuel
  induction fuel with
  | zero =>
    intro s s' h hk
    simp only [traverse_loop] at h
    split at h
    · cases h
    · cases h; exact hk
  | succ fuel ih =>
    intro s s' h hk
    rw [traverse_loop] at h
    split at h
    · obtain ⟨s1, h1, h⟩ := bind_ok h
      exact ih _ _ h (traverse_step_hit_ok h1 hk)
    · cases h; exact hk

theorem rdi_ok {α : Type} {a : List α} {i : Int} {v : α} (h : rdi a i = .ok v) :
    0 ≤ i ∧ a[i.toNat]? = some v := by
  unfold rdi at h
  split at h
  · rename_i hi; exact ⟨hi, rd_ok h⟩
  · cases h

/-- C9. After `Bvh::build(verts, indices, N)`, for every slot `j < N` the cached
triangle `tris[j]` is the `PrecomputedTri` of the original triangle with id
`prim_ids[j]`; hence every hit returned by `Bvh::traverse` with `tri ≥ 0` names an
original triangle id in `[0, N)` for which `intersect_ray_tri` accepted the ray with
the returned `t, u, v`. -/
theorem traverse_hit_names_triangle (verts : List float3) (indices : List Nat) (n : Nat)
    (bvh : Bvh) (h : Bvh.build verts indices n = .ok bvh) (hn : 0 < n) :
    (∀ j, j < n → ∃ id v0 v1 v2, bvh.prim_ids[j]? = some id ∧ id < n ∧
      tri_verts verts indices id = .ok (v0, v1, v2) ∧
      bvh.tris[j]? = some (PrecomputedTri.mk3 v0 v1 v2)) ∧
    (∀ (fuel : Nat) (ray : Ray) (any : Bool) (hit : Hit),
      bvh.traverse fuel ray any = .ok hit → hit.tri ≥ 0 →
      ∃ (id : Nat) (v0 v1 v2 : float3) (t0 : ℚ), hit.tri = id ∧ id < n ∧
        tri_verts verts indices id = .ok (v0, v1, v2) ∧
        intersect_ray_tri ray (PrecomputedTri.mk3 v0 v1 v2) t0 = some (hit.t, hit.u, hit.v)) := by
  obtain ⟨bboxes, _, hperm, _, _, _, _, hcl, hcache⟩ := bvh_build_spec h hn
  have hlt : ∀ (j id : Nat), bvh.prim_ids[j]? = some id → id < n := by
    intro j id hj
    have := hperm.mem_iff.mp (List.mem_iff_getElem?.mpr ⟨j, hj⟩)
    exact List.mem_range.mp this
  constructor
  · intro j hj
    obtain ⟨id, v0, v1, v2, g1, g2, g3⟩ := hcache j hj
    exact ⟨id, v0, v1, v2, g1, hlt j id g1, g2, g3⟩
  · intro fuel ray any hit ht hpos
    unfold Bvh.traverse at ht
    obtain ⟨s, hs, ht⟩ := bind_ok ht
    have hk : HitOk ray bvh.tris s.hit := traverse_loop_hit_ok _ _ _ hs (Or.inl rfl)
    dsimp only at ht
    split at ht
    · obtain ⟨id, hid, ht⟩ := bind_ok ht
      cases ht
      obtain ⟨_, hid'⟩ := rdi_ok hid
      rcases hk with hk | ⟨j, tri, t0, g1, g2, g3⟩
      · omega
      · rw [g1, Int.toNat_ofNat] at hid'
        have hjn : j < n := by
          have := (List.getElem?_eq_some_iff.mp g2).1
          omega
        obtain ⟨id', v0, v1, v2, a1, a2, a3⟩ := hcache j hjn
        rw [hid'] at a1
        cases a1
        rw [g2] at a3
        cases a3
        exact ⟨id, v0, v1, v2, t0, rfl, hlt j id hid', a2, g3⟩
    · cases ht
      omega

/-- Witness for C9 on the two-triangle scene. -/
theorem traverse_hit_names_triangle_witness :
    Bvh.build two_tri_verts two_tri_indices 2 = .ok two_tri_bvh ∧ 0 < 2 ∧
    ((∀ j, j < 2 → ∃ id v0 v1 v2, two_tri_bvh.prim_ids[j]? = some id ∧ id < 2 ∧
      tri_verts two_tri_verts two_tri_indices id = .ok (v0, v1, v2) ∧
      two_tri_bvh.tris[j]? = some (PrecomputedTri.mk3 v0 v1 v2)) ∧
    (∀ (fuel : Nat) (ray : Ray) (any : Bool) (hit : Hit),
      two_tri_bvh.traverse fuel ray any = .ok hit → hit.tri ≥ 0 →
      ∃ (id : Nat) (v0 v1 v2 : float3) (t0 : ℚ), hit.tri = id ∧ id < 2 ∧
        tri_verts two_tri_verts two_tri_indices id = .ok (v0, v1, v2) ∧
        intersect_ray_tri ray (PrecomputedTri.mk3 v0 v1 v2) t0 =
          some (hit.t, hit.u, hit.v))) :=
  ⟨by decide!, by decide,
    traverse_hit_names_triangle two_tri_verts two_tri_indices 2 two_tri_bvh (by decide!)
      (by decide)⟩

/-- On the two-triangle scene the traversal does return hits: the ray from above hits
triangle `0` at `t = 1`, and the any-hit query reports it. -/
theorem two_tri_queries_return :
    Scene.intersect two_tri_bvh ray_from_above = .ok ⟨0, 1, 13 / 50, 13 / 50⟩ ∧
    Scene.occluded two_tri_bvh ray_from_above = .ok true := by
  decide!

/-! ## `HashGrid::build`: counting and prefix sums -/

theorem hash_cell_lt (g : HashGrid) (x y z : Nat) (h : 0 < g.cell_counts.length) :
    g.hash_cell x y z < g.cell_counts.length := by
  unfold HashGrid.hash_cell
  have := @Nat.and_le_right (bernstein_hash (bernstein_hash (bernstein_hash bernstein_init x) y) z)
    (g.cell_counts.length - 1)
  dsimp only
  omega

theorem hash_photon_lt (g : HashGrid) (pos : float3) (h : 0 < g.cell_counts.length) :
    g.hash_photon pos < g.cell_counts.length := by
  unfold HashGrid.hash_photon
  exact hash_cell_lt g _ _ _ h

/-- The hash of a position only depends on the box, the cell size and the table size. -/
theorem hash_photon_congr {g g' : HashGrid} (h1 : g'.bbox = g.bbox)
    (h2 : g'.inv_size = g.inv_size) (h3 : g'.cell_counts.length = g.cell_counts.length)
    (pos : float3) : g'.hash_photon pos = g.hash_photon pos := by
  unfold HashGrid.hash_photon HashGrid.hash_cell
  rw [h1, h2, h3]

theorem tail_count_le (H : Nat → Nat) (h : Nat) : ∀ m i, tail_count H h m i ≤ m := by
  intro m
  induction m with
  | zero => intro i; simp [tail_count]
  | succ m ih =>
    intro i
    have := ih (i + 1)
    rw [tail_count]
    split <;> omega

/-- Total correctness of the counting loop. -/
theorem count_loop_total (g : HashGrid) (positions : Nat → float3)
    (hpos : 0 < g.cell_counts.length) :
    ∀ (m i : Nat) (counts : List Int), counts.length = g.cell_counts.length →
      ∃ counts', count_loop g positions m i counts = .ok counts' ∧
        counts'.length = counts.length ∧
        ∀ h, h < counts.length → ∃ c, counts[h]? = some c ∧
          counts'[h]? = some (c + tail_count (fun k => g.hash_photon (positions k)) h m i) := by
  intro m
  induction m with
  | zero =>
    intro i counts hl
    refine ⟨counts, rfl, rfl, ?_⟩
    intro h hh
    exact ⟨counts[h], List.getElem?_eq_getElem hh, by simp [tail_count, List.getElem?_eq_getElem hh]⟩
  | succ m ih =>
    intro i counts hl
    have hlt : g.hash_photon (positions i) < counts.length := by
      rw [hl]; exact hash_photon_lt g _ hpos
    obtain ⟨counts', e1, e2, e3⟩ := ih (i + 1)
      (counts.set (g.hash_photon (positions i)) (counts[g.hash_photon (positions i)] + 1))
      (by rw [List.length_set, hl])
    refine ⟨counts', ?_, by rw [e2, List.length_set], ?_⟩
    · rw [count_loop]
      simp only [rd, wr, List.getElem?_eq_getElem hlt, if_pos hlt]
      exact e1
    · intro h hh
      obtain ⟨c, g1, g2⟩ := e3 h (by rw [List.length_set]; exact hh)
      refine ⟨counts[h], List.getElem?_eq_getElem hh, ?_⟩
      rw [g2, tail_count]
      by_cases hc : g.hash_photon (positions i) = h
      · subst hc
        rw [List.getElem?_set_self hlt] at g1
        cases g1
        simp only [if_true]
        push_cast
        congr 1
        ring
      · rw [List.getElem?_set_ne hc, List.getElem?_eq_getElem hh] at g1
        cases g1
        simp [hc]

theorem partial_sum_spec (H : Nat → Nat) (n : Nat) :
    ∀ (cs : List Int) (h0 : Nat),
      (∀ k, k < cs.length → cs[k]? = some ((tail_count H (h0 + k) n 0 : Nat) : Int)) →
      (partial_sum (bucket_start H n 0 h0) cs).length = cs.length ∧
      ∀ k, k < cs.length →
        (partial_sum (bucket_start H n 0 h0) cs)[k]? =
          some ((bucket_start H n 0 (h0 + k + 1) : Nat) : Int) := by
  intro cs
  induction cs with
  | nil => intro h0 _; exact ⟨rfl, fun k hk => by simp at hk⟩
  | cons c cs ih =>
    intro h0 hc
    have hc0 := hc 0 (by simp)
    simp only [List.getElem?_cons_zero, Nat.add_zero] at hc0
    have hcv : c = ((tail_count H h0 n 0 : Nat) : Int) := Option.some.inj hc0
    have hstep : (bucket_start H n 0 h0 : Int) + c =
        ((bucket_start H n 0 (h0 + 1) : Nat) : Int) := by
      rw [hcv, bucket_start]; push_cast; rfl
    obtain ⟨i1, i2⟩ := ih (h0 + 1) (fun k hk => by
      have := hc (k + 1) (by simp; omega)
      rw [List.getElem?_cons_succ] at this
      rw [this]; congr 3; omega)
    rw [partial_sum, hstep]
    refine ⟨by rw [List.length_cons, i1, List.length_cons], ?_⟩
    intro k hk
    cases k with
    | zero => simp
    | succ k =>
      rw [List.getElem?_cons_succ, i2 k (by simp at hk; omega)]
      congr 3; omega

theorem tail_count_add (H : Nat → Nat) (h : Nat) :
    ∀ a b i, tail_count H h (a + b) i = tail_count H h a i + tail_count H h b (i + a) := by
  intro a
  induction a with
  | zero => intro b i; simp [tail_count]
  | succ a ih =>
    intro b i
    rw [show a + 1 + b = (a + b) + 1 by omega, tail_count, tail_count, ih b (i + 1),
      show i + 1 + a = i + (a + 1) by omega]
    omega

theorem bucket_start_succ (H : Nat → Nat) (m i : Nat) :
    ∀ h, bucket_start H (m + 1) i h = (if H i < h then 1 else 0) + bucket_start H m (i + 1) h := by
  intro h
  induction h with
  | zero => simp [bucket_start]
  | succ h ih =>
    rw [bucket_start, bucket_start, ih, tail_count]
    by_cases h1 : H i = h
    · rw [if_pos h1, if_neg (by omega), if_pos (by omega)]; omega
    · by_cases h2 : H i < h
      · rw [if_neg h1, if_pos h2, if_pos (by omega)]; omega
      · rw [if_neg h1, if_neg h2, if_neg (by omega)]; omega

/-- When all hashes lie below `h`, the bucket of `h` starts after all photons. -/
theorem bucket_start_all (H : Nat → Nat) (h : Nat) :
    ∀ m i, (∀ k, i ≤ k → k < i + m → H k < h) → bucket_start H m i h = m := by
  intro m
  induction m with
  | zero =>
    intro i _
    clear * -
    induction h with
    | zero => rfl
    | succ h ih => rw [bucket_start, ih]; rfl
  | succ m ih =>
    intro i hk
    rw [bucket_start_succ, if_pos (hk i (Nat.le_refl _) (by omega)),
      ih (i + 1) (fun k h1 h2 => hk k (by omega) (by omega))]
    omega

theorem bucket_start_mono (H : Nat → Nat) (m i : Nat) {a b : Nat} (hab : a ≤ b) :
    bucket_start H m i a ≤ bucket_start H m i b := by
  induction hab with
  | refl => exact Nat.le_refl _
  | step _ ih => rw [bucket_start]; omega

/-! ## `HashGrid::build`: the scatter loop -/

theorem tail_count_succ_le (H : Nat → Nat) (h m i : Nat) :
    tail_count H h m (i + 1) ≤ tail_count H h (m + 1) i := by
  rw [tail_count]; omega

/-- Total correctness of the scatter loop. -/
theorem scatter_loop_total (g0 : HashGrid) (positions : Nat → float3) (n : Nat)
    (hpos : 0 < g0.cell_counts.length) :
    ∀ (m i : Nat) (g : HashGrid), i + m = n → g.bbox = g0.bbox → g.inv_size = g0.inv_size →
      ScatterInv (fun k => g0.hash_photon (positions k)) n g0.cell_counts.length i
        g.cell_counts g.photons →
      ∃ g', scatter_loop positions m i g = .ok g' ∧
        ScatterInv (fun k => g0.hash_photon (positions k)) n g0.cell_counts.length n
          g'.cell_counts g'.photons ∧
        g'.bbox = g0.bbox ∧ g'.inv_size = g0.inv_size ∧ g'.radius_sqr = g.radius_sqr := by
  intro m
  induction m with
  | zero =>
    intro i g him hb hi inv
    have : i = n := by omega
    subst this
    exact ⟨g, rfl, inv, hb, hi, rfl⟩
  | succ m ih =>
    intro i g him hb hi inv
    generalize hH : (fun k => g0.hash_photon (positions k)) = H at inv ih
    have hHi : g.hash_photon (positions i) = H i := by
      rw [← hH]; exact hash_photon_congr hb hi inv.cc_len _
    have hlt : H i < g0.cell_counts.length := by
      rw [← hH]; exact hash_photon_lt g0 _ hpos
    have hall : bucket_start H n 0 g0.cell_counts.length = n :=
      bucket_start_all H _ n 0 (fun k _ _ => by rw [← hH]; exact hash_photon_lt g0 _ hpos)
    have hni : n - i = (n - (i + 1)) + 1 := by omega
    have htc : tail_count H (H i) (n - i) i = 1 + tail_count H (H i) (n - (i + 1)) (i + 1) := by
      rw [hni, tail_count, if_pos rfl]
    have hsplit := tail_count_add H (H i) i (n - i) 0
    rw [show i + (n - i) = n by omega, Nat.zero_add] at hsplit
    have hw_lt : bucket_start H n 0 (H i) + tail_count H (H i) (n - (i + 1)) (i + 1) <
        bucket_start H n 0 (H i + 1) := by
      rw [bucket_start]; omega
    have hw_n : bucket_start H n 0 (H i) + tail_count H (H i) (n - (i + 1)) (i + 1) < n := by
      have := bucket_start_mono H n 0 (show H i + 1 ≤ g0.cell_counts.length by omega)
      omega
    generalize hw : bucket_start H n 0 (H i) + tail_count H (H i) (n - (i + 1)) (i + 1) = w
      at hw_lt hw_n
    have hc := inv.cursor (H i) hlt
    have hcw : (((bucket_start H n 0 (H i) + tail_count H (H i) (n - i) i : Nat) : Int) - 1) =
        (w : Int) := by
      rw [htc, ← hw]; push_cast; ring
    have inv' : ScatterInv H n g0.cell_counts.length (i + 1)
        (g.cell_counts.set (H i) (w : Int)) (g.photons.set w i) := by
      refine ⟨by rw [List.length_set, inv.cc_len], by rw [List.length_set, inv.ph_len], ?_, ?_, ?_⟩
      · intro h hh
        by_cases hc' : H i = h
        · subst hc'
          rw [List.getElem?_set_self (by rw [inv.cc_len]; exact hlt), hw]
        · rw [List.getElem?_set_ne hc', inv.cursor h hh, hni, tail_count, if_neg hc', Nat.zero_add]
      · intro k hk
        by_cases hki : k = i
        · subst hki
          exact ⟨w, by omega, hw_lt, List.getElem?_set_self (by rw [inv.ph_len]; exact hw_n)⟩
        · obtain ⟨j, j1, j2, j3⟩ := inv.placed k (by omega)
          have hmono : tail_count H (H k) (n - (i + 1)) (i + 1) ≤ tail_count H (H k) (n - i) i := by
            rw [hni]; exact tail_count_succ_le H (H k) _ i
          have hjw : w ≠ j := by
            rcases Nat.lt_trichotomy (H k) (H i) with hlt' | heq | hgt
            · have := bucket_start_mono H n 0 (show H k + 1 ≤ H i by omega)
              omega
            · rw [heq] at j1; omega
            · have := bucket_start_mono H n 0 (show H i + 1 ≤ H k by omega)
              omega
          exact ⟨j, by omega, j2, by rw [List.getElem?_set_ne hjw]; exact j3⟩
      · intro j id hj
        by_cases hjw : w = j
        · subst hjw
          rw [List.getElem?_set_self (by rw [inv.ph_len]; exact hw_n)] at hj
          cases hj
          omega
        · rw [List.getElem?_set_ne hjw] at hj
          exact inv.ids j id hj
    obtain ⟨g', e1, e2, e3, e4, e5⟩ := ih (i + 1)
      { g with cell_counts := g.cell_counts.set (H i) (w : Int), photons := g.photons.set w i }
      (by omega) hb hi inv'
    refine ⟨g', ?_, e2, e3, e4, e5⟩
    rw [scatter_loop]
    simp only [hHi, rd, hc, wr, inv.cc_len, if_pos hlt, ok_bind, hcw]
    rw [if_neg (by omega)]
    simp only [Int.toNat_ofNat, inv.ph_len, if_pos hw_n, ok_bind]
    exact e1

/-! ## `HashGrid::build` -/

theorem table_size_pos (n : Nat) : 0 < 1 <<< (closest_log2 n + 1) := by
  rw [Nat.one_shiftLeft]
  exact Nat.pos_pow_of_pos _ (by decide)

/-- `HashGrid::build` always succeeds (its assertion holds and no access is out of
range) and produces a grid with the bucket structure `GridBuilt`. -/
theorem grid_build_total (positions : Nat → float3) (n : Nat) (radius : ℚ) :
    ∃ g, HashGrid.build positions n radius = .ok g ∧ GridBuilt positions n radius g := by
  generalize hg0 : (⟨List.replicate n 0, List.replicate (1 <<< (closest_log2 n + 1)) (0 : Int),
    enlarge (extend BBox.empty (photon_bbox_loop positions n 0 BBox.empty)),
    (1 / 2 : ℚ) / radius, radius * radius, 0⟩ : HashGrid) = g0
  have hsz : g0.cell_counts.length = 1 <<< (closest_log2 n + 1) := by
    rw [← hg0]; simp
  have hpos : 0 < g0.cell_counts.length := by rw [hsz]; exact table_size_pos n
  generalize hH : (fun k => g0.hash_photon (positions k)) = H
  have hHlt : ∀ k, H k < g0.cell_counts.length := fun k => by
    rw [← hH]; exact hash_photon_lt g0 _ hpos
  have hall : bucket_start H n 0 g0.cell_counts.length = n :=
    bucket_start_all H _ n 0 (fun k _ _ => hHlt k)
  -- counting
  obtain ⟨counts, c1, c2, c3⟩ := count_loop_total g0 positions hpos n 0 g0.cell_counts rfl
  rw [hH] at c3
  have hcounts : ∀ k, k < counts.length →
      counts[k]? = some ((tail_count H (0 + k) n 0 : Nat) : Int) := by
    intro k hk
    obtain ⟨c, g1, g2⟩ := c3 k (by omega)
    have : c = 0 := by
      rw [← hg0] at g1
      simp only [List.getElem?_replicate] at g1
      split at g1
      · exact (Option.some.inj g1).symm
      · cases g1
    rw [g2, this, Nat.zero_add]
    simp
  -- prefix sums
  obtain ⟨p1, p2⟩ := partial_sum_spec H n counts 0 hcounts
  have hps0 : partial_sum 0 counts = partial_sum (bucket_start H n 0 0 : Nat) counts := rfl
  have hplen : (partial_sum 0 counts).length = g0.cell_counts.length := by
    rw [hps0, p1, c2]
  have hback : (partial_sum 0 counts)[(partial_sum 0 counts).length - 1]? = some (n : Int) := by
    rw [hplen, hps0, p2 _ (by omega), show 0 + (g0.cell_counts.length - 1) + 1 =
      g0.cell_counts.length by omega, hall]
  -- scatter
  have inv0 : ScatterInv (fun k => g0.hash_photon (positions k)) n g0.cell_counts.length 0
      (partial_sum 0 counts) g0.photons := by
    rw [hH]
    refine ⟨hplen, by rw [← hg0]; simp, ?_, fun k hk => by omega, ?_⟩
    · intro h hh
      rw [hps0, p2 h (by omega), Nat.zero_add, bucket_start, Nat.sub_zero]
    · intro j id hj
      rw [← hg0] at hj
      simp only [List.getElem?_replicate] at hj
      split at hj
      · cases hj; omega
      · cases hj
  obtain ⟨g, s1, s2, s3, s4, s5⟩ := scatter_loop_total g0 positions n hpos n 0
    { g0 with cell_counts := partial_sum 0 counts, max_in_cell := max_element counts }
    (by omega) rfl rfl inv0
  have hcl : g.cell_counts.length = g0.cell_counts.length := s2.cc_len
  have hHg : (fun k => g.hash_photon (positions k)) = fun k => g0.hash_photon (positions k) :=
    funext (fun k => hash_photon_congr s3 s4 hcl _)
  refine ⟨g, ?_, ⟨by rw [hcl, hsz], by rw [hHg, hcl]; exact s2, by rw [s5, ← hg0],
    by rw [s4, ← hg0], by rw [s3, ← hg0]⟩⟩
  subst hg0
  unfold HashGrid.build
  simp only [c1, ok_bind, rd, hback]
  rw [if_neg (by simp)]
  exact s1

/-! ## `HashGrid::query` -/

/-- Total correctness of the scan of one bucket. -/
theorem bucket_loop_total (g : HashGrid) (pos : float3) (positions : Nat → float3) :
    ∀ (m j : Nat) (out : List (Nat × ℚ)), j + m ≤ g.photons.length →
      ∃ out', bucket_loop g pos positions m (j : Int) out = .ok out' ∧
        ∀ x, x ∈ out' ↔ (x ∈ out ∨ ∃ k id, j ≤ k ∧ k < j + m ∧ g.photons[k]? = some id ∧
          x = (id, photon_dist pos positions id) ∧
          photon_dist pos positions id < g.radius_sqr) := by
  intro m
  induction m with
  | zero =>
    intro j out _
    refine ⟨out, rfl, fun x => ⟨Or.inl, ?_⟩⟩
    rintro (h | ⟨k, id, h1, h2, _⟩)
    · exact h
    · omega
  | succ m ih =>
    intro j out hj
    have hjl : j < g.photons.length := by omega
    have hrd : rdi g.photons (j : Int) = .ok g.photons[j] := by
      unfold rdi rd
      rw [if_pos (by omega), Int.toNat_ofNat, List.getElem?_eq_getElem hjl]
    have hcast : ((j : Int) + 1) = ((j + 1 : Nat) : Int) := by push_cast; rfl
    rw [bucket_loop]
    simp only [hrd, ok_bind, hcast]
    by_cases hd : float3.lensqr (float3.sub pos (positions g.photons[j])) < g.radius_sqr
    · rw [if_pos hd]
      obtain ⟨out', e1, e2⟩ := ih (j + 1)
        (out ++ [(g.photons[j], float3.lensqr (float3.sub pos (positions g.photons[j])))])
        (by omega)
      refine ⟨out', e1, fun x => ?_⟩
      rw [e2 x, List.mem_append, List.mem_singleton]
      constructor
      · rintro ((h | h) | ⟨k, id, h1, h2, h3⟩)
        · exact Or.inl h
        · exact Or.inr ⟨j, g.photons[j], Nat.le_refl _, by omega,
            List.getElem?_eq_getElem hjl, h, hd⟩
        · exact Or.inr ⟨k, id, by omega, by omega, h3⟩
      · rintro (h | ⟨k, id, h1, h2, h3, h4, h5⟩)
        · exact Or.inl (Or.inl h)
        · by_cases hkj : k = j
          · subst hkj
            rw [List.getElem?_eq_getElem hjl] at h3
            cases h3
            exact Or.inl (Or.inr h4)
          · exact Or.inr ⟨k, id, by omega, by omega, h3, h4, h5⟩
    · rw [if_neg hd]
      obtain ⟨out', e1, e2⟩ := ih (j + 1) out (by omega)
      refine ⟨out', e1, fun x => ?_⟩
      rw [e2 x]
      constructor
      · rintro (h | ⟨k, id, h1, h2, h3⟩)
        · exact Or.inl h
        · exact Or.inr ⟨k, id, by omega, by omega, h3⟩
      · rintro (h | ⟨k, id, h1, h2, h3, h4, h5⟩)
        · exact Or.inl h
        · by_cases hkj : k = j
          · subst hkj
            rw [List.getElem?_eq_getElem hjl] at h3
            cases h3
            exact absurd h5 hd
          · exact Or.inr ⟨k, id, by omega, by omega, h3, h4, h5⟩

theorem tail_count_zero (H : Nat → Nat) (h i : Nat) : tail_count H h 0 i = 0 := rfl

/-- In a built grid, `cell_range` returns the bucket of the hashed cell. -/
theorem cell_range_built {positions : Nat → float3} {n : Nat} {radius : ℚ} {g : HashGrid}
    (hb : GridBuilt positions n radius g) (x y z : Nat) :
    g.cell_range x y z = .ok
      (((bucket_start (fun k => g.hash_photon (positions k)) n 0 (g.hash_cell x y z) : Nat) : Int),
       ((bucket_start (fun k => g.hash_photon (positions k)) n 0 (g.hash_cell x y z + 1) : Nat)
         : Int)) := by
  have hpos : 0 < g.cell_counts.length := by rw [hb.size]; exact table_size_pos n
  have hlt := hash_cell_lt g x y z hpos
  have hall : bucket_start (fun k => g.hash_photon (positions k)) n 0 g.cell_counts.length = n :=
    bucket_start_all _ _ n 0 (fun k _ _ => hash_photon_lt g _ hpos)
  have hc := hb.buckets.cursor (g.hash_cell x y z) hlt
  rw [Nat.sub_self, tail_count_zero, Nat.add_zero] at hc
  unfold HashGrid.cell_range
  simp only [rd, hc, ok_bind]
  by_cases hlast : g.hash_cell x y z = g.cell_counts.length - 1
  · rw [if_pos hlast, hb.buckets.ph_len]
    congr 3
    rw [hlast, show g.cell_counts.length - 1 + 1 = g.cell_counts.length by omega, hall]
  · rw [if_neg hlast]
    have hc' := hb.buckets.cursor (g.hash_cell x y z + 1) (by omega)
    rw [Nat.sub_self, tail_count_zero, Nat.add_zero] at hc'
    simp only [hc', ok_bind]
    rfl

/-- Total correctness of the loop over the candidate cells. -/
theorem cells_loop_total {positions : Nat → float3} {n : Nat} {radius : ℚ} {g : HashGrid}
    (hb : GridBuilt positions n radius g) (pos : float3) (px1 py1 pz1 px2 py2 pz2 : Int) :
    ∀ (m i : Nat) (out : List (Nat × ℚ)),
      ∃ out', cells_loop g pos positions px1 py1 pz1 px2 py2 pz2 m i out = .ok out' ∧
        ∀ x, x ∈ out' ↔ (x ∈ out ∨ ∃ i' id, i ≤ i' ∧ i' < i + m ∧
          InBucket g positions n
            (g.hash_cell (query_cell px1 py1 pz1 px2 py2 pz2 i').1
              (query_cell px1 py1 pz1 px2 py2 pz2 i').2.1
              (query_cell px1 py1 pz1 px2 py2 pz2 i').2.2) id ∧
          x = (id, photon_dist pos positions id) ∧
          photon_dist pos positions id < g.radius_sqr) := by
  have hpos : 0 < g.cell_counts.length := by rw [hb.size]; exact table_size_pos n
  have hall : bucket_start (fun k => g.hash_photon (positions k)) n 0 g.cell_counts.length = n :=
    bucket_start_all _ _ n 0 (fun k _ _ => hash_photon_lt g _ hpos)
  intro m
  induction m with
  | zero =>
    intro i out
    refine ⟨out, rfl, fun x => ⟨Or.inl, ?_⟩⟩
    rintro (h | ⟨i', id, h1, h2, _⟩)
    · exact h
    · omega
  | succ m ih =>
    intro i out
    generalize hh : g.hash_cell (query_cell px1 py1 pz1 px2 py2 pz2 i).1
      (query_cell px1 py1 pz1 px2 py2 pz2 i).2.1 (query_cell px1 py1 pz1 px2 py2 pz2 i).2.2 = h
    have hlt : h < g.cell_counts.length := by rw [← hh]; exact hash_cell_lt g _ _ _ hpos
    have hrange := cell_range_built hb (query_cell px1 py1 pz1 px2 py2 pz2 i).1
      (query_cell px1 py1 pz1 px2 py2 pz2 i).2.1 (query_cell px1 py1 pz1 px2 py2 pz2 i).2.2
    rw [hh] at hrange
    generalize hbs : bucket_start (fun k => g.hash_photon (positions k)) n 0 = bs at hrange hall
    have hmono : bs h ≤ bs (h + 1) := by
      rw [← hbs]; exact bucket_start_mono _ n 0 (Nat.le_succ h)
    have hle : bs (h + 1) ≤ n := by
      rw [← hall, ← hbs]; exact bucket_start_mono _ n 0 (by omega)
    obtain ⟨out1, b1, b2⟩ := bucket_loop_total g pos positions (bs (h + 1) - bs h) (bs h) out
      (by rw [hb.buckets.ph_len]; omega)
    obtain ⟨out', e1, e2⟩ := ih (i + 1) out1
    refine ⟨out', ?_, fun x => ?_⟩
    · rw [cells_loop]
      have hq : g.cell_range (int_to_uint32 (if i &&& 1 ≠ 0 then px2 else px1))
          (int_to_uint32 (if i &&& 2 ≠ 0 then py2 else py1))
          (int_to_uint32 (if i &&& 4 ≠ 0 then pz2 else pz1)) =
          .ok ((bs h : Int), (bs (h + 1) : Int)) := hrange
      simp only [hq, ok_bind]
      rw [show ((bs (h + 1) : Int) - (bs h : Int)).toNat = bs (h + 1) - bs h by omega, b1]
      exact e1
    · rw [e2 x, b2 x]
      constructor
      · rintro ((h1 | ⟨k, id, h1, h2, h3, h4, h5⟩) | ⟨i', id, h1, h2, h3⟩)
        · exact Or.inl h1
        · refine Or.inr ⟨i, id, Nat.le_refl _, by omega, ?_, h4, h5⟩
          rw [hh]
          exact ⟨k, by rw [hbs]; exact h1, by rw [hbs]; omega, h3⟩
        · exact Or.inr ⟨i', id, by omega, by omega, h3⟩
      · rintro (h1 | ⟨i', id, h1, h2, h3, h4, h5⟩)
        · exact Or.inl (Or.inl h1)
        · by_cases hi : i' = i
          · subst hi
            rw [hh] at h3
            obtain ⟨k, k1, k2, k3⟩ := h3
            rw [hbs] at k1 k2
            exact Or.inl (Or.inr ⟨k, id, k1, by omega, k3, h4, h5⟩)
          · exact Or.inr ⟨i', id, by omega, by omega, h3, h4, h5⟩

/-- `HashGrid::query` on a built grid never faults; it reports exactly the photons that
lie in the bucket of one of the eight candidate cells and pass the distance test, and
nothing at all when the position is outside the box of the grid. -/
theorem query_total {positions : Nat → float3} {n : Nat} {radius : ℚ} {g : HashGrid}
    (hb : GridBuilt positions n radius g) (pos : float3) :
    ∃ out, g.query pos positions = .ok out ∧
      ∀ x, x ∈ out ↔ (is_inside g.bbox pos = true ∧ ∃ i id, i < 8 ∧
        InBucket g positions n (query_hash g pos i) id ∧
        x = (id, photon_dist pos positions id) ∧
        photon_dist pos positions id < g.radius_sqr) := by
  unfold HashGrid.query
  by_cases hin : is_inside g.bbox pos = true
  · rw [if_neg (by simp [hin])]
    obtain ⟨out, e1, e2⟩ := cells_loop_total hb pos (query_coords g pos).1
      (query_coords g pos).2.1 (query_coords g pos).2.2.1 (query_coords g pos).2.2.2.1
      (query_coords g pos).2.2.2.2.1 (query_coords g pos).2.2.2.2.2 8 0 []
    refine ⟨out, e1, fun x => ?_⟩
    rw [e2 x]
    constructor
    · rintro (h | ⟨i, id, _, h2, h3⟩)
      · cases h
      · exact ⟨hin, i, id, by omega, h3⟩
    · rintro ⟨_, i, id, h1, h2⟩
      exact Or.inr ⟨i, id, Nat.zero_le _, by omega, h2⟩
  · rw [if_pos (by simp [hin])]
    refine ⟨[], rfl, fun x => ⟨fun h => (by cases h), fun h => absurd h.1 hin⟩⟩

/-! ## The box of the grid -/

theorem is_inside_iff {bb : BBox} {f : float3} : is_inside bb f = true ↔
    (bb.min.x ≤ f.x ∧ f.x ≤ bb.max.x) ∧ (bb.min.y ≤ f.y ∧ f.y ≤ bb.max.y) ∧
      (bb.min.z ≤ f.z ∧ f.z ≤ bb.max.z) := by
  unfold is_inside
  simp only [Bool.and_eq_true, decide_eq_true_eq, ge_iff_le]
  tauto

theorem photon_bbox_loop_spec (positions : Nat → float3) :
    ∀ (m i : Nat) (bb : BBox), is_included bb (photon_bbox_loop positions m i bb) = true ∧
      ∀ k, i ≤ k → k < i + m → is_inside (photon_bbox_loop positions m i bb) (positions k) = true
    := by
  intro m
  induction m with
  | zero =>
    intro i bb
    exact ⟨is_included_refl _, fun k h1 h2 => by omega⟩
  | succ m ih =>
    intro i bb
    obtain ⟨h1, h2⟩ := ih (i + 1) (extend_point bb (positions i))
    rw [photon_bbox_loop]
    have e1 : is_included bb (extend_point bb (positions i)) = true := by
      rw [is_included_iff]; simp [extend_point, float3.min, float3.max]
    refine ⟨is_included_trans e1 h1, ?_⟩
    intro k hk1 hk2
    by_cases hki : k = i
    · subst hki
      have e2 : is_inside (extend_point bb (positions k)) (positions k) = true := by
        rw [is_inside_iff]; simp [extend_point, float3.min, float3.max]
      rw [is_included_iff] at h1
      rw [is_inside_iff] at e2 ⊢
      obtain ⟨⟨a1, a2⟩, ⟨a3, a4⟩, a5, a6⟩ := h1
      obtain ⟨⟨b1, b2⟩, ⟨b3, b4⟩, b5, b6⟩ := e2
      exact ⟨⟨le_trans a1 b1, le_trans b2 a2⟩, ⟨le_trans a3 b3, le_trans b4 a4⟩,
        le_trans a5 b5, le_trans b6 a6⟩
    · exact h2 k (by omega) (by omega)

/-- Enlarging a box keeps every point that was inside. -/
theorem is_inside_enlarge {bb : BBox} {f : float3} (h : is_inside bb f = true) :
    is_inside (enlarge bb) f = true := by
  rw [is_inside_iff] at h ⊢
  obtain ⟨⟨a1, a2⟩, ⟨a3, a4⟩, a5, a6⟩ := h
  simp only [enlarge, float3.sub, float3.add, float3.scale]
  refine ⟨⟨?_, ?_⟩, ⟨?_, ?_⟩, ?_, ?_⟩ <;> nlinarith

/-- Every photon lies inside the box of the built grid. -/
theorem photon_inside_grid {positions : Nat → float3} {n : Nat} {radius : ℚ} {g : HashGrid}
    (hb : GridBuilt positions n radius g) {k : Nat} (hk : k < n) :
    is_inside g.bbox (positions k) = true := by
  rw [hb.bbox]
  apply is_inside_enlarge
  have h := (photon_bbox_loop_spec positions n 0 BBox.empty).2 k (Nat.zero_le _) (by omega)
  rw [is_inside_iff] at h ⊢
  obtain ⟨⟨a1, a2⟩, ⟨a3, a4⟩, a5, a6⟩ := h
  simp only [extend, float3.min, float3.max]
  exact ⟨⟨le_trans (min_le_right _ _) a1, le_trans a2 (le_max_right _ _)⟩,
    ⟨le_trans (min_le_right _ _) a3, le_trans a4 (le_max_right _ _)⟩,
    le_trans (min_le_right _ _) a5, le_trans a6 (le_max_right _ _)⟩

/-- In a built grid every photon is stored in the bucket of its own cell. -/
theorem photon_in_bucket {positions : Nat → float3} {n : Nat} {radius : ℚ} {g : HashGrid}
    (hb : GridBuilt positions n radius g) {k : Nat} (hk : k < n) :
    InBucket g positions n (g.hash_photon (positions k)) k := by
  obtain ⟨j, j1, j2, j3⟩ := hb.buckets.placed k hk
  rw [Nat.sub_self, tail_count_zero, Nat.add_zero] at j1
  exact ⟨j, j1, j2, j3⟩

theorem build_eq_built {positions : Nat → float3} {n : Nat} {radius : ℚ} {g : HashGrid}
    (h : HashGrid.build positions n radius = .ok g) : GridBuilt positions n radius g := by
  obtain ⟨g', e1, e2⟩ := grid_build_total positions n radius
  rw [h] at e1
  cases e1
  exact e2

/-! ## Candidate cells of a query -/

theorem floor_near (a b : ℚ) (h : |a - b| < 1 / 2) :
    ⌊b⌋ = ⌊a⌋ ∨ ⌊b⌋ = ⌊a⌋ + (if a - (⌊a⌋ : ℚ) > 1 / 2 then 1 else -1) := by
  obtain ⟨h1, h2⟩ := abs_lt.mp h
  have ha1 := Int.floor_le a
  have ha2 := Int.lt_floor_add_one a
  split
  · rename_i hc
    have l1 : ⌊a⌋ ≤ ⌊b⌋ := Int.le_floor.mpr (by linarith)
    have l2 : ⌊b⌋ < ⌊a⌋ + 2 := Int.floor_lt.mpr (by push_cast; linarith)
    omega
  · rename_i hc
    have l1 : ⌊a⌋ - 1 ≤ ⌊b⌋ := Int.le_floor.mpr (by push_cast; linarith)
    have l2 : ⌊b⌋ < ⌊a⌋ + 1 := Int.floor_lt.mpr (by push_cast; linarith)
    omega

theorem float_to_int_nonneg {q : ℚ} (h : 0 ≤ q) : float_to_int q = ⌊q⌋ := by
  unfold float_to_int
  rw [if_pos h]

/-- Along one axis: a point closer than `r` to the query position lies in the cell of
the query position or in the neighbouring cell that the query selects. -/
theorem axis_cell_near {m px qx r s : ℚ} (hr : 0 < r) (hs : s = 1 / 2 / r) (hp : m ≤ px)
    (hq : m ≤ qx) (hd : (px - qx) * (px - qx) < r * r) :
    float_to_int ((qx - m) * s) = float_to_int ((px - m) * s) ∨
    float_to_int ((qx - m) * s) = float_to_int ((px - m) * s) +
      (if (px - m) * s - (float_to_int ((px - m) * s) : ℚ) > 1 / 2 then 1 else -1) := by
  have hspos : 0 < s := by rw [hs]; positivity
  have hsr : s * r = 1 / 2 := by rw [hs]; field_simp; ring
  have h2 : px - qx < r := by
    by_contra hc
    push_neg at hc
    nlinarith
  have h1 : -r < px - qx := by
    by_contra hc
    push_neg at hc
    nlinarith
  have habs : |px - qx| < r := abs_lt.mpr ⟨h1, h2⟩
  rw [float_to_int_nonneg (mul_nonneg (by linarith) (le_of_lt hspos)),
    float_to_int_nonneg (mul_nonneg (by linarith) (le_of_lt hspos))]
  apply floor_near
  rw [show (px - m) * s - (qx - m) * s = (px - qx) * s by ring, abs_mul, abs_of_pos hspos]
  calc |px - qx| * s < r * s := by exact mul_lt_mul_of_pos_right habs hspos
    _ = 1 / 2 := by rw [mul_comm]; exact hsr

/-- The eight candidate cells of a query are the combinations of the two cell coordinates
chosen on each axis. -/
theorem query_hash_bits (g : HashGrid) (pos : float3) (bx bY bz : Bool) :
    query_hash g pos (bx.toNat + 2 * bY.toNat + 4 * bz.toNat) =
      g.hash_cell
        (int_to_uint32 (if bx then (query_coords g pos).2.2.2.1 else (query_coords g pos).1))
        (int_to_uint32 (if bY then (query_coords g pos).2.2.2.2.1 else (query_coords g pos).2.1))
        (int_to_uint32
          (if bz then (query_coords g pos).2.2.2.2.2 else (query_coords g pos).2.2.1)) := by
  cases bx <;> cases bY <;> cases bz <;> rfl

theorem sq_le_photon_dist (pos q : float3) :
    (pos.x - q.x) * (pos.x - q.x) ≤ float3.lensqr (float3.sub pos q) ∧
    (pos.y - q.y) * (pos.y - q.y) ≤ float3.lensqr (float3.sub pos q) ∧
    (pos.z - q.z) * (pos.z - q.z) ≤ float3.lensqr (float3.sub pos q) := by
  simp only [float3.lensqr, float3.dot, float3.sub]
  refine ⟨?_, ?_, ?_⟩ <;> nlinarith [mul_self_nonneg (pos.x - q.x), mul_self_nonneg (pos.y - q.y),
    mul_self_nonneg (pos.z - q.z)]

/-- For a positive radius: a point of the box that is closer than the radius to a query
position inside the box is hashed to the bucket of one of the eight candidate cells. -/
theorem near_point_in_candidate_cell (g : HashGrid) {radius : ℚ} (hr : 0 < radius)
    (hs : g.inv_size = 1 / 2 / radius) {pos q : float3}
    (hp : is_inside g.bbox pos = true) (hq : is_inside g.bbox q = true)
    (hd : float3.lensqr (float3.sub pos q) < radius * radius) :
    ∃ i, i < 8 ∧ query_hash g pos i = g.hash_photon q := by
  rw [is_inside_iff] at hp hq
  obtain ⟨dx, dy, dz⟩ := sq_le_photon_dist pos q
  have ax := axis_cell_near hr hs hp.1.1 hq.1.1 (lt_of_le_of_lt dx hd)
  have ay := axis_cell_near hr hs hp.2.1.1 hq.2.1.1 (lt_of_le_of_lt dy hd)
  have az := axis_cell_near hr hs hp.2.2.1 hq.2.2.1 (lt_of_le_of_lt dz hd)
  have key : ∀ bx bY bz : Bool,
      float_to_int ((q.x - g.bbox.min.x) * g.inv_size) =
        (if bx then (query_coords g pos).2.2.2.1 else (query_coords g pos).1) →
      float_to_int ((q.y - g.bbox.min.y) * g.inv_size) =
        (if bY then (query_coords g pos).2.2.2.2.1 else (query_coords g pos).2.1) →
      float_to_int ((q.z - g.bbox.min.z) * g.inv_size) =
        (if bz then (query_coords g pos).2.2.2.2.2 else (query_coords g pos).2.2.1) →
      ∃ i, i < 8 ∧ query_hash g pos i = g.hash_photon q := by
    intro bx bY bz ex ey ez
    refine ⟨bx.toNat + 2 * bY.toNat + 4 * bz.toNat, ?_, ?_⟩
    · cases bx <;> cases bY <;> cases bz <;> decide
    · rw [query_hash_bits, ← ex, ← ey, ← ez]
      rfl
  rcases ax with ax | ax <;> rcases ay with ay | ay <;> rcases az with az | az
  · exact key false false false ax ay az
  · exact key false false true ax ay az
  · exact key false true false ax ay az
  · exact key false true true ax ay az
  · exact key true false false ax ay az
  · exact key true false true ax ay az
  · exact key true true false ax ay az
  · exact key true true true ax ay az

/-! ## Claims about the hash grid -/

theorem mem_brute_force_query {positions : Nat → float3} {n : Nat} {radius : ℚ} {pos : float3}
    {x : Nat × ℚ} : x ∈ brute_force_query positions n radius pos ↔
      ∃ id, id < n ∧ photon_dist pos positions id < radius * radius ∧
        x = (id, photon_dist pos positions id) := by
  unfold brute_force_query
  rw [List.mem_filterMap]
  constructor
  · rintro ⟨id, h1, h2⟩
    split at h2
    · rename_i hd
      exact ⟨id, List.mem_range.mp h1, hd, (Option.some.inj h2).symm⟩
    · cases h2
  · rintro ⟨id, h1, h2, h3⟩
    exact ⟨id, List.mem_range.mpr h1, by rw [if_pos h2, h3]⟩

/-- A query outside the box of the grid reports nothing, by the first statement of
`HashGrid::query`.  One photon at the origin, radius `1`, query at `(1/10, 0, 0)`:
the brute-force search returns the photon (squared distance `1/100`), but the query
position is outside the box of the grid and `HashGrid::query` returns at once without
calling the callback. -/
theorem query_outside_box_misses_point :
    (HashGrid.build origin_points 1 1 >>= fun g => g.query ⟨1 / 10, 0, 0⟩ origin_points) =
      .ok [] ∧
    brute_force_query origin_points 1 1 ⟨1 / 10, 0, 0⟩ = [(0, 1 / 100)] := by
  decide!

/-- In exact arithmetic the query is complete inside the box of the grid.  For every
point set, every build radius `r > 0` and every query
position `p` inside the bounding box of the grid, `HashGrid::query` succeeds and the
pairs `(id, d)` passed to the callback are exactly those of the brute-force search:
the points with squared distance below `r ^ 2`, each with its squared distance. -/
theorem query_matches_brute_force_inside_box (positions : Nat → float3) (n : Nat) (radius : ℚ)
    (g : HashGrid) (pos : float3) (h : HashGrid.build positions n radius = .ok g)
    (hr : 0 < radius) (hin : is_inside g.bbox pos = true) :
    ∃ out, g.query pos positions = .ok out ∧
      ∀ x, x ∈ out ↔ x ∈ brute_force_query positions n radius pos := by
  have hb := build_eq_built h
  obtain ⟨out, e1, e2⟩ := query_total hb pos
  refine ⟨out, e1, fun x => ?_⟩
  rw [e2 x, mem_brute_force_query]
  constructor
  · rintro ⟨_, i, id, _, ⟨k, _, _, k3⟩, h3, h4⟩
    rw [hb.radius_sqr] at h4
    exact ⟨id, hb.buckets.ids k id k3, h4, h3⟩
  · rintro ⟨id, h1, h2, h3⟩
    obtain ⟨i, i1, i2⟩ := near_point_in_candidate_cell g hr hb.inv_size hin
      (photon_inside_grid hb h1) h2
    refine ⟨hin, i, id, i1, ?_, h3, by rw [hb.radius_sqr]; exact h2⟩
    rw [i2]
    exact photon_in_bucket hb h1

/-- The completeness of the query in exact arithmetic, on three photons on a line. -/
theorem query_matches_brute_force_inside_box_witness :
    HashGrid.build line_points 3 1 = .ok line_grid ∧ (0 : ℚ) < 1 ∧
    is_inside line_grid.bbox ⟨1 / 2, 0, 0⟩ = true ∧
    ∃ out, line_grid.query ⟨1 / 2, 0, 0⟩ line_points = .ok out ∧
      ∀ x, x ∈ out ↔ x ∈ brute_force_query line_points 3 1 ⟨1 / 2, 0, 0⟩ :=
  ⟨by decide!, by decide!, by decide!,
    query_matches_brute_force_inside_box line_points 3 1 line_grid ⟨1 / 2, 0, 0⟩ (by decide!)
      (by decide!) (by decide!)⟩

/-- C6. `HashGrid::build` over zero points succeeds (in particular its assertion
`cell_counts.back() == photons.size()` holds) with an empty photon array, and
afterwards `HashGrid::query` at every position returns without calling the callback
and without any out-of-range access. -/
theorem empty_grid_query_returns_nothing (positions : Nat → float3) (radius : ℚ) :
    ∃ g, HashGrid.build positions 0 radius = .ok g ∧ g.photons = [] ∧
      g.cell_counts = [0, 0] ∧
      ∀ (pos : float3) (positions' : Nat → float3), g.query pos positions' = .ok [] := by
  obtain ⟨g, e1, hb⟩ := grid_build_total positions 0 radius
  have hph : g.photons = [] := List.length_eq_zero.mp hb.buckets.ph_len
  have hcc : g.cell_counts = [0, 0] := by
    have hl : g.cell_counts.length = 2 := by rw [hb.size]; rfl
    have c0 := hb.buckets.cursor 0 (by omega)
    have c1 := hb.buckets.cursor 1 (by omega)
    simp only [Nat.sub_self, tail_count_zero, Nat.add_zero, bucket_start] at c0 c1
    apply List.ext_getElem?
    intro k
    match k with
    | 0 => rw [c0]; rfl
    | 1 => rw [c1]; rfl
    | k + 2 => rw [List.getElem?_eq_none (by omega)]; rfl
  refine ⟨g, e1, hph, hcc, ?_⟩
  intro pos positions'
  have hout : is_inside g.bbox pos = false := by
    rw [Bool.eq_false_iff]
    intro hin
    rw [hb.bbox, is_inside_iff] at hin
    simp only [photon_bbox_loop, enlarge, extend, BBox.empty, float3.splat, float3.min,
      float3.max, float3.sub, float3.add, float3.scale, FLT_MAX] at hin
    norm_num at hin
    linarith [hin.1.1, hin.1.2]
  unfold HashGrid.query
  rw [if_pos (by simp [hout])]

/-! ## Claims about the radius schedule -/

theorem ppm_radius_eq (pow : ℚ → ℚ → ℚ) (base_radius : ℚ) (iter : Int) :
    ppm_radius pow base_radius iter = base_radius / pow (iter : ℚ) (1 / 8) := by
  unfold ppm_radius
  norm_num

/-- C10 (counterexample). When the eye of the camera lies on a triangle, all sample rays
hit it at `t = 0`, the measured distances are `0`, `estimate_pixel_size` returns `0`, and
at iteration `1` both `base_radius` and the radius are `0`: the radius is not positive. -/
theorem ppm_radius_zero_when_eye_on_triangle :
    estimate_pixel_size eye_on_triangle_ray taxicab_length two_tri_bvh 2 2 = .ok 0 ∧
    render_ppm_radius coarse_pow eye_on_triangle_ray taxicab_length two_tri_bvh 2 2 1 1 =
      .ok (0, 0) := by
  decide!

theorem eval_distance_nonneg {length : float3 → ℚ} (hlen : ∀ v, 0 ≤ length v)
    {rays : List Ray} {hits : List Hit} {i j : Nat} {dc dc' : ℚ × Int}
    (h : eval_distance length rays hits i j dc = .ok dc') (h0 : 0 ≤ dc.1) : 0 ≤ dc'.1 := by
  unfold eval_distance at h
  obtain ⟨hi, _, h⟩ := bind_ok h
  obtain ⟨hj, _, h⟩ := bind_ok h
  obtain ⟨ri, _, h⟩ := bind_ok h
  obtain ⟨rj, _, h⟩ := bind_ok h
  split at h
  · cases h
    exact add_nonneg h0 (hlen _)
  · cases h
    exact h0

theorem pixel_block_nonneg {gen_ray : ℚ → ℚ → Ray} {length : float3 → ℚ}
    (hlen : ∀ v, 0 ≤ length v) {bvh : Bvh} {kx ky : ℚ} {x y : Nat} {dc dc' : ℚ × Int}
    (h : pixel_block gen_ray length bvh kx ky x y dc = .ok dc') (h0 : 0 ≤ dc.1) :
    0 ≤ dc'.1 := by
  unfold pixel_block at h
  obtain ⟨hits, _, h⟩ := bind_ok h
  obtain ⟨dc1, h1, h⟩ := bind_ok h
  obtain ⟨dc2, h2, h⟩ := bind_ok h
  obtain ⟨dc3, h3, h⟩ := bind_ok h
  exact eval_distance_nonneg hlen h (eval_distance_nonneg hlen h3
    (eval_distance_nonneg hlen h2 (eval_distance_nonneg hlen h1 h0)))

theorem pixel_row_nonneg {gen_ray : ℚ → ℚ → Ray} {length : float3 → ℚ}
    (hlen : ∀ v, 0 ≤ length v) {bvh : Bvh} {kx ky : ℚ} {y : Nat} :
    ∀ (n x : Nat) (dc dc' : ℚ × Int),
      pixel_row gen_ray length bvh kx ky y n x dc = .ok dc' → 0 ≤ dc.1 → 0 ≤ dc'.1 := by
  intro n
  induction n with
  | zero =>
    intro x dc dc' h h0
    rw [pixel_row] at h
    cases h
    exact h0
  | succ n ih =>
    intro x dc dc' h h0
    rw [pixel_row] at h
    obtain ⟨dc1, h1, h⟩ := bind_ok h
    exact ih _ _ _ h (pixel_block_nonneg hlen h1 h0)

theorem pixel_rows_nonneg {gen_ray : ℚ → ℚ → Ray} {length : float3 → ℚ}
    (hlen : ∀ v, 0 ≤ length v) {bvh : Bvh} {kx ky : ℚ} {w : Nat} :
    ∀ (n y : Nat) (total total' : ℚ × Int),
      pixel_rows gen_ray length bvh kx ky w n y total = .ok total' → 0 ≤ total.1 →
      0 ≤ total'.1 := by
  intro n
  induction n with
  | zero =>
    intro y total total' h h0
    rw [pixel_rows] at h
    cases h
    exact h0
  | succ n ih =>
    intro y total total' h h0
    rw [pixel_rows] at h
    obtain ⟨dc, h1, h⟩ := bind_ok h
    exact ih _ _ _ h (add_nonneg h0 (pixel_row_nonneg hlen _ _ _ _ h1 (le_refl _)))

theorem estimate_pixel_size_nonneg {gen_ray : ℚ → ℚ → Ray} {length : float3 → ℚ}
    (hlen : ∀ v, 0 ≤ length v) {bvh : Bvh} {w h : Nat} {e : ℚ}
    (he : estimate_pixel_size gen_ray length bvh w h = .ok e) : 0 ≤ e := by
  unfold estimate_pixel_size at he
  obtain ⟨total, h1, he⟩ := bind_ok he
  cases he
  have h0 := pixel_rows_nonneg hlen _ _ _ _ h1 (le_refl _)
  split
  · rename_i hc
    apply div_nonneg h0
    exact_mod_cast (by omega : (0 : Int) ≤ 4 * total.2)
  · exact zero_le_one

theorem taxicab_length_nonneg (v : float3) : 0 ≤ taxicab_length v := by
  unfold taxicab_length
  positivity

/-- C10 (amended). For every iteration `i ≥ 1` of `render_ppm` the radius given to the
photon map equals `base_radius / pow(i, 0.125)`, where `base_radius` is fixed at
iteration `1` as `2 * estimate_pixel_size` and kept afterwards; `base_radius` is never
negative, the radius of the next iteration is not larger, and the radius is positive
whenever `base_radius` is positive.  `pow` stands for `std::pow`, of which only
positivity and monotonicity in the base are used, and `length` for the Euclidean length,
of which only that it is not negative. -/
theorem ppm_radius_schedule (pow : ℚ → ℚ → ℚ) (gen_ray : ℚ → ℚ → Ray) (length : float3 → ℚ)
    (bvh : Bvh) (w h : Nat) (base : ℚ) (iter : Int) (base' radius : ℚ)
    (hpos : ∀ x y, 0 < x → 0 < pow x y)
    (hmono : ∀ x x' y, 0 < x → x ≤ x' → pow x y ≤ pow x' y)
    (hlen : ∀ v, 0 ≤ length v)
    (hi : 1 ≤ iter) (hbase : iter ≠ 1 → 0 ≤ base)
    (hr : render_ppm_radius pow gen_ray length bvh w h base iter = .ok (base', radius)) :
    radius = base' / pow (iter : ℚ) (1 / 8) ∧
    (iter = 1 → ∃ e, estimate_pixel_size gen_ray length bvh w h = .ok e ∧ base' = 2 * e) ∧
    (iter ≠ 1 → base' = base) ∧
    0 ≤ base' ∧
    (0 < base' → 0 < radius) ∧
    render_ppm_radius pow gen_ray length bvh w h base' (iter + 1) =
      .ok (base', ppm_radius pow base' (iter + 1)) ∧
    ppm_radius pow base' (iter + 1) ≤ radius := by
  unfold render_ppm_radius at hr
  obtain ⟨b, hb, hr⟩ := bind_ok hr
  cases hr
  have hip : (0 : ℚ) < (iter : ℚ) := by exact_mod_cast (by omega : (0 : Int) < iter)
  have hp1 := hpos (iter : ℚ) (1 / 8) hip
  have hp2 := hmono (iter : ℚ) ((iter + 1 : Int) : ℚ) (1 / 8) hip (by push_cast; linarith)
  have h1 : iter = 1 → ∃ e, estimate_pixel_size gen_ray length bvh w h = .ok e ∧
      base' = 2 * e := by
    intro h1
    rw [if_pos h1] at hb
    cases he : estimate_pixel_size gen_ray length bvh w h with
    | error e => rw [he] at hb; cases hb
    | ok e =>
      rw [he] at hb
      cases hb
      exact ⟨e, rfl, rfl⟩
  have h2 : iter ≠ 1 → base' = base := by
    intro h1
    rw [if_neg h1] at hb
    cases hb
    rfl
  have hb0 : 0 ≤ base' := by
    by_cases hc : iter = 1
    · obtain ⟨e, he, rfl⟩ := h1 hc
      have := estimate_pixel_size_nonneg hlen he
      linarith
    · rw [h2 hc]
      exact hbase hc
  refine ⟨ppm_radius_eq _ _ _, h1, h2, hb0, ?_, ?_, ?_⟩
  · intro hbp
    rw [ppm_radius_eq]
    exact div_pos hbp hp1
  · unfold render_ppm_radius
    rw [if_neg (by omega)]
    rfl
  · rw [ppm_radius_eq, ppm_radius_eq]
    exact div_le_div_of_nonneg_left hb0 hp1 hp2

theorem coarse_pow_pos (x y : ℚ) (h : 0 < x) : 0 < coarse_pow x y := by
  unfold coarse_pow
  split
  · exact one_pos
  · exact h

theorem coarse_pow_mono (x x' y : ℚ) (_ : 0 < x) (h : x ≤ x') :
    coarse_pow x y ≤ coarse_pow x' y := by
  unfold coarse_pow
  split
  · exact le_refl _
  · exact h

/-- Witness for the amended C10: a camera above the two-triangle scene, iteration `1`. -/
theorem ppm_radius_schedule_witness :
    (∀ x y, 0 < x → 0 < coarse_pow x y) ∧
    (∀ x x' y, 0 < x → x ≤ x' → coarse_pow x y ≤ coarse_pow x' y) ∧
    (∀ v, 0 ≤ taxicab_length v) ∧
    (1 : Int) ≤ 1 ∧
    ((1 : Int) ≠ 1 → (0 : ℚ) ≤ 1) ∧
    render_ppm_radius coarse_pow camera_above_ray taxicab_length two_tri_bvh 2 2 1 1 =
      .ok (1 / 25, 1 / 25) ∧
    ((1 / 25 : ℚ) = 1 / 25 / coarse_pow ((1 : Int) : ℚ) (1 / 8) ∧
    ((1 : Int) = 1 → ∃ e, estimate_pixel_size camera_above_ray taxicab_length two_tri_bvh 2 2 =
      .ok e ∧ (1 / 25 : ℚ) = 2 * e) ∧
    ((1 : Int) ≠ 1 → (1 / 25 : ℚ) = 1) ∧
    (0 : ℚ) ≤ 1 / 25 ∧
    ((0 : ℚ) < 1 / 25 → (0 : ℚ) < 1 / 25) ∧
    render_ppm_radius coarse_pow camera_above_ray taxicab_length two_tri_bvh 2 2 (1 / 25)
      (1 + 1) = .ok (1 / 25, ppm_radius coarse_pow (1 / 25) (1 + 1)) ∧
    ppm_radius coarse_pow (1 / 25) (1 + 1) ≤ 1 / 25) :=
  ⟨coarse_pow_pos, coarse_pow_mono, taxicab_length_nonneg, by decide, fun _ => zero_le_one,
    by decide!,
    ppm_radius_schedule coarse_pow camera_above_ray taxicab_length two_tri_bvh 2 2 1 1
      (1 / 25) (1 / 25) coarse_pow_pos coarse_pow_mono taxicab_length_nonneg (by decide)
      (fun _ => zero_le_one) (by decide!)⟩

/-! ## Claims about the first radius -/

/-- C11 (counterexample). A camera above the two-triangle scene, iteration `1`: the
static `base_radius` becomes `1/25` (twice the estimated pixel size `1/50`) and the
radius used for the photon map is `1/25` as well, not `2 * base_radius = 2/25`. -/
theorem ppm_first_radius_not_twice_base_radius :
    estimate_pixel_size camera_above_ray taxicab_length two_tri_bvh 2 2 = .ok (1 / 50) ∧
    render_ppm_radius coarse_pow camera_above_ray taxicab_length two_tri_bvh 2 2 1 1 =
      .ok (1 / 25, 1 / 25) ∧
    (1 / 25 : ℚ) ≠ 2 * (1 / 25) := by
  decide!

/-- C11 (amended). In `render_ppm`, iteration `1` sets `base_radius` to
`2 * estimate_pixel_size` and uses the radius `radius(1) = base_radius`; every
iteration `i` (in particular every `i ≥ 1`) uses `radius(i) = base_radius / pow(i, 0.125)` and leaves
`base_radius` as it is.  The factor `2` is part of `base_radius`.  Of `pow` only
`pow(1, 0.125) = 1` is used. -/
theorem ppm_radius_from_base_radius (pow : ℚ → ℚ → ℚ) (gen_ray : ℚ → ℚ → Ray)
    (length : float3 → ℚ) (bvh : Bvh) (w h : Nat) (base0 : ℚ) (i : Int) (b1 r1 : ℚ)
    (hpow : pow 1 (1 / 8) = 1)
    (h1 : render_ppm_radius pow gen_ray length bvh w h base0 1 = .ok (b1, r1)) :
    ∃ e, estimate_pixel_size gen_ray length bvh w h = .ok e ∧ b1 = 2 * e ∧ r1 = b1 ∧
      render_ppm_radius pow gen_ray length bvh w h b1 i =
        .ok (b1, b1 / pow (i : ℚ) (1 / 8)) := by
  unfold render_ppm_radius at h1
  obtain ⟨b, hb, h1⟩ := bind_ok h1
  cases h1
  rw [if_pos rfl] at hb
  cases he : estimate_pixel_size gen_ray length bvh w h with
  | error f => rw [he] at hb; cases hb
  | ok e =>
    rw [he] at hb
    cases hb
    refine ⟨e, rfl, rfl, ?_, ?_⟩
    · show ppm_radius pow (2 * e) 1 = 2 * e
      rw [ppm_radius_eq, Int.cast_one, hpow, div_one]
    · unfold render_ppm_radius
      by_cases hc : i = 1
      · rw [if_pos hc, he]
        show Except.ok (2 * e, ppm_radius pow (2 * e) i) = _
        rw [ppm_radius_eq]
      · rw [if_neg hc]
        show Except.ok (2 * e, ppm_radius pow (2 * e) i) = _
        rw [ppm_radius_eq]

/-- Witness for the amended C11: a camera above the two-triangle scene, iteration `2`. -/
theorem ppm_radius_from_base_radius_witness :
    coarse_pow 1 (1 / 8) = 1 ∧
    render_ppm_radius coarse_pow camera_above_ray taxicab_length two_tri_bvh 2 2 1 1 =
      .ok (1 / 25, 1 / 25) ∧
    ∃ e, estimate_pixel_size camera_above_ray taxicab_length two_tri_bvh 2 2 = .ok e ∧
      (1 / 25 : ℚ) = 2 * e ∧ (1 / 25 : ℚ) = 1 / 25 ∧
      render_ppm_radius coarse_pow camera_above_ray taxicab_length two_tri_bvh 2 2 (1 / 25) 2 =
        .ok (1 / 25, 1 / 25 / coarse_pow ((2 : Int) : ℚ) (1 / 8)) :=
  ⟨by decide!, by decide!,
    ppm_radius_from_base_radius coarse_pow camera_above_ray taxicab_length two_tri_bvh 2 2 1 2
      (1 / 25) (1 / 25) (by decide!) (by decide!)⟩

/-! ## Leaves, inner nodes and child links -/

/-- The root of a subtree is a leaf that stores its range, without descendants, or an
inner node with the negated axis in the count field, whose first child is the first
slot of its descendants. -/
theorem Subtree.root_kind {bboxes : List BBox} {prim_ids : List Nat} {nodes : List Node}
    {id b e lo hi : Nat} (h : Subtree bboxes prim_ids nodes id b e lo hi) :
    ∃ nd, nodes[id]? = some nd ∧
      ((lo = hi ∧ nd.first_prim = b ∧ nd.num_prims = (e : Int) - b) ∨
       (lo + 2 ≤ hi ∧ nd.num_prims ≤ 0 ∧ -2 ≤ nd.num_prims ∧ nd.child = lo)) := by
  cases h with
  | leaf _ _ _ _ nd h1 h2 h3 _ _ _ => exact ⟨nd, h1, Or.inl ⟨rfl, h2, h3⟩⟩
  | inner_lr _ _ _ _ _ m _ nd h1 h2 h3 h4 _ _ _ t1 t2 =>
    have b1 := t1.lo_le_hi
    have b2 := t2.lo_le_hi
    exact ⟨nd, h1, Or.inr ⟨by omega, h2, h3, h4⟩⟩
  | inner_rl _ _ _ _ _ m _ nd h1 h2 h3 h4 _ _ _ t1 t2 =>
    have b1 := t1.lo_le_hi
    have b2 := t2.lo_le_hi
    exact ⟨nd, h1, Or.inr ⟨by omega, h2, h3, h4⟩⟩

/-- The two children of an inner node are the roots of subtrees over the two parts of
its range. -/
theorem Subtree.children {bboxes : List BBox} {prim_ids : List Nat} {nodes : List Node}
    {id b e lo hi : Nat} (h : Subtree bboxes prim_ids nodes id b e lo hi) (hlt : lo < hi) :
    ∃ s l1 h1 l2 h2, b < s ∧ s < e ∧ Subtree bboxes prim_ids nodes lo b s l1 h1 ∧
      Subtree bboxes prim_ids nodes (lo + 1) s e l2 h2 := by
  cases h with
  | leaf _ _ _ _ nd h1 h2 h3 _ _ _ => omega
  | inner_lr _ _ s _ _ m _ nd h1 h2 h3 h4 h5 h6 _ t1 t2 =>
    exact ⟨s, _, _, _, _, h5, h6, t1, t2⟩
  | inner_rl _ _ s _ _ m _ nd h1 h2 h3 h4 h5 h6 _ t1 t2 =>
    exact ⟨s, _, _, _, _, h5, h6, t2, t1⟩

/-- Every slot of a subtree is the root of a subtree over a part of the range, whose
descendants are among the descendants of the whole. -/
theorem Subtree.sub_in {bboxes : List BBox} {prim_ids : List Nat} {nodes : List Node}
    {id b e lo hi : Nat} (h : Subtree bboxes prim_ids nodes id b e lo hi) :
    ∀ k, (k = id ∨ (lo ≤ k ∧ k < hi)) → ∃ b' e' lo' hi',
      Subtree bboxes prim_ids nodes k b' e' lo' hi' ∧ b ≤ b' ∧ e' ≤ e ∧ lo ≤ lo' ∧ hi' ≤ hi := by
  induction h with
  | leaf id b e lo nd h1 h2 h3 h4 h5 h6 =>
    intro k hk
    have : k = id := by omega
    subst this
    exact ⟨b, e, lo, lo, Subtree.leaf k b e lo nd h1 h2 h3 h4 h5 h6, Nat.le_refl _,
      Nat.le_refl _, Nat.le_refl _, Nat.le_refl _⟩
  | inner_lr id b s e lo m hi nd h1 h2 h3 h4 h5 h6 h7 t1 t2 ih1 ih2 =>
    intro k hk
    have b1 := t1.lo_le_hi
    have b2 := t2.lo_le_hi
    by_cases hkid : k = id
    · subst hkid
      exact ⟨b, e, lo, hi, Subtree.inner_lr k b s e lo m hi nd h1 h2 h3 h4 h5 h6 h7 t1 t2,
        Nat.le_refl _, Nat.le_refl _, Nat.le_refl _, Nat.le_refl _⟩
    · by_cases hk1 : k = lo ∨ (lo + 2 ≤ k ∧ k < m)
      · obtain ⟨b', e', lo', hi', t, c1, c2, c3, c4⟩ := ih1 k hk1
        exact ⟨b', e', lo', hi', t, c1, by omega, by omega, by omega⟩
      · obtain ⟨b', e', lo', hi', t, c1, c2, c3, c4⟩ := ih2 k (by omega)
        exact ⟨b', e', lo', hi', t, by omega, c2, by omega, by omega⟩
  | inner_rl id b s e lo m hi nd h1 h2 h3 h4 h5 h6 h7 t1 t2 ih1 ih2 =>
    intro k hk
    have b1 := t1.lo_le_hi
    have b2 := t2.lo_le_hi
    by_cases hkid : k = id
    · subst hkid
      exact ⟨b, e, lo, hi, Subtree.inner_rl k b s e lo m hi nd h1 h2 h3 h4 h5 h6 h7 t1 t2,
        Nat.le_refl _, Nat.le_refl _, Nat.le_refl _, Nat.le_refl _⟩
    · by_cases hk1 : k = lo + 1 ∨ (lo + 2 ≤ k ∧ k < m)
      · obtain ⟨b', e', lo', hi', t, c1, c2, c3, c4⟩ := ih1 k hk1
        exact ⟨b', e', lo', hi', t, by omega, c2, by omega, by omega⟩
      · obtain ⟨b', e', lo', hi', t, c1, c2, c3, c4⟩ := ih2 k (by omega)
        exact ⟨b', e', lo', hi', t, c1, by omega, by omega, by omega⟩

/-- The child links of a subtree: they point to descendants of the root, every descendant
is pointed to, and by one node only. -/
theorem Subtree.child_cover {bboxes : List BBox} {prim_ids : List Nat} {nodes : List Node}
    {id b e lo hi : Nat} (h : Subtree bboxes prim_ids nodes id b e lo hi) (hid : id < lo) :
    (∀ k j, (k = id ∨ (lo ≤ k ∧ k < hi)) → ChildOf nodes k j → lo ≤ j ∧ j < hi) ∧
    (∀ j, lo ≤ j → j < hi → ∃ k, (k = id ∨ (lo ≤ k ∧ k < hi)) ∧ ChildOf nodes k j) ∧
    (∀ k1 k2 j, (k1 = id ∨ (lo ≤ k1 ∧ k1 < hi)) → (k2 = id ∨ (lo ≤ k2 ∧ k2 < hi)) →
      ChildOf nodes k1 j → ChildOf nodes k2 j → k1 = k2) := by
  induction h with
  | leaf id b e lo nd h1 h2 h3 h4 h5 h6 =>
    refine ⟨?_, ?_, ?_⟩
    · intro k j hk ⟨nd', g1, g2, _⟩
      have : k = id := by omega
      subst this
      rw [h1] at g1
      cases g1
      omega
    · intro j hj1 hj2
      omega
    · intro k1 k2 j hk1 hk2 _ _
      omega
  | inner_lr id b s e lo m hi nd h1 h2 h3 h4 h5 h6 h7 t1 t2 ih1 ih2 =>
    have b1 := t1.lo_le_hi
    have b2 := t2.lo_le_hi
    obtain ⟨l1, l2, l3⟩ := ih1 (by omega)
    obtain ⟨r1, r2, r3⟩ := ih2 (by omega)
    have root : ∀ j, ChildOf nodes id j ↔ (j = lo ∨ j = lo + 1) := by
      intro j
      constructor
      · rintro ⟨nd', g1, _, g3⟩
        rw [h1] at g1
        cases g1
        rw [h4] at g3
        exact g3
      · intro hj
        exact ⟨nd, h1, h2, by rw [h4]; exact hj⟩
    have cls : ∀ k, (k = id ∨ (lo ≤ k ∧ k < hi)) → k = id ∨
        (k = lo ∨ (lo + 2 ≤ k ∧ k < m)) ∨ (k = lo + 1 ∨ (m ≤ k ∧ k < hi)) := by
      intro k hk; omega
    refine ⟨?_, ?_, ?_⟩
    · intro k j hk hc
      rcases cls k hk with rfl | hk | hk
      · have := (root j).mp hc; omega
      · have := l1 k j hk hc; omega
      · have := r1 k j hk hc; omega
    · intro j hj1 hj2
      by_cases hj : j = lo ∨ j = lo + 1
      · exact ⟨id, Or.inl rfl, (root j).mpr hj⟩
      · by_cases hjm : j < m
        · obtain ⟨k, hk, hc⟩ := l2 j (by omega) hjm
          exact ⟨k, by omega, hc⟩
        · obtain ⟨k, hk, hc⟩ := r2 j (by omega) hj2
          exact ⟨k, by omega, hc⟩
    · intro k1 k2 j hk1 hk2 hc1 hc2
      rcases cls k1 hk1 with rfl | hk1 | hk1
      · have := (root j).mp hc1
        rcases cls k2 hk2 with rfl | hk2 | hk2
        · rfl
        · have := l1 k2 j hk2 hc2; omega
        · have := r1 k2 j hk2 hc2; omega
      · have := l1 k1 j hk1 hc1
        rcases cls k2 hk2 with rfl | hk2 | hk2
        · have := (root j).mp hc2; omega
        · exact l3 k1 k2 j hk1 hk2 hc1 hc2
        · have := r1 k2 j hk2 hc2; omega
      · have := r1 k1 j hk1 hc1
        rcases cls k2 hk2 with rfl | hk2 | hk2
        · have := (root j).mp hc2; omega
        · have := l1 k2 j hk2 hc2; omega
        · exact r3 k1 k2 j hk1 hk2 hc1 hc2
  | inner_rl id b s e lo m hi nd h1 h2 h3 h4 h5 h6 h7 t1 t2 ih1 ih2 =>
    have b1 := t1.lo_le_hi
    have b2 := t2.lo_le_hi
    obtain ⟨r1, r2, r3⟩ := ih1 (by omega)
    obtain ⟨l1, l2, l3⟩ := ih2 (by omega)
    have root : ∀ j, ChildOf nodes id j ↔ (j = lo ∨ j = lo + 1) := by
      intro j
      constructor
      · rintro ⟨nd', g1, _, g3⟩
        rw [h1] at g1
        cases g1
        rw [h4] at g3
        exact g3
      · intro hj
        exact ⟨nd, h1, h2, by rw [h4]; exact hj⟩
    have cls : ∀ k, (k = id ∨ (lo ≤ k ∧ k < hi)) → k = id ∨
        (k = lo ∨ (m ≤ k ∧ k < hi)) ∨ (k = lo + 1 ∨ (lo + 2 ≤ k ∧ k < m)) := by
      intro k hk; omega
    refine ⟨?_, ?_, ?_⟩
    · intro k j hk hc
      rcases cls k hk with rfl | hk | hk
      · have := (root j).mp hc; omega
      · have := l1 k j hk hc; omega
      · have := r1 k j hk hc; omega
    · intro j hj1 hj2
      by_cases hj : j = lo ∨ j = lo + 1
      · exact ⟨id, Or.inl rfl, (root j).mpr hj⟩
      · by_cases hjm : j < m
        · obtain ⟨k, hk, hc⟩ := r2 j (by omega) hjm
          exact ⟨k, by omega, hc⟩
        · obtain ⟨k, hk, hc⟩ := l2 j (by omega) hj2
          exact ⟨k, by omega, hc⟩
    · intro k1 k2 j hk1 hk2 hc1 hc2
      rcases cls k1 hk1 with rfl | hk1 | hk1
      · have := (root j).mp hc1
        rcases cls k2 hk2 with rfl | hk2 | hk2
        · rfl
        · have := l1 k2 j hk2 hc2; omega
        · have := r1 k2 j hk2 hc2; omega
      · have := l1 k1 j hk1 hc1
        rcases cls k2 hk2 with rfl | hk2 | hk2
        · have := (root j).mp hc2; omega
        · exact l3 k1 k2 j hk1 hk2 hc1 hc2
        · have := r1 k2 j hk2 hc2; omega
      · have := r1 k1 j hk1 hc1
        rcases cls k2 hk2 with rfl | hk2 | hk2
        · have := (root j).mp hc2; omega
        · have := l1 k2 j hk2 hc2; omega
        · exact r3 k1 k2 j hk1 hk2 hc1 hc2

/-- C14. In the tree produced by `Bvh::build`, the two children of every inner node
occupy the consecutive slots `child` and `child + 1`, both in `[1, node_count())`, they
are the roots of subtrees over the two parts of the node's range, and every slot in
`[1, node_count())` is the child of exactly one inner node. -/
theorem build_children_adjacent_unique (verts : List float3) (indices : List Nat) (n : Nat)
    (bvh : Bvh) (h : Bvh.build verts indices n = .ok bvh) (hn : 0 < n) :
    (∃ bboxes, TriBoxes verts indices n bboxes ∧
      ∀ (k : Nat) (nd : Node), bvh.nodes[k]? = some nd → nd.num_prims ≤ 0 →
        1 ≤ nd.child ∧ nd.child + 1 < bvh.num_nodes ∧
        ∃ b s e l1 h1 l2 h2, b < s ∧ s < e ∧ e ≤ n ∧
          Subtree bboxes bvh.prim_ids bvh.nodes nd.child b s l1 h1 ∧
          Subtree bboxes bvh.prim_ids bvh.nodes (nd.child + 1) s e l2 h2) ∧
    (∀ j, 1 ≤ j → j < bvh.num_nodes → ∃! k, ChildOf bvh.nodes k j) ∧
    (∀ k, ¬ ChildOf bvh.nodes k 0) := by
  obtain ⟨bboxes, hb, _, hlen, hpos, _, htree, _⟩ := bvh_build_spec h hn
  have slot : ∀ (k : Nat) (nd : Node), bvh.nodes[k]? = some nd →
      (k = 0 ∨ (1 ≤ k ∧ k < bvh.num_nodes)) := by
    intro k nd hk
    have := (List.getElem?_eq_some_iff.mp hk).1
    omega
  obtain ⟨c1, c2, c3⟩ := htree.child_cover (by omega)
  refine ⟨⟨bboxes, hb, ?_⟩, ?_, ?_⟩
  · intro k nd hk hnp
    obtain ⟨b, e, lo, hi, t, d1, d2, d3, d4⟩ := htree.sub_in k (slot k nd hk)
    obtain ⟨nd', g1, g2⟩ := t.root_kind
    rw [hk] at g1
    cases g1
    have hlt := t.range_lt
    rcases g2 with ⟨e1, e2, e3⟩ | ⟨e1, e2, e3, e4⟩
    · omega
    · obtain ⟨s, l1, h1, l2, h2, f1, f2, t1, t2⟩ := t.children (by omega)
      refine ⟨by omega, by omega, b, s, e, l1, h1, l2, h2, f1, f2, by omega, ?_, ?_⟩
      · rw [e4]; exact t1
      · rw [e4]; exact t2
  · intro j hj1 hj2
    obtain ⟨k, hk, hc⟩ := c2 j hj1 hj2
    refine ⟨k, hc, ?_⟩
    intro k' hc'
    obtain ⟨nd', g1, _⟩ := hc'
    exact c3 k' k j (slot k' nd' g1) hk ⟨nd', g1, by assumption⟩ hc
  · intro k hc
    obtain ⟨nd, g1, g2, g3⟩ := hc
    have := c1 k 0 (slot k nd g1) ⟨nd, g1, g2, g3⟩
    omega

/-- Witness for C14 on the two-triangle scene. -/
theorem build_children_adjacent_unique_witness :
    Bvh.build two_tri_verts two_tri_indices 2 = .ok two_tri_bvh ∧ 0 < 2 ∧
    ((∃ bboxes, TriBoxes two_tri_verts two_tri_indices 2 bboxes ∧
      ∀ (k : Nat) (nd : Node), two_tri_bvh.nodes[k]? = some nd → nd.num_prims ≤ 0 →
        1 ≤ nd.child ∧ nd.child + 1 < two_tri_bvh.num_nodes ∧
        ∃ b s e l1 h1 l2 h2, b < s ∧ s < e ∧ e ≤ 2 ∧
          Subtree bboxes two_tri_bvh.prim_ids two_tri_bvh.nodes nd.child b s l1 h1 ∧
          Subtree bboxes two_tri_bvh.prim_ids two_tri_bvh.nodes (nd.child + 1) s e l2 h2) ∧
    (∀ j, 1 ≤ j → j < two_tri_bvh.num_nodes → ∃! k, ChildOf two_tri_bvh.nodes k j) ∧
    (∀ k, ¬ ChildOf two_tri_bvh.nodes k 0)) :=
  ⟨by decide!, by decide,
    build_children_adjacent_unique two_tri_verts two_tri_indices 2 two_tri_bvh (by decide!)
      (by decide)⟩

/-! ## Claims about the size of the cell table -/

theorem closest_log2_loop_spec (i : Nat) :
    ∀ (n p q : Nat), p = 2 ^ q → i < p + n → (∀ j, j < q → 2 ^ j < i) →
      i ≤ 2 ^ closest_log2_loop i n p q ∧ ∀ j, j < closest_log2_loop i n p q → 2 ^ j < i := by
  intro n
  induction n with
  | zero =>
    intro p q hp hi hj
    rw [closest_log2_loop]
    exact ⟨by omega, hj⟩
  | succ n ih =>
    intro p q hp hi hj
    rw [closest_log2_loop]
    split
    · rename_i hgt
      have hp1 : 1 ≤ 2 ^ q := Nat.one_le_two_pow
      apply ih (p * 2) (q + 1) (by rw [hp, pow_succ]) (by omega)
      intro j hjq
      rcases Nat.lt_succ_iff_lt_or_eq.mp hjq with h | h
      · exact hj j h
      · rw [h, ← hp]; exact hgt
    · exact ⟨by omega, hj⟩

/-- `closest_log2(i)` is the least `q` with `2 ^ q ≥ i`. -/
theorem closest_log2_spec (i : Nat) :
    i ≤ 2 ^ closest_log2 i ∧ ∀ j, j < closest_log2 i → 2 ^ j < i :=
  closest_log2_loop_spec i i 1 0 rfl (by omega) (fun j hj => by omega)

/-- C15 (counterexample). For zero points the cell table has `2` entries, while the
smallest power of two that is at least `2 * 0` is `2 ^ 0 = 1`. -/
theorem table_size_zero_points :
    (HashGrid.build origin_points 0 1).map (fun g => g.cell_counts.length) = .ok 2 ∧
    1 <<< (closest_log2 0 + 1) = 2 ∧ 2 * 0 ≤ 2 ^ 0 ∧ 2 ^ 0 < 2 := by
  decide!

/-- C15 (amended). For every point count `n ≥ 1` passed to `HashGrid::build`, the cell
table has `1 << (closest_log2(n) + 1)` entries, which is a power of two and the smallest
power of two that is at least `2 * n`; `closest_log2(n)` is the least `q` with
`2 ^ q ≥ n`.  For `n ≤ 2 ^ 29` the size is at most `2 ^ 30` and fits an `int`. -/
theorem table_size_smallest_power (positions : Nat → float3) (n : Nat) (radius : ℚ)
    (hn : 1 ≤ n) :
    (∃ g, HashGrid.build positions n radius = .ok g ∧
      g.cell_counts.length = 1 <<< (closest_log2 n + 1)) ∧
    1 <<< (closest_log2 n + 1) = 2 ^ (closest_log2 n + 1) ∧
    2 * n ≤ 2 ^ (closest_log2 n + 1) ∧
    (∀ k, 2 * n ≤ 2 ^ k → 2 ^ (closest_log2 n + 1) ≤ 2 ^ k) ∧
    (n ≤ 2 ^ closest_log2 n ∧ ∀ j, j < closest_log2 n → 2 ^ j < n) ∧
    (n ≤ 2 ^ 29 → 2 ^ (closest_log2 n + 1) ≤ 2 ^ 30) := by
  obtain ⟨h1, h2⟩ := closest_log2_spec n
  obtain ⟨g, e1, hb⟩ := grid_build_total positions n radius
  refine ⟨⟨g, e1, hb.size⟩, Nat.one_shiftLeft _, ?_, ?_, ⟨h1, h2⟩, ?_⟩
  · rw [pow_succ]; omega
  · intro k hk
    apply Nat.pow_le_pow_right (by decide)
    by_contra hlt
    have hk' : k ≤ closest_log2 n := by omega
    rcases Nat.eq_zero_or_pos k with rfl | hkpos
    · simp at hk; omega
    · have := h2 (k - 1) (by omega)
      have e : 2 ^ k = 2 ^ (k - 1) * 2 := by
        rw [← pow_succ]; congr 1; omega
      omega
  · intro hle
    apply Nat.pow_le_pow_right (by decide)
    by_contra hlt
    have := h2 29 (by omega)
    omega

/-- Witness for the amended C15: three photons on a line. -/
theorem table_size_smallest_power_witness :
    1 ≤ 3 ∧
    ((∃ g, HashGrid.build line_points 3 1 = .ok g ∧
      g.cell_counts.length = 1 <<< (closest_log2 3 + 1)) ∧
    1 <<< (closest_log2 3 + 1) = 2 ^ (closest_log2 3 + 1) ∧
    2 * 3 ≤ 2 ^ (closest_log2 3 + 1) ∧
    (∀ k, 2 * 3 ≤ 2 ^ k → 2 ^ (closest_log2 3 + 1) ≤ 2 ^ k) ∧
    (3 ≤ 2 ^ closest_log2 3 ∧ ∀ j, j < closest_log2 3 → 2 ^ j < 3) ∧
    (3 ≤ 2 ^ 29 → 2 ^ (closest_log2 3 + 1) ≤ 2 ^ 30)) :=
  ⟨by decide, table_size_smallest_power line_points 3 1 (by decide)⟩

/-! ## Claims about the integrator -/

/-- What `make_sample` returns, for both variants: the given sample when `pdf > 0` and
the side test passes, the sample with colour `0` and pdf `1` otherwise; the pdf of the
result is positive in every case.  The side test of the normal variant is
`dot(dir, face_normal) > 0`, the side test of the inverted variant is
`dot(dir, face_normal) ≤ 0`, which a direction parallel to the surface passes. -/
theorem make_sample_spec (inverted : Bool) (dir : float3) (pdf : ℚ) (color : rgb)
    (surf : SurfaceParams) :
    0 < (Bsdf.make_sample inverted dir pdf color surf).pdf ∧
    (Bsdf.make_sample inverted dir pdf color surf =
      if 0 < pdf ∧ (if inverted = true then float3.dot dir surf.face_normal ≤ 0
          else 0 < float3.dot dir surf.face_normal)
      then ⟨dir, pdf, color⟩ else ⟨dir, 1, rgb.splat 0⟩) := by
  unfold Bsdf.make_sample
  cases inverted <;> by_cases h1 : 0 < pdf <;>
    by_cases h2 : 0 < float3.dot dir surf.face_normal <;>
    simp [h1, h2, not_le.mpr, le_of_not_lt]

/-- C16. The inverted variant of `make_sample` returns a direction that is parallel
to the surface unchanged: for `dir = (1, 0, 0)` on a surface with normal `(0, 0, 1)`
(`dot(dir, face_normal) = 0`), pdf `1/2` and colour `(1, 1, 1)` the result is the
given sample, not the sample with colour `0` and pdf `1` that the normal variant
returns for the same input. -/
theorem make_sample_inverted_keeps_parallel_direction :
    float3.dot ⟨1, 0, 0⟩ flat_surface.face_normal = 0 ∧
    Bsdf.make_sample true ⟨1, 0, 0⟩ (1 / 2) ⟨1, 1, 1⟩ flat_surface =
      ⟨⟨1, 0, 0⟩, 1 / 2, ⟨1, 1, 1⟩⟩ ∧
    Bsdf.make_sample false ⟨1, 0, 0⟩ (1 / 2) ⟨1, 1, 1⟩ flat_surface =
      ⟨⟨1, 0, 0⟩, 1, rgb.splat 0⟩ := by
  decide!

theorem russian_roulette_le (luminance c : rgb) (max : ℚ) :
    russian_roulette luminance c max ≤ max :=
  min_le_left _ _

theorem roulette_eq (luminance : rgb) (sample : BsdfSample) (energy : rgb) (u : ℚ) :
    roulette luminance sample energy u =
      if u < 1 - russian_roulette luminance (rgb.div sample.color sample.pdf) (3 / 4)
      then none
      else some (rgb.scale energy
        (1 / (1 - (1 - russian_roulette luminance (rgb.div sample.color sample.pdf) (3 / 4))))) :=
  rfl

/-- C17. In `trace_photons` the survival probability
`p = min(0.75, 2 * luminance(sample.color / sample.pdf))` is at most `0.75 < 1`; for
every contribution and every draw `u < 1` (in particular `u` in `[0, 1)`) a path with
`p ≤ 0` is ended, and when the path goes on then `p > 0`, the divisor `1 - q` of the
compensation is `p`, and the energy is multiplied by `1 / p`. -/
theorem roulette_divisor_positive (luminance : rgb) (sample : BsdfSample) (energy : rgb)
    (u : ℚ) (hu : u < 1) :
    russian_roulette luminance (rgb.div sample.color sample.pdf) (3 / 4) ≤ 3 / 4 ∧
    russian_roulette luminance (rgb.div sample.color sample.pdf) (3 / 4) < 1 ∧
    (russian_roulette luminance (rgb.div sample.color sample.pdf) (3 / 4) ≤ 0 →
      roulette luminance sample energy u = none) ∧
    (∀ e, roulette luminance sample energy u = some e →
      0 < russian_roulette luminance (rgb.div sample.color sample.pdf) (3 / 4) ∧
      1 - (1 - russian_roulette luminance (rgb.div sample.color sample.pdf) (3 / 4)) =
        russian_roulette luminance (rgb.div sample.color sample.pdf) (3 / 4) ∧
      e = rgb.scale energy
        (1 / russian_roulette luminance (rgb.div sample.color sample.pdf) (3 / 4))) := by
  have hp := russian_roulette_le luminance (rgb.div sample.color sample.pdf) (3 / 4)
  rw [roulette_eq]
  generalize russian_roulette luminance (rgb.div sample.color sample.pdf) (3 / 4) = p at hp ⊢
  refine ⟨hp, by linarith, ?_, ?_⟩
  · intro h0
    rw [if_pos (by linarith)]
  · intro e he
    split at he
    · cases he
    · rename_i hq
      cases he
      refine ⟨by linarith, by ring, ?_⟩
      rw [show 1 - (1 - p) = p by ring]

/-- Witness for C17: a white sample with pdf `1`, luminance weights `(1/4, 1/2, 1/4)` and
the draw `1/2`. -/
theorem roulette_divisor_positive_witness :
    (1 / 2 : ℚ) < 1 ∧
    russian_roulette ⟨1 / 4, 1 / 2, 1 / 4⟩ (rgb.div (rgb.splat 1) 1) (3 / 4) ≤ 3 / 4 ∧
    russian_roulette ⟨1 / 4, 1 / 2, 1 / 4⟩ (rgb.div (rgb.splat 1) 1) (3 / 4) < 1 ∧
    (russian_roulette ⟨1 / 4, 1 / 2, 1 / 4⟩ (rgb.div (rgb.splat 1) 1) (3 / 4) ≤ 0 →
      roulette ⟨1 / 4, 1 / 2, 1 / 4⟩ ⟨⟨0, 0, 1⟩, 1, rgb.splat 1⟩ (rgb.splat 1) (1 / 2) = none) ∧
    (∀ e, roulette ⟨1 / 4, 1 / 2, 1 / 4⟩ ⟨⟨0, 0, 1⟩, 1, rgb.splat 1⟩ (rgb.splat 1) (1 / 2) =
        some e →
      0 < russian_roulette ⟨1 / 4, 1 / 2, 1 / 4⟩ (rgb.div (rgb.splat 1) 1) (3 / 4) ∧
      1 - (1 - russian_roulette ⟨1 / 4, 1 / 2, 1 / 4⟩ (rgb.div (rgb.splat 1) 1) (3 / 4)) =
        russian_roulette ⟨1 / 4, 1 / 2, 1 / 4⟩ (rgb.div (rgb.splat 1) 1) (3 / 4) ∧
      e = rgb.scale (rgb.splat 1)
        (1 / russian_roulette ⟨1 / 4, 1 / 2, 1 / 4⟩ (rgb.div (rgb.splat 1) 1) (3 / 4))) :=
  ⟨by decide!,
    roulette_divisor_positive ⟨1 / 4, 1 / 2, 1 / 4⟩ ⟨⟨0, 0, 1⟩, 1, rgb.splat 1⟩ (rgb.splat 1)
      (1 / 2) (by decide!)⟩

/-- C18. For `n ≥ 1` lights the draw `u` selects the light `k` exactly when
`k / (n - 0.01) ≤ u < (k + 1) / (n - 0.01)`; for `u` in `[0, 1)` the index lies in
`0..n-1`.  The set of draws that select a light `k < n - 1` is therefore an interval of
length `1 / (n - 0.01)`, which is more than the value `pLight = 1 / n` used as the
selection probability. -/
theorem light_index_interval (n : Nat) (u : ℚ) (k : Int) (hn : 1 ≤ n) :
    (light_index n u = k ↔
      (k : ℚ) / ((n : ℚ) - 1 / 100) ≤ u ∧ u < ((k : ℚ) + 1) / ((n : ℚ) - 1 / 100)) ∧
    (0 ≤ u → u < 1 → 0 ≤ light_index n u ∧ light_index n u < n) ∧
    light_pdf n < 1 / ((n : ℚ) - 1 / 100) := by
  have hn' : (1 : ℚ) ≤ (n : ℚ) := by exact_mod_cast hn
  have hpos : (0 : ℚ) < (n : ℚ) - 1 / 100 := by linarith
  refine ⟨?_, ?_, ?_⟩
  · unfold light_index
    rw [Int.floor_eq_iff, div_le_iff₀ hpos, lt_div_iff₀ hpos]
  · intro h0 h1
    unfold light_index
    constructor
    · exact Int.floor_nonneg.mpr (mul_nonneg h0 hpos.le)
    · rw [Int.floor_lt]
      push_cast
      nlinarith
  · unfold light_pdf
    apply one_div_lt_one_div_of_lt hpos
    linarith

/-- Witness for C18: with two lights the draw `u = 1/2` still selects light `0`, as
does every draw below `100/199`. -/
theorem light_index_interval_witness :
    1 ≤ 2 ∧
    ((light_index 2 (1 / 2) = 0 ↔
      ((0 : Int) : ℚ) / (((2 : Nat) : ℚ) - 1 / 100) ≤ 1 / 2 ∧
        (1 / 2 : ℚ) < (((0 : Int) : ℚ) + 1) / (((2 : Nat) : ℚ) - 1 / 100)) ∧
    ((0 : ℚ) ≤ 1 / 2 → (1 / 2 : ℚ) < 1 →
      0 ≤ light_index 2 (1 / 2) ∧ light_index 2 (1 / 2) < (2 : Nat)) ∧
    light_pdf 2 < 1 / (((2 : Nat) : ℚ) - 1 / 100)) :=
  ⟨by decide, light_index_interval 2 (1 / 2) 0 (by decide)⟩

/-- With two lights: the draws `1/2` and `201/400` select light `0` and the first draw
that selects light `1` is `100/199`, whereas `pLight = 1/2`. -/
theorem light_index_two_lights :
    light_index 2 (1 / 2) = 0 ∧ light_index 2 (201 / 400) = 0 ∧
    light_index 2 (100 / 199) = 1 ∧ light_pdf 2 = 1 / 2 := by
  decide!

/-- C19 (counterexample). A primary ray that hits an emitter from its back side
(`surf.entering` is false): the previous bounce is not glossy (`lastMat` still has its
initial value `Specular`), the throughput is `(1, 1, 1)` and the emitted intensity is
`(1, 1, 1)`, yet `eye_trace` ends the path with the colour `(0, 0, 0)`: nothing was
added. -/
theorem eye_trace_back_side_hit_adds_nothing :
    Scene.intersect emitter_scene.bvh
      ⟨ray_from_below.org, 1 / 10000, ray_from_below.dir, ray_from_below.tmax⟩ =
      .ok ⟨0, 1, 13 / 50, 13 / 50⟩ ∧
    (emitter_scene.material ⟨0, 1, 13 / 50, 13 / 50⟩).map (fun m => m.emitter.isSome) =
      .ok true ∧
    (emitter_scene.surface_params unit_normalize
      ⟨ray_from_below.org, 1 / 10000, ray_from_below.dir, ray_from_below.tmax⟩
      ⟨0, 1, 13 / 50, 13 / 50⟩).map (fun s => s.entering) = .ok false ∧
    rgb.mul (rgb.splat 1) (glow_light.emission (float3.scale ray_from_below.dir (-1)) 0 0).intensity =
      rgb.splat 1 ∧
    eye_trace taxicab_length unit_normalize 3 ray_from_below emitter_scene empty_photon_map
      zero_sampler = .ok (rgb.splat 0) := by
  decide!

/-- C19 (amended). In `eye_trace`, whenever the path hits a surface with an emitter, the
path terminates there, and it adds `throughput * emitted intensity` to the pixel colour
if and only if the surface is hit from its front side (`surf.entering`) and the previous
bounce was not through a Glossy BSDF; otherwise the colour is returned as it is. -/
theorem eye_trace_emitter_hit (length : float3 → ℚ) (normalize : float3 → float3)
    (scene : Scene) (photon_map : PhotonMap) (fuel : Nat) (s : EyeState) (hit : Hit)
    (surf : SurfaceParams) (mat : Material) (light : Light)
    (h1 : Scene.intersect scene.bvh s.ray = .ok hit) (h2 : 0 ≤ hit.tri)
    (h3 : scene.surface_params normalize s.ray hit = .ok surf)
    (h4 : scene.material hit = .ok mat) (h5 : mat.emitter = some light) :
    eye_trace_loop length normalize scene photon_map (fuel + 1) s =
      .ok (if surf.entering = true ∧ s.lastMat ≠ BsdfType.Glossy then
        rgb.add s.color (rgb.mul s.throughput
          (light.emission (float3.scale s.ray.dir (-1)) surf.uv.x surf.uv.y).intensity)
        else s.color) := by
  rw [eye_trace_loop]
  simp only [h1, ok_bind, if_neg (not_lt.mpr h2), h3, h4, h5]
  by_cases he : surf.entering = true <;> by_cases hg : s.lastMat = BsdfType.Glossy <;>
    simp [he, hg]

/-- Witness for the amended C19: a primary ray that hits the emitter from the front. -/
theorem eye_trace_emitter_hit_witness :
    Scene.intersect emitter_scene.bvh
      ⟨ray_from_above.org, 1 / 10000, ray_from_above.dir, ray_from_above.tmax⟩ =
      .ok ⟨0, 1, 13 / 50, 13 / 50⟩ ∧
    (0 : Int) ≤ 0 ∧
    emitter_scene.surface_params unit_normalize
      ⟨ray_from_above.org, 1 / 10000, ray_from_above.dir, ray_from_above.tmax⟩
      ⟨0, 1, 13 / 50, 13 / 50⟩ =
      .ok ⟨true, ⟨13 / 50, 13 / 50, 0⟩, ⟨0, 0⟩, ⟨0, 0, 1⟩, ⟨⟨0, 0, 1⟩, ⟨1, 0, 0⟩, ⟨0, 1, 0⟩⟩⟩ ∧
    eye_trace_loop taxicab_length unit_normalize emitter_scene empty_photon_map (2 + 1)
      ⟨rgb.splat 0, rgb.splat 1, 1,
        ⟨ray_from_above.org, 1 / 10000, ray_from_above.dir, ray_from_above.tmax⟩,
        BsdfType.Specular, zero_sampler⟩ =
      .ok (if true = true ∧ BsdfType.Specular ≠ BsdfType.Glossy then
        rgb.add (rgb.splat 0) (rgb.mul (rgb.splat 1)
          (glow_light.emission (float3.scale ray_from_above.dir (-1)) 0 0).intensity)
        else rgb.splat 0) :=
  ⟨by decide!, by decide, by decide!,
    eye_trace_emitter_hit taxicab_length unit_normalize emitter_scene empty_photon_map 2
      ⟨rgb.splat 0, rgb.splat 1, 1,
        ⟨ray_from_above.org, 1 / 10000, ray_from_above.dir, ray_from_above.tmax⟩,
        BsdfType.Specular, zero_sampler⟩ ⟨0, 1, 13 / 50, 13 / 50⟩
      ⟨true, ⟨13 / 50, 13 / 50, 0⟩, ⟨0, 0⟩, ⟨0, 0, 1⟩, ⟨⟨0, 0, 1⟩, ⟨1, 0, 0⟩, ⟨0, 1, 0⟩⟩⟩
      ⟨none, some glow_light⟩ glow_light (by decide!) (by decide) (by decide!) rfl rfl⟩

/-- `BvhBuilder::build` stays inside its arrays: when the resources are there and the
fuel is at least the number of primitives of the node, a run returns or stops at the
assertion of the source. -/
theorem build_safe {bboxes : List BBox} :
    ∀ (fuel : Nat) (tmp : List Nat) (st : BuildState) (id b e : Nat),
      BuildPre bboxes st id b e → BuildRes st tmp b e → e - b ≤ fuel →
      Safe (BvhBuilder.build bboxes fuel tmp st id) := by
  intro fuel
  induction fuel with
  | zero =>
    intro tmp st id b e pre _ hle
    have := pre.lt
    omega
  | succ fuel ih =>
    intro tmp st id b e pre res hle
    rcases build_step rfl pre with h1 | ⟨f, h1, _, hf⟩ |
      ⟨s, st1, tmpX, tmpY, X, Y, stage, hXY, h1⟩
    · rw [h1]; exact Safe.of_ok _
    · rw [h1]
      intro g hg
      cases hg
      exact hf res
    · rw [h1]
      have hb := stage.hb
      have hs := stage.hs
      have hc1 := stage.count
      have hid := pre.id_lt
      have hslots := res.slots
      have hnl := stage.nodes_len
      have hflags1 : ∀ a p, p ∈ st1.prims a → p < st1.tmp_flags.length := by
        intro a p hp
        rw [stage.flags_len]
        exact res.flags a p ((stage.perm a).mem_iff.mp hp)
      have after : ∀ {stA : BuildState} {X bX eX : Nat}, BuildPost bboxes st1 stA X bX eX →
          (∀ a p, p ∈ stA.prims a → p < stA.tmp_flags.length) ∧
          stA.nodes.length = st.nodes.length ∧
          stA.node_count + 2 ≤ st1.node_count + 2 * (eX - bX) := by
        intro stA X bX eX postA
        refine ⟨?_, by rw [postA.nodes_len, hnl], postA.tree.slot_count_le⟩
        intro a p hp
        rw [postA.flags_len]
        exact hflags1 a p ((postA.perm a).mem_iff.mp hp)
      rcases hXY with ⟨rfl, rfl, ht⟩ | ⟨rfl, rfl, ht⟩
      · obtain ⟨ht1, ht2⟩ := ht res.tmp
        refine Safe.and_then (ih _ _ _ _ _ stage.left ⟨hflags1, ht1, by omega⟩ (by omega))
          fun stA hA => ?_
        have postA := build_post _ _ _ _ _ _ _ hA stage.left
        obtain ⟨a1, a2, a3⟩ := after postA
        exact ih _ _ _ _ _
          (BuildPre.after postA stage.right (by omega) (Or.inr (Nat.le_refl _)))
          ⟨a1, ht2, by omega⟩ (by omega)
      · obtain ⟨ht1, ht2⟩ := ht res.tmp
        refine Safe.and_then (ih _ _ _ _ _ stage.right ⟨hflags1, ht1, by omega⟩ (by omega))
          fun stA hA => ?_
        have postA := build_post _ _ _ _ _ _ _ hA stage.right
        obtain ⟨a1, a2, a3⟩ := after postA
        exact ih _ _ _ _ _
          (BuildPre.after postA stage.left (by omega) (Or.inl (Nat.le_refl _)))
          ⟨a1, ht2, by omega⟩ (by omega)

theorem global_bbox_loop_safe {bboxes : List BBox} :
    ∀ (n i : Nat) (loc : BBox), i + n ≤ bboxes.length →
      Safe (global_bbox_loop bboxes n i loc) := by
  intro n
  induction n with
  | zero => intro i loc _; exact Safe.of_ok _
  | succ n ih =>
    intro i loc hl
    rw [global_bbox_loop]
    have hi : i < bboxes.length := by omega
    exact Safe.and_then (rd_safe (List.getElem?_eq_getElem hi)) fun _ _ => ih _ _ (by omega)

/-- The overload of `Bvh::build` on boxes stays inside its arrays when there is a box
for every triangle and the node array has `2 * n + 1` slots. -/
theorem build_boxes_safe {nodes : List Node} {bboxes : List BBox} (centers : List float3)
    {n : Nat} (hbb : bboxes.length = n) (hnodes : nodes.length = 2 * n + 1) :
    Safe (Bvh.build_boxes nodes bboxes centers n) := by
  unfold Bvh.build_boxes
  refine Safe.and_then (global_bbox_loop_safe _ _ _ (by omega)) fun loc hloc => ?_
  refine Safe.and_then (wr_safe _ (by omega)) fun nodes1 hw => ?_
  obtain ⟨hlt, rfl⟩ := wr_ok hw
  refine Safe.and_then ?_ fun _ _ => Safe.of_ok _
  rcases Nat.eq_zero_or_pos n with rfl | hn
  · rw [BvhBuilder.build]
    refine Safe.and_then (rd_safe (List.getElem?_set_self hlt)) fun node hnode => ?_
    have hnode' := rd_ok hnode
    rw [List.getElem?_set_self hlt] at hnode'
    cases hnode'
    simp only [Nat.cast_zero, add_zero, sub_self, zero_le_one, if_true]
    exact Safe.of_ok _
  · have hperm : ∀ a : Fin 3, ((fun a : Fin 3 =>
        match a with
        | 0 => sort_prims centers float3.x n
        | 1 => sort_prims centers float3.y n
        | 2 => sort_prims centers float3.z n) a).Perm (List.range n) := by
      intro a
      match a with
      | 0 => exact sort_prims_perm _ _ _
      | 1 => exact sort_prims_perm _ _ _
      | 2 => exact sort_prims_perm _ _ _
    apply build_safe _ _ _ 0 0 n (root_pre _ hloc hlt hn hperm) _ (by omega)
    refine ⟨?_, by simp, ?_⟩
    · intro a p hp
      have := (hperm a).mem_iff.mp hp
      rw [List.mem_range] at this
      simpa using this
    · show 1 + 2 * (n - 0) ≤ (nodes.set 0 _).length + 2
      rw [List.length_set]
      omega

theorem tri_verts_ok_of_safe {verts : List float3} {indices : List Nat} {i : Nat}
    (h : ∃ t, tri_verts verts indices i = .ok t) : Safe (tri_verts verts indices i) := by
  obtain ⟨t, ht⟩ := h
  rw [ht]
  exact Safe.of_ok _

theorem centers_boxes_loop_safe {verts : List float3} {indices : List Nat} {m : Nat}
    (hv : ∀ i, i < m → ∃ t, tri_verts verts indices i = .ok t) :
    ∀ (n i : Nat) (centers : List float3) (bboxes : List BBox), i + n ≤ m →
      Safe (centers_boxes_loop verts indices n i centers bboxes) := by
  intro n
  induction n with
  | zero => intro i centers bboxes _; exact Safe.of_ok _
  | succ n ih =>
    intro i centers bboxes hl
    rw [centers_boxes_loop]
    refine Safe.and_then (tri_verts_ok_of_safe (hv i (by omega))) fun r _ => ?_
    obtain ⟨v0, v1, v2⟩ := r
    exact ih _ _ _ (by omega)

theorem tris_loop_safe {verts : List float3} {indices prim_ids : List Nat} {m : Nat}
    (hv : ∀ i, i < m → ∃ t, tri_verts verts indices i = .ok t)
    (hp : ∀ k, k < m → ∃ id, prim_ids[k]? = some id ∧ id < m) :
    ∀ (n i : Nat) (tris : List PrecomputedTri), i + n ≤ m →
      Safe (tris_loop verts indices prim_ids n i tris) := by
  intro n
  induction n with
  | zero => intro i tris _; exact Safe.of_ok _
  | succ n ih =>
    intro i tris hl
    rw [tris_loop]
    obtain ⟨id, hid, hlt⟩ := hp i (by omega)
    refine Safe.and_then (rd_safe hid) fun id' hid' => ?_
    have e := rd_ok hid'
    rw [hid] at e
    cases e
    refine Safe.and_then (tri_verts_ok_of_safe (hv id hlt)) fun r _ => ?_
    obtain ⟨v0, v1, v2⟩ := r
    exact ih _ _ (by omega)

/-- `Bvh::build` stays inside its arrays: when the index buffer describes `n` triangles
with vertices in the vertex buffer, a run returns or stops at the assertion of the
source. -/
theorem bvh_build_safe {verts : List float3} {indices : List Nat} {n : Nat}
    (hv : ∀ i, i < n → ∃ t, tri_verts verts indices i = .ok t) :
    Safe (Bvh.build verts indices n) := by
  unfold Bvh.build
  refine Safe.and_then (centers_boxes_loop_safe hv _ _ _ _ (by omega)) fun r hcb => ?_
  obtain ⟨centers, bboxes⟩ := r
  obtain ⟨c1, _, _⟩ := centers_boxes_loop_spec _ _ _ _ _ _ hcb rfl
  refine Safe.and_then (build_boxes_safe _ (by omega) (by rw [List.length_replicate]; omega))
    fun r hbb => ?_
  obtain ⟨nodes, prim_ids, num_nodes⟩ := r
  rcases Nat.eq_zero_or_pos n with rfl | hn
  · exact Safe.and_then (Safe.of_ok _) fun _ _ => Safe.of_ok _
  · obtain ⟨b1, _⟩ := build_boxes_spec hbb hn
    refine Safe.and_then (tris_loop_safe hv ?_ _ _ _ (by omega)) fun _ _ => Safe.of_ok _
    intro k hk
    have hlen : prim_ids.length = n := by rw [b1.length_eq, List.length_range]
    have hk' : k < prim_ids.length := by omega
    refine ⟨prim_ids[k], List.getElem?_eq_getElem hk', ?_⟩
    have := b1.mem_iff.mp (List.getElem_mem hk')
    rwa [List.mem_range] at this

/-- C12. For every input of `N ≥ 1` triangles whose indices lie in the vertex buffer,
`Bvh::build` makes no access outside an array, in particular no write to a node slot
at or beyond the `2N + 1` slots allocated: a run returns or stops at the assertion of
the source.  When it returns, `node_count()` is at most `2N - 1 ≤ 2N + 1` and the node
array is trimmed to exactly `node_count()` entries. -/
theorem build_node_slots_in_range (verts : List float3) (indices : List Nat) (n : Nat)
    (hn : 0 < n) (hv : ∀ i, i < n → ∃ t, tri_verts verts indices i = .ok t) :
    (∀ f, Bvh.build verts indices n = .error f → f = .assertion) ∧
    (∀ bvh, Bvh.build verts indices n = .ok bvh →
      bvh.num_nodes ≤ 2 * n + 1 ∧ bvh.num_nodes + 2 ≤ 2 * n + 1 ∧
      bvh.nodes.length = bvh.num_nodes) := by
  refine ⟨bvh_build_safe hv, fun bvh h => ?_⟩
  obtain ⟨bboxes, _, _, hlen, _, _, htree, _⟩ := bvh_build_spec h hn
  have := htree.slot_count_le
  exact ⟨by omega, by omega, hlen⟩

/-- Witness for C12 on the two-triangle scene. -/
theorem build_node_slots_in_range_witness :
    0 < 2 ∧ (∀ i, i < 2 → ∃ t, tri_verts two_tri_verts two_tri_indices i = .ok t) ∧
    ((∀ f, Bvh.build two_tri_verts two_tri_indices 2 = .error f → f = .assertion) ∧
    (∀ bvh, Bvh.build two_tri_verts two_tri_indices 2 = .ok bvh →
      bvh.num_nodes ≤ 2 * 2 + 1 ∧ bvh.num_nodes + 2 ≤ 2 * 2 + 1 ∧
      bvh.nodes.length = bvh.num_nodes)) :=
  have hv : ∀ i, i < 2 → ∃ t, tri_verts two_tri_verts two_tri_indices i = .ok t := by
    intro i hi
    match i, hi with
    | 0, _ => exact ⟨_, rfl⟩
    | 1, _ => exact ⟨_, rfl⟩
  ⟨by decide, hv, build_node_slots_in_range two_tri_verts two_tri_indices 2 (by decide) hv⟩

/-- C26. For a ray parallel to the plane of the triangle (`dot(n, ray.dir) = 0`, which
includes a degenerate triangle with zero normal) `intersect_ray_tri` returns `false`
and leaves `t`, `u`, `v` as they were: the result is `none`, so the branch that holds
the division `1 / abs_det` is not entered. -/
theorem intersect_ray_tri_parallel (ray : Ray) (tri : PrecomputedTri) (t : ℚ)
    (h : float3.dot ⟨tri.nx, tri.ny, tri.nz⟩ ray.dir = 0) :
    intersect_ray_tri ray tri t = none := by
  unfold intersect_ray_tri
  simp only [h, abs_zero, zero_mul]
  split
  · rw [if_neg]
    intro hc
    exact absurd hc.1 (not_le.mpr hc.2)
  · rfl

/-- Witness for C26: a ray inside the plane of the unit triangle. -/
theorem intersect_ray_tri_parallel_witness :
    float3.dot ⟨(PrecomputedTri.mk3 ⟨0, 0, 0⟩ ⟨1, 0, 0⟩ ⟨0, 1, 0⟩).nx,
        (PrecomputedTri.mk3 ⟨0, 0, 0⟩ ⟨1, 0, 0⟩ ⟨0, 1, 0⟩).ny,
        (PrecomputedTri.mk3 ⟨0, 0, 0⟩ ⟨1, 0, 0⟩ ⟨0, 1, 0⟩).nz⟩
      (⟨⟨-1, 1 / 4, 0⟩, 0, ⟨1, 0, 0⟩, 10⟩ : Ray).dir = 0 ∧
    intersect_ray_tri ⟨⟨-1, 1 / 4, 0⟩, 0, ⟨1, 0, 0⟩, 10⟩
      (PrecomputedTri.mk3 ⟨0, 0, 0⟩ ⟨1, 0, 0⟩ ⟨0, 1, 0⟩) 10 = none :=
  ⟨by decide!, intersect_ray_tri_parallel _ _ _ (by decide!)⟩

theorem prodsign_mul_abs (x y : ℚ) : prodsign x y * |y| = x * y ∨ (y = 0) := by
  unfold prodsign
  split
  · rename_i h
    left
    rw [abs_of_neg h]; ring
  · rename_i h
    rcases eq_or_lt_of_le (not_lt.mp h) with h0 | h0
    · right; exact h0.symm
    · left; rw [abs_of_pos h0]

/-- The vector identity behind the Moeller-Trumbore test: with `n = p × q` and
`r = d × c`, `(n · d) c + (r · p) q = (n · c) d + (r · q) p`, component by component. -/
theorem moeller_trumbore (c d p q : float3) :
    (c.x * float3.dot ⟨(float3.cross p q).x, (float3.cross p q).y, (float3.cross p q).z⟩ d +
        q.x * float3.dot (float3.cross d c) p =
      d.x * float3.dot ⟨(float3.cross p q).x, (float3.cross p q).y, (float3.cross p q).z⟩ c +
        p.x * float3.dot (float3.cross d c) q) ∧
    (c.y * float3.dot ⟨(float3.cross p q).x, (float3.cross p q).y, (float3.cross p q).z⟩ d +
        q.y * float3.dot (float3.cross d c) p =
      d.y * float3.dot ⟨(float3.cross p q).x, (float3.cross p q).y, (float3.cross p q).z⟩ c +
        p.y * float3.dot (float3.cross d c) q) ∧
    (c.z * float3.dot ⟨(float3.cross p q).x, (float3.cross p q).y, (float3.cross p q).z⟩ d +
        q.z * float3.dot (float3.cross d c) p =
      d.z * float3.dot ⟨(float3.cross p q).x, (float3.cross p q).y, (float3.cross p q).z⟩ c +
        p.z * float3.dot (float3.cross d c) q) := by
  obtain ⟨c1, c2, c3⟩ := c
  obtain ⟨d1, d2, d3⟩ := d
  obtain ⟨p1, p2, p3⟩ := p
  obtain ⟨q1, q2, q3⟩ := q
  simp only [float3.dot, float3.cross]
  refine ⟨?_, ?_, ?_⟩ <;> ring

/-- In exact arithmetic, when `intersect_ray_tri` returns `true` for the precomputed form
of the triangle `v0, v1, v2`, the new `t` lies in `[ray.tmin, t)` for the value `t` on entry,
and the point `org + t * dir` is `(1 - u - v) * v0 + u * v1 + v * v2`: `u` and `v` are
the barycentric weights of `v1` and `v2`, in the order in which `lerp` uses them. -/
theorem intersect_ray_tri_barycentric (ray : Ray) (v0 v1 v2 : float3) (t t' u v : ℚ)
    (h : intersect_ray_tri ray (PrecomputedTri.mk3 v0 v1 v2) t = some (t', u, v)) :
    ray.tmin ≤ t' ∧ t' < t ∧
    float3.add ray.org (float3.scale ray.dir t') =
      float3.add (float3.add (float3.scale v0 (1 - u - v)) (float3.scale v1 u))
        (float3.scale v2 v) := by
  unfold intersect_ray_tri at h
  simp only [PrecomputedTri.mk3] at h
  split at h
  swap
  · cases h
  split at h
  swap
  · cases h
  rename_i hin ht
  clear hin
  obtain ⟨m1, m2, m3⟩ := moeller_trumbore (float3.sub v0 ray.org) ray.dir (float3.sub v0 v1)
    (float3.sub v2 v0)
  generalize float3.dot ⟨(float3.cross (float3.sub v0 v1) (float3.sub v2 v0)).x,
    (float3.cross (float3.sub v0 v1) (float3.sub v2 v0)).y,
    (float3.cross (float3.sub v0 v1) (float3.sub v2 v0)).z⟩ ray.dir = det at h ht m1 m2 m3
  generalize float3.dot ⟨(float3.cross (float3.sub v0 v1) (float3.sub v2 v0)).x,
    (float3.cross (float3.sub v0 v1) (float3.sub v2 v0)).y,
    (float3.cross (float3.sub v0 v1) (float3.sub v2 v0)).z⟩ (float3.sub v0 ray.org) = T
    at h ht m1 m2 m3
  generalize float3.dot (float3.cross ray.dir (float3.sub v0 ray.org)) (float3.sub v2 v0) = U
    at h m1 m2 m3
  generalize float3.dot (float3.cross ray.dir (float3.sub v0 ray.org)) (float3.sub v0 v1) = V
    at h m1 m2 m3
  have hpos : 0 < |det| := by
    rcases (abs_nonneg det).lt_or_eq with h0 | h0
    · exact h0
    · rw [← h0] at ht
      simp only [zero_mul] at ht
      exact absurd ht.1 (not_le.mpr ht.2)
  have hdne : det ≠ 0 := abs_pos.mp hpos
  simp only [Option.some.injEq, Prod.mk.injEq] at h
  obtain ⟨h1, h2, h3⟩ := h
  refine ⟨?_, ?_, ?_⟩
  · rw [← h1, mul_one_div, le_div_iff₀ hpos]
    linarith [ht.1]
  · rw [← h1, mul_one_div, div_lt_iff₀ hpos]
    linarith [ht.2]
  · have hsq : |det| * |det| = det * det := abs_mul_abs_self det
    have scale : ∀ X r : ℚ, prodsign X det * (1 / |det|) = r → r * det = X := by
      intro X r hr
      have e := (prodsign_mul_abs X det).resolve_right hdne
      have e2 : r * (det * det) = X * det := by
        rw [← hr, ← e, ← hsq, mul_assoc, ← mul_assoc (1 / |det|),
          one_div_mul_cancel (ne_of_gt hpos), one_mul]
      exact mul_right_cancel₀ hdne (by rw [mul_assoc]; exact e2)
    have hT := scale _ _ h1
    have hU := scale _ _ h2
    have hV := scale _ _ h3
    have key : ∀ a b : ℚ, a * det = b * det → a = b := fun a b hab =>
      mul_right_cancel₀ hdne hab
    simp only [float3.sub] at m1 m2 m3
    simp only [float3.add, float3.scale, float3.mk.injEq]
    refine ⟨key _ _ ?_, key _ _ ?_, key _ _ ?_⟩
    · linear_combination ray.dir.x * hT - (v1.x - v0.x) * hU - (v2.x - v0.x) * hV - m1
    · linear_combination ray.dir.y * hT - (v1.y - v0.y) * hU - (v2.y - v0.y) * hV - m2
    · linear_combination ray.dir.z * hT - (v1.z - v0.z) * hU - (v2.z - v0.z) * hV - m3

/-- The barycentric identity in exact arithmetic, for the ray from above that hits the
unit triangle at `t = 1`. -/
theorem intersect_ray_tri_barycentric_witness :
    intersect_ray_tri ray_from_above (PrecomputedTri.mk3 ⟨0, 0, 0⟩ ⟨1, 0, 0⟩ ⟨0, 1, 0⟩) 10 =
      some (1, 13 / 50, 13 / 50) ∧
    ray_from_above.tmin ≤ 1 ∧ (1 : ℚ) < 10 ∧
    float3.add ray_from_above.org (float3.scale ray_from_above.dir 1) =
      float3.add (float3.add (float3.scale ⟨0, 0, 0⟩ (1 - 13 / 50 - 13 / 50))
        (float3.scale ⟨1, 0, 0⟩ (13 / 50))) (float3.scale ⟨0, 1, 0⟩ (13 / 50)) :=
  ⟨by decide!, intersect_ray_tri_barycentric ray_from_above ⟨0, 0, 0⟩ ⟨1, 0, 0⟩ ⟨0, 1, 0⟩ 10 1
    (13 / 50) (13 / 50) (by decide!)⟩

/-- C25 (failing input). In the stacked scene the any-hit traversal first tests the
left leaf, whose triangle (cache slot 0) the ray hits at `t = 2`; it does not stop
there: it goes on to test the right leaf and returns the triangle of that leaf, hit at
`t = 1`.  So the hit returned with `any = true` is not the first intersecting triangle
encountered, and a triangle is tested after the first successful test. -/
theorem traverse_any_continues_after_first_hit :
    Bvh.build stacked_tri_verts two_tri_indices 2 = .ok stacked_tri_bvh ∧
    stacked_tri_bvh.nodes[1]? = some ⟨⟨0, 0, 0⟩, 0, ⟨1, 1, 0⟩, 1⟩ ∧
    (stacked_tri_bvh.tris[0]?.bind fun tri =>
      intersect_ray_tri ray_through_both tri ray_through_both.tmax) =
        some (2, 31 / 50, 11 / 50) ∧
    stacked_tri_bvh.traverse 3 ray_through_both true = .ok ⟨1, 1, 11 / 100, 21 / 100⟩ := by
  refine ⟨by decide!, by decide!, by decide!, by decide!⟩

/-- C28 (failing input). Three photons on a line, radius `1`: the query at the position
of photon `1` calls the callback four times with the id `1`, because four of the eight
candidate cells hash to the bucket of that photon. -/
theorem query_reports_point_repeatedly :
    HashGrid.build line_points 3 1 = .ok line_grid ∧
    line_grid.query (line_points 1) line_points =
      .ok [(1, 0), (1, 0), (1, 0), (1, 0)] := by
  refine ⟨by decide!, by decide!⟩

/-! ### Runs without assertion failures -/

theorem NoAssert.pure {α : Type} (a : α) : NoAssert (.ok a : Except Fault α) := by
  intro h; cases h

theorem NoAssert.seq {α β : Type} {x : Except Fault α} {f : α → Except Fault β}
    (hx : NoAssert x) (hf : ∀ a, x = .ok a → NoAssert (f a)) : NoAssert (x >>= f) := by
  cases x with
  | error e =>
    intro h
    have h' : (Except.error e : Except Fault β) = .error .assertion := h
    cases h'
    exact hx rfl
  | ok a => exact hf a rfl

theorem rd_noAssert {α : Type} (a : List α) (i : Nat) : NoAssert (rd a i) := by
  unfold rd
  split
  · exact NoAssert.pure _
  · intro h; cases h

theorem wr_noAssert {α : Type} (a : List α) (i : Nat) (v : α) : NoAssert (wr a i v) := by
  unfold wr
  split
  · exact NoAssert.pure _
  · intro h; cases h

/-- A run that can only fail at an assertion and does not fail at one returns. -/
theorem Safe.returns {α : Type} {x : Except Fault α} (hs : Safe x) (ha : NoAssert x) :
    ∃ a, x = .ok a := by
  cases x with
  | ok a => exact ⟨a, rfl⟩
  | error e => exact absurd (by rw [hs e rfl]) ha

theorem partition_loop_noAssert (prims flags : List Nat) (begin : Nat) :
    ∀ (n i left right : Nat) (tmp : List Nat),
      NoAssert (partition_loop prims flags begin n i left right tmp) := by
  intro n
  induction n with
  | zero => intro i left right tmp; exact NoAssert.pure _
  | succ n ih =>
    intro i left right tmp
    rw [partition_loop]
    refine NoAssert.seq (rd_noAssert _ _) fun p _ =>
      NoAssert.seq (rd_noAssert _ _) fun f _ => ?_
    split
    · exact NoAssert.seq (wr_noAssert _ _ _) fun _ _ => ih _ _ _ _
    · exact NoAssert.seq (wr_noAssert _ _ _) fun _ _ => ih _ _ _ _

theorem copy_loop_noAssert (tmp : List Nat) (begin : Nat) :
    ∀ (n i : Nat) (prims : List Nat), NoAssert (copy_loop tmp begin n i prims) := by
  intro n
  induction n with
  | zero => intro i prims; exact NoAssert.pure _
  | succ n ih =>
    intro i prims
    rw [copy_loop]
    exact NoAssert.seq (rd_noAssert _ _) fun _ _ =>
      NoAssert.seq (wr_noAssert _ _ _) fun _ _ => ih _ _

theorem sorted_partition_noAssert (prims tmp : List Nat) (begin end_ split : Nat)
    (flags : List Nat) : NoAssert (sorted_partition prims tmp begin end_ split flags) :=
  NoAssert.seq (partition_loop_noAssert _ _ _ _ _ _ _ _) fun _ _ =>
    copy_loop_noAssert _ _ _ _ _

/-- C23. On a segment `prims[begin, end)` every id of which has a flag, exactly
`split - begin` of them the flag `0` (what `flag_primitives` with split index `split`
leaves behind on a segment of distinct ids), `sorted_partition` returns and is a stable
partition: afterwards `prims[begin, split)` holds the unflagged ids in their original
relative order, `prims[split, end)` the flagged ids in their original relative order,
and the entries outside `[begin, end)` are unchanged.  Hence any order `r` in which the
segment was sorted still sorts both halves. -/
theorem sorted_partition_stable (prims tmp flags : List Nat) (begin end_ split : Nat)
    (hbs : begin ≤ split) (hse : split ≤ end_) (hlen : end_ ≤ prims.length)
    (htmp : end_ - begin ≤ tmp.length)
    (hr : ∀ k, begin ≤ k → k < end_ → ∃ p f, prims[k]? = some p ∧ flags[p]? = some f)
    (hcount : ((slice prims begin (end_ - begin)).filter
      (fun p => decide (flags[p]? = some 0))).length = split - begin) :
    ∃ prims', sorted_partition prims tmp begin end_ split flags = .ok prims' ∧
      prims'.length = prims.length ∧
      (∀ k, (k < begin ∨ end_ ≤ k) → prims'[k]? = prims[k]?) ∧
      slice prims' begin (split - begin) =
        (slice prims begin (end_ - begin)).filter (fun p => decide (flags[p]? = some 0)) ∧
      slice prims' split (end_ - split) =
        (slice prims begin (end_ - begin)).filter (fun p => !decide (flags[p]? = some 0)) ∧
      ∀ r : Nat → Nat → Prop, (slice prims begin (end_ - begin)).Pairwise r →
        (slice prims' begin (split - begin)).Pairwise r ∧
        (slice prims' split (end_ - split)).Pairwise r := by
  obtain ⟨prims', h⟩ := (sorted_partition_safe hbs hse hlen htmp hr hcount).returns
    (sorted_partition_noAssert _ _ _ _ _ _)
  obtain ⟨hl, hfr, hsl, hsp⟩ := sorted_partition_spec h hbs hse hcount
  have e' : slice prims' begin (end_ - begin) =
      slice prims' begin (split - begin) ++ slice prims' split (end_ - split) := by
    rw [show end_ - begin = (split - begin) + (end_ - split) by omega, slice_add,
      show begin + (split - begin) = split by omega]
  rw [e'] at hsp
  obtain ⟨e1, e2⟩ := List.append_inj hsp (by
    rw [length_slice (by omega), hcount])
  refine ⟨prims', h, hl, hfr, e1, e2, fun r hsorted => ?_⟩
  rw [e1, e2]
  exact ⟨hsorted.filter _, hsorted.filter _⟩

/-- Witness for C23: the segment `[1, 4)` of `[7, 2, 0, 1, 9]` with the ids `2` and `1`
flagged for the left side (split index `3`). -/
theorem sorted_partition_stable_witness :
    ∃ prims', sorted_partition [7, 2, 0, 1, 9] [0, 0, 0] 1 4 3 [1, 0, 0] = .ok prims' ∧
      prims'.length = [7, 2, 0, 1, 9].length ∧
      (∀ k, (k < 1 ∨ 4 ≤ k) → prims'[k]? = [7, 2, 0, 1, 9][k]?) ∧
      slice prims' 1 (3 - 1) =
        (slice [7, 2, 0, 1, 9] 1 (4 - 1)).filter
          (fun p => decide ([1, 0, 0][p]? = some 0)) ∧
      slice prims' 3 (4 - 3) =
        (slice [7, 2, 0, 1, 9] 1 (4 - 1)).filter
          (fun p => !decide ([1, 0, 0][p]? = some 0)) ∧
      ∀ r : Nat → Nat → Prop, (slice [7, 2, 0, 1, 9] 1 (4 - 1)).Pairwise r →
        (slice prims' 1 (3 - 1)).Pairwise r ∧ (slice prims' 3 (4 - 3)).Pairwise r :=
  sorted_partition_stable [7, 2, 0, 1, 9] [0, 0, 0] [1, 0, 0] 1 4 3 (by decide) (by decide)
    (by decide) (by decide)
    (fun k h1 h2 => by
      obtain rfl | rfl | rfl : k = 1 ∨ k = 2 ∨ k = 3 := by omega
      · exact ⟨2, 0, rfl, rfl⟩
      · exact ⟨0, 1, rfl, rfl⟩
      · exact ⟨1, 0, rfl, rfl⟩)
    (by decide)

/-- C24. `HashGrid::build` over `n` points (run sequentially) returns a grid whose array
`photons` is a permutation of `0..n-1`, cut into consecutive buckets by the offsets
`start 0 = 0 ≤ start 1 ≤ ... ≤ start size = n` (so the buckets of distinct cells are
disjoint and cover `[0, n)`): `cell_range` returns the bucket
`[start h, start (h + 1))` of the hashed cell `h`, and the position of an id lies in the
bucket of `h` exactly when `hash_photon(positions(id)) = h`. -/
theorem grid_buckets_exact (positions : Nat → float3) (n : Nat) (radius : ℚ) :
    ∃ (g : HashGrid) (start : Nat → Nat),
      HashGrid.build positions n radius = .ok g ∧
      g.photons.Perm (List.range n) ∧
      start 0 = 0 ∧ start g.cell_counts.length = n ∧ (∀ h, start h ≤ start (h + 1)) ∧
      (∀ x y z, g.cell_range x y z =
        .ok ((start (g.hash_cell x y z) : Int), (start (g.hash_cell x y z + 1) : Int))) ∧
      (∀ h j id, g.photons[j]? = some id →
        ((start h ≤ j ∧ j < start (h + 1)) ↔ g.hash_photon (positions id) = h)) := by
  obtain ⟨g, hg, hb⟩ := grid_build_total positions n radius
  have hpos : 0 < g.cell_counts.length := by rw [hb.size]; exact table_size_pos n
  have hperm : g.photons.Perm (List.range n) := by
    have hsub : List.range n ⊆ g.photons := by
      intro k hk
      obtain ⟨j, _, _, hj⟩ := hb.buckets.placed k (List.mem_range.mp hk)
      exact List.mem_iff_getElem?.mpr ⟨j, hj⟩
    exact ((List.subperm_of_subset (List.nodup_range n) hsub).perm_of_length_le
      (by rw [hb.buckets.ph_len, List.length_range])).symm
  have hnd : g.photons.Nodup := hperm.nodup_iff.mpr (List.nodup_range n)
  refine ⟨g, bucket_start (fun k => g.hash_photon (positions k)) n 0, hg, hperm, rfl,
    bucket_start_all _ _ n 0 (fun k _ _ => hash_photon_lt g _ hpos),
    fun h => bucket_start_mono _ _ _ (Nat.le_succ h), cell_range_built hb, ?_⟩
  intro h j id hj
  have hid : id < n := hb.buckets.ids j id hj
  obtain ⟨j', j1, j2, j3⟩ := hb.buckets.placed id hid
  rw [Nat.sub_self, tail_count_zero, Nat.add_zero] at j1
  have hjj : j = j' := by
    obtain ⟨hjl, hje⟩ := List.getElem?_eq_some_iff.mp hj
    obtain ⟨hjl', hje'⟩ := List.getElem?_eq_some_iff.mp j3
    exact (List.Nodup.getElem_inj_iff hnd).mp (hje.trans hje'.symm)
  subst hjj
  constructor
  · rintro ⟨h1, h2⟩
    rcases Nat.lt_trichotomy (g.hash_photon (positions id)) h with hlt | heq | hgt
    · have := bucket_start_mono (fun k => g.hash_photon (positions k)) n 0
        (Nat.succ_le_of_lt hlt)
      simp only [Nat.succ_eq_add_one] at this
      omega
    · exact heq
    · have := bucket_start_mono (fun k => g.hash_photon (positions k)) n 0
        (Nat.succ_le_of_lt hgt)
      simp only [Nat.succ_eq_add_one] at this
      omega
  · rintro rfl
    exact ⟨j1, j2⟩

/-! ## `find_split`: the split of minimal cost -/

theorem max_comm3 (a b c : ℚ) : Max.max (Max.max a b) c = Max.max (Max.max a c) b := by
  rw [max_assoc, max_comm b c, ← max_assoc]

theorem extend_right_comm (a b c : BBox) : extend (extend a b) c = extend (extend a c) b := by
  simp only [extend, float3.min, float3.max, BBox.mk.injEq, float3.mk.injEq]
  exact ⟨⟨min_right_comm _ _ _, min_right_comm _ _ _, min_right_comm _ _ _⟩,
    ⟨max_comm3 _ _ _, max_comm3 _ _ _, max_comm3 _ _ _⟩⟩

theorem foldl_extend_cons (a b : BBox) (l : List BBox) :
    l.foldl extend (extend a b) = extend (l.foldl extend a) b := by
  induction l generalizing a with
  | nil => rfl
  | cons c l ih => rw [List.foldl_cons, List.foldl_cons, extend_right_comm, ih]

theorem prim_boxes_succ {prims : List Nat} {bboxes : List BBox} {i p : Nat} {bb : BBox}
    (n : Nat) (hp : prims[i]? = some p) (hbb : bboxes[p]? = some bb) :
    prim_boxes prims bboxes i (n + 1) = bb :: prim_boxes prims bboxes (i + 1) n := by
  unfold prim_boxes
  rw [slice_succ n hp, List.map_cons]
  congr 1
  rw [List.getD_eq_getElem?_getD, hbb]
  rfl

theorem sweep_left_cost {prims : List Nat} {bboxes : List BBox} {begin : Nat} :
    ∀ (n i : Nat) (cur : BBox) (tc tc' : List ℚ),
      sweep_left prims bboxes begin n i cur tc = .ok tc' →
      tc' = tc ++ (List.range n).map fun j =>
        ((i + j - begin + 1 : Nat) : ℚ) *
          half_area ((prim_boxes prims bboxes i (j + 1)).foldl extend cur) := by
  intro n
  induction n with
  | zero =>
    intro i cur tc tc' h
    simp only [sweep_left] at h
    cases h
    simp
  | succ n ih =>
    intro i cur tc tc' h
    rw [sweep_left] at h
    obtain ⟨p, hp, h⟩ := bind_ok h
    obtain ⟨bb, hbb, h⟩ := bind_ok h
    rw [ih _ _ _ _ h, List.range_succ_eq_map, List.map_cons, List.map_map, List.append_assoc]
    congr 1
    rw [List.singleton_append]
    congr 1
    · rw [prim_boxes_succ 0 (rd_ok hp) (rd_ok hbb)]
      simp [prim_boxes, slice_zero]
    · apply List.map_congr_left
      intro j _
      simp only [Function.comp_apply, Nat.succ_eq_add_one]
      rw [prim_boxes_succ (j + 1) (rd_ok hp) (rd_ok hbb), List.foldl_cons,
        show i + 1 + j = i + (j + 1) by omega]

theorem sweep_right_min {prims : List Nat} {bboxes : List BBox} {begin end_ : Nat}
    {tmp_cost : List ℚ}
    (htc : ∀ k, k + 1 < end_ - begin → tmp_cost[k]? =
      some (((k + 1 : Nat) : ℚ) * half_area (range_bbox prims bboxes begin (k + 1)))) :
    ∀ (n i : Nat) (cur : BBox) (acc acc' : SplitAcc),
      sweep_right prims bboxes begin end_ tmp_cost n i cur acc = .ok acc' →
      i = begin + n → i < end_ →
      SweepInv prims bboxes begin end_ i cur acc →
      ∃ cur', SweepInv prims bboxes begin end_ begin cur' acc' := by
  intro n
  induction n with
  | zero =>
    intro i cur acc acc' h hi _ inv
    simp only [sweep_right] at h
    cases h
    rw [Nat.add_zero] at hi
    subst hi
    exact ⟨cur, inv⟩
  | succ n ih =>
    intro i cur acc acc' h hi hie inv
    rw [sweep_right] at h
    obtain ⟨p, hp, h⟩ := bind_ok h
    obtain ⟨bb, hbb, h⟩ := bind_ok h
    obtain ⟨tc, htc', h⟩ := bind_ok h
    have hbox : extend cur bb = range_bbox prims bboxes i (end_ - i) := by
      rw [inv.box]
      unfold range_bbox
      rw [show end_ - i = (end_ - (i + 1)) + 1 by omega,
        prim_boxes_succ _ (rd_ok hp) (rd_ok hbb), List.foldl_cons, foldl_extend_cons]
    have htcv : tc = ((i - begin : Nat) : ℚ) *
        half_area (range_bbox prims bboxes begin (i - begin)) := by
      have := htc (i - 1 - begin) (by omega)
      rw [rd_ok htc'] at this
      rw [show i - 1 - begin + 1 = i - begin by omega] at this
      exact Option.some.inj this
    have hc : tc + ((end_ - i : Nat) : ℚ) * half_area (extend cur bb) =
        split_cost prims bboxes begin end_ i := by
      rw [htcv, hbox]
      rfl
    rw [hc] at h
    refine ih (i - 1) _ _ _ h (by omega) (by omega) ?_
    have hbox' : extend cur bb = range_bbox prims bboxes (i - 1 + 1) (end_ - (i - 1 + 1)) := by
      rw [show i - 1 + 1 = i by omega]; exact hbox
    by_cases hlt : split_cost prims bboxes begin end_ i < acc.min_cost
    · rw [if_pos hlt]
      refine ⟨hbox', le_trans (le_of_lt hlt) inv.le_max, ?_, Or.inr ⟨i, by omega, hie, rfl, rfl,
        hbox, lt_of_lt_of_le hlt inv.le_max⟩⟩
      intro j hj1 hj2
      rcases Nat.eq_or_lt_of_le (show i ≤ j by omega) with rfl | hij
      · exact le_refl _
      · exact le_trans (le_of_lt hlt) (inv.least j hij hj2)
    · rw [if_neg hlt]
      refine ⟨hbox', inv.le_max, ?_, ?_⟩
      · intro j hj1 hj2
        rcases Nat.eq_or_lt_of_le (show i ≤ j by omega) with rfl | hij
        · exact not_lt.mp hlt
        · exact inv.least j hij hj2
      · rcases inv.best with hb | ⟨s, hs1, hs2, hs3⟩
        · exact Or.inl hb
        · exact Or.inr ⟨s, by omega, hs2, hs3⟩

/-- The result of `find_split`: the cost returned is at most `FLT_MAX` and at most the
cost of every split; either no split was found (every cost is at least `FLT_MAX`), or
the split returned attains the cost returned and comes with the box of its right part. -/
theorem find_split_min {prims : List Nat} {bboxes : List BBox} {begin end_ : Nat}
    {r : Int × BBox × ℚ} (h : find_split prims begin end_ bboxes = .ok r)
    (hbe : begin < end_) :
    ∃ cur, SweepInv prims bboxes begin end_ begin cur ⟨r.2.2, r.1, r.2.1⟩ := by
  unfold find_split at h
  obtain ⟨tmp_cost, hl, h⟩ := bind_ok h
  obtain ⟨acc, hr, h⟩ := bind_ok h
  cases h
  have hcost := sweep_left_cost _ _ _ _ _ hl
  rw [List.nil_append] at hcost
  have htc : ∀ k, k + 1 < end_ - begin → tmp_cost[k]? =
      some (((k + 1 : Nat) : ℚ) * half_area (range_bbox prims bboxes begin (k + 1))) := by
    intro k hk
    rw [hcost, List.getElem?_map, List.getElem?_range (by omega)]
    simp only [Option.map_some']
    rw [show begin + k - begin + 1 = k + 1 by omega]
    rfl
  rcases Nat.eq_or_lt_of_le (show begin + 1 ≤ end_ by omega) with he | he
  · -- one primitive: no iteration
    rw [show end_ - 1 - begin = 0 by omega] at hr
    simp only [sweep_right] at hr
    cases hr
    exact ⟨BBox.empty, by
      rw [show end_ - (begin + 1) = 0 by omega]; rfl, le_refl _, fun j h1 h2 => by omega,
      Or.inl ⟨rfl, rfl, rfl⟩⟩
  · refine sweep_right_min htc _ _ _ _ _ hr (by omega) (by omega) ⟨?_, le_refl _, ?_, ?_⟩
    · rw [show end_ - (end_ - 1 + 1) = 0 by omega]; rfl
    · intro j h1 h2; omega
    · exact Or.inl ⟨rfl, rfl, rfl⟩

theorem sweep_left_noAssert (prims : List Nat) (bboxes : List BBox) (begin : Nat) :
    ∀ (n i : Nat) (cur : BBox) (tc : List ℚ),
      NoAssert (sweep_left prims bboxes begin n i cur tc) := by
  intro n
  induction n with
  | zero => intro i cur tc; exact NoAssert.pure _
  | succ n ih =>
    intro i cur tc
    rw [sweep_left]
    exact NoAssert.seq (rd_noAssert _ _) fun _ _ =>
      NoAssert.seq (rd_noAssert _ _) fun _ _ => ih _ _ _

theorem sweep_right_noAssert (prims : List Nat) (bboxes : List BBox) (begin end_ : Nat)
    (tmp_cost : List ℚ) :
    ∀ (n i : Nat) (cur : BBox) (acc : SplitAcc),
      NoAssert (sweep_right prims bboxes begin end_ tmp_cost n i cur acc) := by
  intro n
  induction n with
  | zero => intro i cur acc; exact NoAssert.pure _
  | succ n ih =>
    intro i cur acc
    rw [sweep_right]
    exact NoAssert.seq (rd_noAssert _ _) fun _ _ =>
      NoAssert.seq (rd_noAssert _ _) fun _ _ =>
        NoAssert.seq (rd_noAssert _ _) fun _ _ => ih _ _ _

theorem find_split_noAssert (prims : List Nat) (begin end_ : Nat) (bboxes : List BBox) :
    NoAssert (find_split prims begin end_ bboxes) :=
  NoAssert.seq (sweep_left_noAssert _ _ _ _ _ _ _) fun _ _ =>
    NoAssert.seq (sweep_right_noAssert _ _ _ _ _ _ _ _ _) fun _ _ => NoAssert.pure _

/-- The minimal split.  For every index array whose entries in `[begin, end)` name boxes,
when some split of the range costs less than `FLT_MAX`, `find_split` returns a split
`s` with `begin < s < end` of minimal cost among all splits in `(begin, end)`, together
with that cost and the bounding box of `prims[s, end)`. -/
theorem find_split_minimal (prims : List Nat) (bboxes : List BBox) (begin end_ : Nat)
    (hr : ∀ k, begin ≤ k → k < end_ → ∃ p bb, prims[k]? = some p ∧ bboxes[p]? = some bb)
    (hfin : ∃ j, begin < j ∧ j < end_ ∧ split_cost prims bboxes begin end_ j < FLT_MAX) :
    ∃ s : Nat, begin < s ∧ s < end_ ∧
      find_split prims begin end_ bboxes =
        .ok ((s : Int), range_bbox prims bboxes s (end_ - s),
          split_cost prims bboxes begin end_ s) ∧
      ∀ j, begin < j → j < end_ →
        split_cost prims bboxes begin end_ s ≤ split_cost prims bboxes begin end_ j := by
  obtain ⟨j, hj1, hj2, hj3⟩ := hfin
  obtain ⟨r, h⟩ := (find_split_safe hr).returns (find_split_noAssert _ _ _ _)
  obtain ⟨cur, inv⟩ := find_split_min h (by omega)
  obtain ⟨s, bb, c⟩ := r
  rcases inv.best with ⟨_, hb, _⟩ | ⟨s', hs1, hs2, hs3, hs4, hs5, _⟩
  · have := inv.least j hj1 hj2
    simp only at hb this
    rw [hb] at this
    exact absurd hj3 (not_lt.mpr this)
  · simp only at hs3 hs4 hs5
    refine ⟨s', hs1, hs2, ?_, ?_⟩
    · rw [h, hs3, hs4, hs5]
    · intro k hk1 hk2
      have := inv.least k hk1 hk2
      simp only at this
      rw [← hs4]
      exact this

/-- The minimal split of two unit boxes, one unit apart. -/
theorem find_split_minimal_witness :
    ∃ s : Nat, 0 < s ∧ s < 2 ∧
      find_split [0, 1] 0 2 [⟨⟨0, 0, 0⟩, ⟨1, 1, 1⟩⟩, ⟨⟨2, 0, 0⟩, ⟨3, 1, 1⟩⟩] =
        .ok ((s : Int), range_bbox [0, 1] [⟨⟨0, 0, 0⟩, ⟨1, 1, 1⟩⟩, ⟨⟨2, 0, 0⟩, ⟨3, 1, 1⟩⟩] s (2 - s),
          split_cost [0, 1] [⟨⟨0, 0, 0⟩, ⟨1, 1, 1⟩⟩, ⟨⟨2, 0, 0⟩, ⟨3, 1, 1⟩⟩] 0 2 s) ∧
      ∀ j, 0 < j → j < 2 →
        split_cost [0, 1] [⟨⟨0, 0, 0⟩, ⟨1, 1, 1⟩⟩, ⟨⟨2, 0, 0⟩, ⟨3, 1, 1⟩⟩] 0 2 s ≤
          split_cost [0, 1] [⟨⟨0, 0, 0⟩, ⟨1, 1, 1⟩⟩, ⟨⟨2, 0, 0⟩, ⟨3, 1, 1⟩⟩] 0 2 j :=
  find_split_minimal [0, 1] [⟨⟨0, 0, 0⟩, ⟨1, 1, 1⟩⟩, ⟨⟨2, 0, 0⟩, ⟨3, 1, 1⟩⟩] 0 2
    (fun k _ h2 => by
      obtain rfl | rfl : k = 0 ∨ k = 1 := by omega
      · exact ⟨0, _, rfl, rfl⟩
      · exact ⟨1, _, rfl, rfl⟩)
    ⟨1, by decide, by decide, by decide!⟩

/-! ## Which nodes are split, and what every call of the builder sees -/

/-- The precondition of `BvhBuilder::build` holds at the root call of `Bvh::build`. -/
theorem root_state_pre {bboxes : List BBox} {nodes : List Node} {loc : BBox} {n : Nat}
    (centers : List float3)
    (hloc : global_bbox_loop bboxes n 0 BBox.empty = .ok loc) (hlt : 0 < nodes.length)
    (hn : 0 < n) : BuildPre bboxes (Bvh.root_state nodes loc centers n) 0 0 n := by
  refine root_pre _ hloc hlt hn fun a => ?_
  match a with
  | 0 => exact sort_prims_perm _ _ _
  | 1 => exact sort_prims_perm _ _ _
  | 2 => exact sort_prims_perm _ _ _

/-- The root call of the builder in `Bvh::build` is made in the state `root_state`. -/
theorem build_boxes_root {bboxes : List BBox} {nodes : List Node} {loc : BBox} {n : Nat}
    (centers : List float3)
    (hloc : global_bbox_loop bboxes n 0 BBox.empty = .ok loc) (hlt : 0 < nodes.length) :
    Bvh.build_boxes nodes bboxes centers n =
      (BvhBuilder.build bboxes (n + 1) (List.replicate n 0)
        (Bvh.root_state nodes loc centers n) 0 >>= fun st =>
          .ok (st.nodes.take st.node_count, st.prims 0, st.node_count)) := by
  unfold Bvh.build_boxes
  rw [hloc, ok_bind]
  simp only [wr, if_pos hlt, ok_bind]
  rfl

/-- Every call that a call of `BvhBuilder::build` leads to is made on a node that
satisfies the precondition `BuildPre`, when the first call is. -/
theorem calls_pre {bboxes : List BBox} {F : Nat} {T : List Nat} {S : BuildState} {I B E : Nat}
    (pre : BuildPre bboxes S I B E) {fuel : Nat} {tmp : List Nat} {st : BuildState} {id : Nat}
    (hc : BvhBuilder.Calls bboxes F T S I fuel tmp st id) :
    ∃ b e, BuildPre bboxes st id b e := by
  induction hc with
  | root => exact ⟨B, E, pre⟩
  | first fuel tmp st id st1 X tmpX Y _ hs ih =>
    obtain ⟨b, e, pre'⟩ := ih
    rcases split_node_spec hs pre' with ⟨h1, _⟩ | ⟨f, h1, _⟩ |
      ⟨s, st1', tmpX', X', Y', h1, stage, hXY, _⟩
    · cases h1
    · cases h1
    · cases h1
      rcases hXY with ⟨rfl, _, _⟩ | ⟨rfl, _, _⟩
      · exact ⟨_, _, stage.left⟩
      · exact ⟨_, _, stage.right⟩
  | second fuel tmp st id st1 X tmpX Y stA _ hs hA ih =>
    obtain ⟨b, e, pre'⟩ := ih
    rcases split_node_spec hs pre' with ⟨h1, _⟩ | ⟨f, h1, _⟩ |
      ⟨s, st1', tmpX', X', Y', h1, stage, hXY, _⟩
    · cases h1
    · cases h1
    · cases h1
      have hc1 := stage.count
      rcases hXY with ⟨rfl, rfl, _⟩ | ⟨rfl, rfl, _⟩
      · have postA := build_post _ _ _ _ _ _ _ hA stage.left
        exact ⟨_, _, BuildPre.after postA stage.right (by omega) (Or.inr (Nat.le_refl _))⟩
      · have postA := build_post _ _ _ _ _ _ _ hA stage.right
        exact ⟨_, _, BuildPre.after postA stage.left (by omega) (Or.inl (Nat.le_refl _))⟩

/-- C21. A call of `BvhBuilder::build` that returns, on a node with range `[b, e)`
(precondition `BuildPre`), has turned the node into an inner node if and only if
`e - b ≥ 2` and the best split cost over the three axes is strictly less than
`((e - b) - 1) * half_area(node box)`; it has then reserved two node slots at least.
In every other case the state is returned unchanged: the node stays a leaf with its
range and no node slot is reserved. -/
theorem build_inner_iff_split_cheaper (bboxes : List BBox) (fuel : Nat) (tmp : List Nat)
    (st st' : BuildState) (id b e : Nat)
    (h : BvhBuilder.build bboxes (fuel + 1) tmp st id = .ok st')
    (pre : BuildPre bboxes st id b e) :
    ((∃ nd, st'.nodes[id]? = some nd ∧ nd.num_prims ≤ 0) ↔
      (2 ≤ e - b ∧ ∃ acc, BvhBuilder.best_split bboxes st b e = .ok acc ∧
        acc.min_cost < BvhBuilder.leaf_cost st id b e)) ∧
    ((∃ nd, st'.nodes[id]? = some nd ∧ nd.num_prims ≤ 0) →
      st.node_count + 2 ≤ st'.node_count) ∧
    (¬ (∃ nd, st'.nodes[id]? = some nd ∧ nd.num_prims ≤ 0) → st' = st) := by
  rw [build_unfold] at h
  obtain ⟨nd0, hnd0, _, hnp0, _⟩ := pre.node
  have hlt := pre.lt
  rcases split_node_spec rfl pre with ⟨h1, hleaf⟩ | ⟨f, h1, _⟩ |
    ⟨s, st1, tmpX, X, Y, h1, stage, hXY, hsize, hcheap⟩
  · rw [h1] at h
    cases h
    have hno : ¬ ∃ nd, st.nodes[id]? = some nd ∧ nd.num_prims ≤ 0 := by
      rintro ⟨nd, g1, g2⟩
      rw [hnd0] at g1
      cases g1
      omega
    refine ⟨⟨fun g => absurd g hno, ?_⟩, fun g => absurd g hno, fun _ => rfl⟩
    rintro ⟨g1, acc, g2, g3⟩
    rcases hleaf with hle | ⟨acc', g2', g3'⟩
    · omega
    · rw [g2] at g2'
      cases g2'
      exact absurd g3 g3'
  · rw [h1] at h
    cases h
  · rw [h1, ok_bind] at h
    change (BvhBuilder.build bboxes fuel tmpX st1 X >>= fun stA =>
      BvhBuilder.build bboxes fuel tmp stA Y) = .ok st' at h
    obtain ⟨stA, hA, hB⟩ := bind_ok h
    have hid := pre.id_lt
    have hc1 := stage.count
    obtain ⟨nd, p1, p2, _⟩ := stage.parent
    obtain ⟨acc, g1, g2, _⟩ := hcheap
    have key : (∃ nd, st'.nodes[id]? = some nd ∧ nd.num_prims ≤ 0) ∧
        st.node_count + 2 ≤ st'.node_count := by
      rcases hXY with ⟨rfl, rfl, _⟩ | ⟨rfl, rfl, _⟩
      · have postA := build_post _ _ _ _ _ _ _ hA stage.left
        have preY := BuildPre.after postA stage.right (by omega) (Or.inr (Nat.le_refl _))
        have postB := build_post _ _ _ _ _ _ _ hB preY
        have hcA := postA.count
        have hcB := postB.count
        refine ⟨⟨nd, ?_, p2⟩, by omega⟩
        rw [postB.nodes_frame id (by omega) (by omega),
          postA.nodes_frame id (by omega) (by omega)]
        exact p1
      · have postA := build_post _ _ _ _ _ _ _ hA stage.right
        have preY := BuildPre.after postA stage.left (by omega) (Or.inl (Nat.le_refl _))
        have postB := build_post _ _ _ _ _ _ _ hB preY
        have hcA := postA.count
        have hcB := postB.count
        refine ⟨⟨nd, ?_, p2⟩, by omega⟩
        rw [postB.nodes_frame id (by omega) (by omega),
          postA.nodes_frame id (by omega) (by omega)]
        exact p1
    exact ⟨⟨fun _ => ⟨hsize, acc, g1, g2⟩, fun _ => key.1⟩, fun _ => key.2,
      fun g => absurd key.1 g⟩

/-- Witness for C21: the root call for the two-triangle scene splits the root. -/
theorem build_inner_iff_split_cheaper_witness :
    BvhBuilder.build two_tri_boxes (2 + 1) [0, 0] two_tri_root 0 = .ok two_tri_split ∧
    ((∃ nd, two_tri_split.nodes[0]? = some nd ∧ nd.num_prims ≤ 0) ↔
      (2 ≤ 2 - 0 ∧ ∃ acc, BvhBuilder.best_split two_tri_boxes two_tri_root 0 2 = .ok acc ∧
        acc.min_cost < BvhBuilder.leaf_cost two_tri_root 0 0 2)) ∧
    ((∃ nd, two_tri_split.nodes[0]? = some nd ∧ nd.num_prims ≤ 0) →
      two_tri_root.node_count + 2 ≤ two_tri_split.node_count) ∧
    (¬ (∃ nd, two_tri_split.nodes[0]? = some nd ∧ nd.num_prims ≤ 0) →
      two_tri_split = two_tri_root) :=
  ⟨by decide!, build_inner_iff_split_cheaper two_tri_boxes 2 [0, 0] two_tri_root two_tri_split
    0 0 2 (by decide!) (root_state_pre two_tri_centers (by decide!) (by decide) (by decide))⟩

/-- The root of the two-triangle scene is split into the slots 1 and 2; the builder
descends into slot 2 first. -/
theorem two_tri_split_node :
    BvhBuilder.split_node two_tri_boxes [0, 0] two_tri_root 0 =
      .ok (some (two_tri_split, 2, [0, 0], 1)) := by
  have h : (BvhBuilder.split_node two_tri_boxes [0, 0] two_tri_root 0).toOption.map
      (fun r => r.map (fun q => (decide (q.1 = two_tri_split), q.2))) =
      some (some (true, 2, [0, 0], 1)) := by decide!
  cases h' : BvhBuilder.split_node two_tri_boxes [0, 0] two_tri_root 0 with
  | error f => rw [h'] at h; simp [Except.toOption] at h
  | ok r =>
    rw [h'] at h
    cases r with
    | none => simp [Except.toOption] at h
    | some q =>
      obtain ⟨q1, q2⟩ := q
      simp only [Except.toOption, Option.map_some', Option.some.injEq, Prod.mk.injEq,
        decide_eq_true_eq] at h
      rw [h.1, h.2]

/-- C27. Every call of `BvhBuilder::build` that the root call of `Bvh::build` leads to
(the root call itself, or a nested recursive call) is made on a node with a non-empty
range `[b, e)` in which the three index arrays hold the same primitive ids (as
multisets, hence as sets); the box of the node contains the box of every primitive
that `prims[0]` lists in the range. -/
theorem build_calls_same_ids (bboxes : List BBox) (centers : List float3) (nodes : List Node)
    (n : Nat) (loc : BBox) (hn : 0 < n) (hlt : 0 < nodes.length)
    (hloc : global_bbox_loop bboxes n 0 BBox.empty = .ok loc)
    (fuel : Nat) (tmp : List Nat) (st : BuildState) (id : Nat)
    (hc : BvhBuilder.Calls bboxes (n + 1) (List.replicate n 0)
      (Bvh.root_state nodes loc centers n) 0 fuel tmp st id) :
    ∃ (nd : Node) (b e : Nat), st.nodes[id]? = some nd ∧ nd.first_prim = b ∧
      nd.num_prims = (e : Int) - b ∧
      b < e ∧
      (∀ a, (slice (st.prims a) b (e - b)).Perm (slice (st.prims 0) b (e - b))) ∧
      (∀ a p, p ∈ slice (st.prims a) b (e - b) ↔ p ∈ slice (st.prims 0) b (e - b)) ∧
      ∀ a, Covers bboxes nd.bbox (slice (st.prims a) b (e - b)) := by
  obtain ⟨b, e, pre⟩ := calls_pre (root_state_pre centers hloc hlt hn) hc
  obtain ⟨nd, h1, h2, h3, h4⟩ := pre.node
  exact ⟨nd, b, e, h1, h2, h3, pre.lt, pre.perm, fun a p => (pre.perm a).mem_iff,
    fun a p hp => h4 p ((pre.perm a).mem_iff.1 hp)⟩

/-- Witness for C27: the first recursive call for the two-triangle scene. -/
theorem build_calls_same_ids_witness :
    ∃ (nd : Node) (b e : Nat), two_tri_split.nodes[2]? = some nd ∧ nd.first_prim = b ∧
      nd.num_prims = (e : Int) - b ∧ b < e ∧
      (∀ a, (slice (two_tri_split.prims a) b (e - b)).Perm
        (slice (two_tri_split.prims 0) b (e - b))) ∧
      (∀ a p, p ∈ slice (two_tri_split.prims a) b (e - b) ↔
        p ∈ slice (two_tri_split.prims 0) b (e - b)) ∧
      ∀ a, Covers two_tri_boxes nd.bbox (slice (two_tri_split.prims a) b (e - b)) :=
  build_calls_same_ids two_tri_boxes two_tri_centers (List.replicate 5 Node.uninit) 2
    ⟨⟨0, 0, 0⟩, ⟨11, 1, 0⟩⟩ (by decide) (by decide) (by decide!) 2 [0, 0] two_tri_split 2
    (BvhBuilder.Calls.first 2 [0, 0] two_tri_root 0 two_tri_split 2 [0, 0] 1
      BvhBuilder.Calls.root two_tri_split_node)

/-! ## Termination of the traversal -/

theorem Expandable.two_le {bboxes : List BBox} {prim_ids : List Nat} {nodes : List Node}
    {c hi : Nat} (h : Expandable bboxes prim_ids nodes c hi) : c + 2 ≤ hi := by
  obtain ⟨b, s, e, m, ⟨t1, t2⟩ | ⟨t1, t2⟩⟩ := h
  · have := t1.lo_le_hi; have := t2.lo_le_hi; omega
  · have := t1.lo_le_hi; have := t2.lo_le_hi; omega

/-- The root of a subtree is a leaf without descendants, or an inner node whose child
link can be expanded. -/
theorem Subtree.kind {bboxes : List BBox} {prim_ids : List Nat} {nodes : List Node}
    {id b e lo hi : Nat} (h : Subtree bboxes prim_ids nodes id b e lo hi) {nd : Node}
    (hnd : nodes[id]? = some nd) :
    (0 < nd.num_prims ∧ lo = hi) ∨
    (nd.num_prims ≤ 0 ∧ nd.child = lo ∧ Expandable bboxes prim_ids nodes lo hi) := by
  cases h with
  | leaf _ _ _ _ nd' h1 h2 h3 h4 _ _ =>
    rw [h1] at hnd; cases hnd
    exact Or.inl ⟨by omega, rfl⟩
  | inner_lr _ _ s _ _ m _ nd' h1 h2 h3 h4 h5 h6 _ t1 t2 =>
    rw [h1] at hnd; cases hnd
    exact Or.inr ⟨h2, h4, _, _, _, _, Or.inl ⟨t1, t2⟩⟩
  | inner_rl _ _ s _ _ m _ nd' h1 h2 h3 h4 h5 h6 _ t1 t2 =>
    rw [h1] at hnd; cases hnd
    exact Or.inr ⟨h2, h4, _, _, _, _, Or.inr ⟨t1, t2⟩⟩

/-- The two children of an expandable link: each is a leaf or an inner node with an
expandable link, and their descendants are the descendants of the parent other than
the two children. -/
theorem Expandable.child_kinds {bboxes : List BBox} {prim_ids : List Nat} {nodes : List Node}
    {c hi : Nat} (h : Expandable bboxes prim_ids nodes c hi) :
    ∃ l r w1 w2, nodes[c]? = some l ∧ nodes[c + 1]? = some r ∧ w1 + w2 + 2 = hi - c ∧
      ((0 < l.num_prims ∧ w1 = 0) ∨ (l.num_prims ≤ 0 ∧
        ∃ h1, Expandable bboxes prim_ids nodes l.child h1 ∧ w1 = h1 - l.child)) ∧
      ((0 < r.num_prims ∧ w2 = 0) ∨ (r.num_prims ≤ 0 ∧
        ∃ h2, Expandable bboxes prim_ids nodes r.child h2 ∧ w2 = h2 - r.child)) := by
  have key : ∀ {id b e lo hi : Nat}, Subtree bboxes prim_ids nodes id b e lo hi →
      ∃ nd, nodes[id]? = some nd ∧ ((0 < nd.num_prims ∧ hi - lo = 0) ∨ (nd.num_prims ≤ 0 ∧
        ∃ h1, Expandable bboxes prim_ids nodes nd.child h1 ∧ hi - lo = h1 - nd.child)) := by
    intro id b e lo hi t
    obtain ⟨nd, hnd, _⟩ := t.root_kind
    refine ⟨nd, hnd, ?_⟩
    rcases t.kind hnd with ⟨k1, k2⟩ | ⟨k1, k2, k3⟩
    · exact Or.inl ⟨k1, by omega⟩
    · exact Or.inr ⟨k1, hi, by rw [k2]; exact k3, by rw [k2]⟩
  obtain ⟨b, s, e, m, ⟨t1, t2⟩ | ⟨t1, t2⟩⟩ := h
  · obtain ⟨l, hl, kl⟩ := key t1
    obtain ⟨r, hr, kr⟩ := key t2
    have := t1.lo_le_hi
    have := t2.lo_le_hi
    exact ⟨l, r, m - (c + 2), hi - m, hl, hr, by omega, kl, kr⟩
  · obtain ⟨r, hr, kr⟩ := key t1
    obtain ⟨l, hl, kl⟩ := key t2
    have := t1.lo_le_hi
    have := t2.lo_le_hi
    exact ⟨l, r, hi - m, m - (c + 2), hl, hr, by omega, kl, kr⟩

theorem Pending.frame {bboxes : List BBox} {prim_ids : List Nat} {nodes : List Node}
    {stack stack' : List Int} {p W : Nat} (h : Pending bboxes prim_ids nodes stack p W)
    (hf : ∀ k, k ≤ p → stack'[k]? = stack[k]?) : Pending bboxes prim_ids nodes stack' p W := by
  induction h with
  | bottom h0 => exact Pending.bottom (by rw [hf 0 (Nat.le_refl _)]; exact h0)
  | item p W c hi _ h2 h3 ih =>
    exact Pending.item p W c hi (ih fun k hk => hf k (by omega))
      (by rw [hf _ (Nat.le_refl _)]; exact h2) h3

theorem Pending.pop {bboxes : List BBox} {prim_ids : List Nat} {nodes : List Node}
    {stack : List Int} {q W : Nat} (h : Pending bboxes prim_ids nodes stack (q + 1) W) :
    ∃ (W1 c hi : Nat), Pending bboxes prim_ids nodes stack q W1 ∧ stack[q + 1]? = some (c : Int) ∧
      Expandable bboxes prim_ids nodes c hi ∧ W = W1 + (hi - c) := by
  cases h with
  | item _ W1 c hi h1 h2 h3 => exact ⟨W1, c, hi, h1, h2, h3, rfl⟩

theorem Pending.top_lt {bboxes : List BBox} {prim_ids : List Nat} {nodes : List Node}
    {stack : List Int} {p W : Nat} (h : Pending bboxes prim_ids nodes stack p W) :
    p < stack.length := by
  cases h with
  | bottom h0 =>
    by_contra hc
    rw [List.getElem?_eq_none (by omega)] at h0
    cases h0
  | item _ _ _ _ _ h2 _ =>
    by_contra hc
    rw [List.getElem?_eq_none (by omega)] at h2
    cases h2

theorem push_ok {stack stack' : List Int} {i v : Int} (h : push stack i v = .ok stack') :
    0 ≤ i ∧ i.toNat < stack.length ∧ stack' = stack.set i.toNat v := by
  unfold push at h
  split at h
  · rename_i hi; cases h; exact ⟨hi.1, hi.2, rfl⟩
  · cases h

/-- Visiting a child keeps the stack well formed: a leaf leaves it alone, an inner child
that the ray enters is pushed. -/
theorem visit_child_pending {bboxes : List BBox} {prim_ids : List Nat} {nodes : List Node}
    {ray : Ray} {tris : List PrecomputedTri} {any enter : Bool} {child : Node}
    {s s' : TravState} {p W w : Nat}
    (h : visit_child ray tris any enter child s = .ok s')
    (hp : s.stack_ptr = (p : Int)) (hP : Pending bboxes prim_ids nodes s.stack p W)
    (hk : (0 < child.num_prims ∧ w = 0) ∨ (child.num_prims ≤ 0 ∧
        ∃ h1, Expandable bboxes prim_ids nodes child.child h1 ∧ w = h1 - child.child)) :
    ∃ (p' W' : Nat), s'.stack_ptr = (p' : Int) ∧ Pending bboxes prim_ids nodes s'.stack p' W' ∧
      W' ≤ W + w ∧ p ≤ p' ∧ p' ≤ p + 1 := by
  unfold visit_child at h
  split at h
  · split at h
    · obtain ⟨hit, _, h⟩ := bind_ok h
      cases h
      exact ⟨p, W, hp, hP, by omega, Nat.le_refl _, by omega⟩
    · rename_i hleaf
      obtain ⟨stack, hs, h⟩ := bind_ok h
      cases h
      obtain ⟨_, _, rfl⟩ := push_ok hs
      rcases hk with ⟨k1, _⟩ | ⟨_, h1, k2, k3⟩
      · exact absurd k1 hleaf
      · have e1 : (s.stack_ptr + 1).toNat = p + 1 := by rw [hp]; omega
        have hlen := hP.top_lt
        refine ⟨p + 1, W + (h1 - child.child), by simp only [hp]; push_cast; rfl, ?_,
          by omega, by omega, Nat.le_refl _⟩
        rw [e1]
        refine Pending.item p W _ h1 (hP.frame fun k hk => ?_) ?_ k2
        · rw [List.getElem?_set_ne (by omega)]
        · rw [List.getElem?_set_self (by rw [← e1]; assumption)]
  · cases h
    exact ⟨p, W, hp, hP, by omega, Nat.le_refl _, by omega⟩

/-- Swapping the two topmost entries keeps the stack well formed. -/
theorem swap_top_pending {bboxes : List BBox} {prim_ids : List Nat} {nodes : List Node}
    {stack stack' : List Int} {q W : Nat}
    (hP : Pending bboxes prim_ids nodes stack (q + 2) W)
    (h : swap_top stack ((q + 2 : Nat) : Int) = .ok stack') :
    Pending bboxes prim_ids nodes stack' (q + 2) W := by
  obtain ⟨W1, c1, hi1, hP1, g1, x1, rfl⟩ := hP.pop
  obtain ⟨W2, c2, hi2, hP2, g2, x2, rfl⟩ := hP1.pop
  unfold swap_top at h
  obtain ⟨a, ha, h⟩ := bind_ok h
  obtain ⟨b, hb, h⟩ := bind_ok h
  obtain ⟨st1, hs1, h⟩ := bind_ok h
  obtain ⟨_, l1, rfl⟩ := push_ok hs1
  obtain ⟨_, l2, rfl⟩ := push_ok h
  have e1 : (((q + 2 : Nat) : Int)).toNat = q + 2 := by omega
  have e2 : (((q + 2 : Nat) : Int) - 1).toNat = q + 1 := by omega
  have ha' := (rdi_ok ha).2
  have hb' := (rdi_ok hb).2
  rw [e1] at ha' l1
  rw [e2] at hb' l2
  rw [e1, e2]
  rw [g1] at ha'
  rw [g2] at hb'
  cases ha'
  cases hb'
  rw [List.length_set] at l2
  have : W2 + (hi2 - c2) + (hi1 - c1) = W2 + (hi1 - c1) + (hi2 - c2) := by omega
  rw [this]
  refine Pending.item (q + 1) _ c2 hi2 (Pending.item q W2 c1 hi1 (hP2.frame fun k hk => ?_) ?_ x1)
    ?_ x2
  · rw [List.getElem?_set_ne (by omega), List.getElem?_set_ne (by omega)]
  · rw [List.getElem?_set_self (by rw [List.length_set]; omega)]
  · rw [List.getElem?_set_ne (by omega), List.getElem?_set_self (by omega)]

theorem swap_if_ok {c : Prop} [Decidable c] {st stack : List Int} {p : Int}
    (h : (if c then swap_top st p else .ok st) = .ok stack) :
    (c ∧ swap_top st p = .ok stack) ∨ stack = st := by
  by_cases hc : c
  · rw [if_pos hc] at h; exact Or.inl ⟨hc, h⟩
  · rw [if_neg hc] at h; cases h; exact Or.inr rfl

/-- One iteration of the loop of `Bvh::traverse` expands the link in `top`: the links
that remain stand for subtrees with at least two descendant slots fewer. -/
theorem traverse_step_inv {bboxes : List BBox} {bvh : Bvh} {ray : Ray} {any : Bool}
    {s s' : TravState} {p W1 c hi : Nat}
    (h : traverse_step bvh ray any s = .ok s')
    (hp : s.stack_ptr = (p : Int)) (ht : s.top = (c : Int))
    (hP : Pending bboxes bvh.prim_ids bvh.nodes s.stack p W1)
    (hE : Expandable bboxes bvh.prim_ids bvh.nodes c hi) :
    TravInv bboxes bvh.prim_ids bvh.nodes s' (W1 + (hi - c) - 2) := by
  obtain ⟨l, r, w1, w2, hl, hr, hw, kl, kr⟩ := hE.child_kinds
  unfold traverse_step at h
  obtain ⟨left, hleft, h⟩ := bind_ok h
  obtain ⟨right, hright, h⟩ := bind_ok h
  obtain ⟨s1, h1, h⟩ := bind_ok h
  obtain ⟨s2, h2, h⟩ := bind_ok h
  obtain ⟨stack, hsw, h⟩ := bind_ok h
  obtain ⟨top, htop, h⟩ := bind_ok h
  cases h
  have e0 : (s.top + 0).toNat = c := by rw [ht]; omega
  have e1 : (s.top + 1).toNat = c + 1 := by rw [ht]; omega
  have hleft' := (rdi_ok hleft).2
  have hright' := (rdi_ok hright).2
  rw [e0, hl] at hleft'
  rw [e1, hr] at hright'
  cases hleft'
  cases hright'
  obtain ⟨p1, V1, hp1, hP1, hV1, b1, b2⟩ := visit_child_pending h1 hp hP kl
  obtain ⟨p2, V2, hp2, hP2, hV2, b3, b4⟩ := visit_child_pending h2 hp1 hP1 kr
  have hP3 : Pending bboxes bvh.prim_ids bvh.nodes stack p2 V2 := by
    rcases swap_if_ok hsw with ⟨hc, hsw'⟩ | rfl
    · have hc1 := hc.1
      rw [hp, hp2] at hc1
      obtain ⟨q, rfl⟩ : ∃ q, p2 = q + 2 := ⟨p2 - 2, by omega⟩
      rw [hp2] at hsw'
      exact swap_top_pending hP2 hsw'
    · exact hP2
  have htop' := (rdi_ok htop).2
  rw [hp2, Int.toNat_ofNat] at htop'
  rcases Nat.eq_zero_or_pos p2 with rfl | hpos
  · left
    cases hP3 with
    | bottom h0 =>
      rw [h0] at htop'
      cases htop'
      show (-1 : Int) < 0
      omega
  · obtain ⟨q, rfl⟩ : ∃ q, p2 = q + 1 := ⟨p2 - 1, by omega⟩
    obtain ⟨V3, c3, hi3, hP4, g4, x4, rfl⟩ := hP3.pop
    rw [g4] at htop'
    cases htop'
    right
    refine ⟨q, V3, c3, hi3, ?_, rfl, hP4, x4, by omega⟩
    show s2.stack_ptr - 1 = (q : Int)
    rw [hp2]
    push_cast
    omega

theorem rdi_noFuel {α : Type} (a : List α) (i : Int) : NoFuel (rdi a i) := by
  intro h
  cases rdi_error h

theorem push_noFuel (stack : List Int) (i v : Int) : NoFuel (push stack i v) := by
  unfold push
  split
  · exact NoFuel.ok _
  · intro h; cases h

theorem intersect_leaf_noFuel (ray : Ray) (tris : List PrecomputedTri) (any : Bool) :
    ∀ (n j : Nat) (hit : Hit), NoFuel (intersect_leaf ray tris any n j hit) := by
  intro n
  induction n with
  | zero => intro j hit; exact NoFuel.ok _
  | succ n ih =>
    intro j hit
    rw [intersect_leaf]
    refine NoFuel.bind (rd_noFuel _ _) fun tri _ => ?_
    split
    · split
      · exact NoFuel.ok _
      · exact ih _ _
    · exact ih _ _

theorem visit_child_noFuel (ray : Ray) (tris : List PrecomputedTri) (any enter : Bool)
    (child : Node) (s : TravState) : NoFuel (visit_child ray tris any enter child s) := by
  unfold visit_child
  split
  · split
    · exact NoFuel.bind (intersect_leaf_noFuel _ _ _ _ _ _) fun _ _ => NoFuel.ok _
    · exact NoFuel.bind (push_noFuel _ _ _) fun _ _ => NoFuel.ok _
  · exact NoFuel.ok _

theorem swap_top_noFuel (stack : List Int) (i : Int) : NoFuel (swap_top stack i) := by
  unfold swap_top
  exact NoFuel.bind (rdi_noFuel _ _) fun _ _ => NoFuel.bind (rdi_noFuel _ _) fun _ _ =>
    NoFuel.bind (push_noFuel _ _ _) fun _ _ => push_noFuel _ _ _

theorem swap_if_noFuel {c : Prop} [Decidable c] (st : List Int) (p : Int) :
    NoFuel (if c then swap_top st p else .ok st) := by
  by_cases hc : c
  · rw [if_pos hc]; exact swap_top_noFuel _ _
  · rw [if_neg hc]; exact NoFuel.ok _

theorem traverse_step_noFuel (bvh : Bvh) (ray : Ray) (any : Bool) (s : TravState) :
    NoFuel (traverse_step bvh ray any s) := by
  unfold traverse_step
  refine NoFuel.bind (rdi_noFuel _ _) fun _ _ => NoFuel.bind (rdi_noFuel _ _) fun _ _ =>
    NoFuel.bind (visit_child_noFuel _ _ _ _ _ _) fun _ _ =>
    NoFuel.bind (visit_child_noFuel _ _ _ _ _ _) fun _ _ => NoFuel.bind ?_ fun _ _ =>
    NoFuel.bind (rdi_noFuel _ _) fun _ _ => NoFuel.ok _
  exact swap_if_noFuel _ _

/-- The loop of `Bvh::traverse` does not run out of fuel when the fuel is at least half
the number of descendant slots that the pending links stand for. -/
theorem traverse_loop_noFuel {bboxes : List BBox} {bvh : Bvh} {ray : Ray} {any : Bool} :
    ∀ (fuel : Nat) (s : TravState), TravInv bboxes bvh.prim_ids bvh.nodes s (2 * fuel) →
      NoFuel (traverse_loop bvh ray any fuel s) := by
  intro fuel
  induction fuel with
  | zero =>
    intro s inv
    rw [traverse_loop]
    rcases inv with hlt | ⟨p, W1, c, hi, _, _, _, hE, hW⟩
    · rw [if_neg (by omega)]
      exact NoFuel.ok _
    · have := hE.two_le
      omega
  | succ fuel ih =>
    intro s inv
    rw [traverse_loop]
    split
    · rename_i hge
      rcases inv with hlt | ⟨p, W1, c, hi, hp, ht, hP, hE, hW⟩
      · omega
      · refine NoFuel.bind (traverse_step_noFuel _ _ _ _) fun s1 h1 => ih s1 ?_
        have inv1 := traverse_step_inv h1 hp ht hP hE
        rcases inv1 with hlt | ⟨p', W1', c', hi', hp', ht', hP', hE', hW'⟩
        · exact Or.inl hlt
        · exact Or.inr ⟨p', W1', c', hi', hp', ht', hP', hE', by omega⟩
    · exact NoFuel.ok _

/-- Fuel that is not used up does not change the outcome of the loop. -/
theorem traverse_loop_more_fuel {bvh : Bvh} {ray : Ray} {any : Bool} :
    ∀ (fuel k : Nat) (s : TravState), NoFuel (traverse_loop bvh ray any fuel s) →
      traverse_loop bvh ray any (fuel + k) s = traverse_loop bvh ray any fuel s := by
  intro fuel
  induction fuel with
  | zero =>
    intro k s h
    have hlt : ¬ s.top ≥ 0 := by
      intro hge
      apply h
      rw [traverse_loop, if_pos hge]
    have ek : ∀ n, traverse_loop bvh ray any n s = .ok s := by
      intro n
      cases n <;> rw [traverse_loop, if_neg hlt]
    rw [ek, ek]
  | succ fuel ih =>
    intro k s h
    rw [show fuel + 1 + k = (fuel + k) + 1 by omega]
    rw [traverse_loop] at h
    rw [traverse_loop, traverse_loop]
    split
    · rename_i hge
      rw [if_pos hge] at h
      cases hs : traverse_step bvh ray any s with
      | error f => rfl
      | ok s1 =>
        rw [hs] at h
        exact ih k s1 h
    · rfl

/-- The descendant slots of a subtree come in pairs, one pair for every inner node of the
subtree. -/
theorem Subtree.inner_slots {bboxes : List BBox} {prim_ids : List Nat} {nodes : List Node}
    {id b e lo hi : Nat} (h : Subtree bboxes prim_ids nodes id b e lo hi) :
    ∀ nd, nodes[id]? = some nd →
      2 * ((if nd.num_prims ≤ 0 then 1 else 0) +
        (slice nodes lo (hi - lo)).countP (fun x => decide (x.num_prims ≤ 0))) = hi - lo := by
  have key : ∀ {lo m hi : Nat} {l r nd : Node}, nodes[lo]? = some l → nodes[lo + 1]? = some r →
      lo + 2 ≤ m → m ≤ hi → nd.num_prims ≤ 0 →
      ∀ (x y : Node),
      2 * ((if x.num_prims ≤ 0 then 1 else 0) +
        (slice nodes (lo + 2) (m - (lo + 2))).countP (fun x => decide (x.num_prims ≤ 0))) =
          m - (lo + 2) →
      2 * ((if y.num_prims ≤ 0 then 1 else 0) +
        (slice nodes m (hi - m)).countP (fun x => decide (x.num_prims ≤ 0))) = hi - m →
      ((x = l ∧ y = r) ∨ (x = r ∧ y = l)) →
      2 * ((if nd.num_prims ≤ 0 then 1 else 0) +
        (slice nodes lo (hi - lo)).countP (fun x => decide (x.num_prims ≤ 0))) = hi - lo := by
    intro lo m hi l r nd hl hr b1 b2 h2 x y i1 i2 hxy
    have hs : slice nodes lo (hi - lo) =
        l :: r :: (slice nodes (lo + 2) (m - (lo + 2)) ++ slice nodes m (hi - m)) := by
      have e : hi - lo = (m - (lo + 2)) + (hi - m) + 1 + 1 := by omega
      rw [e, slice_succ _ hl, slice_succ _ hr, slice_add]
      have e2 : lo + 1 + 1 + (m - (lo + 2)) = m := by omega
      rw [e2]
    rw [hs, if_pos h2, List.countP_cons, List.countP_cons, List.countP_append]
    simp only [decide_eq_true_eq]
    rcases hxy with ⟨rfl, rfl⟩ | ⟨rfl, rfl⟩
    · split_ifs at i1 i2 ⊢ <;> omega
    · split_ifs at i1 i2 ⊢ <;> omega
  induction h with
  | leaf id b e lo nd1 h1 h2 h3 h4 h5 h6 =>
    intro nd hnd
    rw [h1] at hnd
    cases hnd
    rw [if_neg (by omega), Nat.sub_self, slice_zero]
    rfl
  | inner_lr id b s e lo m hi nd1 h1 h2 h3 h4 h5 h6 h7 t1 t2 ih1 ih2 =>
    intro nd hnd
    rw [h1] at hnd
    cases hnd
    obtain ⟨l, hl, _⟩ := t1.root_some
    obtain ⟨r, hr, _⟩ := t2.root_some
    exact key hl hr t1.lo_le_hi t2.lo_le_hi h2 l r (ih1 l hl) (ih2 r hr) (Or.inl ⟨rfl, rfl⟩)
  | inner_rl id b s e lo m hi nd1 h1 h2 h3 h4 h5 h6 h7 t1 t2 ih1 ih2 =>
    intro nd hnd
    rw [h1] at hnd
    cases hnd
    obtain ⟨r, hr, _⟩ := t1.root_some
    obtain ⟨l, hl, _⟩ := t2.root_some
    exact key hl hr t1.lo_le_hi t2.lo_le_hi h2 r l (ih1 r hr) (ih2 l hl) (Or.inr ⟨rfl, rfl⟩)

/-- A tree built by `Bvh::build` has one inner node for every two nodes below the
root. -/
theorem build_inner_count {verts : List float3} {indices : List Nat} {n : Nat} {bvh : Bvh}
    (h : Bvh.build verts indices n = .ok bvh) (hn : 0 < n) :
    2 * bvh.inner_count + 1 = bvh.num_nodes := by
  obtain ⟨bboxes, _, _, hlen, hpos, _, tree, _⟩ := bvh_build_spec h hn
  obtain ⟨nd, hnd, _⟩ := tree.root_some
  have cnt := tree.inner_slots nd hnd
  have hs : bvh.nodes = nd :: slice bvh.nodes 1 (bvh.num_nodes - 1) := by
    have e := slice_full bvh.nodes
    rw [hlen, show bvh.num_nodes = (bvh.num_nodes - 1) + 1 by omega, slice_succ _ hnd] at e
    simpa using e.symm
  unfold Bvh.inner_count
  rw [hs, List.countP_cons]
  simp only [decide_eq_true_eq]
  split_ifs at cnt ⊢ <;> omega

/-- The tree that `Bvh::build` makes of no triangle at all: a root with the count `0` and
nothing else. -/
theorem build_empty {verts : List float3} {indices : List Nat} {bvh : Bvh}
    (h : Bvh.build verts indices 0 = .ok bvh) : bvh.nodes.length = 1 ∧ bvh.inner_count = 1 := by
  have e : (Bvh.build verts indices 0).toOption.map
      (fun b => (b.nodes.length, b.inner_count)) = some (1, 1) := by rfl
  rw [h] at e
  simp only [Except.toOption, Option.map_some', Option.some.injEq, Prod.mk.injEq] at e
  exact e

/-- C30. For every BVH produced by `Bvh::build` whose root is an inner node (its count
field is not positive) and every ray, the loop of `Bvh::traverse` stops after at most
as many iterations as the tree has inner nodes: with that much fuel, or more, the
traversal does not run out of fuel, and more fuel does not change its outcome.  A tree
over at least one triangle has one inner node for every two nodes below the root, so
the `num_nodes` iterations that `Scene::intersect` allows are enough. -/
theorem traverse_iterations_le_inner_count (verts : List float3) (indices : List Nat) (n : Nat)
    (bvh : Bvh) (ray : Ray) (any : Bool) (fuel : Nat)
    (h : Bvh.build verts indices n = .ok bvh)
    (hroot : ∃ nd, bvh.nodes[0]? = some nd ∧ nd.num_prims ≤ 0)
    (hf : bvh.inner_count ≤ fuel) :
    bvh.traverse fuel ray any ≠ .error .out_of_fuel ∧
    bvh.traverse fuel ray any = bvh.traverse bvh.inner_count ray any ∧
    (0 < n → 2 * bvh.inner_count + 1 = bvh.num_nodes ∧
      Scene.intersect bvh ray ≠ .error .out_of_fuel) := by
  have main : ∀ (a : Bool) f, bvh.inner_count ≤ f →
      NoFuel (traverse_loop bvh ray a f
        ⟨(List.replicate 64 (0 : Int)).set 0 (-1), 1, 0, ⟨-1, ray.tmax, 0, 0⟩⟩) := by
    intro a f hf
    rcases Nat.eq_zero_or_pos n with rfl | hn
    · obtain ⟨e1, e2⟩ := build_empty h
      obtain ⟨f, rfl⟩ : ∃ g, f = g + 1 := ⟨f - 1, by omega⟩
      rw [traverse_loop, if_pos (by show (1 : Int) ≥ 0; decide)]
      refine NoFuel.bind (traverse_step_noFuel _ _ _ _) fun s1 h1 => ?_
      unfold traverse_step at h1
      obtain ⟨left, hleft, _⟩ := bind_ok h1
      have g := (rdi_ok hleft).2
      rw [List.getElem?_eq_none (by show bvh.nodes.length ≤ ((1 : Int) + 0).toNat; rw [e1]; decide)]
        at g
      cases g
    · obtain ⟨bboxes, _, _, hlen, hpos, _, tree, _⟩ := bvh_build_spec h hn
      obtain ⟨nd, hnd, hle⟩ := hroot
      have cnt := build_inner_count h hn
      rcases tree.kind hnd with ⟨k1, _⟩ | ⟨_, _, hE⟩
      · omega
      · refine traverse_loop_noFuel f _ (Or.inr ⟨0, 0, 1, bvh.num_nodes, rfl, rfl,
          Pending.bottom (by show ((List.replicate 64 (0 : Int)).set 0 (-1))[0]? = some (-1); rfl),
          hE, by omega⟩)
  have trav : ∀ (a : Bool) f, bvh.inner_count ≤ f →
      bvh.traverse f ray a ≠ .error .out_of_fuel := by
    intro a f hf
    unfold Bvh.traverse
    refine NoFuel.bind (main a f hf) fun s _ => ?_
    show NoFuel (if s.hit.tri ≥ 0 then _ else _)
    split
    · exact NoFuel.bind (rdi_noFuel _ _) fun _ _ => NoFuel.ok _
    · exact NoFuel.ok _
  refine ⟨trav any fuel hf, ?_, fun hn => ?_⟩
  · obtain ⟨k, rfl⟩ : ∃ k, fuel = bvh.inner_count + k := ⟨fuel - bvh.inner_count, by omega⟩
    unfold Bvh.traverse
    simp only []
    rw [traverse_loop_more_fuel _ k _ (main any _ (Nat.le_refl _))]
  · have cnt := build_inner_count h hn
    exact ⟨cnt, trav false bvh.num_nodes (by omega)⟩

/-- Witness for C30: the two-triangle scene has one inner node, the root. -/
theorem traverse_iterations_le_inner_count_witness :
    two_tri_bvh.traverse 1 ray_from_above false ≠ .error .out_of_fuel ∧
    two_tri_bvh.traverse 1 ray_from_above false =
      two_tri_bvh.traverse two_tri_bvh.inner_count ray_from_above false ∧
    (0 < 2 → 2 * two_tri_bvh.inner_count + 1 = two_tri_bvh.num_nodes ∧
      Scene.intersect two_tri_bvh ray_from_above ≠ .error .out_of_fuel) :=
  traverse_iterations_le_inner_count two_tri_verts two_tri_indices 2 two_tri_bvh ray_from_above
    false 1 (by decide!) ⟨_, rfl, by decide⟩ (by decide)

/-! ## Rounded arithmetic

With `fl = id` the functions of the namespace `Rounded` are the exact ones. -/

theorem rounded_mk3_exact (v0 v1 v2 : float3) :
    Rounded.PrecomputedTri.mk3 id v0 v1 v2 = PrecomputedTri.mk3 v0 v1 v2 := rfl

theorem rounded_intersect_ray_tri_exact (ray : Ray) (tri : PrecomputedTri) (t : ℚ) :
    Rounded.intersect_ray_tri id ray tri t = intersect_ray_tri ray tri t := rfl

theorem rounded_hash_photon_exact (g : HashGrid) (pos : float3) :
    Rounded.HashGrid.hash_photon id g pos = g.hash_photon pos := rfl

theorem rounded_count_loop_exact (g : HashGrid) (positions : Nat → float3) :
    ∀ (n i : Nat) (counts : List Int),
      Rounded.count_loop id g positions n i counts = count_loop g positions n i counts := by
  intro n
  induction n with
  | zero => intro i counts; rfl
  | succ n ih =>
    intro i counts
    simp only [Rounded.count_loop, count_loop, rounded_hash_photon_exact, ih]

theorem rounded_scatter_loop_exact (positions : Nat → float3) :
    ∀ (n i : Nat) (g : HashGrid),
      Rounded.scatter_loop id positions n i g = scatter_loop positions n i g := by
  intro n
  induction n with
  | zero => intro i g; rfl
  | succ n ih =>
    intro i g
    simp only [Rounded.scatter_loop, scatter_loop, rounded_hash_photon_exact, ih]

theorem rounded_build_exact (positions : Nat → float3) (n : Nat) (radius : ℚ) :
    Rounded.HashGrid.build id positions n radius = HashGrid.build positions n radius := by
  unfold Rounded.HashGrid.build HashGrid.build
  simp only [rounded_count_loop_exact, rounded_scatter_loop_exact]
  rfl

theorem rounded_bucket_loop_exact (g : HashGrid) (pos : float3) (positions : Nat → float3) :
    ∀ (n : Nat) (j : Int) (out : List (Nat × ℚ)),
      Rounded.bucket_loop id g pos positions n j out = bucket_loop g pos positions n j out := by
  intro n
  induction n with
  | zero => intro j out; rfl
  | succ n ih =>
    intro j out
    simp only [Rounded.bucket_loop, bucket_loop, ih]
    rfl

theorem rounded_cells_loop_exact (g : HashGrid) (pos : float3) (positions : Nat → float3)
    (px1 py1 pz1 px2 py2 pz2 : Int) :
    ∀ (n i : Nat) (out : List (Nat × ℚ)),
      Rounded.cells_loop id g pos positions px1 py1 pz1 px2 py2 pz2 n i out =
        cells_loop g pos positions px1 py1 pz1 px2 py2 pz2 n i out := by
  intro n
  induction n with
  | zero => intro i out; rfl
  | succ n ih =>
    intro i out
    simp only [Rounded.cells_loop, cells_loop, rounded_bucket_loop_exact, ih]

theorem rounded_query_exact (g : HashGrid) (pos : float3) (positions : Nat → float3) :
    Rounded.HashGrid.query id g pos positions = g.query pos positions := by
  unfold Rounded.HashGrid.query HashGrid.query
  simp only [rounded_cells_loop_exact]
  rfl

theorem rounded_brute_force_exact (positions : Nat → float3) (n : Nat) (radius : ℚ)
    (pos : float3) :
    Rounded.brute_force_query id positions n radius pos =
      brute_force_query positions n radius pos := rfl

/-- C4. Three photons at `(0, 0, 0)`, `(1000, 0, 0)` and `(1 - 2^-24, 0, 0)`, build
radius `1 / 2`, query at `(1 / 2 + 2^-24, 0, 0)`, all of them floats.  In `float`
arithmetic `HashGrid::build` returns the grid `close_grid`, the query position lies
inside its box, and the third photon is within the radius (its squared distance, as
the query computes it, is `2097151 / 8388608 < 1 / 4`): the brute-force search
returns it, but `HashGrid::query` makes no call of the callback.  The photon is stored
in cell `2` (`1 - 2^-24 + 1` rounds to `2`), the query scans the cells `1` and `0`
(`1 / 2 + 2^-24 + 1` rounds to `3 / 2`).  In exact arithmetic the query finds it (and
reports it four times, once for every candidate cell that hashes to its bucket). -/
theorem query_f32_misses_point_in_radius :
    Rounded.HashGrid.build f32 close_points 3 (1 / 2) = .ok close_grid ∧
    is_inside close_grid.bbox close_query = true ∧
    Rounded.HashGrid.query f32 close_grid close_query close_points = .ok [] ∧
    Rounded.brute_force_query f32 close_points 3 (1 / 2) close_query =
      [(2, 2097151 / 8388608)] ∧
    (HashGrid.build close_points 3 (1 / 2) >>= fun g =>
      g.query close_query close_points) =
        .ok (List.replicate 4 (2, 17592177655809 / 70368744177664)) := by
  refine ⟨by decide!, by decide!, by decide!, by decide!, by decide!⟩

/-- C22. Two triangles whose boxes are the cube `[0, 2^64]^3`: the only split of the
range `[0, 2)` costs more than `FLT_MAX`, so `find_split` returns the split `-1`, which
is not inside the range, with the cost `FLT_MAX` and an unset box, and
`BvhBuilder::build` stops at its assertion `min_split > begin && min_split < end`:
`Bvh::build` does not return a tree. -/
theorem find_split_huge_boxes_trips_assertion :
    find_split [0, 1] 0 2 [huge_box, huge_box] = .ok (-1, BBox.uninit, FLT_MAX) ∧
    FLT_MAX < split_cost [0, 1] [huge_box, huge_box] 0 2 1 ∧
    centers_boxes_loop huge_verts huge_indices 2 0 [] [] =
      .ok ([⟨12297829382473034410 + 2 / 3, 6148914691236517205 + 1 / 3,
              6148914691236517205 + 1 / 3⟩,
            ⟨6148914691236517205 + 1 / 3, 12297829382473034410 + 2 / 3,
              6148914691236517205 + 1 / 3⟩], [huge_box, huge_box]) ∧
    Bvh.build huge_verts huge_indices 2 = .error .assertion := by
  refine ⟨by decide!, by decide!, by decide!, by decide!⟩

/-- C29. In `float` arithmetic `intersect_ray_tri` returns `true` with a `t` below
`ray.tmin`: the ray `ray_at_tmin` with the interval `[1, 10]` meets the triangle
`wide_tri` (determinant `-41`) at `t = 1`; the test `t_ >= abs_det * ray.tmin` passes
with `41 >= 41`, and the function returns `t = 41 * (1 / 41)`, which rounds to
`1 - 2^-24`.  It also returns a `t` that is not below the value of `t` on entry: for
`flat_tri` (determinant `-7`) and the entry value `3 + 2^-22` it returns `3 + 2^-22`
again.  The vertices, the ray and the precomputed triangles are floats; in exact
arithmetic the results are `t = 1` and `t = 3`. -/
theorem intersect_ray_tri_f32_returns_t_below_tmin :
    Rounded.PrecomputedTri.mk3 f32 ⟨0, 0, 0⟩ ⟨-41, 0, 0⟩ ⟨0, 1, 0⟩ = wide_tri ∧
    Rounded.intersect_ray_tri f32 ray_at_tmin wide_tri 10 =
      some (16777215 / 16777216, 3273603 / 134217728, 16777215 / 67108864) ∧
    (16777215 / 16777216 : ℚ) < ray_at_tmin.tmin ∧
    intersect_ray_tri ray_at_tmin wide_tri 10 = some (1, 1 / 41, 1 / 4) ∧
    Rounded.PrecomputedTri.mk3 f32 ⟨0, 0, 0⟩ ⟨-7, 0, 0⟩ ⟨0, 1, 0⟩ = flat_tri ∧
    Rounded.intersect_ray_tri f32 ray_at_three flat_tri (12582913 / 4194304) =
      some (12582913 / 4194304, 9586981 / 67108864, 1 / 4) ∧
    intersect_ray_tri ray_at_three flat_tri (12582913 / 4194304) = some (3, 1 / 7, 1 / 4) := by
  refine ⟨by decide!, by decide!, by decide!, by decide!, by decide!, by decide!, by decide!⟩

/-- The rounding `f32` on some numbers whose floats are well known: the literals `0.1f`,
`0.001f` and `1e-9f`, the quotient `1.0f / 3`, `FLT_MAX` (a float, kept), the integer
`2^24 + 1` (not a float, a tie that goes to the even neighbour `2^24`), a float (kept)
and the smallest positive float `2^-149` (kept, while a third of it rounds to `0`). -/
theorem f32_values :
    f32 (1 / 10) = 13421773 / 134217728 ∧
    f32 (1 / 1000) = 8589935 / 8589934592 ∧
    f32 (1 / 1000000000) = 9007199 / 9007199254740992 ∧
    f32 (1 / 3) = 11184811 / 33554432 ∧
    f32 FLT_MAX = FLT_MAX ∧
    f32 16777217 = 16777216 ∧
    f32 (-(5 / 4)) = -(5 / 4) ∧
    f32 (pow2 (-149)) = pow2 (-149) ∧
    f32 (pow2 (-149) / 3) = 0 := by
  refine ⟨by decide!, by decide!, by decide!, by decide!, by decide!, by decide!, by decide!,
    by decide!, by decide!⟩

end Pathtracer
